import Mathlib

/-!
# The critnib map of the unified memory framework

A shallow embedding of `src/critnib/critnib.c` (and of the bit scan of
`src/utils/utils_posix_math.c` and `src/utils/utils_windows_math.c`) together
with theorems about it.

* Words (`word`, `uintptr_t`, `uint64_t`) are natural numbers below `2 ^ 64`;
  every operation that can leave that range is reduced modulo `2 ^ 64`.
* A `struct critnib_node *` is a value of `critnib_node`: the null pointer, a
  tagged leaf pointer together with the leaf it points to, or an inner node
  pointer together with the node.  Every object carries the address of its
  storage, which is what the free lists and the retirement rings hold.
* The byte allocator is outside the map: what it would answer to a request is an
  argument of `critnib_insert` (`base_alloc`).
* A reader's `do … while` retry loop is run with fuel; on one thread both
  samples of `remove_count` are the counter of the state.
* The callback of `critnib_iter` is a function of the private data, the key and
  the value; the sequence of its invocations is read off a log kept by a wrapper
  of the callback.
* Storage is identified by its address; where a statement is about reuse of
  storage, the byte allocator is taken to answer with addresses the map does not
  hold (`Op.fresh`).
* The stores of the split case of `critnib_insert` are a list of `split_store`
  applied one by one to the storage of the new node and to the parent slot.
* A reader beside the writer makes its loads in program order; a schedule gives
  the state of the map at the instant of each load.
* The tree below the root is a finite tree of the model; the loops and
  recursions that go down the tree are also given with a bound on the number of
  inner nodes they may enter (`get_descend_fuel`, `find_le_fuel`, `iter_fuel`, …).
-/

namespace Umf

/-! ## Constants -/

/-- Number of remove cycles a retired object is left untouched. -/
def DELETED_LIFE : Nat := 16

/-- Width in bits of one radix slice. -/
def SLICE : Nat := 4

/-- Mask of one slice, `(1ULL << SLICE) - 1`. -/
def NIB : Nat := (1 <<< SLICE) - 1

/-- Number of child slots of an inner node, `1 << SLICE`. -/
def SLNODES : Nat := 1 <<< SLICE

/-- Number of values of a 64-bit word. -/
def WORD : Nat := 2 ^ 64

/-- The largest word, `UINTPTR_MAX`. -/
def UINTPTR_MAX : Nat := WORD - 1

/-- Bitwise complement of a 64-bit word. -/
def wnot (x : Nat) : Nat := WORD - 1 - x % WORD

/-- Value of `errno.h`'s `ENOMEM`. -/
def ENOMEM : Nat := 12

/-- Value of `errno.h`'s `EEXIST`. -/
def EEXIST : Nat := 17

/-! ## Data model -/

/-- A `struct critnib_node *`: null, a tagged pointer to a `struct critnib_leaf`
at `addr`, or a pointer to a `struct critnib_node` at `addr`. -/
inductive critnib_node where
  | null : critnib_node
  | leaf (addr : Nat) (key : Nat) (value : Nat) : critnib_node
  | inner (addr : Nat) (child : Fin 16 → critnib_node) (path : Nat) (shift : Nat) : critnib_node

/-- The `struct critnib`, without its mutex: the free lists are the address lists
linked through `child[0]` (nodes) and `value` (leaves). -/
structure critnib where
  root : critnib_node
  deleted_node : List Nat
  deleted_leaf : List Nat
  pending_del_nodes : Fin 16 → Option Nat
  pending_del_leaves : Fin 16 → Option Nat
  remove_count : Nat

/-- What the byte allocator answers during one `critnib_insert`: the result of
`umf_ba_global_aligned_alloc` for a leaf and of `umf_ba_global_alloc` for a node
(`none` is a null result), and the uninitialised child slots of the node storage
handed to the caller. -/
structure base_alloc where
  leaf : Option Nat
  node : Option Nat
  junk : Fin 16 → critnib_node

/-- Modelled from the spec: `enum find_dir_t` of `critnib.h`, which is not among
the sources; the spec gives the five directions `<`, `≤`, `=`, `≥`, `>`. -/
inductive find_dir_t where
  | FIND_L : find_dir_t
  | FIND_LE : find_dir_t
  | FIND_EQ : find_dir_t
  | FIND_GE : find_dir_t
  | FIND_G : find_dir_t

/-- Modelled from the spec: the integer value of a direction, `-2 … +2`, as the
comparisons `dir < -1`, `dir < 0`, `dir > 0`, `dir > +1` of `critnib_find` need it. -/
def find_dir_t.toInt : find_dir_t → Int
  | .FIND_L => -2
  | .FIND_LE => -1
  | .FIND_EQ => 0
  | .FIND_GE => 1
  | .FIND_G => 2

/-! ## Pointer helpers -/

/-- Test `!n` of a node pointer. -/
def critnib_node.isNull : critnib_node → Bool
  | .null => true
  | _ => false

/-- Check a tagged pointer for leafness. -/
def is_leaf : critnib_node → Bool
  | .leaf _ _ _ => true
  | _ => false

/-- Bit mask of the path above a subtree `shift` bits tall, `~NIB << shift`. -/
def path_mask (shift : Nat) : Nat := (wnot NIB <<< shift) % WORD

/-- Index of the child at the given nib, `(key >> shift) & NIB`. -/
def slice_index (key shift : Nat) : Fin 16 :=
  ⟨(key >>> shift) &&& NIB, Nat.lt_succ_of_le Nat.and_le_right⟩

/-! ## Bit scan (`utils_posix_math.c`) -/

/-- Number of consecutive zero bits of `num` below bit position `i`, counted
downwards from position `i - 1`. -/
def clz_from (num : Nat) : Nat → Nat
  | 0 => 0
  | i + 1 => if num.testBit i then 0 else 1 + clz_from num i

/-- The compiler's `__builtin_clzll`: number of leading zero bits of a 64-bit word. -/
def builtin_clzll (num : Nat) : Nat := clz_from num 64

/-- Position of the leftmost set bit, `(sizeof(num) * CHAR_BIT - 1) - __builtin_clzll(num)`. -/
def utils_get_leftmost_set_bit_pos (num : Nat) : Nat := (8 * 8 - 1) - builtin_clzll num

/-- Modelled from the spec: `utils_msb64` of `utils_math.h`, which is not among
the sources; the spec's `msb_position`, the index of the highest set bit, which
is what `utils_get_leftmost_set_bit_pos` computes. -/
def utils_msb64 (x : Nat) : Nat := utils_get_leftmost_set_bit_pos x

/-! ## Creation and the node pool -/

/-- A fresh map: `critnib_new` zeroes the whole structure. -/
def critnib_new : critnib :=
  { root := .null, deleted_node := [], deleted_leaf := [],
    pending_del_nodes := fun _ => none, pending_del_leaves := fun _ => none,
    remove_count := 0 }

/-- Free a node to the internal pool; a null pointer is ignored. -/
def free_node (c : critnib) : Option Nat → critnib
  | none => c
  | some n => { c with deleted_node := n :: c.deleted_node }

/-- Allocate a node from the pool, or from the byte allocator (`sys`) when the
pool is empty. -/
def alloc_node (c : critnib) (sys : Option Nat) : Option Nat × critnib :=
  match c.deleted_node with
  | [] => (sys, c)
  | n :: rest => (some n, { c with deleted_node := rest })

/-- Free a leaf to the internal pool; a null pointer is ignored. -/
def free_leaf (c : critnib) : Option Nat → critnib
  | none => c
  | some k => { c with deleted_leaf := k :: c.deleted_leaf }

/-- Allocate a leaf from the pool, or from the byte allocator (`sys`) when the
pool is empty. -/
def alloc_leaf (c : critnib) (sys : Option Nat) : Option Nat × critnib :=
  match c.deleted_leaf with
  | [] => (sys, c)
  | k :: rest => (some k, { c with deleted_leaf := rest })

/-! ## Insert -/

/-- The descent loop of `critnib_insert`,
`while (n && !is_leaf(n) && (key & path_mask(n->shift)) == n->path)`: the slots
followed from the starting pointer (this is `parent`) and the node `n` at which
the loop stops. -/
def insert_descend (key : Nat) : critnib_node → List (Fin 16) × critnib_node
  | .inner a ch p s =>
    if key &&& path_mask s = p then
      (slice_index key s :: (insert_descend key (ch (slice_index key s))).1,
        (insert_descend key (ch (slice_index key s))).2)
    else ([], .inner a ch p s)
  | n => ([], n)

/-- A store through a pointer to a slot: `*parent = x`, where `parent` is the
list of child slots leading from `t` to the slot. -/
def store : critnib_node → List (Fin 16) → critnib_node → critnib_node
  | _, [], x => x
  | .inner a ch p s, i :: rest, x =>
    .inner a (Function.update ch i (store (ch i) rest x)) p s
  | n, _ :: _, _ => n

/-- The loop `for (i = 0; i < SLNODES; i++) m->child[i] = NULL` run on the slots
in `is`. -/
def clear_children (ch : Fin 16 → critnib_node) (is : List (Fin 16)) : Fin 16 → critnib_node :=
  is.foldl (fun f i => Function.update f i .null) ch

/-- The path compared with the key where the descent stops,
`is_leaf(n) ? to_leaf(n)->key : n->path`. -/
def node_path : critnib_node → Nat
  | .leaf _ k _ => k
  | .inner _ _ p _ => p
  | .null => 0

/-- The new inner node of a split, at address `m` over storage whose child slots
hold `junk`: the shift from the highest bit in which `n`'s path differs from
`key`, the sixteen slots cleared, then the new leaf `kn` and the old pointer `n`
stored under their nibs, then the path. -/
def split_node (m : Nat) (junk : Fin 16 → critnib_node) (key : Nat) (kn n : critnib_node) :
    critnib_node :=
  let path := node_path n
  let sh := utils_msb64 (path ^^^ key) &&& 0xFC
  let child0 := clear_children junk (List.finRange 16)
  let child1 := Function.update child0 (slice_index key sh) kn
  let child2 := Function.update child1 (slice_index path sh) n
  .inner m child2 (key &&& path_mask sh) sh

/-- Write a key:value pair to the structure.  `update` is the C `int` flag, `ba`
what the byte allocator answers.  The result is the return value and the new
state, or `none` when `ASSERT(is_leaf(n))` fails and the program aborts. -/
def critnib_insert (c : critnib) (key value update : Nat) (ba : base_alloc) :
    Option (Nat × critnib) :=
  match alloc_leaf c ba.leaf with
  | (none, _) => some (ENOMEM, c)
  | (some k, c1) =>
    let kn := critnib_node.leaf k key value
    match c1.root with
    | .null => some (0, { c1 with root := kn })
    | root =>
      let parent := (insert_descend key root).1
      match (insert_descend key root).2 with
      | .null => some (0, { c1 with root := store root parent kn })
      | n =>
        if node_path n ^^^ key = 0 then
          match n with
          | .leaf a k' _ =>
            let c2 := free_leaf c1 (some k)
            if update ≠ 0 then
              some (0, { c2 with root := store root parent (.leaf a k' value) })
            else some (EEXIST, c2)
          | _ => none
        else
          match alloc_node c1 ba.node with
          | (none, _) => some (ENOMEM, free_leaf c1 (some k))
          | (some m, c2) =>
            some (0, { c2 with root := store root parent (split_node m ba.junk key kn n) })

/-! ## Remove -/

/-- The descent loop of `critnib_remove`, `while (!is_leaf(kn))`, started on an
inner node: the slots leading to `n` (this is `n_parent`), the last inner node
`n`, and its child `kn` on the key's slice, a leaf or null. -/
def remove_descend (key : Nat) : critnib_node → List (Fin 16) × critnib_node × critnib_node
  | .inner a ch p s =>
    match ch (slice_index key s) with
    | .inner _ _ _ _ =>
      (slice_index key s :: (remove_descend key (ch (slice_index key s))).1,
        (remove_descend key (ch (slice_index key s))).2)
    | kn => ([], .inner a ch p s, kn)
  | n => ([], n, n)

/-- The scan of `critnib_remove` for the remaining children, on the slots `is`
with the current `ochild` (`none` is `-1`): `none` when a second non-null child
is met (`goto del_leaf`), otherwise the final `ochild`. -/
def remove_scan (ch : Fin 16 → critnib_node) : List (Fin 16) → Option (Fin 16) →
    Option (Option (Fin 16))
  | [], ochild => some ochild
  | i :: is, ochild =>
    if (ch i).isNull then remove_scan ch is ochild
    else match ochild with
      | some _ => none
      | none => remove_scan ch is (some i)

/-- Modelled from the spec: `utils_atomic_increment_u64` of `utils_concurrency.h`,
which is not among the sources; it increments the 64-bit counter and yields the
new value (the spec: increment `remove_count`, slot `(remove_count - 1) mod
DELETED_LIFE`). -/
def utils_atomic_increment_u64 (x : Nat) : Nat := (x + 1) % WORD

/-- Address of the storage behind a pointer (`none` for null). -/
def critnib_node.addr? : critnib_node → Option Nat
  | .null => none
  | .leaf a _ _ => some a
  | .inner a _ _ _ => some a

/-- Delete a key from the structure and return its value (0 is the null
pointer) with the new state; `none` when `ASSERTne(ochild, -1)` fails and the
program aborts. -/
def critnib_remove (c : critnib) (key : Nat) : Option (Nat × critnib) :=
  match c.root with
  | .null => some (0, c)
  | root =>
    let rc := utils_atomic_increment_u64 c.remove_count
    let del : Fin 16 := ⟨((rc + WORD - 1) % WORD) % 16, Nat.mod_lt _ (by decide)⟩
    let c1 := free_node { c with remove_count := rc } (c.pending_del_nodes del)
    let c2 := free_leaf c1 (c1.pending_del_leaves del)
    let c3 := { c2 with
      pending_del_nodes := Function.update c2.pending_del_nodes del none,
      pending_del_leaves := Function.update c2.pending_del_leaves del none }
    match root with
    | .leaf a k v =>
      if k = key then
        some (v, { c3 with
          root := .null,
          pending_del_leaves := Function.update c3.pending_del_leaves del (some a) })
      else some (0, c3)
    | _ =>
      let n_parent := (remove_descend key root).1
      match (remove_descend key root).2 with
      | (.inner na ch p s, .leaf a k v) =>
        if k ≠ key then some (0, c3)
        else
          let ch1 := Function.update ch (slice_index key s) .null
          match remove_scan ch1 (List.finRange 16) none with
          | none =>
            some (v, { c3 with
              root := store root n_parent (.inner na ch1 p s),
              pending_del_leaves := Function.update c3.pending_del_leaves del (some a) })
          | some none => none
          | some (some ochild) =>
            some (v, { c3 with
              root := store root n_parent (ch1 ochild),
              pending_del_nodes := Function.update c3.pending_del_nodes del (some na),
              pending_del_leaves := Function.update c3.pending_del_leaves del (some a) })
      | _ => some (0, c3)

/-! ## Exact lookup -/

/-- The dive of `critnib_get`, `while (n && !is_leaf(n)) n = n->child[...]`. -/
def get_descend (key : Nat) : critnib_node → critnib_node
  | .inner _ ch _ s => get_descend key (ch (slice_index key s))
  | n => n

/-- The retry test `wrs1 + DELETED_LIFE <= wrs2` in `uint64_t` arithmetic. -/
def retry (wrs1 wrs2 : Nat) : Bool := decide ((wrs1 + DELETED_LIFE) % WORD ≤ wrs2)

/-- Query for a key (`==` match): the value or 0 (null).  The `do … while` loop is
run with `fuel` rounds; `none` means the loop has not ended within them. -/
def critnib_get (c : critnib) (key : Nat) : Nat → Option Nat
  | 0 => none
  | fuel + 1 =>
    let wrs1 := c.remove_count
    let res := match get_descend key c.root with
      | .leaf _ k v => if k = key then v else 0
      | _ => 0
    let wrs2 := c.remove_count
    if retry wrs1 wrs2 then critnib_get c key fuel else some res

/-! ## Ordered lookup -/

/-- Highest slot below `n` holding a non-null child: the downward scans of
`find_predecessor` and `find_le`. -/
def scan_down (ch : Fin 16 → critnib_node) : Nat → Option (Fin 16)
  | 0 => none
  | n + 1 =>
    if h : n < 16 then
      if (ch ⟨n, h⟩).isNull then scan_down ch n else some ⟨n, h⟩
    else scan_down ch n

/-- Lowest slot from `16 - n` upwards holding a non-null child: the upward scans
of `find_successor` and `find_ge`. -/
def scan_up (ch : Fin 16 → critnib_node) : Nat → Option (Fin 16)
  | 0 => none
  | n + 1 =>
    if h : 16 - (n + 1) < 16 then
      if (ch ⟨16 - (n + 1), h⟩).isNull then scan_up ch n else some ⟨16 - (n + 1), h⟩
    else scan_up ch n

/-- The rightmost leaf in a subtree (null when a node without children is met). -/
def find_predecessor : critnib_node → critnib_node
  | .inner _ ch _ _ =>
    match scan_down ch 16 with
    | none => .null
    | some nib =>
      match ch nib with
      | .inner _ _ _ _ => find_predecessor (ch nib)
      | m => m
  | n => n

/-- The leftmost leaf in a subtree (null when a node without children is met). -/
def find_successor : critnib_node → critnib_node
  | .inner _ ch _ _ =>
    match scan_up ch 16 with
    | none => .null
    | some nib =>
      match ch nib with
      | .inner _ _ _ _ => find_successor (ch nib)
      | m => m
  | n => n

/-- Recursive search for `<=` in a subtree: the leaf found, or null. -/
def find_le (key : Nat) : critnib_node → critnib_node
  | .null => .null
  | .leaf a k v => if k ≤ key then .leaf a k v else .null
  | .inner a ch path shift =>
    if ((key ^^^ path) >>> shift) &&& wnot NIB ≠ 0 then
      if path < key then find_predecessor (.inner a ch path shift) else .null
    else
      match find_le key (ch (slice_index key shift)) with
      | .null =>
        match scan_down ch (slice_index key shift).val with
        | none => .null
        | some i =>
          match ch i with
          | .inner a' ch' p' s' => find_predecessor (.inner a' ch' p' s')
          | m => m
      | k => k

/-- Recursive search for `>=` in a subtree: the leaf found, or null. -/
def find_ge (key : Nat) : critnib_node → critnib_node
  | .null => .null
  | .leaf a k v => if k ≥ key then .leaf a k v else .null
  | .inner a ch path shift =>
    if ((key ^^^ path) >>> shift) &&& wnot NIB ≠ 0 then
      if path > key then find_successor (.inner a ch path shift) else .null
    else
      match find_ge key (ch (slice_index key shift)) with
      | .null =>
        match scan_up ch (15 - (slice_index key shift).val) with
        | none => .null
        | some i =>
          match ch i with
          | .inner a' ch' p' s' => find_successor (.inner a' ch' p' s')
          | m => m
      | k => k

/-- Query for a key (`<=` match): the value or 0 (null), with the retry loop run
on `fuel` rounds. -/
def critnib_find_le (c : critnib) (key : Nat) : Nat → Option Nat
  | 0 => none
  | fuel + 1 =>
    let wrs1 := c.remove_count
    let k := match c.root with
      | .null => critnib_node.null
      | n => find_le key n
    let res := match k with
      | .leaf _ _ v => v
      | _ => 0
    let wrs2 := c.remove_count
    if retry wrs1 wrs2 then critnib_find_le c key fuel else some res

/-- The retry loop of `critnib_find` on the (already adjusted) key: the leaf `k`
found by the last round, or `none` when the loop has not ended within `fuel`
rounds. -/
def critnib_find_loop (c : critnib) (key : Nat) (dir : Int) : Nat → Option critnib_node
  | 0 => none
  | fuel + 1 =>
    let wrs1 := c.remove_count
    let n := c.root
    let k :=
      if dir < 0 then find_le key n
      else if dir > 0 then find_ge key n
      else
        match get_descend key n with
        | .leaf a kk v => if kk = key then .leaf a kk v else .null
        | _ => .null
    let wrs2 := c.remove_count
    if retry wrs1 wrs2 then critnib_find_loop c key dir fuel else some k

/-- What `critnib_find` returns after its retry loop: 1 with the key and value
written to `*rkey` and `*rvalue` when a leaf was found, else 0; `none` when the
loop has not ended. -/
def critnib_find_ret : Option critnib_node → Option (Nat × Option (Nat × Nat))
  | none => none
  | some (.leaf _ k v) => some (1, some (k, v))
  | some _ => some (0, none)

/-- Parametrized query: the return value (1 if found) and, when found, the key
and value written to `*rkey` and `*rvalue`; `none` when the retry loop has not
ended within `fuel` rounds. -/
def critnib_find (c : critnib) (key : Nat) (dir : find_dir_t) (fuel : Nat) :
    Option (Nat × Option (Nat × Nat)) :=
  if dir.toInt < -1 then
    if key = 0 then some (0, none)
    else critnib_find_ret (critnib_find_loop c (key - 1) dir.toInt fuel)
  else if dir.toInt > 1 then
    if key = UINTPTR_MAX then some (0, none)
    else critnib_find_ret (critnib_find_loop c (key + 1) dir.toInt fuel)
  else critnib_find_ret (critnib_find_loop c key dir.toInt fuel)


/-! ## Contents and shape of a tree -/

/-- The (key, value) pairs of the leaves below a pointer, in slot order. -/
def leaves : critnib_node → List (Nat × Nat)
  | .null => []
  | .leaf _ k v => [(k, v)]
  | .inner _ ch _ _ => (List.finRange 16).flatMap (fun i => leaves (ch i))

/-- The keys stored below a pointer, in slot order. -/
def keys (t : critnib_node) : List Nat := (leaves t).map Prod.fst

/-- The pointer `t` may stand in a slot whose keys are the `k` with
`k / 2 ^ b = hi`: a leaf has such a key, an inner node has its nib below bit `b`
and its path in the slot. -/
def fits : critnib_node → Nat → Nat → Prop
  | .null, _, _ => True
  | .leaf _ k _, b, hi => k / 2 ^ b = hi
  | .inner _ _ p s, b, hi => s + 4 ≤ b ∧ p / 2 ^ b = hi

/-- The shape invariant of a tree: keys and paths are words, every inner node
has a shift that is a multiple of 4 and at most 60, a path with no bit below
`shift + 4`, at least two non-null children, and in slot `i` a subtree whose
keys continue the path with nib `i`. -/
def WF : critnib_node → Prop
  | .null => True
  | .leaf _ k _ => k < 2 ^ 64
  | .inner _ ch p s =>
    s % 4 = 0 ∧ s + 4 ≤ 64 ∧ p < 2 ^ 64 ∧ p % 2 ^ (s + 4) = 0 ∧
    (∃ i j, i ≠ j ∧ ch i ≠ .null ∧ ch j ≠ .null) ∧
    ∀ i : Fin 16, WF (ch i) ∧ fits (ch i) s (p / 2 ^ s + i.val)

/-- Result of `critnib_insert`'s descent and final store with the stored
pointer computed by `F` from the node at which the descent stops. -/
def rebuild (F : critnib_node → critnib_node) (key : Nat) (t : critnib_node) : critnib_node :=
  store t (insert_descend key t).1 (F (insert_descend key t).2)

/-- What `critnib_insert` stores, on success, in the slot at which its descent
stopped on `n`: the new leaf `kn` for a null slot, the old leaf with the new
value for a leaf with the key, and a split node otherwise. -/
def insert_at (kn : critnib_node) (m : Nat) (junk : Fin 16 → critnib_node) (key value : Nat) :
    critnib_node → critnib_node
  | .null => kn
  | .leaf a k v =>
    if k ^^^ key = 0 then .leaf a k value else split_node m junk key kn (.leaf a k v)
  | .inner a ch p s => split_node m junk key kn (.inner a ch p s)

/-- The insert descent stops at `n`: `n` is not an inner node holding the key's path. -/
def Stops (key : Nat) : critnib_node → Prop
  | .inner _ _ p s => key &&& path_mask s ≠ p
  | _ => True

/-- Result of `critnib_remove`'s descent and final store with the stored pointer
computed by `G` from the last inner node `n` of the descent. -/
def remove_rebuild (G : critnib_node → critnib_node) (key : Nat) (t : critnib_node) :
    critnib_node :=
  store t (remove_descend key t).1 (G (remove_descend key t).2.1)

/-- What `critnib_remove` leaves in the place of the inner node `n` above the
key's leaf: `n` with the leaf's slot nulled when two children or more remain,
the one remaining child otherwise. -/
def remove_at (key : Nat) : critnib_node → critnib_node
  | .inner na ch p s =>
    match remove_scan (Function.update ch (slice_index key s) .null) (List.finRange 16) none with
    | some (some ochild) => Function.update ch (slice_index key s) .null ochild
    | _ => .inner na (Function.update ch (slice_index key s) .null) p s
  | n => n

/-- The tree `critnib_remove` leaves when it finds the key below `t`. -/
def remove_tree (key : Nat) : critnib_node → critnib_node
  | .inner a ch p s => remove_rebuild (remove_at key) key (.inner a ch p s)
  | _ => .null

/-- The pointer `r` is the answer to a `<=` query for `q` on the pairs below `t`:
null when every key is above `q`, else the leaf of the largest key at most `q`. -/
def IsMaxLE (t : critnib_node) (q : Nat) (r : critnib_node) : Prop :=
  (r = .null ∧ ∀ k v, (k, v) ∈ leaves t → q < k) ∨
  ∃ a k v, r = .leaf a k v ∧ (k, v) ∈ leaves t ∧ k ≤ q ∧
    ∀ k' v', (k', v') ∈ leaves t → k' ≤ q → k' ≤ k

/-- The pointer `r` is the answer to a `>=` query for `q` on the pairs below `t`:
null when every key is below `q`, else the leaf of the smallest key at least `q`. -/
def IsMinGE (t : critnib_node) (q : Nat) (r : critnib_node) : Prop :=
  (r = .null ∧ ∀ k v, (k, v) ∈ leaves t → k < q) ∨
  ∃ a k v, r = .leaf a k v ∧ (k, v) ∈ leaves t ∧ q ≤ k ∧
    ∀ k' v', (k', v') ∈ leaves t → q ≤ k' → k ≤ k'

/-! ## Runs of writer calls, reachable states, the reference map -/

/-- One call of a writer: `critnib_insert` with its arguments and the answers of
the byte allocator, or `critnib_remove`. -/
inductive Op where
  | insert (key value update : Nat) (ba : base_alloc) : Op
  | remove (key : Nat) : Op

/-- The key of a call is a word. -/
def Op.ok : Op → Prop
  | .insert key _ _ _ => key < 2 ^ 64
  | .remove key => key < 2 ^ 64

/-- The byte allocator does not fail during the call. -/
def Op.alloc_ok : Op → Prop
  | .insert _ _ _ ba => ba.leaf ≠ none ∧ ba.node ≠ none
  | .remove _ => True

/-- The state after one writer call; `none` when the call aborts. -/
def step (c : critnib) : Op → Option critnib
  | .insert key value update ba => (critnib_insert c key value update ba).map Prod.snd
  | .remove key => (critnib_remove c key).map Prod.snd

/-- The state after a sequence of writer calls on one thread. -/
def run : critnib → List Op → Option critnib
  | c, [] => some c
  | c, op :: ops => (step c op).bind (fun c' => run c' ops)

/-- A state reached from a fresh map by writer calls with word keys. -/
def Reachable (c : critnib) : Prop :=
  ∃ ops : List Op, (∀ op ∈ ops, op.ok) ∧ run critnib_new ops = some c

/-- The reference map after one call: insert adds the pair, or replaces the
value when the update flag is set, and leaves a present key alone otherwise;
remove erases the key. -/
def ref_step (m : Nat → Option Nat) : Op → Nat → Option Nat
  | .insert key value update _ =>
    if m key ≠ none ∧ update = 0 then m else Function.update m key (some value)
  | .remove key => Function.update m key none

/-- The reference map after a sequence of calls. -/
def ref_run (m : Nat → Option Nat) (ops : List Op) : Nat → Option Nat :=
  ops.foldl ref_step m

/-- The reference map of a fresh map. -/
def ref_new : Nat → Option Nat := fun _ => none

/-- The result of one round of `critnib_get`'s loop on the tree `t`. -/
def get_res (t : critnib_node) (key : Nat) : Nat :=
  match get_descend key t with
  | .leaf _ k v => if k = key then v else 0
  | _ => 0

/-- The counter is below the last `DELETED_LIFE` values of a 64-bit word, so
that `wrs1 + DELETED_LIFE` does not wrap around. -/
def NoWrap (c : critnib) : Prop := c.remove_count + DELETED_LIFE < WORD

/-- A tree with the values of its leaves erased: the nodes, their addresses,
paths and shifts, and the keys in their slots. -/
def skeleton : critnib_node → critnib_node
  | .null => .null
  | .leaf a k _ => .leaf a k 0
  | .inner a ch p s => .inner a (fun i => skeleton (ch i)) p s

/-- An allocator answer used in the examples: leaf storage at 100, node storage
at 200, cleared junk. -/
def ba0 : base_alloc := { leaf := some 100, node := some 200, junk := fun _ => .null }

/-- A map holding the single pair (0, 1) in the leaf at 100, with empty pools and
the counter at `n`. -/
def wrap_state (n : Nat) : critnib :=
  { root := .leaf 100 0 1, deleted_node := [], deleted_leaf := [],
    pending_del_nodes := fun _ => none, pending_del_leaves := fun _ => none,
    remove_count := n }

/-- The calls that lead to `wrap_state`: one insert of (0, 1), then `n` removes
of the absent key 1. -/
def wrap_ops (n : Nat) : List Op :=
  Op.insert 0 1 0 ba0 :: List.replicate n (Op.remove 1)

/-- A second allocator answer used in the examples: leaf storage at 300, node
storage at 400, cleared junk. -/
def ba1 : base_alloc := { leaf := some 300, node := some 400, junk := fun _ => .null }

/-- The leaf found by one round of `critnib_find`'s loop on the tree `t`. -/
def find_res (t : critnib_node) (key : Nat) (dir : Int) : critnib_node :=
  if dir < 0 then find_le key t
  else if dir > 0 then find_ge key t
  else
    match get_descend key t with
    | .leaf a kk v => if kk = key then .leaf a kk v else .null
    | _ => .null

/-- The calls of the spec's first scenario: insert (10, 65) and (20, 66). -/
def demo_ops : List Op := [Op.insert 10 65 0 ba0, Op.insert 20 66 0 ba1]

/-- The state after `demo_ops` on a fresh map: an inner node at 400 with shift 4
over the leaves of 10 and 20. -/
def demo_state : critnib := (run critnib_new demo_ops).getD critnib_new

/-! ## Iteration -/

/-- The recursive walk of `critnib_iter` below the pointer `n`.  The callback
`func` gets the private data, the key and the value and yields its `int` result
and the private data it leaves; the walk yields its own `int` result and the
private data after it.  The `for` loop over the sixteen slots carries the result
so far: once it is non-zero the function has returned 1.  The walk is never
started on a null pointer: `critnib_iter` and the loop test the pointer first. -/
def iter {σ : Type} (min max : Nat) (func : σ → Nat → Nat → Int × σ) :
    critnib_node → σ → Int × σ
  | .null, privdata => (0, privdata)
  | .leaf _ k v, privdata =>
    if k ≥ min ∧ k ≤ max then func privdata k v else (0, privdata)
  | .inner _ ch path shift, privdata =>
    if path > max then (1, privdata)
    else if (path ||| path_mask shift) < min then (0, privdata)
    else
      (List.finRange 16).foldl
        (fun (acc : Int × σ) i =>
          if acc.1 ≠ 0 then acc
          else if (ch i).isNull then acc
          else if (iter min max func (ch i) acc.2).1 ≠ 0 then
            (1, (iter min max func (ch i) acc.2).2)
          else (0, (iter min max func (ch i) acc.2).2))
        (0, privdata)

/-- Iterator over `[min..max]`, calling `func(key, value, privdata)`: the private
data after the call. -/
def critnib_iter {σ : Type} (c : critnib) (min max : Nat) (func : σ → Nat → Nat → Int × σ)
    (privdata : σ) : σ :=
  if c.root.isNull then privdata else (iter min max func c.root privdata).2

/-- A callback with a log of its invocations: it calls `func` and appends the
key and value it was called with. -/
def logged {σ : Type} (func : σ → Nat → Nat → Int × σ) :
    σ × List (Nat × Nat) → Nat → Nat → Int × (σ × List (Nat × Nat)) :=
  fun pd k v => ((func pd.1 k v).1, ((func pd.1 k v).2, pd.2 ++ [(k, v)]))

/-- The sequence of callback invocations of `critnib_iter(c, min, max, func,
privdata)`: the (key, value) pairs `func` is called with, in call order. -/
def calls {σ : Type} (c : critnib) (min max : Nat) (func : σ → Nat → Nat → Int × σ)
    (privdata : σ) : List (Nat × Nat) :=
  (critnib_iter c min max (logged func) (privdata, [])).2

/-- A callback that always returns 0 and keeps no private data. -/
def func_zero : Unit → Nat → Nat → Int × Unit := fun _ _ _ => (0, ())

/-- The calls made when the pairs of `l` are offered to `func` in turn until it
returns non-zero: the pairs up to and including the first one on which `func`
returns non-zero, the private data being passed from call to call. -/
def calls_until {σ : Type} (func : σ → Nat → Nat → Int × σ) :
    List (Nat × Nat) → σ → List (Nat × Nat)
  | [], _ => []
  | (k, v) :: l, pd =>
    (k, v) :: (if (func pd k v).1 ≠ 0 then [] else calls_until func l (func pd k v).2)

/-- The result of offering the pairs of `l` to `func` in turn until it returns
non-zero: whether it did, and the private data after the last call. -/
def feed {σ : Type} (func : σ → Nat → Nat → Int × σ) : List (Nat × Nat) → σ → Bool × σ
  | [], pd => (false, pd)
  | (k, v) :: l, pd =>
    if (func pd k v).1 ≠ 0 then (true, (func pd k v).2) else feed func l (func pd k v).2

/-- The walk of `iter` with a callback that never aborts: whether the walk was
cut at an inner node with `path > max`, and the pairs handed to the callback. -/
def walk (min max : Nat) : critnib_node → Bool × List (Nat × Nat)
  | .null => (false, [])
  | .leaf _ k v => (false, if k ≥ min ∧ k ≤ max then [(k, v)] else [])
  | .inner _ ch path shift =>
    if path > max then (true, [])
    else if (path ||| path_mask shift) < min then (false, [])
    else
      (List.finRange 16).foldl
        (fun (acc : Bool × List (Nat × Nat)) i =>
          if acc.1 then acc
          else ((walk min max (ch i)).1, acc.2 ++ (walk min max (ch i)).2))
        (false, [])

/-- The key of the pair lies in `[min, max]`. -/
def in_range (min max : Nat) (kv : Nat × Nat) : Bool := decide (min ≤ kv.1 ∧ kv.1 ≤ max)

/-- No inner node below `t` passes the skip test
`(n->path | path_mask(n->shift)) < min` of `iter`. -/
def NoSkip (min : Nat) : critnib_node → Prop
  | .inner _ ch p s => ¬ (p ||| path_mask s) < min ∧ ∀ i, NoSkip min (ch i)
  | _ => True

/-- The calls that lead to `skip_state`: insert (2^60, 1) and (2^61, 2). -/
def skip_ops : List Op := [Op.insert (2 ^ 60) 1 0 ba0, Op.insert (2 ^ 61) 2 0 ba1]

/-- The state after `skip_ops` on a fresh map: an inner node at 400 with shift 60
and path 0 over the leaves of 2^60 and 2^61. -/
def skip_state : critnib := (run critnib_new skip_ops).getD critnib_new

/-- The calls of the spec's iteration scenario: inserts of the keys 3, 1, 4, 1
(which exists by then), 5, 9, 2, 6, each with ten times the key as value. -/
def walk_ops : List Op :=
  [Op.insert 3 30 0 ⟨some 1, some 101, fun _ => .null⟩,
   Op.insert 1 10 0 ⟨some 2, some 102, fun _ => .null⟩,
   Op.insert 4 40 0 ⟨some 3, some 103, fun _ => .null⟩,
   Op.insert 1 10 0 ⟨some 4, some 104, fun _ => .null⟩,
   Op.insert 5 50 0 ⟨some 5, some 105, fun _ => .null⟩,
   Op.insert 9 90 0 ⟨some 6, some 106, fun _ => .null⟩,
   Op.insert 2 20 0 ⟨some 7, some 107, fun _ => .null⟩,
   Op.insert 6 60 0 ⟨some 8, some 108, fun _ => .null⟩]

/-- The state after `walk_ops` on a fresh map. -/
def walk_state : critnib := (run critnib_new walk_ops).getD critnib_new

/-- A callback that counts its calls in the private data and returns non-zero
from its second call on. -/
def func_second : Nat → Nat → Nat → Int × Nat := fun n _ _ => (if n ≥ 1 then 1 else 0, n + 1)

/-- The pointer `n` is reachable from the pointer `t`: it is `t` itself or is
reachable from a child slot of the inner node `t`. -/
def InTree (n : critnib_node) : critnib_node → Prop
  | .inner a ch p s => n = .inner a ch p s ∨ ∃ i, InTree n (ch i)
  | t => n = t

/-- An allocator answer of a byte allocator that is out of memory. -/
def ba_none : base_alloc := { leaf := none, node := none, junk := fun _ => .null }

/-- An allocator answer with leaf storage at 300 and no node storage. -/
def ba_leaf_only : base_alloc := { leaf := some 300, node := none, junk := fun _ => .null }

/-- The child slots `n->child` of an inner node (all null for another pointer). -/
def critnib_node.children : critnib_node → Fin 16 → critnib_node
  | .inner _ ch _ _ => ch
  | _ => fun _ => .null

/-! ## Storage: who holds an address -/

/-- Number of objects below the pointer `t` stored at address `x`: leaves when
`lf` is true, inner nodes otherwise. -/
def addr_count (lf : Bool) (x : Nat) : critnib_node → Nat
  | .null => 0
  | .leaf a _ _ => if lf = true ∧ a = x then 1 else 0
  | .inner a ch _ _ =>
    (if lf = false ∧ a = x then 1 else 0) + ∑ i : Fin 16, addr_count lf x (ch i)

/-- Number of slots of a retirement ring that hold the address `x`. -/
def ring_count (x : Nat) (ring : Fin 16 → Option Nat) : Nat :=
  ∑ i : Fin 16, if ring i = some x then 1 else 0

/-- Number of places in which the map holds the leaf storage at `x`: leaves of
the tree, slots of the leaf ring, entries of the leaf free list. -/
def leaf_owned (x : Nat) (c : critnib) : Nat :=
  addr_count true x c.root + ring_count x c.pending_del_leaves + c.deleted_leaf.count x

/-- Number of places in which the map holds the node storage at `x`: inner nodes
of the tree, slots of the node ring, entries of the node free list. -/
def node_owned (x : Nat) (c : critnib) : Nat :=
  addr_count false x c.root + ring_count x c.pending_del_nodes + c.deleted_node.count x

/-- The byte allocator answers a call with storage the map does not hold. -/
def Op.fresh (c : critnib) : Op → Prop
  | .insert _ _ _ ba =>
    (∀ x, ba.leaf = some x → leaf_owned x c = 0) ∧ (∀ x, ba.node = some x → node_owned x c = 0)
  | .remove _ => True

/-- The calls `ops`, made in turn from the state `c`, have word keys and fresh
allocator answers, none aborts, and they lead to the state `c'`. -/
def FreshRun : critnib → List Op → critnib → Prop
  | c, [], c' => c' = c
  | c, op :: ops, c' => op.ok ∧ op.fresh c ∧ ∃ c1, step c op = some c1 ∧ FreshRun c1 ops c'

/-- A state reached from a fresh map by writer calls with word keys and fresh
allocator answers. -/
def FreshReachable (c : critnib) : Prop := ∃ ops, FreshRun critnib_new ops c

/-- The call raises `remove_count`: it is a `critnib_remove` on a non-empty map. -/
def Op.raises (c : critnib) : Op → Bool
  | .insert _ _ _ _ => false
  | .remove _ => !c.root.isNull

/-- Number of calls among `ops`, made in turn from the state `c`, that raise
`remove_count`. -/
def raise_count : critnib → List Op → Nat
  | _, [] => 0
  | c, op :: ops =>
    match step c op with
    | none => 0
    | some c1 => (if op.raises c then 1 else 0) + raise_count c1 ops

/-- The ring slot used by the `critnib_remove` that raises `remove_count` to `r`,
`(r - 1) % DELETED_LIFE` in 64-bit arithmetic. -/
def ring_slot (r : Nat) : Fin 16 := ⟨((r + WORD - 1) % WORD) % 16, Nat.mod_lt _ (by decide)⟩

/-- The state of `critnib_remove` on a non-empty map before its descent: the
counter raised, the occupants of the call's ring slot pushed onto the free lists,
the slot cleared. -/
def remove_begin (c : critnib) : critnib :=
  let rc := utils_atomic_increment_u64 c.remove_count
  let del := ring_slot rc
  let c1 := free_node { c with remove_count := rc } (c.pending_del_nodes del)
  let c2 := free_leaf c1 (c1.pending_del_leaves del)
  { c2 with
    pending_del_nodes := Function.update c2.pending_del_nodes del none,
    pending_del_leaves := Function.update c2.pending_del_leaves del none }

/-- The state `c'` differs from `c` as after a `critnib_remove` on a non-empty
map: the counter is raised, the occupants of the call's ring slot are pushed onto
the free lists, the slot then holds what the call retired (`rl`, `rn`), and the
tree holds what it held less the retired objects. -/
def remove_effect (c c' : critnib) : Prop :=
  c'.remove_count = utils_atomic_increment_u64 c.remove_count ∧
  c'.deleted_leaf =
    (free_leaf c (c.pending_del_leaves
      (ring_slot (utils_atomic_increment_u64 c.remove_count)))).deleted_leaf ∧
  c'.deleted_node =
    (free_node c (c.pending_del_nodes
      (ring_slot (utils_atomic_increment_u64 c.remove_count)))).deleted_node ∧
  ∃ rl rn,
    c'.pending_del_leaves = Function.update c.pending_del_leaves
      (ring_slot (utils_atomic_increment_u64 c.remove_count)) rl ∧
    c'.pending_del_nodes = Function.update c.pending_del_nodes
      (ring_slot (utils_atomic_increment_u64 c.remove_count)) rn ∧
    ∀ lf x, addr_count lf x c'.root + (if lf = true ∧ rl = some x then 1 else 0) +
      (if lf = false ∧ rn = some x then 1 else 0) = addr_count lf x c.root

/-- No storage is held twice: every address is that of at most one leaf or entry
among the tree, the leaf ring and the leaf free list, and likewise for nodes. -/
def Distinct (c : critnib) : Prop := ∀ x, leaf_owned x c ≤ 1 ∧ node_owned x c ≤ 1

/-- The state after `critnib_remove(10)` on `demo_state`: the leaf of 20 as
root, the leaf at 100 and the node at 400 in ring slot 0, the counter at 1. -/
def demo_removed : critnib := ((critnib_remove demo_state 10).map Prod.snd).getD critnib_new

/-! ## Bit scan (`utils_windows_math.c`) -/

/-- The scan of the compiler intrinsic `_BitScanReverse64` below bit position
`i`: the position of the highest set bit below `i` (0 when there is none). -/
def bsr_from (num : Nat) : Nat → Nat
  | 0 => 0
  | i + 1 => if num.testBit i then i else bsr_from num i

/-- The compiler intrinsic `_BitScanReverse64`: the index it writes for a 64-bit
mask, searched from the most significant bit down. -/
def BitScanReverse64 (num : Nat) : Nat := bsr_from num 64

/-- Position of the leftmost set bit as `utils_windows_math.c` computes it:
`index = 0; _BitScanReverse64(&index, num); return index`. -/
def utils_get_leftmost_set_bit_pos_windows (num : Nat) : Nat := BitScanReverse64 num

/-- The walk of `iter` with a callback that never aborts, as it would be without
the test `n->path > max`: the pairs handed to the callback when every inner node
that is not skipped has all its children walked. -/
def walk_all (min max : Nat) : critnib_node → List (Nat × Nat)
  | .null => []
  | .leaf _ k v => if k ≥ min ∧ k ≤ max then [(k, v)] else []
  | .inner _ ch path shift =>
    if (path ||| path_mask shift) < min then []
    else (List.finRange 16).flatMap (fun i => walk_all min max (ch i))

/-- The calls that lead to `nest_state`: inserts of the keys 1, 16 and 17. -/
def nest_ops : List Op :=
  [Op.insert 1 10 0 ⟨some 1, some 101, fun _ => .null⟩,
   Op.insert 16 160 0 ⟨some 2, some 102, fun _ => .null⟩,
   Op.insert 17 170 0 ⟨some 3, some 103, fun _ => .null⟩]

/-- The state after `nest_ops` on a fresh map: a root node with shift 4 over the
leaf of 1 and an inner node with path 16 and shift 0, which holds the leaves of
16 and 17. -/
def nest_state : critnib := (run critnib_new nest_ops).getD critnib_new

/-! ## Storage obtained from the byte allocator -/

/-- Number of leaves below a pointer. -/
def leaf_num : critnib_node → Nat
  | .null => 0
  | .leaf _ _ _ => 1
  | .inner _ ch _ _ => ∑ i : Fin 16, leaf_num (ch i)

/-- Number of occupied slots of a retirement ring. -/
def ring_occ (ring : Fin 16 → Option Nat) : Nat :=
  ∑ i : Fin 16, if (ring i).isSome then 1 else 0

/-- Number of leaf objects the map holds: the leaves of the tree, the leaves in
the ring, the leaves on the free list. -/
def leaf_held (c : critnib) : Nat :=
  leaf_num c.root + ring_occ c.pending_del_leaves + c.deleted_leaf.length

/-- Number of leaf objects the call obtains from the byte allocator: one for a
`critnib_insert` whose `alloc_leaf` finds the free list empty and gets storage. -/
def sys_leaf (c : critnib) : Op → Nat
  | .insert _ _ _ ba => if c.deleted_leaf.isEmpty ∧ ba.leaf.isSome then 1 else 0
  | .remove _ => 0

/-- Number of leaf objects obtained from the byte allocator by the calls `ops`
made in turn from the state `c`. -/
def sys_leaves : critnib → List Op → Nat
  | _, [] => 0
  | c, op :: ops =>
    match step c op with
    | none => 0
    | some c1 => sys_leaf c op + sys_leaves c1 ops

/-- The states the calls `ops`, made in turn from the state `c`, lead through,
`c` included. -/
def states : critnib → List Op → List critnib
  | c, [] => [c]
  | c, op :: ops =>
    c :: (match step c op with
      | none => []
      | some c1 => states c1 ops)

/-- At most `M` keys are stored in the state `c` and in each state the calls
`ops` lead through. -/
def live_le (M : Nat) (c : critnib) (ops : List Op) : Prop :=
  ∀ s ∈ states c ops, (keys s.root).length ≤ M

/-- The addresses of the leaves below a pointer, in slot order. -/
def leaf_addrs : critnib_node → List Nat
  | .null => []
  | .leaf a _ _ => [a]
  | .inner _ ch _ _ => (List.finRange 16).flatMap (fun i => leaf_addrs (ch i))

/-- The calls of the grace-period example: the remove of key 10, then `n` removes
of the absent key 15. -/
def grace_ops (n : Nat) : List Op := Op.remove 10 :: List.replicate n (Op.remove 15)

/-! ## The stores of a split -/

/-- The memory a split of `critnib_insert` writes: the fields of the node storage
`m`, and whether the slot `*parent` holds `m` (it holds the old pointer `n`
before). -/
structure split_mem where
  child : Fin 16 → critnib_node
  shift : Nat
  path : Nat
  parent : Bool

/-- One store of the split: `m->child[i] = x`, `m->shift = sh`, `m->path = p`,
`*parent = m`. -/
inductive split_store where
  | child (i : Fin 16) (x : critnib_node) : split_store
  | shift (sh : Nat) : split_store
  | path (p : Nat) : split_store
  | parent : split_store

/-- The memory after one store. -/
def split_store.apply (st : split_mem) : split_store → split_mem
  | .child i x => { st with child := Function.update st.child i x }
  | .shift sh => { st with shift := sh }
  | .path p => { st with path := p }
  | .parent => { st with parent := true }

/-- The stores of a split in program order: the sixteen child slots cleared, the
new leaf `kn` and the old pointer `n` under their nibs, the shift, the path, and
last the store of `m` to `*parent`. -/
def split_stores (key : Nat) (kn n : critnib_node) : List split_store :=
  let path := node_path n
  let sh := utils_msb64 (path ^^^ key) &&& 0xFC
  (List.finRange 16).map (fun i => split_store.child i .null) ++
    [.child (slice_index key sh) kn, .child (slice_index path sh) n, .shift sh,
      .path (key &&& path_mask sh), .parent]

/-- The tree reachable from the root `root` during a split, `parent` being the
slots that lead to `*parent`: the slot holds the old pointer `n`, or the node at
`m` with the fields its storage has at that moment. -/
def split_tree (root : critnib_node) (parent : List (Fin 16)) (n : critnib_node) (m : Nat)
    (st : split_mem) : critnib_node :=
  store root parent (if st.parent then .inner m st.child st.path st.shift else n)

/-- Whether the store is the one to `*parent`. -/
def split_store.is_parent : split_store → Bool
  | .parent => true
  | _ => false

/-- An allocator answer used in the split example: leaf storage at 500, node
storage at 600, cleared junk. -/
def ba2 : base_alloc := { leaf := some 500, node := some 600, junk := fun _ => .null }

/-! ## A reader beside the writer

The loads of a reader are numbered in program order.  A schedule gives, for each
load, the state of the map at the instant of that load: the writer, which works
under the mutex, has completed some calls by then.  A load reads the field of
the object that the tree of that state holds at the address; a load of storage
that is not in the tree at that instant (retired storage) is outside this model
and makes the reader's result `none`. -/

/-- A pointer as a reader holds it: null, a tagged pointer to the leaf storage at
an address, or a pointer to the node storage at an address. -/
inductive ptr where
  | null : ptr
  | leaf (a : Nat) : ptr
  | node (a : Nat) : ptr

/-- The pointer value of a pointer of the tree. -/
def critnib_node.toPtr : critnib_node → ptr
  | .null => .null
  | .leaf a _ _ => .leaf a
  | .inner a _ _ _ => .node a

/-- The inner node stored at the address `a` in the tree below a pointer. -/
def node_at (a : Nat) : critnib_node → Option critnib_node
  | .inner a' ch p s =>
    if a' = a then some (.inner a' ch p s)
    else (List.finRange 16).findSome? (fun i => node_at a (ch i))
  | _ => none

/-- The key and value of the leaf stored at the address `a` in the tree below a
pointer. -/
def leaf_at (a : Nat) : critnib_node → Option (Nat × Nat)
  | .null => none
  | .leaf a' k v => if a' = a then some (k, v) else none
  | .inner _ ch _ _ => (List.finRange 16).findSome? (fun i => leaf_at a (ch i))

/-- The load of `n->child[i]` from the node at `a`, at the instant of load `t`. -/
def load_child (sched : Nat → critnib) (t a : Nat) (i : Fin 16) : Option ptr :=
  (node_at a (sched t).root).map (fun n => (n.children i).toPtr)

/-- The read of `n->shift` from the node at `a`, at the instant of load `t`. -/
def load_shift (sched : Nat → critnib) (t a : Nat) : Option Nat :=
  match node_at a (sched t).root with
  | some (.inner _ _ _ s) => some s
  | _ => none

/-- The load of `n->path` from the node at `a`, at the instant of load `t`. -/
def load_path (sched : Nat → critnib) (t a : Nat) : Option Nat :=
  match node_at a (sched t).root with
  | some (.inner _ _ p _) => some p
  | _ => none

/-- The read of `k->key` from the leaf at `a`, at the instant of load `t`. -/
def load_key (sched : Nat → critnib) (t a : Nat) : Option Nat :=
  (leaf_at a (sched t).root).map Prod.fst

/-- The read of `k->value` from the leaf at `a`, at the instant of load `t`. -/
def load_value (sched : Nat → critnib) (t a : Nat) : Option Nat :=
  (leaf_at a (sched t).root).map Prod.snd

/-- The scan `for (nib = NIB; nib >= 0; nib--)` of `find_predecessor` over the
node at `a`, from slot `n - 1` down, the next load being load `t`: the slot at
which a non-null child was loaded (`none` is `nib < 0`) and the number of the
next load. -/
def pred_scan (sched : Nat → critnib) (a : Nat) : Nat → Nat → Option (Option (Fin 16) × Nat)
  | 0, t => some (none, t)
  | n + 1, t =>
    if h : n < 16 then
      match load_child sched t a ⟨n, h⟩ with
      | none => none
      | some .null => pred_scan sched a n (t + 1)
      | some _ => some (some ⟨n, h⟩, t + 1)
    else pred_scan sched a n t

/-- The reader's `find_predecessor` on the node at `a`, the next load being load
`t`: the leaf pointer (or null) returned and the number of the next load.  The
`while (1)` loop is run with fuel. -/
def find_predecessor_conc (sched : Nat → critnib) : Nat → Nat → Nat → Option (ptr × Nat)
  | 0, _, _ => none
  | fuel + 1, a, t =>
    match pred_scan sched a 16 t with
    | none => none
    | some (none, t1) => some (.null, t1)
    | some (some nib, t1) =>
      match load_child sched t1 a nib with
      | none => none
      | some .null => some (.null, t1 + 1)
      | some (.leaf k) => some (.leaf k, t1 + 1)
      | some (.node a') => find_predecessor_conc sched fuel a' (t1 + 1)

/-- The scan `for (; nib > 0; nib--)` of `find_le` over the node at `a`, from
slot `n - 1` down, the next load being load `t`: the first non-null child loaded
(null when there is none) and the number of the next load. -/
def le_scan (sched : Nat → critnib) (a : Nat) : Nat → Nat → Option (ptr × Nat)
  | 0, t => some (.null, t)
  | n + 1, t =>
    if h : n < 16 then
      match load_child sched t a ⟨n, h⟩ with
      | none => none
      | some .null => le_scan sched a n (t + 1)
      | some m => some (m, t + 1)
    else le_scan sched a n t

/-- The reader's `find_le` on the pointer `n`, the next load being load `t`: the
leaf pointer (or null) returned and the number of the next load.  The recursion
is run with fuel. -/
def find_le_conc (sched : Nat → critnib) (key : Nat) : Nat → ptr → Nat → Option (ptr × Nat)
  | 0, _, _ => none
  | _ + 1, .null, t => some (.null, t)
  | _ + 1, .leaf a, t =>
    match load_key sched t a with
    | none => none
    | some k => some (if k ≤ key then .leaf a else .null, t + 1)
  | fuel + 1, .node a, t =>
    match load_shift sched t a, load_path sched (t + 1) a with
    | some shift, some path =>
      if ((key ^^^ path) >>> shift) &&& wnot NIB ≠ 0 then
        if path < key then find_predecessor_conc sched (fuel + 1) a (t + 2)
        else some (.null, t + 2)
      else
        match load_shift sched (t + 2) a with
        | none => none
        | some shift2 =>
          match load_child sched (t + 3) a (slice_index key shift2) with
          | none => none
          | some m =>
            match find_le_conc sched key fuel m (t + 4) with
            | none => none
            | some (.null, t1) =>
              match le_scan sched a (slice_index key shift2).val t1 with
              | none => none
              | some (.node a', t2) => find_predecessor_conc sched (fuel + 1) a' t2
              | some (m', t2) => some (m', t2)
            | some (k, t1) => some (k, t1)
    | _, _ => none

/-- The reader's `critnib_find_le`, the next load being load `t`: the value
returned (0 is null) and the number of loads made.  The `do … while` loop is run
with fuel. -/
def critnib_find_le_conc (sched : Nat → critnib) (key : Nat) : Nat → Nat → Option (Nat × Nat)
  | 0, _ => none
  | fuel + 1, t =>
    let wrs1 := (sched t).remove_count
    let n := (sched (t + 1)).root.toPtr
    match (match n with
      | .null => some (ptr.null, t + 2)
      | n => find_le_conc sched key 64 n (t + 2)) with
    | none => none
    | some (k, t1) =>
      match (match k with
        | .leaf a => (load_value sched t1 a).map (fun v => (v, t1 + 1))
        | _ => some (0, t1)) with
      | none => none
      | some (res, t2) =>
        let wrs2 := (sched t2).remove_count
        if retry wrs1 wrs2 then critnib_find_le_conc sched key fuel (t2 + 1)
        else some (res, t2 + 1)

/-- The writer calls of the reader example up to the start of the read: inserts
of (0, 70) and (3, 73). -/
def conc_ops : List Op :=
  [Op.insert 0 70 0 ⟨some 1, some 101, fun _ => .null⟩,
   Op.insert 3 73 0 ⟨some 2, some 102, fun _ => .null⟩]

/-- The state at the start of the read: one node, at 102, with shift 0 over the
leaves of 0 and 3. -/
def conc_s0 : critnib := (run critnib_new conc_ops).getD critnib_new

/-- The state after the writer's `critnib_insert(5, 75)`. -/
def conc_s1 : critnib :=
  (step conc_s0 (Op.insert 5 75 0 ⟨some 3, some 103, fun _ => .null⟩)).getD critnib_new

/-- The state after the writer's `critnib_remove(3)`. -/
def conc_s2 : critnib := (step conc_s1 (Op.remove 3)).getD critnib_new

/-- The schedule of the example: the first six loads of the reader (counter,
root, shift, path, shift, `child[5]`) see the state at the start, the writer then
inserts 5 and removes 3, and the later loads see the state after that. -/
def conc_sched : Nat → critnib := fun t => if t ≤ 5 then conc_s0 else conc_s2

/-! ## Examples of a split -/

/-- An allocator answer whose node storage holds stale pointers in all of its
child slots: leaf storage at 300, node storage at 400. -/
def ba_stale : base_alloc := { leaf := some 300, node := some 400, junk := fun _ => .leaf 999 7 7 }

/-- The answer of a byte allocator that is out of memory, for a call whose node
storage (from the free list) holds stale pointers in all of its child slots. -/
def ba_none_stale : base_alloc := { leaf := none, node := none, junk := fun _ => .leaf 999 7 7 }

/-- The calls of the split example: inserts of (0x100, 1) and (0x200, 2). -/
def split_ops : List Op := [Op.insert 0x100 1 0 ba0, Op.insert 0x200 2 0 ba_stale]

/-- The state after the calls of the split example. -/
def split_state : critnib := (run critnib_new split_ops).getD critnib_new

/-- The calls that bring the node and the leaf of the split example onto the free
lists: the remove of 0x200 retires them, the sixteenth remove of the absent key
0x300 after it frees their ring slot. -/
def recycle_ops : List Op := split_ops ++ Op.remove 0x200 :: List.replicate 16 (Op.remove 0x300)

/-- The state after these calls: the key 0x100 alone, node storage 400 and leaf
storage 300 on the free lists. -/
def recycle_state : critnib := (run critnib_new recycle_ops).getD critnib_new

/-! ## The shape of a tree -/

/-- The shape of a tree: the inner nodes with their shifts and paths and the keys
in their slots, with the addresses and the values erased. -/
def shape : critnib_node → critnib_node
  | .null => .null
  | .leaf _ k _ => .leaf 0 k 0
  | .inner _ ch p s => .inner 0 (fun i => shape (ch i)) p s

/-- The calls of a second way to the keys 10 and 20: inserts of 20, 30 and 10 and
the remove of 30, with other storage and other values than in `demo_ops`. -/
def other_ops : List Op :=
  [Op.insert 20 1 0 ⟨some 11, some 21, fun _ => .null⟩,
   Op.insert 30 2 0 ⟨some 12, some 22, fun _ => .null⟩,
   Op.insert 10 3 0 ⟨some 13, some 23, fun _ => .null⟩,
   Op.remove 30]

/-- The state after `other_ops` on a fresh map. -/
def other_state : critnib := (run critnib_new other_ops).getD critnib_new

/-! ## Depth of the tree and the loops run with a bound -/

/-- Number of inner nodes on the longest way from a pointer down to a leaf or a
null slot. -/
def height : critnib_node → Nat
  | .inner _ ch _ _ => 1 + ((List.finRange 16).map (fun i => height (ch i))).foldr max 0
  | _ => 0

/-- The dive of `critnib_get` with at most `fuel` iterations of its `while` loop;
`none` when the loop has not ended within them. -/
def get_descend_fuel (key : Nat) : Nat → critnib_node → Option critnib_node
  | fuel + 1, .inner _ ch _ s => get_descend_fuel key fuel (ch (slice_index key s))
  | 0, .inner _ _ _ _ => none
  | _, n => some n

/-- The descent loop of `critnib_insert` with at most `fuel` iterations; `none`
when the loop has not ended within them. -/
def insert_descend_fuel (key : Nat) : Nat → critnib_node → Option (List (Fin 16) × critnib_node)
  | fuel + 1, .inner a ch p s =>
    if key &&& path_mask s = p then
      (insert_descend_fuel key fuel (ch (slice_index key s))).map
        (fun r => (slice_index key s :: r.1, r.2))
    else some ([], .inner a ch p s)
  | 0, .inner a ch p s =>
    if key &&& path_mask s = p then none else some ([], .inner a ch p s)
  | _, n => some ([], n)

/-- The descent loop of `critnib_remove` with at most `fuel` iterations; `none`
when the loop has not ended within them. -/
def remove_descend_fuel (key : Nat) :
    Nat → critnib_node → Option (List (Fin 16) × critnib_node × critnib_node)
  | fuel + 1, .inner a ch p s =>
    match ch (slice_index key s) with
    | .inner _ _ _ _ =>
      (remove_descend_fuel key fuel (ch (slice_index key s))).map
        (fun r => (slice_index key s :: r.1, r.2))
    | kn => some ([], .inner a ch p s, kn)
  | 0, .inner _ _ _ _ => none
  | _, n => some ([], n, n)

/-- The `while (1)` loop of `find_predecessor` with at most `fuel` iterations. -/
def find_predecessor_fuel : Nat → critnib_node → Option critnib_node
  | fuel + 1, .inner _ ch _ _ =>
    match scan_down ch 16 with
    | none => some .null
    | some nib =>
      match ch nib with
      | .inner _ _ _ _ => find_predecessor_fuel fuel (ch nib)
      | m => some m
  | 0, .inner _ _ _ _ => none
  | _, n => some n

/-- The `while (1)` loop of `find_successor` with at most `fuel` iterations. -/
def find_successor_fuel : Nat → critnib_node → Option critnib_node
  | fuel + 1, .inner _ ch _ _ =>
    match scan_up ch 16 with
    | none => some .null
    | some nib =>
      match ch nib with
      | .inner _ _ _ _ => find_successor_fuel fuel (ch nib)
      | m => some m
  | 0, .inner _ _ _ _ => none
  | _, n => some n

/-- The recursion of `find_le` entering at most `fuel` inner nodes on any way
down, the loops of `find_predecessor` within the same bound. -/
def find_le_fuel (key : Nat) : Nat → critnib_node → Option critnib_node
  | _, .null => some .null
  | _, .leaf a k v => some (if k ≤ key then .leaf a k v else .null)
  | 0, .inner _ _ _ _ => none
  | fuel + 1, .inner a ch path shift =>
    if ((key ^^^ path) >>> shift) &&& wnot NIB ≠ 0 then
      if path < key then find_predecessor_fuel (fuel + 1) (.inner a ch path shift)
      else some .null
    else
      match find_le_fuel key fuel (ch (slice_index key shift)) with
      | none => none
      | some .null =>
        match scan_down ch (slice_index key shift).val with
        | none => some .null
        | some i =>
          match ch i with
          | .inner a' ch' p' s' => find_predecessor_fuel fuel (.inner a' ch' p' s')
          | m => some m
      | some k => some k

/-- The recursion of `find_ge` entering at most `fuel` inner nodes on any way
down, the loops of `find_successor` within the same bound. -/
def find_ge_fuel (key : Nat) : Nat → critnib_node → Option critnib_node
  | _, .null => some .null
  | _, .leaf a k v => some (if k ≥ key then .leaf a k v else .null)
  | 0, .inner _ _ _ _ => none
  | fuel + 1, .inner a ch path shift =>
    if ((key ^^^ path) >>> shift) &&& wnot NIB ≠ 0 then
      if path > key then find_successor_fuel (fuel + 1) (.inner a ch path shift)
      else some .null
    else
      match find_ge_fuel key fuel (ch (slice_index key shift)) with
      | none => none
      | some .null =>
        match scan_up ch (15 - (slice_index key shift).val) with
        | none => some .null
        | some i =>
          match ch i with
          | .inner a' ch' p' s' => find_successor_fuel fuel (.inner a' ch' p' s')
          | m => some m
      | some k => some k

/-- The recursion of `iter` entering at most `fuel` inner nodes on any way down;
`none` when a call is left that would enter one more. -/
def iter_fuel {σ : Type} (min max : Nat) (func : σ → Nat → Nat → Int × σ) :
    Nat → critnib_node → σ → Option (Int × σ)
  | _, .null, privdata => some (0, privdata)
  | _, .leaf _ k v, privdata =>
    some (if k ≥ min ∧ k ≤ max then func privdata k v else (0, privdata))
  | 0, .inner _ _ _ _, _ => none
  | fuel + 1, .inner _ ch path shift, privdata =>
    if path > max then some (1, privdata)
    else if (path ||| path_mask shift) < min then some (0, privdata)
    else
      (List.finRange 16).foldl
        (fun (acc : Option (Int × σ)) i =>
          match acc with
          | none => none
          | some acc =>
            if acc.1 ≠ 0 then some acc
            else if (ch i).isNull then some acc
            else
              match iter_fuel min max func fuel (ch i) acc.2 with
              | none => none
              | some r => if r.1 ≠ 0 then some (1, r.2) else some (0, r.2))
        (some (0, privdata))

/-! # Theorems -/

/-! ## Words and bits -/

theorem NIB_eq : NIB = 15 := by decide

theorem wnot_NIB : wnot NIB = 2 ^ 64 - 16 := by decide

theorem div_pow_div_pow (x a b : Nat) : x / 2 ^ a / 2 ^ b = x / 2 ^ (a + b) := by
  rw [Nat.div_div_eq_div_mul, Nat.pow_add]

theorem testBit_false_of_word {x : Nat} (hx : x < 2 ^ 64) {j : Nat} (hj : 64 ≤ j) :
    x.testBit j = false :=
  Nat.testBit_lt_two_pow (lt_of_lt_of_le hx (Nat.pow_le_pow_right (by decide) hj))

theorem slice_index_val (key s : Nat) : (slice_index key s).val = key / 2 ^ s % 16 := by
  show (key >>> s) &&& NIB = key / 2 ^ s % 16
  rw [NIB_eq, Nat.shiftRight_eq_div_pow]
  exact Nat.and_pow_two_sub_one_eq_mod _ 4

theorem testBit_wnot_NIB (i : Nat) : (wnot NIB).testBit i = (decide (4 ≤ i) && decide (i < 64)) := by
  have h : wnot NIB = (2 ^ 60 - 1) <<< 4 := by decide
  rw [h, Nat.testBit_shiftLeft, Nat.testBit_two_pow_sub_one]
  by_cases h4 : 4 ≤ i
  · have : (decide (i - 4 < 60)) = decide (i < 64) := by
      apply decide_eq_decide.mpr; omega
    simp [h4, this]
  · simp [h4]

theorem testBit_path_mask (s j : Nat) :
    (path_mask s).testBit j = (decide (s + 4 ≤ j) && decide (j < 64)) := by
  unfold path_mask WORD
  rw [Nat.testBit_mod_two_pow, Nat.testBit_shiftLeft, testBit_wnot_NIB]
  by_cases h1 : j < 64 <;> by_cases h2 : s + 4 ≤ j
  · have a : j ≥ s := by omega
    have b : 4 ≤ j - s := by omega
    have c : j - s < 64 := by omega
    simp [h1, h2, a, b, c]
  · by_cases a : j ≥ s
    · have b : ¬ 4 ≤ j - s := by omega
      simp [h1, h2, a, b]
    · simp [h1, h2, a]
  · simp [h1, h2]
  · simp [h1, h2]

theorem testBit_div_mul_pow (x m j : Nat) :
    (x / 2 ^ m * 2 ^ m).testBit j = (decide (m ≤ j) && x.testBit j) := by
  rw [← Nat.shiftRight_eq_div_pow, ← Nat.shiftLeft_eq, Nat.testBit_shiftLeft,
    Nat.testBit_shiftRight]
  by_cases h : m ≤ j
  · have : m + (j - m) = j := by omega
    simp [h, this]
  · simp [h]

/-- Masking a word with `path_mask` clears the bits below `shift + 4`. -/
theorem and_path_mask {key : Nat} (hk : key < 2 ^ 64) (s : Nat) :
    key &&& path_mask s = key / 2 ^ (s + 4) * 2 ^ (s + 4) := by
  apply Nat.eq_of_testBit_eq
  intro j
  rw [Nat.testBit_and, testBit_path_mask, testBit_div_mul_pow]
  by_cases h1 : j < 64
  · simp [h1, Bool.and_comm]
  · rw [testBit_false_of_word hk (by omega)]
    simp

theorem shiftRight_xor (a b s : Nat) : (a ^^^ b) >>> s = (a >>> s) ^^^ (b >>> s) := by
  apply Nat.eq_of_testBit_eq
  intro j
  simp [Nat.testBit_shiftRight, Nat.testBit_xor]

theorem xor_div_pow_eq_zero (a b s : Nat) :
    (a ^^^ b) / 2 ^ s = 0 ↔ a / 2 ^ s = b / 2 ^ s := by
  rw [← Nat.shiftRight_eq_div_pow, ← Nat.shiftRight_eq_div_pow, ← Nat.shiftRight_eq_div_pow,
    shiftRight_xor, Nat.xor_eq_zero]

/-- The containment test of `find_le` and `find_ge` compares the bits from
`shift + 4` upwards. -/
theorem contain_test {key p : Nat} (hk : key < 2 ^ 64) (hp : p < 2 ^ 64) (s : Nat) :
    ((key ^^^ p) >>> s) &&& wnot NIB = 0 ↔ key / 2 ^ (s + 4) = p / 2 ^ (s + 4) := by
  have hx : (key ^^^ p) >>> s < 2 ^ 64 := by
    rw [Nat.shiftRight_eq_div_pow]
    exact lt_of_le_of_lt (Nat.div_le_self _ _) (Nat.xor_lt_two_pow hk hp)
  have hm : wnot NIB = path_mask 0 := by decide
  rw [hm, and_path_mask hx 0, Nat.shiftRight_eq_div_pow, ← xor_div_pow_eq_zero,
    ← div_pow_div_pow (key ^^^ p) s 4]
  have h16 : (2 : Nat) ^ (0 + 4) = 2 ^ 4 := by norm_num
  rw [h16]
  constructor
  · intro h
    rcases Nat.mul_eq_zero.mp h with h | h
    · exact h
    · exact absurd h (by norm_num)
  · intro h
    rw [h, Nat.zero_mul]

/-! ## The bit scan -/

theorem clz_from_spec {d : Nat} (hd : d ≠ 0) :
    ∀ i, (∀ j, i ≤ j → d.testBit j = false) →
      clz_from d i < i ∧ d.testBit (i - 1 - clz_from d i) = true ∧
        ∀ j, i - 1 - clz_from d i < j → d.testBit j = false := by
  intro i
  induction i with
  | zero =>
    intro h
    exact absurd (Nat.eq_of_testBit_eq (fun j => by simp [h j (Nat.zero_le _)])) hd
  | succ i ih =>
    intro h
    unfold clz_from
    by_cases hb : d.testBit i = true
    · simp only [hb, if_true]
      refine ⟨by omega, by simpa using hb, fun j hj => h j (by omega)⟩
    · simp only [hb]
      have hb' : d.testBit i = false := by simpa using hb
      have h' : ∀ j, i ≤ j → d.testBit j = false := by
        intro j hj
        rcases Nat.eq_or_lt_of_le hj with e | l
        · rw [← e]; exact hb'
        · exact h j l
      obtain ⟨h1, h2, h3⟩ := ih h'
      refine ⟨by simp; omega, ?_, ?_⟩
      · have : i + 1 - 1 - (1 + clz_from d i) = i - 1 - clz_from d i := by omega
        simp only [Bool.false_eq_true, if_false, this]
        exact h2
      · intro j hj
        have : i + 1 - 1 - (1 + clz_from d i) = i - 1 - clz_from d i := by omega
        simp only [Bool.false_eq_true, if_false, this] at hj
        exact h3 j hj

/-- On a non-zero word `utils_msb64` is the position of the highest set bit. -/
theorem utils_msb64_spec {d : Nat} (hd : d ≠ 0) (hw : d < 2 ^ 64) :
    utils_msb64 d < 64 ∧ d.testBit (utils_msb64 d) = true ∧
      ∀ j, utils_msb64 d < j → d.testBit j = false := by
  obtain ⟨h1, h2, h3⟩ := clz_from_spec hd 64 (fun j hj => testBit_false_of_word hw hj)
  have e : utils_msb64 d = 64 - 1 - clz_from d 64 := rfl
  rw [e]
  exact ⟨by omega, h2, h3⟩

theorem land_0xFC : ∀ m, m < 64 → m &&& 0xFC = m / 4 * 4 := by decide

theorem testBit_nibble (x s r : Nat) (hr : r < 4) :
    (x / 2 ^ s % 16).testBit r = x.testBit (s + r) := by
  have : (16 : Nat) = 2 ^ 4 := by norm_num
  rw [this, Nat.testBit_mod_two_pow, ← Nat.shiftRight_eq_div_pow, Nat.testBit_shiftRight]
  simp [hr]

/-- The shift computed by `critnib_insert` for a split and what it separates. -/
theorem split_shift {key path : Nat} (hk : key < 2 ^ 64) (hp : path < 2 ^ 64)
    (hd : path ^^^ key ≠ 0) :
    let sh := utils_msb64 (path ^^^ key) &&& 0xFC
    sh % 4 = 0 ∧ sh ≤ 60 ∧ sh ≤ utils_msb64 (path ^^^ key) ∧
      utils_msb64 (path ^^^ key) < sh + 4 ∧
      key / 2 ^ (sh + 4) = path / 2 ^ (sh + 4) ∧
      key / 2 ^ sh % 16 ≠ path / 2 ^ sh % 16 := by
  intro sh
  obtain ⟨h1, h2, h3⟩ := utils_msb64_spec hd (Nat.xor_lt_two_pow hp hk)
  have hsh : sh = utils_msb64 (path ^^^ key) / 4 * 4 := land_0xFC _ h1
  refine ⟨by omega, by omega, by omega, by omega, ?_, ?_⟩
  · apply Eq.symm
    rw [← xor_div_pow_eq_zero]
    apply (Nat.div_eq_zero_iff (by positivity)).mpr
    apply Nat.lt_pow_two_of_testBit
    intro i hi
    exact h3 i (by omega)
  · intro heq
    have hr : utils_msb64 (path ^^^ key) - sh < 4 := by omega
    have e1 := testBit_nibble key sh _ hr
    have e2 := testBit_nibble path sh _ hr
    rw [heq] at e1
    have e3 : sh + (utils_msb64 (path ^^^ key) - sh) = utils_msb64 (path ^^^ key) := by omega
    rw [e3] at e1 e2
    rw [Nat.testBit_xor, ← e1, ← e2] at h2
    simp at h2

/-- The highest differing bit lies below any position from which the two words agree. -/
theorem msb_lt_of_agree {key path b : Nat} (hk : key < 2 ^ 64) (hp : path < 2 ^ 64)
    (hd : path ^^^ key ≠ 0) (hb : key / 2 ^ b = path / 2 ^ b) :
    utils_msb64 (path ^^^ key) < b := by
  obtain ⟨_, h2, _⟩ := utils_msb64_spec hd (Nat.xor_lt_two_pow hp hk)
  by_contra hge
  have hlt : path ^^^ key < 2 ^ b :=
    (Nat.div_eq_zero_iff (by positivity)).mp ((xor_div_pow_eq_zero _ _ _).mpr hb.symm)
  have := Nat.testBit_lt_two_pow
    (lt_of_lt_of_le hlt (Nat.pow_le_pow_right (by decide) (Nat.le_of_not_lt hge)))
  rw [this] at h2
  exact absurd h2 (by simp)

/-- The highest differing bit lies at or above any position from which the two words differ. -/
theorem msb_ge_of_differ {key path b : Nat} (hk : key < 2 ^ 64) (hp : path < 2 ^ 64)
    (hb : key / 2 ^ b ≠ path / 2 ^ b) :
    path ^^^ key ≠ 0 ∧ b ≤ utils_msb64 (path ^^^ key) := by
  have hd : path ^^^ key ≠ 0 := by
    intro h
    rw [Nat.xor_eq_zero] at h
    exact hb (by rw [h])
  refine ⟨hd, ?_⟩
  obtain ⟨_, _, h3⟩ := utils_msb64_spec hd (Nat.xor_lt_two_pow hp hk)
  by_contra hlt
  apply hb
  apply Eq.symm
  rw [← xor_div_pow_eq_zero]
  apply (Nat.div_eq_zero_iff (by positivity)).mpr
  apply Nat.lt_pow_two_of_testBit
  intro i hi
  exact h3 i (by omega)


/-! ## Contents and shape: basic facts -/

theorem mem_leaves_inner {x : Nat × Nat} {a : Nat} {ch : Fin 16 → critnib_node} {p s : Nat} :
    x ∈ leaves (.inner a ch p s) ↔ ∃ i, x ∈ leaves (ch i) := by
  simp [leaves, List.mem_flatMap]

theorem isNull_iff {t : critnib_node} : t.isNull = true ↔ t = .null := by
  cases t <;> simp [critnib_node.isNull]

theorem isNull_false_iff {t : critnib_node} : t.isNull = false ↔ t ≠ .null := by
  cases t <;> simp [critnib_node.isNull]

theorem path_div {p s : Nat} (hp : p % 2 ^ (s + 4) = 0) :
    p / 2 ^ s = 16 * (p / 2 ^ (s + 4)) := by
  have h1 : p / 2 ^ (s + 4) = p / 2 ^ s / 16 := by
    rw [← div_pow_div_pow]; norm_num
  have h2 : p / 2 ^ s % 16 = 0 := by
    have : p % (2 ^ s * 16) / 2 ^ s = p / 2 ^ s % 16 := Nat.mod_mul_right_div_self p (2 ^ s) 16
    rw [← this]
    have e : 2 ^ s * 16 = 2 ^ (s + 4) := by rw [Nat.pow_add]
    rw [e, hp, Nat.zero_div]
  omega

/-- A key in slot `i` of a node carries the node's path above the nib. -/
theorem slot_hi {p s i x : Nat} (hp : p % 2 ^ (s + 4) = 0) (hi : i < 16)
    (hx : x / 2 ^ s = p / 2 ^ s + i) :
    x / 2 ^ (s + 4) = p / 2 ^ (s + 4) ∧ x / 2 ^ s % 16 = i := by
  have h1 : x / 2 ^ (s + 4) = x / 2 ^ s / 16 := by
    rw [← div_pow_div_pow]; norm_num
  have h2 := path_div hp
  omega

theorem div_pow_of_le {x y a b : Nat} (hab : a ≤ b) (h : x / 2 ^ a = y / 2 ^ a) :
    x / 2 ^ b = y / 2 ^ b := by
  obtain ⟨d, rfl⟩ := Nat.exists_eq_add_of_le hab
  rw [← div_pow_div_pow, ← div_pow_div_pow, h]

theorem slot_lift {p s i x b : Nat} (hp : p % 2 ^ (s + 4) = 0) (hi : i < 16)
    (hb : s + 4 ≤ b) (hx : x / 2 ^ s = p / 2 ^ s + i) : x / 2 ^ b = p / 2 ^ b :=
  div_pow_of_le hb (slot_hi hp hi hx).1

/-- A key of the path's slot with nib `i` lies in slot `i`. -/
theorem slot_of_hi {p s x : Nat} (hp : p % 2 ^ (s + 4) = 0)
    (hx : x / 2 ^ (s + 4) = p / 2 ^ (s + 4)) :
    x / 2 ^ s = p / 2 ^ s + x / 2 ^ s % 16 := by
  have h1 : x / 2 ^ (s + 4) = x / 2 ^ s / 16 := by
    rw [← div_pow_div_pow]; norm_num
  have h2 := path_div hp
  omega

theorem lt_word_of_div {x b : Nat} (hb : b ≤ 64) (h : x / 2 ^ b < 2 ^ (64 - b)) : x < 2 ^ 64 := by
  have e : 2 ^ 64 = 2 ^ (64 - b) * 2 ^ b := by
    rw [← Nat.pow_add]; congr 1; omega
  rw [e]
  exact (Nat.div_lt_iff_lt_mul (by positivity)).mp h

/-- Every key below a well-formed pointer that fits a slot lies in that slot. -/
theorem key_fits {t : critnib_node} : ∀ {b hi : Nat}, WF t → fits t b hi →
    ∀ {k v : Nat}, (k, v) ∈ leaves t → k / 2 ^ b = hi := by
  induction t with
  | null => intro b hi _ _ k v h; simp [leaves] at h
  | leaf a k' v' =>
    intro b hi _ hf k v h
    simp [leaves] at h
    rw [h.1]; exact hf
  | inner a ch p s ih =>
    intro b hi hw hf k v h
    obtain ⟨i, hi'⟩ := mem_leaves_inner.mp h
    obtain ⟨_, _, _, hp, _, hch⟩ := hw
    have := ih i (hch i).1 (hch i).2 hi'
    rw [← hf.2]
    exact slot_lift hp i.isLt hf.1 this

/-- Every key below a well-formed pointer is a word. -/
theorem key_lt {t : critnib_node} : WF t → ∀ {k v : Nat}, (k, v) ∈ leaves t → k < 2 ^ 64 := by
  induction t with
  | null => intro _ k v h; simp [leaves] at h
  | leaf a k' v' =>
    intro hw k v h
    simp [leaves] at h
    rw [h.1]; exact hw
  | inner a ch p s ih =>
    intro hw k v h
    obtain ⟨i, hi'⟩ := mem_leaves_inner.mp h
    exact ih i (hw.2.2.2.2.2 i).1 hi'

/-- A non-null well-formed pointer leads to at least one leaf. -/
theorem leaves_ne_nil {t : critnib_node} : WF t → t ≠ .null → ∃ x, x ∈ leaves t := by
  induction t with
  | null => intro _ h; exact absurd rfl h
  | leaf a k v => intro _ _; exact ⟨(k, v), by simp [leaves]⟩
  | inner a ch p s ih =>
    intro hw _
    obtain ⟨_, _, _, _, ⟨i, _, _, hi, _⟩, hch⟩ := hw
    obtain ⟨x, hx⟩ := ih i (hch i).1 hi
    exact ⟨x, mem_leaves_inner.mpr ⟨i, hx⟩⟩

/-- Refitting: a pointer that fits a slot fits every wider slot around it. -/
theorem fits_mono {t : critnib_node} {b hi b2 : Nat} (h : fits t b hi) (hb : b ≤ b2) :
    fits t b2 (hi / 2 ^ (b2 - b)) := by
  have e : ∀ x, x / 2 ^ b = hi → x / 2 ^ b2 = hi / 2 ^ (b2 - b) := by
    intro x hx
    rw [← hx, div_pow_div_pow]; congr 2; omega
  cases t with
  | null => trivial
  | leaf a k v => exact e k h
  | inner a ch p s => exact ⟨by have := h.1; omega, e p h.2⟩

/-- A child of a node that fits a slot fits that slot too. -/
theorem fits_child {t : critnib_node} {p s i b : Nat} (hp : p % 2 ^ (s + 4) = 0) (hi : i < 16)
    (hb : s + 4 ≤ b) (h : fits t s (p / 2 ^ s + i)) : fits t b (p / 2 ^ b) := by
  cases t with
  | null => trivial
  | leaf a k v => exact slot_lift hp hi hb h
  | inner a ch p' s' => exact ⟨by have := h.1; omega, slot_lift hp hi hb h.2⟩

/-! ## Exact lookup -/

theorem get_descend_mem {key : Nat} {t : critnib_node} :
    ∀ {a k v : Nat}, get_descend key t = .leaf a k v → (k, v) ∈ leaves t := by
  induction t with
  | null => intro a k v h; simp [get_descend] at h
  | leaf a' k' v' =>
    intro a k v h
    simp [get_descend] at h
    simp [leaves, h.2.1, h.2.2]
  | inner a' ch p s ih =>
    intro a k v h
    simp only [get_descend] at h
    exact mem_leaves_inner.mpr ⟨_, ih _ h⟩

theorem get_descend_not_inner {key : Nat} {t : critnib_node} :
    ∀ {a ch p s}, get_descend key t ≠ .inner a ch p s := by
  induction t with
  | null => intro a ch p s h; simp [get_descend] at h
  | leaf a' k' v' => intro a ch p s h; simp [get_descend] at h
  | inner a' ch' p' s' ih =>
    intro a ch p s h
    simp only [get_descend] at h
    exact ih _ h

theorem slice_index_eq {key s : Nat} {i : Fin 16} (h : key / 2 ^ s % 16 = i.val) :
    slice_index key s = i :=
  Fin.ext (by rw [slice_index_val, h])

/-- The dive of `critnib_get` reaches the leaf of every stored key. -/
theorem get_descend_of_mem {key v : Nat} {t : critnib_node} :
    WF t → (key, v) ∈ leaves t → ∃ a, get_descend key t = .leaf a key v := by
  induction t with
  | null => intro _ h; simp [leaves] at h
  | leaf a' k' v' =>
    intro _ h
    simp [leaves] at h
    exact ⟨a', by simp [get_descend, h.1, h.2]⟩
  | inner a' ch p s ih =>
    intro hw h
    obtain ⟨i, hi⟩ := mem_leaves_inner.mp h
    obtain ⟨_, _, _, hp, _, hch⟩ := hw
    have hk := key_fits (hch i).1 (hch i).2 hi
    have hs : slice_index key s = i := slice_index_eq (slot_hi hp i.isLt hk).2
    simp only [get_descend, hs]
    exact ih i (hch i).1 hi

/-- No key is stored with two values. -/
theorem value_unique {t : critnib_node} (hw : WF t) {k v v' : Nat}
    (h : (k, v) ∈ leaves t) (h' : (k, v') ∈ leaves t) : v = v' := by
  obtain ⟨a, e⟩ := get_descend_of_mem hw h
  obtain ⟨a', e'⟩ := get_descend_of_mem hw h'
  rw [e] at e'
  simp at e'
  exact e'.2


/-! ## Insert -/

theorem rebuild_null (F : critnib_node → critnib_node) (key : Nat) :
    rebuild F key .null = F .null := rfl

theorem rebuild_leaf (F : critnib_node → critnib_node) (key a k v : Nat) :
    rebuild F key (.leaf a k v) = F (.leaf a k v) := rfl

theorem rebuild_inner_in (F : critnib_node → critnib_node) {key a p s : Nat}
    {ch : Fin 16 → critnib_node} (h : key &&& path_mask s = p) :
    rebuild F key (.inner a ch p s) =
      .inner a (Function.update ch (slice_index key s)
        (rebuild F key (ch (slice_index key s)))) p s := by
  simp [rebuild, insert_descend, h, store]

theorem rebuild_inner_out (F : critnib_node → critnib_node) {key a p s : Nat}
    {ch : Fin 16 → critnib_node} (h : key &&& path_mask s ≠ p) :
    rebuild F key (.inner a ch p s) = F (.inner a ch p s) := by
  simp [rebuild, insert_descend, h, store]

theorem stops_insert_descend (key : Nat) (t : critnib_node) :
    Stops key (insert_descend key t).2 := by
  induction t with
  | null => simp [insert_descend, Stops]
  | leaf a k v => simp [insert_descend, Stops]
  | inner a ch p s ih =>
    by_cases h : key &&& path_mask s = p
    · simp only [insert_descend, h, if_true]; exact ih _
    · simp only [insert_descend, h, if_false]; exact h

/-- The containment test of `critnib_insert` compares the bits from `shift + 4` upwards. -/
theorem contains_iff {key p s : Nat} (hk : key < 2 ^ 64) (hp : p % 2 ^ (s + 4) = 0) :
    key &&& path_mask s = p ↔ key / 2 ^ (s + 4) = p / 2 ^ (s + 4) := by
  rw [and_path_mask hk]
  have hd : p / 2 ^ (s + 4) * 2 ^ (s + 4) = p := Nat.div_mul_cancel (Nat.dvd_of_mod_eq_zero hp)
  constructor
  · intro h
    rw [← h, Nat.mul_div_cancel _ (by positivity)]
  · intro h
    rw [h, hd]

theorem contains_slot {key p s : Nat} (hk : key < 2 ^ 64) (hp : p % 2 ^ (s + 4) = 0)
    (h : key &&& path_mask s = p) : key / 2 ^ s = p / 2 ^ s + (slice_index key s).val := by
  rw [slice_index_val]
  exact slot_of_hi hp ((contains_iff hk hp).mp h)

theorem update_ne_null {ch : Fin 16 → critnib_node} {i : Fin 16} {t : critnib_node}
    (ht : t ≠ .null) (h : ∃ i j, i ≠ j ∧ ch i ≠ .null ∧ ch j ≠ .null) :
    ∃ i' j, i' ≠ j ∧ Function.update ch i t i' ≠ .null ∧ Function.update ch i t j ≠ .null := by
  obtain ⟨i0, j0, hne, h1, h2⟩ := h
  refine ⟨i0, j0, hne, ?_, ?_⟩
  · rw [Function.update_apply]; split <;> assumption
  · rw [Function.update_apply]; split <;> assumption

/-- The descent and store of `critnib_insert` keep the shape invariant and put the
key's pair in place of any old one, when the pointer stored at the stop does. -/
theorem rebuild_spec (F : critnib_node → critnib_node) {key : Nat} (value : Nat)
    (hk : key < 2 ^ 64)
    (hF : ∀ n b hi, Stops key n → WF n → fits n b hi → b % 4 = 0 → b ≤ 64 →
      key / 2 ^ b = hi →
        WF (F n) ∧ fits (F n) b hi ∧ F n ≠ .null ∧
        ∀ k v, (k, v) ∈ leaves (F n) ↔ (k = key ∧ v = value) ∨ (k ≠ key ∧ (k, v) ∈ leaves n)) :
    ∀ t b hi, WF t → fits t b hi → b % 4 = 0 → b ≤ 64 → key / 2 ^ b = hi →
      WF (rebuild F key t) ∧ fits (rebuild F key t) b hi ∧ rebuild F key t ≠ .null ∧
      ∀ k v, (k, v) ∈ leaves (rebuild F key t) ↔
        (k = key ∧ v = value) ∨ (k ≠ key ∧ (k, v) ∈ leaves t) := by
  intro t
  induction t with
  | null => intro b hi hw hf hb4 hb hkb; exact hF _ b hi trivial hw hf hb4 hb hkb
  | leaf a k v => intro b hi hw hf hb4 hb hkb; exact hF _ b hi trivial hw hf hb4 hb hkb
  | inner a ch p s ih =>
    intro b hi hw hf hb4 hb hkb
    by_cases h : key &&& path_mask s = p
    · rw [rebuild_inner_in F h]
      obtain ⟨hs4, hs, hpw, hp, h2, hch⟩ := hw
      have hslot := contains_slot hk hp h
      obtain ⟨w1, w2, w3, w4⟩ :=
        ih (slice_index key s) s _ (hch _).1 (hch _).2 hs4 (by omega) hslot
      refine ⟨⟨hs4, hs, hpw, hp, update_ne_null w3 h2, ?_⟩, hf, by simp, ?_⟩
      · intro i
        rw [Function.update_apply]
        split
        · next e => rw [e]; exact ⟨w1, w2⟩
        · exact hch i
      · intro k v
        rw [mem_leaves_inner]
        constructor
        · rintro ⟨i, hi'⟩
          rw [Function.update_apply] at hi'
          split at hi'
          · rcases (w4 k v).mp hi' with h1 | h1
            · exact Or.inl h1
            · exact Or.inr ⟨h1.1, mem_leaves_inner.mpr ⟨_, h1.2⟩⟩
          · next hne =>
            refine Or.inr ⟨?_, mem_leaves_inner.mpr ⟨i, hi'⟩⟩
            intro e
            apply hne
            have hki := key_fits (hch i).1 (hch i).2 hi'
            rw [e, hslot] at hki
            exact (Fin.ext (by omega)).symm
        · rintro (h1 | ⟨h1, h2'⟩)
          · exact ⟨slice_index key s, by
              rw [Function.update_same]; exact (w4 k v).mpr (Or.inl h1)⟩
          · obtain ⟨i, hi'⟩ := mem_leaves_inner.mp h2'
            by_cases e : i = slice_index key s
            · refine ⟨i, ?_⟩
              rw [e, Function.update_same]
              exact (w4 k v).mpr (Or.inr ⟨h1, e ▸ hi'⟩)
            · exact ⟨i, by rw [Function.update_noteq e]; exact hi'⟩
    · rw [rebuild_inner_out F h]
      exact hF _ b hi h hw hf hb4 hb hkb

theorem clear_children_apply (junk : Fin 16 → critnib_node) (i : Fin 16) :
    clear_children junk (List.finRange 16) i = .null := by
  have gen : ∀ (l : List (Fin 16)) (f : Fin 16 → critnib_node),
      (i ∈ l ∨ f i = .null) → clear_children f l i = .null := by
    intro l
    induction l with
    | nil =>
      intro f h
      rcases h with h | h
      · simp at h
      · exact h
    | cons j l ih =>
      intro f h
      show clear_children (Function.update f j .null) l i = .null
      apply ih
      by_cases e : i = j
      · right; rw [e, Function.update_same]
      · rcases h with h | h
        · left; simpa [e] using h
        · right; rw [Function.update_noteq e]; exact h
  exact gen _ _ (Or.inl (List.mem_finRange i))

theorem node_path_lt {n : critnib_node} (hw : WF n) : node_path n < 2 ^ 64 := by
  cases n with
  | null => simp [node_path]
  | leaf a k v => exact hw
  | inner a ch p s => exact hw.2.2.1

theorem node_path_fits {n : critnib_node} {b hi : Nat} (hn : n ≠ .null) (hf : fits n b hi) :
    node_path n / 2 ^ b = hi := by
  cases n with
  | null => exact absurd rfl hn
  | leaf a k v => exact hf
  | inner a ch p s => exact hf.2

/-- The new node of a split is well formed, fits the slot of the old pointer and
holds the new leaf beside the old subtree. -/
theorem split_node_spec (m : Nat) (junk : Fin 16 → critnib_node) {key : Nat} (value ka : Nat)
    {n : critnib_node} {b hi : Nat} (hk : key < 2 ^ 64) (hw : WF n) (hn : n ≠ .null)
    (hf : fits n b hi) (hb4 : b % 4 = 0) (hkb : key / 2 ^ b = hi)
    (hin : ∀ a ch p s, n = .inner a ch p s → key / 2 ^ (s + 4) ≠ p / 2 ^ (s + 4))
    (hd : node_path n ^^^ key ≠ 0) :
    WF (split_node m junk key (.leaf ka key value) n) ∧
    fits (split_node m junk key (.leaf ka key value) n) b hi ∧
    ∀ x, x ∈ leaves (split_node m junk key (.leaf ka key value) n) ↔
      x = (key, value) ∨ x ∈ leaves n := by
  have hpw := node_path_lt hw
  obtain ⟨s1, s2, s3, s4, s5, s6⟩ := split_shift hk hpw hd
  have hmb := msb_lt_of_agree hk hpw hd (by rw [hkb, node_path_fits hn hf])
  generalize hsh : utils_msb64 (node_path n ^^^ key) &&& 0xFC = sh at s1 s2 s3 s4 s5 s6
  have hshb : sh + 4 ≤ b := by omega
  have hne : slice_index key sh ≠ slice_index (node_path n) sh := by
    intro e
    apply s6
    rw [← slice_index_val, ← slice_index_val, e]
  have hpm : key &&& path_mask sh = key / 2 ^ (sh + 4) * 2 ^ (sh + 4) := and_path_mask hk sh
  have hpm0 : (key &&& path_mask sh) % 2 ^ (sh + 4) = 0 := by
    rw [hpm]; exact Nat.mul_mod_left _ _
  have hpmd : (key &&& path_mask sh) / 2 ^ (sh + 4) = key / 2 ^ (sh + 4) := by
    rw [hpm, Nat.mul_div_cancel _ (by positivity)]
  have hunf : split_node m junk key (.leaf ka key value) n =
      .inner m (Function.update (Function.update (clear_children junk (List.finRange 16))
        (slice_index key sh) (.leaf ka key value)) (slice_index (node_path n) sh) n)
        (key &&& path_mask sh) sh := by
    simp only [split_node, hsh]
  rw [hunf]
  have hc1 : Function.update (Function.update (clear_children junk (List.finRange 16))
        (slice_index key sh) (.leaf ka key value)) (slice_index (node_path n) sh) n
        (slice_index key sh) = .leaf ka key value := by
    rw [Function.update_noteq hne, Function.update_same]
  have hc2 : Function.update (Function.update (clear_children junk (List.finRange 16))
        (slice_index key sh) (.leaf ka key value)) (slice_index (node_path n) sh) n
        (slice_index (node_path n) sh) = n := by
    rw [Function.update_same]
  have hc3 : ∀ i, i ≠ slice_index key sh → i ≠ slice_index (node_path n) sh →
      Function.update (Function.update (clear_children junk (List.finRange 16))
        (slice_index key sh) (.leaf ka key value)) (slice_index (node_path n) sh) n i = .null := by
    intro i h1 h2
    rw [Function.update_noteq h2, Function.update_noteq h1, clear_children_apply]
  refine ⟨⟨s1, by omega, ?_, hpm0, ⟨_, _, hne, by rw [hc1]; simp, by rw [hc2]; exact hn⟩, ?_⟩,
    ⟨hshb, ?_⟩, ?_⟩
  · exact lt_of_le_of_lt Nat.and_le_left hk
  · intro i
    by_cases e2 : i = slice_index (node_path n) sh
    · rw [e2, hc2]
      refine ⟨hw, ?_⟩
      have hx : node_path n / 2 ^ sh =
          (key &&& path_mask sh) / 2 ^ sh + (slice_index (node_path n) sh).val := by
        rw [slice_index_val]
        exact slot_of_hi hpm0 (by rw [hpmd, s5])
      cases n with
      | null => exact absurd rfl hn
      | leaf a k v => exact hx
      | inner a ch p s =>
        refine ⟨?_, hx⟩
        have := (msb_ge_of_differ hk hpw (hin a ch p s rfl)).2
        have hs4 := hw.1
        omega
    · by_cases e1 : i = slice_index key sh
      · rw [e1, hc1]
        refine ⟨hk, ?_⟩
        show key / 2 ^ sh = _
        rw [slice_index_val]
        exact slot_of_hi hpm0 hpmd.symm
      · rw [hc3 i e1 e2]
        exact ⟨trivial, trivial⟩
  · rw [← hkb]
    exact div_pow_of_le hshb hpmd
  · intro x
    rw [mem_leaves_inner]
    constructor
    · rintro ⟨i, hi'⟩
      by_cases e2 : i = slice_index (node_path n) sh
      · rw [e2, hc2] at hi'; exact Or.inr hi'
      · by_cases e1 : i = slice_index key sh
        · rw [e1, hc1] at hi'; left; simpa [leaves] using hi'
        · rw [hc3 i e1 e2] at hi'; simp [leaves] at hi'
    · rintro (h | h)
      · exact ⟨slice_index key sh, by rw [hc1, h]; simp [leaves]⟩
      · exact ⟨slice_index (node_path n) sh, by rw [hc2]; exact h⟩

/-- The pointer stored by a successful `critnib_insert` satisfies what
`rebuild_spec` asks of it. -/
theorem insert_at_spec {m : Nat} {junk : Fin 16 → critnib_node} {key value ka : Nat}
    (hk : key < 2 ^ 64) (n : critnib_node) (b hi : Nat) (hst : Stops key n) (hw : WF n)
    (hf : fits n b hi) (hb4 : b % 4 = 0) (_hb : b ≤ 64) (hkb : key / 2 ^ b = hi) :
    WF (insert_at (.leaf ka key value) m junk key value n) ∧
    fits (insert_at (.leaf ka key value) m junk key value n) b hi ∧
    insert_at (.leaf ka key value) m junk key value n ≠ .null ∧
    ∀ k v, (k, v) ∈ leaves (insert_at (.leaf ka key value) m junk key value n) ↔
      (k = key ∧ v = value) ∨ (k ≠ key ∧ (k, v) ∈ leaves n) := by
  cases n with
  | null =>
    refine ⟨hk, hkb, by simp [insert_at], ?_⟩
    intro k v
    simp [insert_at, leaves]
  | leaf a k' v' =>
    by_cases e : k' ^^^ key = 0
    · have ek : k' = key := Nat.xor_eq_zero.mp e
      simp only [insert_at, e, if_true]
      refine ⟨hw, hf, by simp, ?_⟩
      intro k v
      simp only [leaves, List.mem_singleton, Prod.mk.injEq]
      rw [ek]
      constructor
      · intro h; exact Or.inl h
      · rintro (h | ⟨h1, h2, _⟩)
        · exact h
        · exact absurd h2 h1
    · simp only [insert_at, e, if_false]
      have ek : k' ≠ key := fun h => e (Nat.xor_eq_zero.mpr h)
      obtain ⟨w1, w2, w3⟩ := split_node_spec m junk value ka
        hk hw (by simp) hf hb4 hkb (by intro a ch p s h; cases h) e
      refine ⟨w1, w2, by simp [split_node], ?_⟩
      intro k v
      rw [w3]
      simp only [leaves, List.mem_singleton, Prod.mk.injEq]
      constructor
      · rintro (h | ⟨h1, h2⟩)
        · exact Or.inl h
        · exact Or.inr ⟨by rw [h1]; exact ek, h1, h2⟩
      · rintro (h | ⟨_, h⟩)
        · exact Or.inl h
        · exact Or.inr h
  | inner a ch p s =>
    have hst' : key &&& path_mask s ≠ p := hst
    have hp := hw.2.2.2.1
    have hne : key / 2 ^ (s + 4) ≠ p / 2 ^ (s + 4) := fun h => hst' ((contains_iff hk hp).mpr h)
    have hd := (msb_ge_of_differ hk hw.2.2.1 hne).1
    obtain ⟨w1, w2, w3⟩ := split_node_spec m junk value ka
      hk hw (by simp) hf hb4 hkb
      (by intro a' ch' p' s' h; cases h; exact hne) hd
    refine ⟨w1, w2, by simp [insert_at, split_node], ?_⟩
    intro k v
    simp only [insert_at]
    rw [w3]
    simp only [Prod.mk.injEq]
    constructor
    · rintro (h | h)
      · exact Or.inl h
      · refine Or.inr ⟨?_, h⟩
        intro e
        have : k / 2 ^ (s + 4) = p / 2 ^ (s + 4) :=
          key_fits hw (show fits _ (s + 4) _ from ⟨le_refl _, rfl⟩) h
        exact hne (by rw [← e, this])
    · rintro (h | ⟨_, h⟩)
      · exact Or.inl h
      · exact Or.inr h


theorem alloc_leaf_fst_snd (c : critnib) (sys : Option Nat) :
    (alloc_leaf c sys).2.root = c.root ∧ (alloc_leaf c sys).2.remove_count = c.remove_count ∧
    (alloc_leaf c sys).2.deleted_node = c.deleted_node := by
  unfold alloc_leaf
  split <;> simp

theorem alloc_node_fst_snd (c : critnib) (sys : Option Nat) :
    (alloc_node c sys).2.root = c.root ∧ (alloc_node c sys).2.remove_count = c.remove_count := by
  unfold alloc_node
  split <;> simp

theorem insert_descend_snd_WF (key : Nat) {t : critnib_node} (hw : WF t) :
    WF (insert_descend key t).2 := by
  induction t with
  | null => exact hw
  | leaf a k v => exact hw
  | inner a ch p s ih =>
    by_cases h : key &&& path_mask s = p
    · simp only [insert_descend, h, if_true]; exact ih _ (hw.2.2.2.2.2 _).1
    · simp only [insert_descend, h, if_false]; exact hw

theorem insert_descend_snd_sub {key : Nat} {t : critnib_node} :
    ∀ {x}, x ∈ leaves (insert_descend key t).2 → x ∈ leaves t := by
  induction t with
  | null => intro x h; exact h
  | leaf a k v => intro x h; exact h
  | inner a ch p s ih =>
    intro x h
    by_cases hc : key &&& path_mask s = p
    · simp only [insert_descend, hc, if_true] at h
      exact mem_leaves_inner.mpr ⟨_, ih _ h⟩
    · simp only [insert_descend, hc, if_false] at h
      exact h

/-- The insert descent stops at the leaf of the key when the key is stored. -/
theorem insert_descend_of_mem {key v : Nat} (hk : key < 2 ^ 64) {t : critnib_node} :
    WF t → (key, v) ∈ leaves t → ∃ a, (insert_descend key t).2 = .leaf a key v := by
  induction t with
  | null => intro _ h; simp [leaves] at h
  | leaf a' k' v' =>
    intro _ h
    simp [leaves] at h
    exact ⟨a', by simp [insert_descend, h.1, h.2]⟩
  | inner a' ch p s ih =>
    intro hw h
    obtain ⟨i, hi⟩ := mem_leaves_inner.mp h
    obtain ⟨_, _, _, hp, _, hch⟩ := hw
    have hkf := key_fits (hch i).1 (hch i).2 hi
    have hs : slice_index key s = i := slice_index_eq (slot_hi hp i.isLt hkf).2
    have hc : key &&& path_mask s = p := (contains_iff hk hp).mpr (slot_hi hp i.isLt hkf).1
    simp only [insert_descend, hc, if_true, hs]
    exact ih i (hch i).1 hi

/-- In a well-formed tree the insert descent never stops at an inner node whose
path is the key. -/
theorem stop_inner_ne {key : Nat} (hk : key < 2 ^ 64) {t : critnib_node} (hw : WF t)
    {a : Nat} {ch : Fin 16 → critnib_node} {p s : Nat}
    (h : (insert_descend key t).2 = .inner a ch p s) : p ≠ key := by
  have hst := stops_insert_descend key t
  have hw' := insert_descend_snd_WF key hw
  rw [h] at hst hw'
  intro e
  apply hst
  rw [(contains_iff hk hw'.2.2.2.1), e]

/-- The body of `critnib_insert` after a successful leaf allocation; on a null
root the descent stops at once and the store goes to the root. -/
theorem critnib_insert_nonnull {c c1 : critnib} (key value update : Nat) {ka : Nat}
    {ba : base_alloc}
    (hal : alloc_leaf c ba.leaf = (some ka, c1)) :
    critnib_insert c key value update ba =
      match (insert_descend key c.root).2 with
      | .null =>
        some (0, { c1 with
          root := store c.root (insert_descend key c.root).1 (.leaf ka key value) })
      | n =>
        if node_path n ^^^ key = 0 then
          match n with
          | .leaf a k' _ =>
            if update ≠ 0 then
              some (0, { free_leaf c1 (some ka) with
                root := store c.root (insert_descend key c.root).1 (.leaf a k' value) })
            else some (EEXIST, free_leaf c1 (some ka))
          | _ => none
        else
          match alloc_node c1 ba.node with
          | (none, _) => some (ENOMEM, free_leaf c1 (some ka))
          | (some m, c2) =>
            some (0, { c2 with
              root := store c.root (insert_descend key c.root).1
                (split_node m ba.junk key (.leaf ka key value) n) }) := by
  have hr : c1.root = c.root := by
    have := (alloc_leaf_fst_snd c ba.leaf).1
    rw [hal] at this; exact this
  unfold critnib_insert
  rw [hal]
  simp only [hr]
  rcases c.root with _ | ⟨ra, rk, rv⟩ | ⟨ra, rch, rp, rs⟩ <;> rfl

/-- The outcomes of `critnib_insert`, by the answer of the leaf allocation, the
node at which the descent stops and the answer of the node allocation. -/
theorem critnib_insert_cases (c : critnib) (key value update : Nat) (ba : base_alloc) :
    ((alloc_leaf c ba.leaf).1 = none ∧
      critnib_insert c key value update ba = some (ENOMEM, c)) ∨
    ∃ ka, (alloc_leaf c ba.leaf).1 = some ka ∧
      (((insert_descend key c.root).2 = .null ∧ ∃ c', c'.remove_count = c.remove_count ∧
          (∀ m, c'.root = rebuild (insert_at (.leaf ka key value) m ba.junk key value) key c.root) ∧
          critnib_insert c key value update ba = some (0, c')) ∨
       (∃ a v, (insert_descend key c.root).2 = .leaf a key v ∧ update ≠ 0 ∧
          ∃ c', c'.remove_count = c.remove_count ∧
          (∀ m, c'.root = rebuild (insert_at (.leaf ka key value) m ba.junk key value) key c.root) ∧
          critnib_insert c key value update ba = some (0, c')) ∨
       (∃ a v, (insert_descend key c.root).2 = .leaf a key v ∧ update = 0 ∧
          ∃ c', c'.remove_count = c.remove_count ∧ c'.root = c.root ∧
          critnib_insert c key value update ba = some (EEXIST, c')) ∨
       (∃ a ch s, (insert_descend key c.root).2 = .inner a ch key s ∧
          critnib_insert c key value update ba = none) ∨
       ((insert_descend key c.root).2 ≠ .null ∧ node_path (insert_descend key c.root).2 ≠ key ∧
          (alloc_node c ba.node).1 = none ∧
          ∃ c', c'.remove_count = c.remove_count ∧ c'.root = c.root ∧
          critnib_insert c key value update ba = some (ENOMEM, c')) ∨
       ((insert_descend key c.root).2 ≠ .null ∧ node_path (insert_descend key c.root).2 ≠ key ∧
          ∃ m, (alloc_node c ba.node).1 = some m ∧
          ∃ c', c'.remove_count = c.remove_count ∧
          c'.root = rebuild (insert_at (.leaf ka key value) m ba.junk key value) key c.root ∧
          critnib_insert c key value update ba = some (0, c'))) := by
  obtain ⟨hr, hrc, hdn⟩ := alloc_leaf_fst_snd c ba.leaf
  rcases hal : alloc_leaf c ba.leaf with ⟨_ | ka, c1⟩
  · left
    simp [critnib_insert, hal]
  · right
    rw [hal] at hr hrc hdn
    simp only at hr hrc hdn
    refine ⟨ka, rfl, ?_⟩
    have hreb : ∀ m, rebuild (insert_at (.leaf ka key value) m ba.junk key value) key c.root =
        store c.root (insert_descend key c.root).1
          (insert_at (.leaf ka key value) m ba.junk key value (insert_descend key c.root).2) :=
      fun m => rfl
    obtain ⟨hnr, hnrc⟩ := alloc_node_fst_snd c1 ba.node
    have hsame : (alloc_node c ba.node).1 = (alloc_node c1 ba.node).1 := by
      simp only [alloc_node, hdn]
      split <;> rfl
    have hins := critnib_insert_nonnull key value update hal
    rcases hn : (insert_descend key c.root).2 with _ | ⟨a, k', v'⟩ | ⟨a, ch, p, s⟩
    · left
      refine ⟨rfl, { c1 with
          root := rebuild (insert_at (.leaf ka key value) 0 ba.junk key value) key c.root },
        hrc, ?_, ?_⟩
      · intro m
        simp only [hreb, hn, insert_at]
      · rw [hins]
        simp only [hreb, hn, insert_at]
    · right
      by_cases hkk : key = k'
      · subst hkk
        by_cases hu : update = 0
        · right; left
          refine ⟨a, v', rfl, hu, free_leaf c1 (some ka), by simpa [free_leaf] using hrc,
            by simpa [free_leaf] using hr, ?_⟩
          rw [hins]
          simp [hn, node_path, hu]
        · left
          refine ⟨a, v', rfl, hu,
            { free_leaf c1 (some ka) with
              root := rebuild (insert_at (.leaf ka key value) 0 ba.junk key value) key c.root },
            by simpa [free_leaf] using hrc, ?_, ?_⟩
          · intro m
            simp only [hreb, hn, insert_at, Nat.xor_self, if_true]
          · rw [hins]
            simp [hreb, hn, insert_at, node_path, hu]
      · right; right; right
        have hx : k' ^^^ key ≠ 0 := fun h => hkk (Nat.xor_eq_zero.mp h).symm
        rcases han : alloc_node c1 ba.node with ⟨_ | m, c2⟩
        · left
          rw [han] at hsame
          refine ⟨by simp, by simpa [node_path] using fun h => hkk h.symm, hsame,
            free_leaf c1 (some ka),
            by simpa [free_leaf] using hrc, by simpa [free_leaf] using hr, ?_⟩
          rw [hins]
          simp [hn, node_path, hx, han]
        · right
          rw [han] at hsame hnr hnrc
          simp only at hnr hnrc
          refine ⟨by simp, by simpa [node_path] using fun h => hkk h.symm, m, hsame,
            { c2 with
              root := rebuild (insert_at (.leaf ka key value) m ba.junk key value) key c.root },
            by simp [hnrc, hrc], rfl, ?_⟩
          rw [hins]
          simp [hreb, hn, insert_at, node_path, hx, han]
    · right; right; right
      by_cases hkk : key = p
      · subst hkk
        left
        refine ⟨a, ch, s, rfl, ?_⟩
        rw [hins]
        simp [hn, node_path]
      · right
        have hx : p ^^^ key ≠ 0 := fun h => hkk (Nat.xor_eq_zero.mp h).symm
        rcases han : alloc_node c1 ba.node with ⟨_ | m, c2⟩
        · left
          rw [han] at hsame
          refine ⟨by simp, by simpa [node_path] using fun h => hkk h.symm, hsame,
            free_leaf c1 (some ka),
            by simpa [free_leaf] using hrc, by simpa [free_leaf] using hr, ?_⟩
          rw [hins]
          simp [hn, node_path, hx, han]
        · right
          rw [han] at hsame hnr hnrc
          simp only at hnr hnrc
          refine ⟨by simp, by simpa [node_path] using fun h => hkk h.symm, m, hsame,
            { c2 with
              root := rebuild (insert_at (.leaf ka key value) m ba.junk key value) key c.root },
            by simp [hnrc, hrc], rfl, ?_⟩
          rw [hins]
          simp [hreb, hn, insert_at, node_path, hx, han]


/-! ## Remove -/

theorem remove_scan_acc (ch : Fin 16 → critnib_node) (o0 : Fin 16) :
    ∀ l : List (Fin 16),
      (remove_scan ch l (some o0) = none ∧ ∃ j ∈ l, ch j ≠ .null) ∨
      (remove_scan ch l (some o0) = some (some o0) ∧ ∀ i ∈ l, ch i = .null) := by
  intro l
  induction l with
  | nil => right; simp [remove_scan]
  | cons j l ih =>
    by_cases hj : (ch j).isNull = true
    · simp only [remove_scan, hj, if_true]
      rcases ih with ⟨h1, i, hi, hn⟩ | ⟨h1, h2⟩
      · left; exact ⟨h1, i, List.mem_cons_of_mem _ hi, hn⟩
      · right
        refine ⟨h1, ?_⟩
        intro i hi
        rcases List.mem_cons.mp hi with e | e
        · rw [e]; exact isNull_iff.mp hj
        · exact h2 i e
    · left
      simp only [remove_scan, hj]
      refine ⟨by simp, j, List.mem_cons_self _ _, ?_⟩
      intro e; rw [e] at hj; simp [critnib_node.isNull] at hj

/-- What the scan for remaining children of `critnib_remove` finds. -/
theorem remove_scan_spec (ch : Fin 16 → critnib_node) :
    ∀ l : List (Fin 16), l.Nodup →
      (remove_scan ch l none = none ∧
        ∃ i j, i ∈ l ∧ j ∈ l ∧ i ≠ j ∧ ch i ≠ .null ∧ ch j ≠ .null) ∨
      (∃ o, remove_scan ch l none = some (some o) ∧ o ∈ l ∧ ch o ≠ .null ∧
        ∀ i ∈ l, i ≠ o → ch i = .null) ∨
      (remove_scan ch l none = some none ∧ ∀ i ∈ l, ch i = .null) := by
  intro l
  induction l with
  | nil => intro _; right; right; simp [remove_scan]
  | cons j l ih =>
    intro hnd
    have hjl : j ∉ l := (List.nodup_cons.mp hnd).1
    by_cases hj : (ch j).isNull = true
    · have hjn := isNull_iff.mp hj
      simp only [remove_scan, hj, if_true]
      rcases ih (List.nodup_cons.mp hnd).2 with ⟨h1, i, i', hi, hi', hne, hn, hn'⟩ |
        ⟨o, h1, ho, hon, h2⟩ | ⟨h1, h2⟩
      · left
        exact ⟨h1, i, i', List.mem_cons_of_mem _ hi, List.mem_cons_of_mem _ hi', hne, hn, hn'⟩
      · right; left
        refine ⟨o, h1, List.mem_cons_of_mem _ ho, hon, ?_⟩
        intro i hi hio
        rcases List.mem_cons.mp hi with e | e
        · rw [e]; exact hjn
        · exact h2 i e hio
      · right; right
        refine ⟨h1, ?_⟩
        intro i hi
        rcases List.mem_cons.mp hi with e | e
        · rw [e]; exact hjn
        · exact h2 i e
    · have hjn : ch j ≠ .null := by
        intro e; rw [e] at hj; simp [critnib_node.isNull] at hj
      simp only [remove_scan, hj]
      rcases remove_scan_acc ch j l with ⟨h1, i, hi, hn⟩ | ⟨h1, h2⟩
      · left
        refine ⟨by simpa using h1, j, i, List.mem_cons_self _ _, List.mem_cons_of_mem _ hi, ?_,
          hjn, hn⟩
        intro e; rw [e] at hjl; exact hjl hi
      · right; left
        refine ⟨j, by simpa using h1, List.mem_cons_self _ _, hjn, ?_⟩
        intro i hi hij
        rcases List.mem_cons.mp hi with e | e
        · exact absurd e hij
        · exact h2 i e

theorem remove_scan_full (ch : Fin 16 → critnib_node) :
    (remove_scan ch (List.finRange 16) none = none ∧
        ∃ i j, i ≠ j ∧ ch i ≠ .null ∧ ch j ≠ .null) ∨
      (∃ o, remove_scan ch (List.finRange 16) none = some (some o) ∧ ch o ≠ .null ∧
        ∀ i, i ≠ o → ch i = .null) ∨
      (remove_scan ch (List.finRange 16) none = some none ∧ ∀ i, ch i = .null) := by
  rcases remove_scan_spec ch _ (List.nodup_finRange 16) with ⟨h1, i, j, _, _, h⟩ |
    ⟨o, h1, _, hon, h2⟩ | ⟨h1, h2⟩
  · exact Or.inl ⟨h1, i, j, h⟩
  · exact Or.inr (Or.inl ⟨o, h1, hon, fun i hi => h2 i (List.mem_finRange i) hi⟩)
  · exact Or.inr (Or.inr ⟨h1, fun i => h2 i (List.mem_finRange i)⟩)

theorem remove_rebuild_in (G : critnib_node → critnib_node) {key a p s : Nat}
    {ch : Fin 16 → critnib_node} {a' p' s' : Nat} {ch' : Fin 16 → critnib_node}
    (h : ch (slice_index key s) = .inner a' ch' p' s') :
    remove_rebuild G key (.inner a ch p s) =
      .inner a (Function.update ch (slice_index key s)
        (remove_rebuild G key (ch (slice_index key s)))) p s := by
  simp only [remove_rebuild, remove_descend]
  rw [h]
  simp only [store]
  rw [h]

theorem remove_rebuild_out (G : critnib_node → critnib_node) {key a p s : Nat}
    {ch : Fin 16 → critnib_node}
    (h : ∀ a' ch' p' s', ch (slice_index key s) ≠ .inner a' ch' p' s') :
    remove_rebuild G key (.inner a ch p s) = G (.inner a ch p s) := by
  simp only [remove_rebuild, remove_descend]
  rcases hc : ch (slice_index key s) with _ | ⟨a', k', v'⟩ | ⟨a', ch', p', s'⟩
  · simp [store]
  · simp [store]
  · exact absurd hc (h _ _ _ _)

theorem remove_descend_kn (key : Nat) (t : critnib_node) :
    ∀ {a ch p s}, t = .inner a ch p s → (remove_descend key t).2.2 = get_descend key t := by
  induction t with
  | null => intro a ch p s h; cases h
  | leaf a' k' v' => intro a ch p s h; cases h
  | inner a' ch' p' s' ih =>
    intro a ch p s _
    simp only [remove_descend, get_descend]
    rcases hc : ch' (slice_index key s') with _ | ⟨a2, k2, v2⟩ | ⟨a2, ch2, p2, s2⟩
    · simp [get_descend]
    · simp [get_descend]
    · simp only
      rw [← hc]
      exact ih _ hc

theorem remove_descend_n (key : Nat) (t : critnib_node) :
    ∀ {a ch p s}, t = .inner a ch p s →
      ∃ na nch np ns, (remove_descend key t).2.1 = .inner na nch np ns ∧
        (remove_descend key t).2.2 = nch (slice_index key ns) := by
  induction t with
  | null => intro a ch p s h; cases h
  | leaf a' k' v' => intro a ch p s h; cases h
  | inner a' ch' p' s' ih =>
    intro a ch p s _
    simp only [remove_descend]
    rcases hc : ch' (slice_index key s') with _ | ⟨a2, k2, v2⟩ | ⟨a2, ch2, p2, s2⟩
    · exact ⟨a', ch', p', s', rfl, hc.symm⟩
    · exact ⟨a', ch', p', s', rfl, hc.symm⟩
    · simp only
      rw [← hc]
      exact ih _ hc

/-- Unlinking the key's leaf from the inner node above it keeps the shape
invariant and removes exactly the key. -/
theorem remove_at_spec {key v la : Nat} {na : Nat} {ch : Fin 16 → critnib_node} {p s b hi : Nat}
    (hw : WF (.inner na ch p s)) (hf : fits (.inner na ch p s) b hi)
    (hleaf : ch (slice_index key s) = .leaf la key v) :
    remove_scan (Function.update ch (slice_index key s) .null) (List.finRange 16) none ≠
      some none ∧
    WF (remove_at key (.inner na ch p s)) ∧ fits (remove_at key (.inner na ch p s)) b hi ∧
    remove_at key (.inner na ch p s) ≠ .null ∧
    ∀ k v', (k, v') ∈ leaves (remove_at key (.inner na ch p s)) ↔
      k ≠ key ∧ (k, v') ∈ leaves (.inner na ch p s) := by
  obtain ⟨hs4, hs, hpw, hp, ⟨i0, j0, hij, hi0, hj0⟩, hch⟩ := hw
  have hslot : ∀ i k v', (k, v') ∈ leaves (ch i) → (k = key ↔ i = slice_index key s) := by
    intro i k v' hm
    have h1 := key_fits (hch i).1 (hch i).2 hm
    constructor
    · intro e
      rw [e] at h1
      exact (slice_index_eq (slot_hi hp i.isLt h1).2).symm
    · intro e
      rw [e, hleaf] at hm
      simp [leaves] at hm
      exact hm.1
  have hmem : ∀ k v', (∃ i, i ≠ slice_index key s ∧ (k, v') ∈ leaves (ch i)) ↔
      k ≠ key ∧ (k, v') ∈ leaves (.inner na ch p s) := by
    intro k v'
    rw [mem_leaves_inner]
    constructor
    · rintro ⟨i, hne, hm⟩
      exact ⟨fun e => hne ((hslot i k v' hm).mp e), i, hm⟩
    · rintro ⟨hne, i, hm⟩
      exact ⟨i, fun e => hne ((hslot i k v' hm).mpr e), hm⟩
  have hc1 : ∀ i, i ≠ slice_index key s →
      Function.update ch (slice_index key s) .null i = ch i :=
    fun i h => Function.update_noteq h _ _
  have hc0 : Function.update ch (slice_index key s) .null (slice_index key s) = .null :=
    Function.update_same _ _ _
  rcases remove_scan_full (Function.update ch (slice_index key s) .null) with
    ⟨h1, h2⟩ | ⟨o, h1, hon, h2⟩ | ⟨h1, h2⟩
  · refine ⟨by rw [h1]; simp, ?_⟩
    simp only [remove_at, h1]
    refine ⟨⟨hs4, hs, hpw, hp, h2, ?_⟩, hf, by simp, ?_⟩
    · intro i
      by_cases e : i = slice_index key s
      · rw [e, hc0]; exact ⟨trivial, trivial⟩
      · rw [hc1 i e]; exact hch i
    · intro k v'
      rw [← hmem, mem_leaves_inner]
      constructor
      · rintro ⟨i, hm⟩
        by_cases e : i = slice_index key s
        · rw [e, hc0] at hm; simp [leaves] at hm
        · rw [hc1 i e] at hm; exact ⟨i, e, hm⟩
      · rintro ⟨i, e, hm⟩
        exact ⟨i, by rw [hc1 i e]; exact hm⟩
  · have hos : o ≠ slice_index key s := by
      intro e; rw [e, hc0] at hon; exact hon rfl
    refine ⟨by rw [h1]; simp, ?_⟩
    simp only [remove_at, h1]
    rw [hc1 o hos]
    refine ⟨(hch o).1, hf.2 ▸ fits_child hp o.isLt hf.1 (hch o).2, ?_, ?_⟩
    · rw [← hc1 o hos]; exact hon
    · intro k v'
      rw [← hmem]
      constructor
      · intro hm; exact ⟨o, hos, hm⟩
      · rintro ⟨i, e, hm⟩
        by_cases eo : i = o
        · rw [← eo]; exact hm
        · have := h2 i eo
          rw [hc1 i e] at this
          rw [this] at hm; simp [leaves] at hm
  · exfalso
    by_cases e : i0 = slice_index key s
    · have : j0 ≠ slice_index key s := fun h => hij (e.trans h.symm)
      have h3 := h2 j0
      rw [hc1 j0 this] at h3
      exact hj0 h3
    · have h3 := h2 i0
      rw [hc1 i0 e] at h3
      exact hi0 h3

/-- The descent and store of `critnib_remove` keep the shape invariant and
remove exactly the key, when the key is stored below the inner node `t`. -/
theorem remove_rebuild_spec {key v : Nat} :
    ∀ (t : critnib_node) (b hi : Nat), WF t → fits t b hi → (key, v) ∈ leaves t →
      (∃ a ch p s, t = .inner a ch p s) →
      WF (remove_rebuild (remove_at key) key t) ∧
      fits (remove_rebuild (remove_at key) key t) b hi ∧
      remove_rebuild (remove_at key) key t ≠ .null ∧
      ∀ k v', (k, v') ∈ leaves (remove_rebuild (remove_at key) key t) ↔
        k ≠ key ∧ (k, v') ∈ leaves t := by
  intro t
  induction t with
  | null => intro b hi _ _ _ h; obtain ⟨_, _, _, _, h⟩ := h; cases h
  | leaf a k' v' => intro b hi _ _ _ h; obtain ⟨_, _, _, _, h⟩ := h; cases h
  | inner a ch p s ih =>
    intro b hi hw hf hm _
    obtain ⟨i, hmi⟩ := mem_leaves_inner.mp hm
    have hw' := hw
    obtain ⟨hs4, hs, hpw, hp, h2, hch⟩ := hw
    have hki := key_fits (hch i).1 (hch i).2 hmi
    have hsi : slice_index key s = i := slice_index_eq (slot_hi hp i.isLt hki).2
    rcases hc : ch (slice_index key s) with _ | ⟨a2, k2, v2⟩ | ⟨a2, ch2, p2, s2⟩
    · rw [hsi] at hc; rw [hc] at hmi; simp [leaves] at hmi
    · have hk2 : k2 = key ∧ v2 = v := by
        rw [hsi] at hc; rw [hc] at hmi; simp [leaves] at hmi
        exact ⟨hmi.1.symm, hmi.2.symm⟩
      rw [hk2.1, hk2.2] at hc
      rw [remove_rebuild_out _ (by intro a' ch' p' s' h; rw [hc] at h; cases h)]
      exact (remove_at_spec hw' hf hc).2
    · rw [remove_rebuild_in _ hc]
      obtain ⟨w1, w2, w3, w4⟩ := ih (slice_index key s) s _ (hch _).1 (hch _).2
        (by rw [hsi]; exact hmi) ⟨_, _, _, _, hc⟩
      refine ⟨⟨hs4, hs, hpw, hp, update_ne_null w3 h2, ?_⟩, hf, by simp, ?_⟩
      · intro j
        rw [Function.update_apply]
        split
        · next e => rw [e]; exact ⟨w1, w2⟩
        · exact hch j
      · intro k v'
        rw [mem_leaves_inner, mem_leaves_inner]
        constructor
        · rintro ⟨j, hj⟩
          rw [Function.update_apply] at hj
          split at hj
          · obtain ⟨h1, h2'⟩ := (w4 k v').mp hj
            exact ⟨h1, _, h2'⟩
          · next hne =>
            refine ⟨?_, j, hj⟩
            intro e
            apply hne
            have hkj := key_fits (hch j).1 (hch j).2 hj
            rw [e] at hkj
            exact (slice_index_eq (slot_hi hp j.isLt hkj).2).symm
        · rintro ⟨h1, j, hj⟩
          by_cases e : j = slice_index key s
          · refine ⟨j, ?_⟩
            rw [e, Function.update_same]
            exact (w4 k v').mpr ⟨h1, e ▸ hj⟩
          · exact ⟨j, by rw [Function.update_noteq e]; exact hj⟩


theorem free_node_root (c : critnib) (x : Option Nat) : (free_node c x).root = c.root := by
  cases x <;> rfl

theorem free_node_remove_count (c : critnib) (x : Option Nat) :
    (free_node c x).remove_count = c.remove_count := by
  cases x <;> rfl

theorem free_leaf_root (c : critnib) (x : Option Nat) : (free_leaf c x).root = c.root := by
  cases x <;> rfl

theorem free_leaf_remove_count (c : critnib) (x : Option Nat) :
    (free_leaf c x).remove_count = c.remove_count := by
  cases x <;> rfl

theorem remove_descend_n_WF {key : Nat} {t : critnib_node} (hw : WF t) :
    WF (remove_descend key t).2.1 := by
  induction t with
  | null => exact hw
  | leaf a k v => exact hw
  | inner a ch p s ih =>
    simp only [remove_descend]
    rcases hc : ch (slice_index key s) with _ | ⟨a2, k2, v2⟩ | ⟨a2, ch2, p2, s2⟩
    · exact hw
    · exact hw
    · simp only
      rw [← hc]
      exact ih _ (hw.2.2.2.2.2 _).1

theorem fits_root {t : critnib_node} (hw : WF t) : fits t 64 0 := by
  cases t with
  | null => trivial
  | leaf a k v => exact Nat.div_eq_of_lt hw
  | inner a ch p s => exact ⟨hw.2.1, Nat.div_eq_of_lt hw.2.2.1⟩

/-- The tree left by a successful `critnib_remove` is well formed and holds the
old pairs but the key's. -/
theorem remove_tree_spec {key v : Nat} {t : critnib_node} (hw : WF t)
    (hm : (key, v) ∈ leaves t) :
    WF (remove_tree key t) ∧
    ∀ k v', (k, v') ∈ leaves (remove_tree key t) ↔ k ≠ key ∧ (k, v') ∈ leaves t := by
  cases t with
  | null => simp [leaves] at hm
  | leaf a k' v' =>
    simp [leaves] at hm
    refine ⟨trivial, ?_⟩
    intro k v2
    simp only [remove_tree, leaves, List.mem_singleton, Prod.mk.injEq]
    constructor
    · intro h; simp at h
    · rintro ⟨h1, h2, _⟩
      exact absurd (h2.trans hm.1.symm) h1
  | inner a ch p s =>
    obtain ⟨w1, _, _, w4⟩ := remove_rebuild_spec _ 64 0 hw (fits_root hw) hm ⟨_, _, _, _, rfl⟩
    exact ⟨w1, w4⟩

theorem critnib_remove_null {c : critnib} (key : Nat) (h : c.root = .null) :
    critnib_remove c key = some (0, c) := by
  simp [critnib_remove, h]

/-- `critnib_remove` of a key that the dive does not reach: null is returned and
the tree is unchanged, while the counter (of a non-empty map) moves on. -/
theorem critnib_remove_absent {c : critnib} {key : Nat} (hr : c.root ≠ .null)
    (h : ∀ a v, get_descend key c.root ≠ .leaf a key v) :
    ∃ c', critnib_remove c key = some (0, c') ∧ c'.root = c.root ∧
      c'.remove_count = (c.remove_count + 1) % WORD := by
  rcases hroot : c.root with _ | ⟨ra, rk, rv⟩ | ⟨ra, rch, rp, rs⟩
  · exact absurd hroot hr
  · have hne : rk ≠ key := by
      intro e
      apply h ra rv
      rw [hroot, e]; rfl
    simp only [critnib_remove, hroot, hne, if_false]
    refine ⟨_, rfl, ?_, ?_⟩
    · simp [free_node_root, free_leaf_root, free_node_remove_count, free_leaf_remove_count, hroot]
    · simp [free_node_root, free_leaf_root, free_node_remove_count, free_leaf_remove_count, utils_atomic_increment_u64]
  · obtain ⟨na, nch, np, ns, hn1, hn2⟩ := remove_descend_n key (.inner ra rch rp rs) rfl
    have hkn := remove_descend_kn key (.inner ra rch rp rs) rfl
    rw [hroot] at h
    have hpair : (remove_descend key (.inner ra rch rp rs)).2 =
        (.inner na nch np ns, get_descend key (.inner ra rch rp rs)) := by
      rw [← hn1, ← hkn]
    simp only [critnib_remove, hroot, hpair]
    rcases hg : get_descend key (.inner ra rch rp rs) with _ | ⟨a, k, v⟩ | ⟨a, ch, p, s⟩
    · simp only
      refine ⟨_, rfl, ?_, ?_⟩
      · simp [free_node_root, free_leaf_root, free_node_remove_count, free_leaf_remove_count, hroot]
      · simp [free_node_root, free_leaf_root, free_node_remove_count, free_leaf_remove_count, utils_atomic_increment_u64]
    · have hne : k ≠ key := by
        intro e
        apply h a v
        rw [hg, e]
      simp only [hne, ne_eq, not_false_eq_true, if_true]
      refine ⟨_, rfl, ?_, ?_⟩
      · simp [free_node_root, free_leaf_root, free_node_remove_count, free_leaf_remove_count, hroot]
      · simp [free_node_root, free_leaf_root, free_node_remove_count, free_leaf_remove_count, utils_atomic_increment_u64]
    · exact absurd hg get_descend_not_inner

/-- `critnib_remove` of a key that the dive reaches in a well-formed tree: the
stored value is returned, the tree is `remove_tree`, the counter moves on. -/
theorem critnib_remove_present {c : critnib} {key a v : Nat} (hw : WF c.root)
    (h : get_descend key c.root = .leaf a key v) :
    ∃ c', critnib_remove c key = some (v, c') ∧ c'.root = remove_tree key c.root ∧
      c'.remove_count = (c.remove_count + 1) % WORD := by
  rcases hroot : c.root with _ | ⟨ra, rk, rv⟩ | ⟨ra, rch, rp, rs⟩
  · rw [hroot] at h; simp [get_descend] at h
  · rw [hroot] at h
    simp [get_descend] at h
    obtain ⟨_, hk, hv⟩ := h
    simp only [critnib_remove, hroot, hk, if_true]
    refine ⟨_, by rw [hv], ?_, ?_⟩
    · simp [free_node_root, free_leaf_root, free_node_remove_count, free_leaf_remove_count, remove_tree]
    · simp [free_node_root, free_leaf_root, free_node_remove_count, free_leaf_remove_count, utils_atomic_increment_u64]
  · obtain ⟨na, nch, np, ns, hn1, hn2⟩ := remove_descend_n key (.inner ra rch rp rs) rfl
    have hkn := remove_descend_kn key (.inner ra rch rp rs) rfl
    rw [hroot] at h hw
    have hpair : (remove_descend key (.inner ra rch rp rs)).2 =
        (.inner na nch np ns, .leaf a key v) := by
      rw [← hn1, ← h, ← hkn]
    rw [hkn, h] at hn2
    have hwn : WF (.inner na nch np ns) ∧
        fits (.inner na nch np ns) (ns + 4) (np / 2 ^ (ns + 4)) := by
      rw [← hn1]
      refine ⟨remove_descend_n_WF hw, ?_⟩
      rw [hn1]
      exact ⟨le_refl _, rfl⟩
    have hscan := (remove_at_spec hwn.1 hwn.2 hn2.symm).1
    simp only [critnib_remove, hroot, hpair, ne_eq, not_true_eq_false, if_false]
    rcases hs : remove_scan (Function.update nch (slice_index key ns) .null)
      (List.finRange 16) none with _ | _ | o
    · simp only
      refine ⟨_, rfl, ?_, ?_⟩
      · simp [free_node_root, free_leaf_root, free_node_remove_count, free_leaf_remove_count, remove_tree, remove_rebuild, hn1, remove_at, hs]
      · simp [free_node_root, free_leaf_root, free_node_remove_count, free_leaf_remove_count, utils_atomic_increment_u64]
    · exact absurd hs hscan
    · simp only
      refine ⟨_, rfl, ?_, ?_⟩
      · simp [free_node_root, free_leaf_root, free_node_remove_count, free_leaf_remove_count, remove_tree, remove_rebuild, hn1, remove_at, hs]
      · simp [free_node_root, free_leaf_root, free_node_remove_count, free_leaf_remove_count, utils_atomic_increment_u64]


/-! ## Ordered lookup -/

theorem scan_down_spec (ch : Fin 16 → critnib_node) :
    ∀ n, n ≤ 16 →
      (scan_down ch n = none ∧ ∀ i : Fin 16, i.val < n → ch i = .null) ∨
      ∃ i, scan_down ch n = some i ∧ i.val < n ∧ ch i ≠ .null ∧
        ∀ j : Fin 16, i.val < j.val → j.val < n → ch j = .null := by
  intro n
  induction n with
  | zero => intro _; left; simp [scan_down]
  | succ n ih =>
    intro hn
    have hlt : n < 16 := by omega
    by_cases hz : (ch ⟨n, hlt⟩).isNull = true
    · have hnull := isNull_iff.mp hz
      simp only [scan_down, hlt, dite_true, hz, if_true]
      rcases ih (by omega) with ⟨h1, h2⟩ | ⟨i, h1, h2, h3, h4⟩
      · left
        refine ⟨h1, ?_⟩
        intro i hi
        by_cases e : i.val = n
        · have : i = ⟨n, hlt⟩ := Fin.ext e
          rw [this]; exact hnull
        · exact h2 i (by omega)
      · right
        refine ⟨i, h1, by omega, h3, ?_⟩
        intro j hj1 hj2
        by_cases e : j.val = n
        · have : j = ⟨n, hlt⟩ := Fin.ext e
          rw [this]; exact hnull
        · exact h4 j hj1 (by omega)
    · right
      refine ⟨⟨n, hlt⟩, by simp [scan_down, hlt, hz], by simp, ?_, ?_⟩
      · intro e; rw [e] at hz; simp [critnib_node.isNull] at hz
      · intro j hj1 hj2
        simp at hj1
        omega

theorem scan_up_spec (ch : Fin 16 → critnib_node) :
    ∀ n, n ≤ 16 →
      (scan_up ch n = none ∧ ∀ i : Fin 16, 16 - n ≤ i.val → ch i = .null) ∨
      ∃ i, scan_up ch n = some i ∧ 16 - n ≤ i.val ∧ ch i ≠ .null ∧
        ∀ j : Fin 16, 16 - n ≤ j.val → j.val < i.val → ch j = .null := by
  intro n
  induction n with
  | zero =>
    intro _; left
    refine ⟨rfl, ?_⟩
    intro i hi
    have := i.isLt
    omega
  | succ n ih =>
    intro hn
    have hlt : 16 - (n + 1) < 16 := by omega
    have hunf : scan_up ch (n + 1) =
        if (ch ⟨16 - (n + 1), hlt⟩).isNull then scan_up ch n else some ⟨16 - (n + 1), hlt⟩ := by
      rw [scan_up, dif_pos hlt]
    rw [hunf]
    by_cases hz : (ch ⟨16 - (n + 1), hlt⟩).isNull = true
    · have hnull := isNull_iff.mp hz
      rw [if_pos hz]
      rcases ih (by omega) with ⟨h1, h2⟩ | ⟨i, h1, h2, h3, h4⟩
      · left
        refine ⟨h1, ?_⟩
        intro i hi
        by_cases e : i.val = 16 - (n + 1)
        · have : i = ⟨16 - (n + 1), hlt⟩ := Fin.ext e
          rw [this]; exact hnull
        · exact h2 i (by omega)
      · right
        refine ⟨i, h1, by omega, h3, ?_⟩
        intro j hj1 hj2
        by_cases e : j.val = 16 - (n + 1)
        · have : j = ⟨16 - (n + 1), hlt⟩ := Fin.ext e
          rw [this]; exact hnull
        · exact h4 j (by omega) hj2
    · right
      rw [if_neg hz]
      refine ⟨⟨16 - (n + 1), hlt⟩, rfl, le_refl _, ?_, ?_⟩
      · intro e; rw [e] at hz; exact hz rfl
      · intro j hj1 hj2
        have : j.val < 16 - (n + 1) := hj2
        omega

/-- Keys of a lower slot are smaller than keys of a higher slot. -/
theorem slot_order {a : Nat} {ch : Fin 16 → critnib_node} {p s : Nat}
    (hw : WF (.inner a ch p s)) {i j : Fin 16} (hij : i.val < j.val) {k1 v1 k2 v2 : Nat}
    (h1 : (k1, v1) ∈ leaves (ch i)) (h2 : (k2, v2) ∈ leaves (ch j)) : k1 < k2 := by
  obtain ⟨_, _, _, _, _, hch⟩ := hw
  have e1 := key_fits (hch i).1 (hch i).2 h1
  have e2 := key_fits (hch j).1 (hch j).2 h2
  by_contra hge
  have := Nat.div_le_div_right (c := 2 ^ s) (Nat.le_of_not_lt hge)
  omega

theorem find_predecessor_leaf (a k v : Nat) :
    find_predecessor (.leaf a k v) = .leaf a k v := rfl

/-- The rightmost leaf below a non-null pointer of a well-formed tree holds the
largest key. -/
theorem find_predecessor_spec {t : critnib_node} : WF t → t ≠ .null →
    ∃ a k v, find_predecessor t = .leaf a k v ∧ (k, v) ∈ leaves t ∧
      ∀ k' v', (k', v') ∈ leaves t → k' ≤ k := by
  induction t with
  | null => intro _ h; exact absurd rfl h
  | leaf a k v =>
    intro _ _
    refine ⟨a, k, v, rfl, by simp [leaves], ?_⟩
    intro k' v' h
    simp [leaves] at h
    omega
  | inner a ch p s ih =>
    intro hw _
    have hw' := hw
    obtain ⟨_, _, _, _, ⟨i0, _, _, hi0, _⟩, hch⟩ := hw
    rcases scan_down_spec ch 16 (le_refl _) with ⟨_, h2⟩ | ⟨nib, h1, _, h3, h4⟩
    · exact absurd (h2 i0 i0.isLt) hi0
    · obtain ⟨a', k, v, e, hm, hmax⟩ := ih nib (hch nib).1 h3
      have hres : find_predecessor (.inner a ch p s) = find_predecessor (ch nib) := by
        simp only [find_predecessor, h1]
        rcases hc : ch nib with _ | ⟨a2, k2, v2⟩ | ⟨a2, ch2, p2, s2⟩
        · exact absurd hc h3
        · rfl
        · simp only
      refine ⟨a', k, v, by rw [hres, e], mem_leaves_inner.mpr ⟨nib, hm⟩, ?_⟩
      intro k' v' h
      obtain ⟨j, hj⟩ := mem_leaves_inner.mp h
      rcases Nat.lt_trichotomy j.val nib.val with hlt | heq | hgt
      · exact Nat.le_of_lt (slot_order hw' hlt hj hm)
      · have : j = nib := Fin.ext heq
        rw [this] at hj
        exact hmax k' v' hj
      · rw [h4 j hgt j.isLt] at hj
        simp [leaves] at hj

theorem find_successor_leaf (a k v : Nat) :
    find_successor (.leaf a k v) = .leaf a k v := rfl

/-- The leftmost leaf below a non-null pointer of a well-formed tree holds the
smallest key. -/
theorem find_successor_spec {t : critnib_node} : WF t → t ≠ .null →
    ∃ a k v, find_successor t = .leaf a k v ∧ (k, v) ∈ leaves t ∧
      ∀ k' v', (k', v') ∈ leaves t → k ≤ k' := by
  induction t with
  | null => intro _ h; exact absurd rfl h
  | leaf a k v =>
    intro _ _
    refine ⟨a, k, v, rfl, by simp [leaves], ?_⟩
    intro k' v' h
    simp [leaves] at h
    omega
  | inner a ch p s ih =>
    intro hw _
    have hw' := hw
    obtain ⟨_, _, _, _, ⟨i0, _, _, hi0, _⟩, hch⟩ := hw
    rcases scan_up_spec ch 16 (le_refl _) with ⟨_, h2⟩ | ⟨nib, h1, _, h3, h4⟩
    · exact absurd (h2 i0 (by omega)) hi0
    · obtain ⟨a', k, v, e, hm, hmin⟩ := ih nib (hch nib).1 h3
      have hres : find_successor (.inner a ch p s) = find_successor (ch nib) := by
        simp only [find_successor, h1]
        rcases hc : ch nib with _ | ⟨a2, k2, v2⟩ | ⟨a2, ch2, p2, s2⟩
        · exact absurd hc h3
        · rfl
        · simp only
      refine ⟨a', k, v, by rw [hres, e], mem_leaves_inner.mpr ⟨nib, hm⟩, ?_⟩
      intro k' v' h
      obtain ⟨j, hj⟩ := mem_leaves_inner.mp h
      rcases Nat.lt_trichotomy j.val nib.val with hlt | heq | hgt
      · rw [h4 j (by omega) hlt] at hj
        simp [leaves] at hj
      · have : j = nib := Fin.ext heq
        rw [this] at hj
        exact hmin k' v' hj
      · exact Nat.le_of_lt (slot_order hw' hgt hm hj)

theorem key_hi {a : Nat} {ch : Fin 16 → critnib_node} {p s : Nat}
    (hw : WF (.inner a ch p s)) {k v : Nat} (h : (k, v) ∈ leaves (.inner a ch p s)) :
    k / 2 ^ (s + 4) = p / 2 ^ (s + 4) :=
  key_fits (b := s + 4) hw ⟨le_refl _, rfl⟩ h

theorem lt_of_div_lt {x y d : Nat} (h : x / d < y / d) : x < y := by
  by_contra hge
  have := Nat.div_le_div_right (c := d) (Nat.le_of_not_lt hge)
  omega

/-- The search of `find_le` returns the leaf of the largest key at most `q`. -/
theorem find_le_spec {q : Nat} (hq : q < 2 ^ 64) {t : critnib_node} :
    WF t → IsMaxLE t q (find_le q t) := by
  induction t with
  | null => intro _; left; exact ⟨rfl, by intro k v h; simp [leaves] at h⟩
  | leaf a k v =>
    intro _
    by_cases h : k ≤ q
    · right
      refine ⟨a, k, v, by simp [find_le, h], by simp [leaves], h, ?_⟩
      intro k' v' hm _
      simp [leaves] at hm
      omega
    · left
      refine ⟨by simp [find_le, h], ?_⟩
      intro k' v' hm
      simp [leaves] at hm
      omega
  | inner a ch p s ih =>
    intro hw
    have hw' := hw
    obtain ⟨hs4, hs, hpw, hp, h2, hch⟩ := hw
    by_cases htest : ((q ^^^ p) >>> s) &&& wnot NIB = 0
    · have hin := (contain_test hq hpw s).mp htest
      have hslot : q / 2 ^ s = p / 2 ^ s + (slice_index q s).val := by
        rw [slice_index_val]; exact slot_of_hi hp hin
      have hunf : find_le q (.inner a ch p s) =
          match find_le q (ch (slice_index q s)) with
          | .null =>
            match scan_down ch (slice_index q s).val with
            | none => .null
            | some i => find_predecessor (ch i)
          | k => k := by
        simp only [find_le, htest, ne_eq, not_true_eq_false, if_false]
        rcases find_le q (ch (slice_index q s)) with _ | _ | _
        · simp only
          rcases scan_down ch (slice_index q s).val with _ | i
          · rfl
          · simp only
            rcases hc : ch i with _ | _ | _ <;> rfl
        · rfl
        · rfl
      have habove : ∀ (j : Fin 16) k v, (slice_index q s).val < j.val →
          (k, v) ∈ leaves (ch j) → q < k := by
        intro j k v hj hm
        have e := key_fits (hch j).1 (hch j).2 hm
        exact lt_of_div_lt (d := 2 ^ s) (by omega)
      have hbelow : ∀ (j : Fin 16) k v, j.val < (slice_index q s).val →
          (k, v) ∈ leaves (ch j) → k < q := by
        intro j k v hj hm
        have e := key_fits (hch j).1 (hch j).2 hm
        exact lt_of_div_lt (d := 2 ^ s) (by omega)
      rw [hunf]
      rcases ih (slice_index q s) (hch _).1 with ⟨e, hall⟩ | ⟨a', k, v, e, hm, hle, hmax⟩
      · rw [e]
        simp only
        rcases scan_down_spec ch (slice_index q s).val (by omega) with
          ⟨h1, hnone⟩ | ⟨i, h1, hi1, hi2, hi3⟩
        · rw [h1]
          left
          refine ⟨rfl, ?_⟩
          intro k v hmem
          obtain ⟨j, hj⟩ := mem_leaves_inner.mp hmem
          rcases Nat.lt_trichotomy j.val (slice_index q s).val with hlt | heq | hgt
          · rw [hnone j hlt] at hj; simp [leaves] at hj
          · have : j = slice_index q s := Fin.ext heq
            rw [this] at hj
            exact hall k v hj
          · exact habove j k v hgt hj
        · rw [h1]
          simp only
          obtain ⟨a', k, v, e', hm, hmax⟩ := find_predecessor_spec (hch i).1 hi2
          right
          refine ⟨a', k, v, e', mem_leaves_inner.mpr ⟨i, hm⟩,
            Nat.le_of_lt (hbelow i k v hi1 hm), ?_⟩
          intro k' v' hmem hle'
          obtain ⟨j, hj⟩ := mem_leaves_inner.mp hmem
          rcases Nat.lt_trichotomy j.val (slice_index q s).val with hlt | heq | hgt
          · rcases Nat.lt_trichotomy j.val i.val with hlt2 | heq2 | hgt2
            · exact Nat.le_of_lt (slot_order hw' hlt2 hj hm)
            · have : j = i := Fin.ext heq2
              rw [this] at hj
              exact hmax k' v' hj
            · rw [hi3 j hgt2 hlt] at hj; simp [leaves] at hj
          · have : j = slice_index q s := Fin.ext heq
            rw [this] at hj
            have := hall k' v' hj
            omega
          · have := habove j k' v' hgt hj
            omega
      · rw [e]
        simp only
        right
        refine ⟨a', k, v, rfl, mem_leaves_inner.mpr ⟨_, hm⟩, hle, ?_⟩
        intro k' v' hmem hle'
        obtain ⟨j, hj⟩ := mem_leaves_inner.mp hmem
        rcases Nat.lt_trichotomy j.val (slice_index q s).val with hlt | heq | hgt
        · exact Nat.le_of_lt (slot_order hw' hlt hj hm)
        · have : j = slice_index q s := Fin.ext heq
          rw [this] at hj
          exact hmax k' v' hj hle'
        · have := habove j k' v' hgt hj
          omega
    · have hout : q / 2 ^ (s + 4) ≠ p / 2 ^ (s + 4) :=
        fun h => htest ((contain_test hq hpw s).mpr h)
      by_cases hpq : p < q
      · have hlt : p / 2 ^ (s + 4) < q / 2 ^ (s + 4) := by
          have := Nat.div_le_div_right (c := 2 ^ (s + 4)) (Nat.le_of_lt hpq)
          omega
        obtain ⟨a', k, v, e, hm, hmax⟩ := find_predecessor_spec hw' (by simp)
        right
        refine ⟨a', k, v, by simp only [find_le, htest, ne_eq, not_false_eq_true, if_true, hpq, e],
          hm, ?_, fun k' v' hmem _ => hmax k' v' hmem⟩
        have := key_hi hw' hm
        exact Nat.le_of_lt (lt_of_div_lt (d := 2 ^ (s + 4)) (by omega))
      · left
        refine ⟨by simp only [find_le, htest, ne_eq, not_false_eq_true, if_true, hpq, if_false], ?_⟩
        intro k v hmem
        have := key_hi hw' hmem
        have hge := Nat.div_le_div_right (c := 2 ^ (s + 4)) (Nat.le_of_not_lt hpq)
        exact lt_of_div_lt (d := 2 ^ (s + 4)) (by omega)


/-- The search of `find_ge` returns the leaf of the smallest key at least `q`. -/
theorem find_ge_spec {q : Nat} (hq : q < 2 ^ 64) {t : critnib_node} :
    WF t → IsMinGE t q (find_ge q t) := by
  induction t with
  | null => intro _; left; exact ⟨rfl, by intro k v h; simp [leaves] at h⟩
  | leaf a k v =>
    intro _
    by_cases h : k ≥ q
    · right
      refine ⟨a, k, v, by simp [find_ge, h], by simp [leaves], h, ?_⟩
      intro k' v' hm _
      simp [leaves] at hm
      omega
    · left
      refine ⟨by simp [find_ge, h], ?_⟩
      intro k' v' hm
      simp [leaves] at hm
      omega
  | inner a ch p s ih =>
    intro hw
    have hw' := hw
    obtain ⟨hs4, hs, hpw, hp, h2, hch⟩ := hw
    by_cases htest : ((q ^^^ p) >>> s) &&& wnot NIB = 0
    · have hin := (contain_test hq hpw s).mp htest
      have hslot : q / 2 ^ s = p / 2 ^ s + (slice_index q s).val := by
        rw [slice_index_val]; exact slot_of_hi hp hin
      have hunf : find_ge q (.inner a ch p s) =
          match find_ge q (ch (slice_index q s)) with
          | .null =>
            match scan_up ch (15 - (slice_index q s).val) with
            | none => .null
            | some i => find_successor (ch i)
          | k => k := by
        simp only [find_ge, htest, ne_eq, not_true_eq_false, if_false]
        rcases find_ge q (ch (slice_index q s)) with _ | _ | _
        · simp only
          rcases scan_up ch (15 - (slice_index q s).val) with _ | i
          · rfl
          · simp only
            rcases hc : ch i with _ | _ | _ <;> rfl
        · rfl
        · rfl
      have habove : ∀ (j : Fin 16) k v, (slice_index q s).val < j.val →
          (k, v) ∈ leaves (ch j) → q < k := by
        intro j k v hj hm
        have e := key_fits (hch j).1 (hch j).2 hm
        exact lt_of_div_lt (d := 2 ^ s) (by omega)
      have hbelow : ∀ (j : Fin 16) k v, j.val < (slice_index q s).val →
          (k, v) ∈ leaves (ch j) → k < q := by
        intro j k v hj hm
        have e := key_fits (hch j).1 (hch j).2 hm
        exact lt_of_div_lt (d := 2 ^ s) (by omega)
      have hnib := (slice_index q s).isLt
      rw [hunf]
      rcases ih (slice_index q s) (hch _).1 with ⟨e, hall⟩ | ⟨a', k, v, e, hm, hle, hmin⟩
      · rw [e]
        simp only
        rcases scan_up_spec ch (15 - (slice_index q s).val) (by omega) with
          ⟨h1, hnone⟩ | ⟨i, h1, hi1, hi2, hi3⟩
        · rw [h1]
          left
          refine ⟨rfl, ?_⟩
          intro k v hmem
          obtain ⟨j, hj⟩ := mem_leaves_inner.mp hmem
          rcases Nat.lt_trichotomy j.val (slice_index q s).val with hlt | heq | hgt
          · exact hbelow j k v hlt hj
          · have : j = slice_index q s := Fin.ext heq
            rw [this] at hj
            exact hall k v hj
          · rw [hnone j (by omega)] at hj; simp [leaves] at hj
        · rw [h1]
          simp only
          obtain ⟨a', k, v, e', hm, hmin⟩ := find_successor_spec (hch i).1 hi2
          have hi1' : (slice_index q s).val < i.val := by omega
          right
          refine ⟨a', k, v, e', mem_leaves_inner.mpr ⟨i, hm⟩,
            Nat.le_of_lt (habove i k v hi1' hm), ?_⟩
          intro k' v' hmem hle'
          obtain ⟨j, hj⟩ := mem_leaves_inner.mp hmem
          rcases Nat.lt_trichotomy j.val (slice_index q s).val with hlt | heq | hgt
          · have := hbelow j k' v' hlt hj
            omega
          · have : j = slice_index q s := Fin.ext heq
            rw [this] at hj
            have := hall k' v' hj
            omega
          · rcases Nat.lt_trichotomy j.val i.val with hlt2 | heq2 | hgt2
            · rw [hi3 j (by omega) hlt2] at hj; simp [leaves] at hj
            · have : j = i := Fin.ext heq2
              rw [this] at hj
              exact hmin k' v' hj
            · exact Nat.le_of_lt (slot_order hw' hgt2 hm hj)
      · rw [e]
        simp only
        right
        refine ⟨a', k, v, rfl, mem_leaves_inner.mpr ⟨_, hm⟩, hle, ?_⟩
        intro k' v' hmem hle'
        obtain ⟨j, hj⟩ := mem_leaves_inner.mp hmem
        rcases Nat.lt_trichotomy j.val (slice_index q s).val with hlt | heq | hgt
        · have := hbelow j k' v' hlt hj
          omega
        · have : j = slice_index q s := Fin.ext heq
          rw [this] at hj
          exact hmin k' v' hj hle'
        · exact Nat.le_of_lt (slot_order hw' hgt hm hj)
    · have hout : q / 2 ^ (s + 4) ≠ p / 2 ^ (s + 4) :=
        fun h => htest ((contain_test hq hpw s).mpr h)
      by_cases hpq : p > q
      · have hlt : q / 2 ^ (s + 4) < p / 2 ^ (s + 4) := by
          have := Nat.div_le_div_right (c := 2 ^ (s + 4)) (Nat.le_of_lt hpq)
          omega
        obtain ⟨a', k, v, e, hm, hmin⟩ := find_successor_spec hw' (by simp)
        right
        refine ⟨a', k, v, by simp only [find_ge, htest, ne_eq, not_false_eq_true, if_true, hpq, e],
          hm, ?_, fun k' v' hmem _ => hmin k' v' hmem⟩
        have := key_hi hw' hm
        exact Nat.le_of_lt (lt_of_div_lt (d := 2 ^ (s + 4)) (by omega))
      · left
        refine ⟨by simp only [find_ge, htest, ne_eq, not_false_eq_true, if_true, hpq, if_false], ?_⟩
        intro k v hmem
        have := key_hi hw' hmem
        have hge := Nat.div_le_div_right (c := 2 ^ (s + 4)) (Nat.le_of_not_lt hpq)
        exact lt_of_div_lt (d := 2 ^ (s + 4)) (by omega)


/-! ## The retry loop -/

theorem retry_false {c : critnib} (h : NoWrap c) : retry c.remove_count c.remove_count = false := by
  unfold NoWrap at h
  unfold retry
  rw [Nat.mod_eq_of_lt h]
  simp [DELETED_LIFE]

theorem retry_true {c : critnib} (hw : c.remove_count < WORD) (h : ¬ NoWrap c) :
    retry c.remove_count c.remove_count = true := by
  unfold NoWrap at h
  unfold retry
  simp only [decide_eq_true_eq]
  have h1 : WORD ≤ c.remove_count + DELETED_LIFE := Nat.le_of_not_lt h
  have h2 : (c.remove_count + DELETED_LIFE) % WORD = c.remove_count + DELETED_LIFE - WORD := by
    rw [Nat.mod_eq_sub_mod h1]
    apply Nat.mod_eq_of_lt
    simp only [DELETED_LIFE, WORD] at *
    omega
  rw [h2]
  simp only [DELETED_LIFE, WORD] at *
  omega

/-- Below the wrap-around of the counter `critnib_get` ends after one round. -/
theorem critnib_get_nowrap {c : critnib} (h : NoWrap c) (key fuel : Nat) :
    critnib_get c key (fuel + 1) = some (get_res c.root key) := by
  simp only [critnib_get, retry_false h, get_res]
  rfl

/-- In the wrap-around window of the counter `critnib_get` never ends. -/
theorem critnib_get_wrap {c : critnib} (hw : c.remove_count < WORD) (h : ¬ NoWrap c)
    (key : Nat) : ∀ fuel, critnib_get c key fuel = none := by
  intro fuel
  induction fuel with
  | zero => rfl
  | succ n ih => simp only [critnib_get, retry_true hw h, if_true, ih]


/-! ## One round of the exact lookup against the contents -/

theorem mem_keys {t : critnib_node} {k : Nat} : k ∈ keys t ↔ ∃ v, (k, v) ∈ leaves t := by
  simp [keys]

theorem get_res_of_mem {t : critnib_node} (hw : WF t) {k v : Nat} (h : (k, v) ∈ leaves t) :
    get_res t k = v := by
  obtain ⟨a, e⟩ := get_descend_of_mem hw h
  simp [get_res, e]

theorem get_res_of_not_mem {t : critnib_node} {k : Nat} (h : k ∉ keys t) : get_res t k = 0 := by
  unfold get_res
  rcases hg : get_descend k t with _ | ⟨a, k', v'⟩ | ⟨a, ch, p, s⟩
  · rfl
  · by_cases e : k' = k
    · exfalso
      apply h
      rw [e] at hg
      exact mem_keys.mpr ⟨v', get_descend_mem hg⟩
    · simp [e]
  · rfl

/-- Two well-formed trees holding the same pairs for a key answer the exact
lookup of that key alike. -/
theorem get_res_congr {t t' : critnib_node} (hw : WF t) (hw' : WF t') {k : Nat}
    (h : ∀ v, (k, v) ∈ leaves t' ↔ (k, v) ∈ leaves t) : get_res t' k = get_res t k := by
  by_cases hk : k ∈ keys t
  · obtain ⟨v, hv⟩ := mem_keys.mp hk
    rw [get_res_of_mem hw hv, get_res_of_mem hw' ((h v).mpr hv)]
  · have hk' : k ∉ keys t' := by
      intro hm
      obtain ⟨v, hv⟩ := mem_keys.mp hm
      exact hk (mem_keys.mpr ⟨v, (h v).mp hv⟩)
    rw [get_res_of_not_mem hk, get_res_of_not_mem hk']

/-! ## Insert and remove on a well-formed tree -/

theorem skeleton_rebuild {kn : critnib_node} {m : Nat} {junk : Fin 16 → critnib_node}
    {key value : Nat} {t : critnib_node} :
    ∀ {a v}, (insert_descend key t).2 = .leaf a key v →
      skeleton (rebuild (insert_at kn m junk key value) key t) = skeleton t := by
  induction t with
  | null => intro a v h; simp [insert_descend] at h
  | leaf a' k' v' =>
    intro a v h
    simp [insert_descend] at h
    simp [rebuild_leaf, insert_at, h.2.1, skeleton]
  | inner a' ch p s ih =>
    intro a v h
    by_cases hc : key &&& path_mask s = p
    · rw [rebuild_inner_in _ hc]
      simp only [insert_descend, hc, if_true] at h
      simp only [skeleton]
      congr 1
      funext i
      by_cases e : i = slice_index key s
      · rw [e, Function.update_same]; exact ih _ h
      · rw [Function.update_noteq e]
    · simp only [insert_descend, hc, if_false] at h
      cases h

/-- The outcomes of `critnib_insert` on a well-formed tree: out of memory, already
there, updated in place, or stored; a successful call puts the pair in place of
any old pair of the key and keeps the tree well formed. -/
theorem critnib_insert_wf {c : critnib} {key : Nat} (value update : Nat) (ba : base_alloc)
    (hw : WF c.root) (hk : key < 2 ^ 64) :
    ((alloc_leaf c ba.leaf).1 = none ∧
      critnib_insert c key value update ba = some (ENOMEM, c)) ∨
    ((alloc_leaf c ba.leaf).1 ≠ none ∧
      ((key ∈ keys c.root ∧ update = 0 ∧ ∃ c',
          critnib_insert c key value update ba = some (EEXIST, c') ∧
          c'.root = c.root ∧ c'.remove_count = c.remove_count) ∨
       (key ∈ keys c.root ∧ update ≠ 0 ∧ ∃ c',
          critnib_insert c key value update ba = some (0, c') ∧
          c'.remove_count = c.remove_count ∧ WF c'.root ∧
          skeleton c'.root = skeleton c.root ∧
          ∀ k v, (k, v) ∈ leaves c'.root ↔
            (k = key ∧ v = value) ∨ (k ≠ key ∧ (k, v) ∈ leaves c.root)) ∨
       (key ∉ keys c.root ∧ ∃ c',
          critnib_insert c key value update ba = some (0, c') ∧
          c'.remove_count = c.remove_count ∧ WF c'.root ∧
          ∀ k v, (k, v) ∈ leaves c'.root ↔
            (k = key ∧ v = value) ∨ (k ≠ key ∧ (k, v) ∈ leaves c.root)) ∨
       (key ∉ keys c.root ∧ (alloc_node c ba.node).1 = none ∧ ∃ c',
          critnib_insert c key value update ba = some (ENOMEM, c') ∧
          c'.root = c.root ∧ c'.remove_count = c.remove_count))) := by
  have hspec : ∀ ka m, WF (rebuild (insert_at (.leaf ka key value) m ba.junk key value) key c.root) ∧
      ∀ k v, (k, v) ∈ leaves (rebuild (insert_at (.leaf ka key value) m ba.junk key value) key c.root) ↔
        (k = key ∧ v = value) ∨ (k ≠ key ∧ (k, v) ∈ leaves c.root) := by
    intro ka m
    obtain ⟨w1, _, _, w4⟩ := rebuild_spec (insert_at (.leaf ka key value) m ba.junk key value)
      value hk (fun n b hi => insert_at_spec hk n b hi)
      c.root 64 0 hw (fits_root hw) (by norm_num) (le_refl _) (Nat.div_eq_of_lt hk)
    exact ⟨w1, w4⟩
  have habs : ∀ n, (insert_descend key c.root).2 = n → (∀ a v, n ≠ .leaf a key v) →
      key ∉ keys c.root := by
    intro n hn hne hm
    obtain ⟨v, hv⟩ := mem_keys.mp hm
    obtain ⟨a, e⟩ := insert_descend_of_mem hk hw hv
    rw [hn] at e
    exact hne a v e
  have hpres : ∀ a v, (insert_descend key c.root).2 = .leaf a key v → key ∈ keys c.root := by
    intro a v h
    exact mem_keys.mpr ⟨v, insert_descend_snd_sub (by rw [h]; simp [leaves])⟩
  rcases critnib_insert_cases c key value update ba with h | ⟨ka, hka, h⟩
  · exact Or.inl h
  · right
    refine ⟨by rw [hka]; simp, ?_⟩
    rcases h with ⟨hn, c', hrc, hroot, hres⟩ | ⟨a, v, hn, hu, c', hrc, hroot, hres⟩ |
      ⟨a, v, hn, hu, c', hrc, hroot, hres⟩ | ⟨a, ch, s, hn, _⟩ |
      ⟨hnn, hnp, han, c', hrc, hroot, hres⟩ | ⟨hnn, hnp, m, _, c', hrc, hroot, hres⟩
    · right; right; left
      refine ⟨habs _ hn (by simp), c', hres, hrc, ?_⟩
      rw [hroot 0]
      exact hspec ka 0
    · right; left
      refine ⟨hpres a v hn, hu, c', hres, hrc, ?_⟩
      rw [hroot 0]
      exact ⟨(hspec ka 0).1, skeleton_rebuild hn, (hspec ka 0).2⟩
    · left
      exact ⟨hpres a v hn, hu, c', hres, hroot, hrc⟩
    · exact absurd rfl (stop_inner_ne hk hw hn)
    · right; right; right
      refine ⟨habs _ rfl ?_, han, c', hres, hroot, hrc⟩
      intro a v e
      rw [e] at hnp
      exact hnp rfl
    · right; right; left
      refine ⟨habs _ rfl ?_, c', hres, hrc, ?_⟩
      · intro a v e
        rw [e] at hnp
        exact hnp rfl
      · rw [hroot]
        exact hspec ka m

/-- The outcomes of `critnib_remove` on a well-formed tree: a stored key is
removed and its value returned, an absent key leaves the tree as it is. -/
theorem critnib_remove_wf {c : critnib} (key : Nat) (hw : WF c.root) :
    (∃ v c', (key, v) ∈ leaves c.root ∧ critnib_remove c key = some (v, c') ∧
      c'.remove_count = (c.remove_count + 1) % WORD ∧ WF c'.root ∧
      ∀ k v', (k, v') ∈ leaves c'.root ↔ k ≠ key ∧ (k, v') ∈ leaves c.root) ∨
    (key ∉ keys c.root ∧ ∃ c', critnib_remove c key = some (0, c') ∧ c'.root = c.root ∧
      (c' = c ∨ c'.remove_count = (c.remove_count + 1) % WORD)) := by
  by_cases hm : key ∈ keys c.root
  · left
    obtain ⟨v, hv⟩ := mem_keys.mp hm
    obtain ⟨a, hg⟩ := get_descend_of_mem hw hv
    obtain ⟨c', h1, h2, h3⟩ := critnib_remove_present hw hg
    obtain ⟨w1, w2⟩ := remove_tree_spec hw hv
    exact ⟨v, c', hv, h1, h3, h2 ▸ w1, by rw [h2]; exact w2⟩
  · right
    refine ⟨hm, ?_⟩
    by_cases hr : c.root = .null
    · exact ⟨c, critnib_remove_null key hr, rfl, Or.inl rfl⟩
    · have hne : ∀ a v, get_descend key c.root ≠ .leaf a key v := by
        intro a v e
        exact hm (mem_keys.mpr ⟨v, get_descend_mem e⟩)
      obtain ⟨c', h1, h2, h3⟩ := critnib_remove_absent hr hne
      exact ⟨c', h1, h2, Or.inr h3⟩

/-! ## Reachable states -/

theorem step_preserves {c c' : critnib} {op : Op} (hok : op.ok) (hw : WF c.root)
    (hrc : c.remove_count < WORD) (h : step c op = some c') :
    WF c'.root ∧ c'.remove_count < WORD := by
  have hmod : (c.remove_count + 1) % WORD < WORD := Nat.mod_lt _ (by decide)
  cases op with
  | insert key value update ba =>
    simp only [step] at h
    rcases critnib_insert_wf value update ba hw hok with ⟨_, e⟩ | ⟨_, h'⟩
    · rw [e] at h; simp at h; rw [← h]; exact ⟨hw, hrc⟩
    · rcases h' with ⟨_, _, c2, e, h1, h2⟩ | ⟨_, _, c2, e, h1, h2, _⟩ | ⟨_, c2, e, h1, h2, _⟩ |
        ⟨_, _, c2, e, h1, h2⟩
      · rw [e] at h; simp at h; rw [← h, h1, h2]; exact ⟨hw, hrc⟩
      · rw [e] at h; simp at h; rw [← h, h1]; exact ⟨h2, hrc⟩
      · rw [e] at h; simp at h; rw [← h, h1]; exact ⟨h2, hrc⟩
      · rw [e] at h; simp at h; rw [← h, h1, h2]; exact ⟨hw, hrc⟩
  | remove key =>
    simp only [step] at h
    rcases critnib_remove_wf key hw with ⟨v, c2, _, e, h1, h2, _⟩ | ⟨_, c2, e, h1, h2⟩
    · rw [e] at h; simp at h; rw [← h, h1]; exact ⟨h2, hmod⟩
    · rw [e] at h; simp at h; rw [← h, h1]
      refine ⟨hw, ?_⟩
      rcases h2 with h2 | h2
      · rw [h2]; exact hrc
      · rw [h2]; exact hmod

theorem run_preserves {ops : List Op} : ∀ {c c' : critnib}, (∀ op ∈ ops, op.ok) → WF c.root →
    c.remove_count < WORD → run c ops = some c' → WF c'.root ∧ c'.remove_count < WORD := by
  induction ops with
  | nil =>
    intro c c' _ hw hrc h
    simp [run] at h
    rw [← h]; exact ⟨hw, hrc⟩
  | cons op ops ih =>
    intro c c' hok hw hrc h
    simp only [run] at h
    rcases hs : step c op with _ | c1
    · rw [hs] at h; simp at h
    · rw [hs] at h
      simp only [Option.some_bind] at h
      obtain ⟨w1, w2⟩ := step_preserves (hok op (List.mem_cons_self _ _)) hw hrc hs
      exact ih (fun o ho => hok o (List.mem_cons_of_mem _ ho)) w1 w2 h

/-- Every reachable state has a well-formed tree and a 64-bit counter. -/
theorem reachable_wf {c : critnib} (h : Reachable c) : WF c.root ∧ c.remove_count < WORD := by
  obtain ⟨ops, hok, hrun⟩ := h
  exact run_preserves (c := critnib_new) hok (by simp [critnib_new, WF]) (by decide) hrun

theorem reachable_step {c c' : critnib} {op : Op} (h : Reachable c) (hok : op.ok)
    (hs : step c op = some c') : Reachable c' := by
  obtain ⟨ops, hoks, hrun⟩ := h
  refine ⟨ops ++ [op], ?_, ?_⟩
  · intro o ho
    rcases List.mem_append.mp ho with h1 | h1
    · exact hoks o h1
    · simp at h1; rw [h1]; exact hok
  · have gen : ∀ (l : List Op) (c0 : critnib), run c0 l = some c →
        run c0 (l ++ [op]) = some c' := by
      intro l
      induction l with
      | nil =>
        intro c0 h0
        simp [run] at h0
        simp [run, h0, hs]
      | cons o l ih =>
        intro c0 h0
        simp only [run, List.cons_append] at h0 ⊢
        rcases hso : step c0 o with _ | c1
        · rw [hso] at h0; simp at h0
        · rw [hso] at h0
          simp only [Option.some_bind] at h0 ⊢
          exact ih c1 h0
    exact gen ops _ hrun


/-! ## Readers depend on the root and the counter only -/

theorem critnib_get_congr {c c' : critnib} {k : Nat} (hrc : c'.remove_count = c.remove_count)
    (hres : get_res c'.root k = get_res c.root k) :
    ∀ fuel, critnib_get c' k fuel = critnib_get c k fuel := by
  intro fuel
  induction fuel with
  | zero => rfl
  | succ n ih =>
    have e : ∀ d : critnib, critnib_get d k (n + 1) =
        if retry d.remove_count d.remove_count then critnib_get d k n
        else some (get_res d.root k) := fun d => rfl
    rw [e, e, hrc, hres, ih]

theorem critnib_find_le_congr {c c' : critnib} (hrc : c'.remove_count = c.remove_count)
    (hroot : c'.root = c.root) (q : Nat) :
    ∀ fuel, critnib_find_le c' q fuel = critnib_find_le c q fuel := by
  intro fuel
  induction fuel with
  | zero => rfl
  | succ n ih => simp only [critnib_find_le, hrc, hroot, ih]

theorem critnib_find_loop_congr {c c' : critnib} (hrc : c'.remove_count = c.remove_count)
    (hroot : c'.root = c.root) (q : Nat) (d : Int) :
    ∀ fuel, critnib_find_loop c' q d fuel = critnib_find_loop c q d fuel := by
  intro fuel
  induction fuel with
  | zero => rfl
  | succ n ih => simp only [critnib_find_loop, hrc, hroot, ih]

theorem critnib_find_congr {c c' : critnib} (hrc : c'.remove_count = c.remove_count)
    (hroot : c'.root = c.root) (q : Nat) (dir : find_dir_t) (fuel : Nat) :
    critnib_find c' q dir fuel = critnib_find c q dir fuel := by
  simp only [critnib_find, critnib_find_loop_congr hrc hroot]

/-! ## The reference map -/

theorem alloc_leaf_ne_none (c : critnib) {sys : Option Nat} (h : sys ≠ none) :
    (alloc_leaf c sys).1 ≠ none := by
  unfold alloc_leaf
  split
  · exact h
  · simp

theorem alloc_node_ne_none (c : critnib) {sys : Option Nat} (h : sys ≠ none) :
    (alloc_node c sys).1 ≠ none := by
  unfold alloc_node
  split
  · exact h
  · simp

/-- One writer call without allocation failure keeps the tree in step with the
reference map. -/
theorem step_reference {c : critnib} {m : Nat → Option Nat} {op : Op} (hok : op.ok)
    (hal : op.alloc_ok) (hw : WF c.root)
    (hm : ∀ k v, (k, v) ∈ leaves c.root ↔ m k = some v) :
    ∃ c', step c op = some c' ∧
      ∀ k v, (k, v) ∈ leaves c'.root ↔ ref_step m op k = some v := by
  have hkeys : ∀ k, k ∈ keys c.root ↔ m k ≠ none := by
    intro k
    rw [mem_keys]
    constructor
    · rintro ⟨v, hv⟩; rw [(hm k v).mp hv]; simp
    · intro h
      rcases hmk : m k with _ | v
      · exact absurd hmk h
      · exact ⟨v, (hm k v).mpr hmk⟩
  have hupd : ∀ (key value : Nat) k v,
      ((k = key ∧ v = value) ∨ (k ≠ key ∧ (k, v) ∈ leaves c.root)) ↔
        Function.update m key (some value) k = some v := by
    intro key value k v
    rw [Function.update_apply]
    by_cases e : k = key
    · simp [e]; exact eq_comm
    · simp [e, hm]
  cases op with
  | insert key value update ba =>
    simp only [step]
    rcases critnib_insert_wf value update ba hw hok with ⟨h1, _⟩ | ⟨_, h'⟩
    · exact absurd h1 (alloc_leaf_ne_none c hal.1)
    · rcases h' with ⟨hk, hu, c2, e, h1, _⟩ | ⟨hk, hu, c2, e, _, _, _, h4⟩ |
        ⟨hk, c2, e, _, _, h4⟩ | ⟨_, h1, _⟩
      · refine ⟨c2, by rw [e]; rfl, ?_⟩
        intro k v
        simp only [ref_step, (hkeys key).mp hk, hu, ne_eq, not_false_eq_true, and_self, if_true]
        rw [h1]; exact hm k v
      · refine ⟨c2, by rw [e]; rfl, ?_⟩
        intro k v
        simp only [ref_step, hu, and_false, if_false]
        rw [h4]; exact hupd key value k v
      · refine ⟨c2, by rw [e]; rfl, ?_⟩
        intro k v
        have : ¬ (m key ≠ none ∧ update = 0) := fun h => hk ((hkeys key).mpr h.1)
        simp only [ref_step, this, if_false]
        rw [h4]; exact hupd key value k v
      · exact absurd h1 (alloc_node_ne_none c hal.2)
  | remove key =>
    simp only [step]
    have hrem : ∀ k v, (k ≠ key ∧ (k, v) ∈ leaves c.root) ↔
        Function.update m key none k = some v := by
      intro k v
      rw [Function.update_apply]
      by_cases e : k = key
      · simp [e]
      · simp [e, hm]
    rcases critnib_remove_wf key hw with ⟨v, c2, _, e, _, _, h4⟩ | ⟨hk, c2, e, h1, _⟩
    · refine ⟨c2, by rw [e]; rfl, ?_⟩
      intro k v'
      simp only [ref_step]
      rw [h4]; exact hrem k v'
    · refine ⟨c2, by rw [e]; rfl, ?_⟩
      intro k v'
      simp only [ref_step]
      rw [h1, ← hrem]
      constructor
      · intro h
        refine ⟨?_, h⟩
        intro e'
        rw [e'] at h
        exact hk (mem_keys.mpr ⟨v', h⟩)
      · exact fun h => h.2

/-- A sequence of writer calls without allocation failure runs to the end and
leaves a tree that holds exactly the pairs of the reference map. -/
theorem run_reference {ops : List Op} : ∀ {c : critnib} {m : Nat → Option Nat},
    (∀ op ∈ ops, op.ok ∧ op.alloc_ok) → WF c.root → c.remove_count < WORD →
    (∀ k v, (k, v) ∈ leaves c.root ↔ m k = some v) →
    ∃ c', run c ops = some c' ∧ WF c'.root ∧ c'.remove_count < WORD ∧
      ∀ k v, (k, v) ∈ leaves c'.root ↔ ref_run m ops k = some v := by
  induction ops with
  | nil => intro c m _ hw hrc hm; exact ⟨c, rfl, hw, hrc, hm⟩
  | cons op ops ih =>
    intro c m hok hw hrc hm
    obtain ⟨h1, h2⟩ := hok op (List.mem_cons_self _ _)
    obtain ⟨c1, hs, hm1⟩ := step_reference h1 h2 hw hm
    obtain ⟨w1, w2⟩ := step_preserves h1 hw hrc hs
    obtain ⟨c', hr, w3, w4, w5⟩ := ih (fun o ho => hok o (List.mem_cons_of_mem _ ho)) w1 w2 hm1
    refine ⟨c', ?_, w3, w4, w5⟩
    simp only [run, hs, Option.some_bind]
    exact hr

/-- After every finite sequence of inserts and removes without allocation
failure, and while the counter has not reached its last sixteen values,
`critnib_get` returns what the reference map holds for the key, and null (0)
when it holds nothing. -/
theorem critnib_get_reference {ops : List Op} (hok : ∀ op ∈ ops, op.ok ∧ op.alloc_ok) :
    ∃ c, run critnib_new ops = some c ∧
      (NoWrap c → ∀ k fuel, critnib_get c k (fuel + 1) = some ((ref_run ref_new ops k).getD 0)) := by
  obtain ⟨c, hr, hw, _, hm⟩ := run_reference (c := critnib_new) (m := ref_new) hok
    (by simp [critnib_new, WF]) (by decide)
    (by intro k v; simp [critnib_new, leaves, ref_new])
  refine ⟨c, hr, ?_⟩
  intro hnw k fuel
  rw [critnib_get_nowrap hnw]
  congr 1
  rcases hv : ref_run ref_new ops k with _ | v
  · apply get_res_of_not_mem
    intro hmem
    obtain ⟨v, h⟩ := mem_keys.mp hmem
    rw [(hm k v).mp h] at hv
    cases hv
  · exact get_res_of_mem hw ((hm k v).mpr hv)


/-! ## A reachable state in the wrap-around window of the counter -/

theorem update_const_none (i : Fin 16) :
    Function.update (fun _ : Fin 16 => (none : Option Nat)) i none = fun _ => none := by
  funext j
  rw [Function.update_apply]
  split <;> rfl

theorem step_wrap_insert : step critnib_new (Op.insert 0 1 0 ba0) = some (wrap_state 0) := rfl

theorem step_wrap_remove (n : Nat) :
    step (wrap_state n) (Op.remove 1) = some (wrap_state ((n + 1) % WORD)) := by
  simp [step, critnib_remove, wrap_state, free_node, free_leaf, update_const_none,
    utils_atomic_increment_u64]

theorem run_wrap_removes : ∀ (k n : Nat), n < WORD →
    run (wrap_state n) (List.replicate k (Op.remove 1)) = some (wrap_state ((n + k) % WORD)) := by
  intro k
  induction k with
  | zero =>
    intro n hn
    simp [run, Nat.mod_eq_of_lt hn]
  | succ k ih =>
    intro n hn
    simp only [List.replicate_succ, run, step_wrap_remove, Option.some_bind]
    rw [ih _ (Nat.mod_lt _ (by decide))]
    congr 2
    rw [Nat.mod_add_mod]
    congr 1
    omega

/-- The calls `wrap_ops n` lead a fresh map to `wrap_state (n % 2 ^ 64)`. -/
theorem run_wrap_ops (n : Nat) : run critnib_new (wrap_ops n) = some (wrap_state (n % WORD)) := by
  simp only [wrap_ops, run, step_wrap_insert, Option.some_bind]
  rw [run_wrap_removes n 0 (by decide), Nat.zero_add]

theorem wrap_ops_ok (n : Nat) : ∀ op ∈ wrap_ops n, op.ok ∧ op.alloc_ok := by
  intro op h
  simp only [wrap_ops, List.mem_cons, List.mem_replicate] at h
  rcases h with h | ⟨_, h⟩
  · rw [h]; exact ⟨by simp [Op.ok], by simp [Op.alloc_ok, ba0]⟩
  · rw [h]; exact ⟨by simp [Op.ok], trivial⟩

theorem reachable_wrap_state {n : Nat} (hn : n < WORD) : Reachable (wrap_state n) :=
  ⟨wrap_ops n, fun op h => (wrap_ops_ok n op h).1, by rw [run_wrap_ops, Nat.mod_eq_of_lt hn]⟩

theorem ref_run_wrap_ops (n : Nat) : ref_run ref_new (wrap_ops n) 0 = some 1 := by
  have gen : ∀ (k : Nat) (m : Nat → Option Nat),
      ref_run m (List.replicate k (Op.remove 1)) 0 = m 0 := by
    intro k
    induction k with
    | zero => intro m; rfl
    | succ k ih =>
      intro m
      simp only [List.replicate_succ, ref_run, List.foldl_cons]
      have := ih (ref_step m (Op.remove 1))
      simp only [ref_run] at this
      rw [this]
      simp [ref_step]
  simp only [wrap_ops, ref_run, List.foldl_cons]
  have := gen n (ref_step ref_new (Op.insert 0 1 0 ba0))
  simp only [ref_run] at this
  rw [this]
  simp [ref_step, ref_new]

theorem wrap_state_window : (wrap_state (2 ^ 64 - 16)).remove_count < WORD ∧
    ¬ NoWrap (wrap_state (2 ^ 64 - 16)) := by
  constructor
  · decide
  · unfold NoWrap; decide


/-! ## The ordered readers and the retry loop -/

theorem critnib_find_loop_nowrap {c : critnib} (h : NoWrap c) (key : Nat) (d : Int)
    (fuel : Nat) : critnib_find_loop c key d (fuel + 1) = some (find_res c.root key d) := by
  simp only [critnib_find_loop, retry_false h, find_res]
  rfl

theorem critnib_find_loop_wrap {c : critnib} (hw : c.remove_count < WORD) (h : ¬ NoWrap c)
    (key : Nat) (d : Int) : ∀ fuel, critnib_find_loop c key d fuel = none := by
  intro fuel
  induction fuel with
  | zero => rfl
  | succ n ih => simp only [critnib_find_loop, retry_true hw h, if_true, ih]

theorem critnib_find_le_nowrap {c : critnib} (h : NoWrap c) (key fuel : Nat) :
    critnib_find_le c key (fuel + 1) =
      some (match find_le key c.root with
        | .leaf _ _ v => v
        | _ => 0) := by
  simp only [critnib_find_le, retry_false h]
  rcases c.root with _ | _ | _ <;> rfl

theorem critnib_find_le_wrap {c : critnib} (hw : c.remove_count < WORD) (h : ¬ NoWrap c)
    (key : Nat) : ∀ fuel, critnib_find_le c key fuel = none := by
  intro fuel
  induction fuel with
  | zero => rfl
  | succ n ih => simp only [critnib_find_le, retry_true hw h, if_true, ih]

/-- One round of the `==` branch of `critnib_find` finds the leaf of a stored
key and nothing for an absent one. -/
theorem find_res_eq {t : critnib_node} (hw : WF t) (q : Nat) :
    (∃ a v, (q, v) ∈ leaves t ∧ find_res t q 0 = .leaf a q v) ∨
    (q ∉ keys t ∧ find_res t q 0 = .null) := by
  by_cases hm : q ∈ keys t
  · left
    obtain ⟨v, hv⟩ := mem_keys.mp hm
    obtain ⟨a, e⟩ := get_descend_of_mem hw hv
    exact ⟨a, v, hv, by simp [find_res, e]⟩
  · right
    refine ⟨hm, ?_⟩
    simp only [find_res, lt_self_iff_false, if_false, gt_iff_lt]
    rcases hg : get_descend q t with _ | ⟨a, k', v'⟩ | ⟨a, ch, p, s⟩
    · rfl
    · by_cases e : k' = q
      · exfalso
        apply hm
        rw [e] at hg
        exact mem_keys.mpr ⟨v', get_descend_mem hg⟩
      · simp [e]
    · rfl


/-! ## Insert, remove and the exact lookup in reachable states -/

/-- In every reachable state that does not hold the key, `critnib_insert` without
allocation failure returns 0 with either value of the update flag; it leaves what
`critnib_get` does for every other key as it was, and while the counter is below
its last sixteen values `critnib_get` of the key returns the new value. -/
theorem insert_absent_then_get {c : critnib} {key : Nat} (value update : Nat) (ba : base_alloc)
    (hr : Reachable c) (hk : key < 2 ^ 64) (habs : key ∉ keys c.root)
    (hl : ba.leaf ≠ none) (hn : ba.node ≠ none) :
    ∃ c', critnib_insert c key value update ba = some (0, c') ∧
      (∀ k' fuel, k' ≠ key → critnib_get c' k' fuel = critnib_get c k' fuel) ∧
      (NoWrap c → ∀ fuel, critnib_get c' key (fuel + 1) = some value) := by
  obtain ⟨hw, _⟩ := reachable_wf hr
  rcases critnib_insert_wf value update ba hw hk with ⟨h1, _⟩ | ⟨_, h'⟩
  · exact absurd h1 (alloc_leaf_ne_none c hl)
  · rcases h' with ⟨hm, _⟩ | ⟨hm, _⟩ | ⟨_, c', e, h1, h2, h3⟩ | ⟨_, h1, _⟩
    · exact absurd hm habs
    · exact absurd hm habs
    · refine ⟨c', e, ?_, ?_⟩
      · intro k' fuel hne
        apply critnib_get_congr h1
        apply get_res_congr hw h2
        intro v
        rw [h3]
        simp [hne]
      · intro hnw fuel
        have hnw' : NoWrap c' := by unfold NoWrap; rw [h1]; exact hnw
        rw [critnib_get_nowrap hnw']
        congr 1
        exact get_res_of_mem h2 ((h3 key value).mpr (Or.inl ⟨rfl, rfl⟩))
    · exact absurd h1 (alloc_node_ne_none c hn)

theorem insert_absent_then_get_witness :
    ∃ c', critnib_insert demo_state 5 7 0 ba1 = some (0, c') ∧
      (∀ k' fuel, k' ≠ 5 → critnib_get c' k' fuel = critnib_get demo_state k' fuel) ∧
      (NoWrap demo_state → ∀ fuel, critnib_get c' 5 (fuel + 1) = some 7) :=
  insert_absent_then_get 7 0 ba1
    ⟨demo_ops, by intro op h; simp [demo_ops] at h; rcases h with h | h <;> rw [h] <;> simp [Op.ok],
      rfl⟩
    (by norm_num) (by decide) (by simp [ba1]) (by simp [ba1])

/-- In every reachable state holding the pair (key, v), `critnib_remove` of the
key returns v; while the counter stays below its last sixteen values,
`critnib_get` of the key is null afterwards and `critnib_get` of every other key
returns what it returned before. -/
theorem remove_present_then_get {c : critnib} {key v : Nat} (hr : Reachable c)
    (hm : (key, v) ∈ leaves c.root) :
    ∃ c', critnib_remove c key = some (v, c') ∧
      (NoWrap c' → ∀ fuel, critnib_get c' key (fuel + 1) = some 0) ∧
      (NoWrap c → NoWrap c' → ∀ k' fuel, k' ≠ key →
        critnib_get c' k' (fuel + 1) = critnib_get c k' (fuel + 1)) := by
  obtain ⟨hw, _⟩ := reachable_wf hr
  rcases critnib_remove_wf key hw with ⟨v', c', hv', e, _, h2, h3⟩ | ⟨habs, _⟩
  · have hvv : v' = v := value_unique hw hv' hm
    rw [hvv] at e
    refine ⟨c', e, ?_, ?_⟩
    · intro hnw fuel
      rw [critnib_get_nowrap hnw]
      congr 1
      apply get_res_of_not_mem
      intro hmem
      obtain ⟨x, hx⟩ := mem_keys.mp hmem
      exact ((h3 key x).mp hx).1 rfl
    · intro hnw hnw' k' fuel hne
      rw [critnib_get_nowrap hnw, critnib_get_nowrap hnw']
      congr 1
      apply get_res_congr hw h2
      intro x
      rw [h3]
      simp [hne]
  · exact absurd (mem_keys.mpr ⟨v, hm⟩) habs

theorem reachable_demo_state : Reachable demo_state :=
  ⟨demo_ops, by intro op h; simp [demo_ops] at h; rcases h with h | h <;> rw [h] <;> simp [Op.ok],
    rfl⟩

theorem remove_present_then_get_witness :
    ∃ c', critnib_remove demo_state 10 = some (65, c') ∧
      (NoWrap c' → ∀ fuel, critnib_get c' 10 (fuel + 1) = some 0) ∧
      (NoWrap demo_state → NoWrap c' → ∀ k' fuel, k' ≠ 10 →
        critnib_get c' k' (fuel + 1) = critnib_get demo_state k' (fuel + 1)) :=
  remove_present_then_get reachable_demo_state (by decide)

/-- C4: `critnib_insert` whose scratch-leaf allocation succeeds returns EEXIST
exactly when the update flag is 0 and the key is already stored; the root, and
with it the whole tree, is then the same as before, and so is the result of
every `critnib_get`, `critnib_find_le` and `critnib_find`: the key still has its
old value. -/
theorem C4_insert_eexist {c : critnib} {key : Nat} (value update : Nat) (ba : base_alloc)
    (hr : Reachable c) (hk : key < 2 ^ 64) (hl : (alloc_leaf c ba.leaf).1 ≠ none) :
    ((∃ c', critnib_insert c key value update ba = some (EEXIST, c')) ↔
      (update = 0 ∧ key ∈ keys c.root)) ∧
    ∀ c', critnib_insert c key value update ba = some (EEXIST, c') →
      c'.root = c.root ∧
      (∀ q fuel, critnib_get c' q fuel = critnib_get c q fuel) ∧
      (∀ q fuel, critnib_find_le c' q fuel = critnib_find_le c q fuel) ∧
      (∀ q dir fuel, critnib_find c' q dir fuel = critnib_find c q dir fuel) := by
  obtain ⟨hw, _⟩ := reachable_wf hr
  have h0 : (0 : Nat) ≠ EEXIST := by decide
  have h12 : ENOMEM ≠ EEXIST := by decide
  rcases critnib_insert_wf value update ba hw hk with ⟨h1, _⟩ | ⟨_, h'⟩
  · exact absurd h1 hl
  · rcases h' with ⟨hm, hu, c2, e, h1, h2⟩ | ⟨hm, hu, c2, e, _⟩ | ⟨hm, c2, e, _⟩ |
      ⟨hm, _, c2, e, _⟩
    · refine ⟨⟨fun _ => ⟨hu, hm⟩, fun _ => ⟨c2, e⟩⟩, ?_⟩
      intro c' he
      rw [e] at he
      simp only [Option.some.injEq, Prod.mk.injEq, true_and] at he
      rw [← he]
      exact ⟨h1, fun q => critnib_get_congr h2 (by rw [h1]), critnib_find_le_congr h2 h1,
        critnib_find_congr h2 h1⟩
    · refine ⟨⟨?_, fun h => absurd h.1 hu⟩, ?_⟩
      · rintro ⟨c', he⟩
        rw [e] at he
        simp only [Option.some.injEq, Prod.mk.injEq] at he
        exact absurd he.1 h0
      · intro c' he
        rw [e] at he
        simp only [Option.some.injEq, Prod.mk.injEq] at he
        exact absurd he.1 h0
    · refine ⟨⟨?_, fun h => absurd h.2 hm⟩, ?_⟩
      · rintro ⟨c', he⟩
        rw [e] at he
        simp only [Option.some.injEq, Prod.mk.injEq] at he
        exact absurd he.1 h0
      · intro c' he
        rw [e] at he
        simp only [Option.some.injEq, Prod.mk.injEq] at he
        exact absurd he.1 h0
    · refine ⟨⟨?_, fun h => absurd h.2 hm⟩, ?_⟩
      · rintro ⟨c', he⟩
        rw [e] at he
        simp only [Option.some.injEq, Prod.mk.injEq] at he
        exact absurd he.1 h12
      · intro c' he
        rw [e] at he
        simp only [Option.some.injEq, Prod.mk.injEq] at he
        exact absurd he.1 h12

theorem C4_insert_eexist_witness :
    ((∃ c', critnib_insert demo_state 10 99 0 ba1 = some (EEXIST, c')) ↔
      ((0 : Nat) = 0 ∧ 10 ∈ keys demo_state.root)) ∧
    ∀ c', critnib_insert demo_state 10 99 0 ba1 = some (EEXIST, c') →
      c'.root = demo_state.root ∧
      (∀ q fuel, critnib_get c' q fuel = critnib_get demo_state q fuel) ∧
      (∀ q fuel, critnib_find_le c' q fuel = critnib_find_le demo_state q fuel) ∧
      (∀ q dir fuel, critnib_find c' q dir fuel = critnib_find demo_state q dir fuel) :=
  C4_insert_eexist 99 0 ba1 reachable_demo_state (by norm_num) (by decide)

/-- In every reachable state holding the key, `critnib_insert` with a non-zero
update flag (and a scratch leaf) returns 0 and changes no node of the tree but
the value of the key's leaf; it leaves what `critnib_get` does for every other
key as it was, and while the counter is below its last sixteen values
`critnib_get` of the key returns the new value. -/
theorem insert_update_then_get {c : critnib} {key : Nat} (value : Nat) {update : Nat}
    (ba : base_alloc) (hr : Reachable c) (hk : key < 2 ^ 64) (hm : key ∈ keys c.root)
    (hu : update ≠ 0) (hl : (alloc_leaf c ba.leaf).1 ≠ none) :
    ∃ c', critnib_insert c key value update ba = some (0, c') ∧
      skeleton c'.root = skeleton c.root ∧
      (∀ k' fuel, k' ≠ key → critnib_get c' k' fuel = critnib_get c k' fuel) ∧
      (NoWrap c → ∀ fuel, critnib_get c' key (fuel + 1) = some value) := by
  obtain ⟨hw, _⟩ := reachable_wf hr
  rcases critnib_insert_wf value update ba hw hk with ⟨h1, _⟩ | ⟨_, h'⟩
  · exact absurd h1 hl
  · rcases h' with ⟨_, hu0, _⟩ | ⟨_, _, c', e, h1, h2, hsk, h3⟩ | ⟨habs, _⟩ | ⟨habs, _⟩
    · exact absurd hu0 hu
    · refine ⟨c', e, hsk, ?_, ?_⟩
      · intro k' fuel hne
        apply critnib_get_congr h1
        apply get_res_congr hw h2
        intro v
        rw [h3]
        simp [hne]
      · intro hnw fuel
        have hnw' : NoWrap c' := by unfold NoWrap; rw [h1]; exact hnw
        rw [critnib_get_nowrap hnw']
        congr 1
        exact get_res_of_mem h2 ((h3 key value).mpr (Or.inl ⟨rfl, rfl⟩))
    · exact absurd hm habs
    · exact absurd hm habs

theorem insert_update_then_get_witness :
    ∃ c', critnib_insert demo_state 10 99 1 ba1 = some (0, c') ∧
      skeleton c'.root = skeleton demo_state.root ∧
      (∀ k' fuel, k' ≠ 10 → critnib_get c' k' fuel = critnib_get demo_state k' fuel) ∧
      (NoWrap demo_state → ∀ fuel, critnib_get c' 10 (fuel + 1) = some 99) :=
  insert_update_then_get 99 ba1 reachable_demo_state (by norm_num) (by decide)
    (by decide) (by decide)

/-- In every reachable state that does not hold the key, `critnib_remove` of the
key returns null and the root, with every node below it, is the same as before;
on an empty map nothing at all changes. -/
theorem remove_absent_keeps_tree {c : critnib} {key : Nat} (hr : Reachable c)
    (habs : key ∉ keys c.root) :
    ∃ c', critnib_remove c key = some (0, c') ∧ c'.root = c.root ∧
      (c.root = .null → c' = c) ∧
      ∀ k, get_res c'.root k = get_res c.root k := by
  obtain ⟨hw, _⟩ := reachable_wf hr
  rcases critnib_remove_wf key hw with ⟨v, c', hv, _⟩ | ⟨_, c', e, h1, _⟩
  · exact absurd (mem_keys.mpr ⟨v, hv⟩) habs
  · refine ⟨c', e, h1, ?_, fun k => by rw [h1]⟩
    intro hnull
    rw [critnib_remove_null key hnull] at e
    simp only [Option.some.injEq, Prod.mk.injEq, true_and] at e
    exact e.symm

theorem remove_absent_keeps_tree_witness :
    ∃ c', critnib_remove demo_state 15 = some (0, c') ∧ c'.root = demo_state.root ∧
      (demo_state.root = .null → c' = demo_state) ∧
      ∀ k, get_res c'.root k = get_res demo_state.root k :=
  remove_absent_keeps_tree reachable_demo_state (by decide)


/-! ## The ordered queries in reachable states -/

theorem find_dir_LE : find_dir_t.FIND_LE.toInt = -1 := rfl

theorem find_dir_GE : find_dir_t.FIND_GE.toInt = 1 := rfl

theorem find_dir_L : find_dir_t.FIND_L.toInt = -2 := rfl

theorem find_dir_G : find_dir_t.FIND_G.toInt = 2 := rfl

theorem find_dir_EQ : find_dir_t.FIND_EQ.toInt = 0 := rfl

/-- C7: in every reachable state whose counter is below its last sixteen values
(fewer than `2^64 - 16` removes have run) and for every 64-bit query key `q`,
`critnib_find` with `FIND_LE` returns 1 with the largest stored key at most `q`
and its value, and 0 exactly when no stored key is at most `q`; `critnib_find_le`
returns the value of that same leaf, or null.  Both return in their first
round. -/
theorem C7_find_le {c : critnib} {q : Nat} (hr : Reachable c) (hnw : NoWrap c)
    (hq : q < 2 ^ 64) (fuel : Nat) :
    (∃ k v, (k, v) ∈ leaves c.root ∧ k ≤ q ∧
        (∀ k' v', (k', v') ∈ leaves c.root → k' ≤ q → k' ≤ k) ∧
        critnib_find c q .FIND_LE (fuel + 1) = some (1, some (k, v)) ∧
        critnib_find_le c q (fuel + 1) = some v) ∨
    ((∀ k v, (k, v) ∈ leaves c.root → q < k) ∧
        critnib_find c q .FIND_LE (fuel + 1) = some (0, none) ∧
        critnib_find_le c q (fuel + 1) = some 0) := by
  obtain ⟨hw, _⟩ := reachable_wf hr
  have hf : critnib_find c q .FIND_LE (fuel + 1) = critnib_find_ret (some (find_le q c.root)) := by
    simp [critnib_find, find_dir_LE, critnib_find_loop_nowrap hnw, find_res]
  rw [hf, critnib_find_le_nowrap hnw]
  rcases find_le_spec hq hw with ⟨e, hall⟩ | ⟨a, k, v, e, hm, hle, hmax⟩
  · right
    rw [e]
    exact ⟨hall, rfl, rfl⟩
  · left
    rw [e]
    exact ⟨k, v, hm, hle, hmax, rfl, rfl⟩

theorem C7_find_le_witness :
    (∃ k v, (k, v) ∈ leaves demo_state.root ∧ k ≤ 15 ∧
        (∀ k' v', (k', v') ∈ leaves demo_state.root → k' ≤ 15 → k' ≤ k) ∧
        critnib_find demo_state 15 .FIND_LE (0 + 1) = some (1, some (k, v)) ∧
        critnib_find_le demo_state 15 (0 + 1) = some v) ∨
    ((∀ k v, (k, v) ∈ leaves demo_state.root → 15 < k) ∧
        critnib_find demo_state 15 .FIND_LE (0 + 1) = some (0, none) ∧
        critnib_find_le demo_state 15 (0 + 1) = some 0) :=
  C7_find_le reachable_demo_state (by unfold NoWrap; decide) (by norm_num) 0

/-- C8: in every reachable state whose counter is below its last sixteen values
(fewer than `2^64 - 16` removes have run) and for every 64-bit query key `q`,
`critnib_find` with `FIND_GE` returns, in its first round, 1 with the smallest
stored key at least `q` and its value, and 0 exactly when no stored key is at
least `q`. -/
theorem C8_find_ge {c : critnib} {q : Nat} (hr : Reachable c) (hnw : NoWrap c)
    (hq : q < 2 ^ 64) (fuel : Nat) :
    (∃ k v, (k, v) ∈ leaves c.root ∧ q ≤ k ∧
        (∀ k' v', (k', v') ∈ leaves c.root → q ≤ k' → k ≤ k') ∧
        critnib_find c q .FIND_GE (fuel + 1) = some (1, some (k, v))) ∨
    ((∀ k v, (k, v) ∈ leaves c.root → k < q) ∧
        critnib_find c q .FIND_GE (fuel + 1) = some (0, none)) := by
  obtain ⟨hw, _⟩ := reachable_wf hr
  have hf : critnib_find c q .FIND_GE (fuel + 1) = critnib_find_ret (some (find_ge q c.root)) := by
    simp [critnib_find, find_dir_GE, critnib_find_loop_nowrap hnw, find_res]
  rw [hf]
  rcases find_ge_spec hq hw with ⟨e, hall⟩ | ⟨a, k, v, e, hm, hle, hmin⟩
  · right
    rw [e]
    exact ⟨hall, rfl⟩
  · left
    rw [e]
    exact ⟨k, v, hm, hle, hmin, rfl⟩

theorem C8_find_ge_witness :
    (∃ k v, (k, v) ∈ leaves demo_state.root ∧ 15 ≤ k ∧
        (∀ k' v', (k', v') ∈ leaves demo_state.root → 15 ≤ k' → k ≤ k') ∧
        critnib_find demo_state 15 .FIND_GE (0 + 1) = some (1, some (k, v))) ∨
    ((∀ k v, (k, v) ∈ leaves demo_state.root → k < 15) ∧
        critnib_find demo_state 15 .FIND_GE (0 + 1) = some (0, none)) :=
  C8_find_ge reachable_demo_state (by unfold NoWrap; decide) (by norm_num) 0

/-- On every map `critnib_find` of key 0 with `FIND_L` and of the largest word
with `FIND_G` return 0 before the key is touched and before any round of the
retry loop. -/
theorem find_strict_at_bounds (c : critnib) (fuel : Nat) :
    critnib_find c 0 .FIND_L fuel = some (0, none) ∧
    critnib_find c UINTPTR_MAX .FIND_G fuel = some (0, none) := by
  constructor
  · simp [critnib_find, find_dir_L]
  · simp [critnib_find, find_dir_G]

/-- In every reachable state whose counter is below its last sixteen values,
`critnib_find` with `FIND_L` yields the largest stored key below `q` and with
`FIND_G` the smallest stored key above `q`, and returns 0 when there is none. -/
theorem find_strict_below_wrap {c : critnib} {q : Nat} (hr : Reachable c) (hnw : NoWrap c)
    (hq : q < 2 ^ 64) (fuel : Nat) :
    ((∃ k v, (k, v) ∈ leaves c.root ∧ k < q ∧
        (∀ k' v', (k', v') ∈ leaves c.root → k' < q → k' ≤ k) ∧
        critnib_find c q .FIND_L (fuel + 1) = some (1, some (k, v))) ∨
     ((∀ k v, (k, v) ∈ leaves c.root → q ≤ k) ∧
        critnib_find c q .FIND_L (fuel + 1) = some (0, none))) ∧
    ((∃ k v, (k, v) ∈ leaves c.root ∧ q < k ∧
        (∀ k' v', (k', v') ∈ leaves c.root → q < k' → k ≤ k') ∧
        critnib_find c q .FIND_G (fuel + 1) = some (1, some (k, v))) ∨
     ((∀ k v, (k, v) ∈ leaves c.root → k ≤ q) ∧
        critnib_find c q .FIND_G (fuel + 1) = some (0, none))) := by
  obtain ⟨hw, _⟩ := reachable_wf hr
  constructor
  · by_cases h0 : q = 0
    · right
      rw [h0]
      exact ⟨fun k v _ => Nat.zero_le k, by simp [critnib_find, find_dir_L]⟩
    · have hf : critnib_find c q .FIND_L (fuel + 1) =
          critnib_find_ret (some (find_le (q - 1) c.root)) := by
        simp [critnib_find, find_dir_L, critnib_find_loop_nowrap hnw, find_res, h0]
      rw [hf]
      rcases find_le_spec (q := q - 1) (by omega) hw with ⟨e, hall⟩ | ⟨a, k, v, e, hm, hle, hmax⟩
      · right
        rw [e]
        exact ⟨fun k v h => by have := hall k v h; omega, rfl⟩
      · left
        rw [e]
        exact ⟨k, v, hm, by omega, fun k' v' h hlt => hmax k' v' h (by omega), rfl⟩
  · by_cases h0 : q = UINTPTR_MAX
    · right
      rw [h0]
      refine ⟨fun k v h => ?_, by simp [critnib_find, find_dir_G]⟩
      have := key_lt hw h
      simp only [UINTPTR_MAX, WORD]
      omega
    · have hq1 : q + 1 < 2 ^ 64 := by
        simp only [UINTPTR_MAX, WORD] at h0
        omega
      have hf : critnib_find c q .FIND_G (fuel + 1) =
          critnib_find_ret (some (find_ge (q + 1) c.root)) := by
        simp [critnib_find, find_dir_G, critnib_find_loop_nowrap hnw, find_res, h0]
      rw [hf]
      rcases find_ge_spec hq1 hw with ⟨e, hall⟩ | ⟨a, k, v, e, hm, hle, hmin⟩
      · right
        rw [e]
        exact ⟨fun k v h => by have := hall k v h; omega, rfl⟩
      · left
        rw [e]
        exact ⟨k, v, hm, by omega, fun k' v' h hlt => hmin k' v' h (by omega), rfl⟩

theorem find_strict_below_wrap_witness :
    ((∃ k v, (k, v) ∈ leaves demo_state.root ∧ k < 20 ∧
        (∀ k' v', (k', v') ∈ leaves demo_state.root → k' < 20 → k' ≤ k) ∧
        critnib_find demo_state 20 .FIND_L (0 + 1) = some (1, some (k, v))) ∨
     ((∀ k v, (k, v) ∈ leaves demo_state.root → 20 ≤ k) ∧
        critnib_find demo_state 20 .FIND_L (0 + 1) = some (0, none))) ∧
    ((∃ k v, (k, v) ∈ leaves demo_state.root ∧ 20 < k ∧
        (∀ k' v', (k', v') ∈ leaves demo_state.root → 20 < k' → k ≤ k') ∧
        critnib_find demo_state 20 .FIND_G (0 + 1) = some (1, some (k, v))) ∨
     ((∀ k v, (k, v) ∈ leaves demo_state.root → k ≤ 20) ∧
        critnib_find demo_state 20 .FIND_G (0 + 1) = some (0, none))) :=
  find_strict_below_wrap reachable_demo_state (by unfold NoWrap; decide) (by norm_num) 0

/-- C10: in every reachable state whose counter is below its last sixteen values
(fewer than `2^64 - 16` removes have run), `critnib_find` with `FIND_EQ` returns
1 with the key and its stored value when the key is stored, also when that value
is null, and 0 when it is not; `critnib_get` returns the stored value, so null
both when the key is absent and when it is stored with a null value.  Both
return in their first round. -/
theorem C10_find_eq {c : critnib} (q : Nat) (hr : Reachable c) (hnw : NoWrap c)
    (fuel : Nat) :
    (∃ v, (q, v) ∈ leaves c.root ∧
        critnib_find c q .FIND_EQ (fuel + 1) = some (1, some (q, v)) ∧
        critnib_get c q (fuel + 1) = some v) ∨
    (q ∉ keys c.root ∧ critnib_find c q .FIND_EQ (fuel + 1) = some (0, none) ∧
        critnib_get c q (fuel + 1) = some 0) := by
  obtain ⟨hw, _⟩ := reachable_wf hr
  have hf : critnib_find c q .FIND_EQ (fuel + 1) = critnib_find_ret (some (find_res c.root q 0)) := by
    simp [critnib_find, find_dir_EQ, critnib_find_loop_nowrap hnw]
  rw [hf, critnib_get_nowrap hnw]
  rcases find_res_eq hw q with ⟨a, v, hm, e⟩ | ⟨habs, e⟩
  · left
    rw [e]
    exact ⟨v, hm, rfl, by rw [get_res_of_mem hw hm]⟩
  · right
    rw [e]
    exact ⟨habs, rfl, by rw [get_res_of_not_mem habs]⟩

theorem C10_find_eq_witness :
    (∃ v, (20, v) ∈ leaves demo_state.root ∧
        critnib_find demo_state 20 .FIND_EQ (0 + 1) = some (1, some (20, v)) ∧
        critnib_get demo_state 20 (0 + 1) = some v) ∨
    (20 ∉ keys demo_state.root ∧ critnib_find demo_state 20 .FIND_EQ (0 + 1) = some (0, none) ∧
        critnib_get demo_state 20 (0 + 1) = some 0) :=
  C10_find_eq 20 reachable_demo_state (by unfold NoWrap; decide) 0


theorem critnib_get_reference_witness :
    ∃ c, run critnib_new (demo_ops ++ [Op.remove 10]) = some c ∧
      (NoWrap c → ∀ k fuel, critnib_get c k (fuel + 1) =
        some ((ref_run ref_new (demo_ops ++ [Op.remove 10]) k).getD 0)) :=
  critnib_get_reference (by
    intro op h
    simp [demo_ops] at h
    rcases h with h | h | h <;> rw [h] <;> simp [Op.ok, Op.alloc_ok, ba0, ba1])

/-! ## The last sixteen values of the counter

`wrap_state (2 ^ 64 - 16)` is reached from a fresh map by one insert and
`2 ^ 64 - 16` removes of an absent key.  There `wrs1 + DELETED_LIFE` is 0 in
64-bit arithmetic, the test `wrs1 + DELETED_LIFE <= wrs2` holds although no
remove has run since the first sample, and every reader repeats its round without
end.  The theorems on the readers are stated for counters below these values
(`NoWrap`), that is while fewer than `2 ^ 64 - 16` removes have run. -/

theorem wrap_state_window_pred : (wrap_state (2 ^ 64 - 17)).remove_count < WORD ∧
    NoWrap (wrap_state (2 ^ 64 - 17)) := by
  constructor
  · decide
  · unfold NoWrap; decide

theorem critnib_find_wrap {c : critnib} (hw : c.remove_count < WORD) (h : ¬ NoWrap c)
    {q : Nat} {dir : find_dir_t}
    (hq : ¬ (dir.toInt < -1 ∧ q = 0) ∧ ¬ (dir.toInt > 1 ∧ q = UINTPTR_MAX)) :
    ∀ fuel, critnib_find c q dir fuel = none := by
  intro fuel
  unfold critnib_find
  simp only [critnib_find_loop_wrap hw h, critnib_find_ret]
  split
  · split
    · next h1 h2 => exact absurd ⟨h1, h2⟩ hq.1
    · rfl
  · split
    · split
      · next h1 h2 => exact absurd ⟨h1, h2⟩ hq.2
      · rfl
    · rfl

/-! ## Iteration -/

theorem feed_append {σ : Type} (func : σ → Nat → Nat → Int × σ) (l1 l2 : List (Nat × Nat)) :
    ∀ pd, feed func (l1 ++ l2) pd =
      if (feed func l1 pd).1 then feed func l1 pd else feed func l2 (feed func l1 pd).2 := by
  induction l1 with
  | nil => intro pd; simp [feed]
  | cons a l ih =>
    intro pd
    obtain ⟨k, v⟩ := a
    simp only [List.cons_append, feed]
    by_cases h : (func pd k v).1 ≠ 0
    · simp [h]
    · simp only [h, if_false]
      exact ih _

theorem feed_logged {σ : Type} (func : σ → Nat → Nat → Int × σ) (l : List (Nat × Nat)) :
    ∀ pd log, (feed (logged func) l (pd, log)).2.2 = log ++ calls_until func l pd ∧
      (feed (logged func) l (pd, log)).2.1 = (feed func l pd).2 ∧
      (feed (logged func) l (pd, log)).1 = (feed func l pd).1 := by
  induction l with
  | nil => intro pd log; simp [feed, calls_until]
  | cons a l ih =>
    intro pd log
    obtain ⟨k, v⟩ := a
    simp only [feed, calls_until, logged]
    by_cases h : (func pd k v).1 ≠ 0
    · simp [h]
    · simp only [h, if_false]
      obtain ⟨h1, h2, h3⟩ := ih (func pd k v).2 (log ++ [(k, v)])
      refine ⟨?_, h2, h3⟩
      rw [h1]; simp

/-- The relation between the loop state of `iter` and that of `walk`. -/
theorem iter_fold {σ : Type} (min max : Nat) (func : σ → Nat → Nat → Int × σ)
    (ch : Fin 16 → critnib_node) (pd0 : σ) (l : List (Fin 16))
    (ih : ∀ i ∈ l, ∀ pd, (iter min max func (ch i) pd).2 = (feed func (walk min max (ch i)).2 pd).2 ∧
      ((iter min max func (ch i) pd).1 ≠ 0 ↔
        (feed func (walk min max (ch i)).2 pd).1 = true ∨ (walk min max (ch i)).1 = true)) :
    ∀ (ai : Int × σ) (aw : Bool × List (Nat × Nat)),
      (ai.2 = (feed func aw.2 pd0).2 ∧ (ai.1 ≠ 0 ↔ (feed func aw.2 pd0).1 = true ∨ aw.1 = true)) →
      ((l.foldl (fun (acc : Int × σ) i =>
          if acc.1 ≠ 0 then acc
          else if (ch i).isNull then acc
          else if (iter min max func (ch i) acc.2).1 ≠ 0 then
            (1, (iter min max func (ch i) acc.2).2)
          else (0, (iter min max func (ch i) acc.2).2)) ai).2 =
        (feed func (l.foldl (fun (acc : Bool × List (Nat × Nat)) i =>
          if acc.1 then acc
          else ((walk min max (ch i)).1, acc.2 ++ (walk min max (ch i)).2)) aw).2 pd0).2 ∧
       ((l.foldl (fun (acc : Int × σ) i =>
          if acc.1 ≠ 0 then acc
          else if (ch i).isNull then acc
          else if (iter min max func (ch i) acc.2).1 ≠ 0 then
            (1, (iter min max func (ch i) acc.2).2)
          else (0, (iter min max func (ch i) acc.2).2)) ai).1 ≠ 0 ↔
        (feed func (l.foldl (fun (acc : Bool × List (Nat × Nat)) i =>
          if acc.1 then acc
          else ((walk min max (ch i)).1, acc.2 ++ (walk min max (ch i)).2)) aw).2 pd0).1 = true ∨
        (l.foldl (fun (acc : Bool × List (Nat × Nat)) i =>
          if acc.1 then acc
          else ((walk min max (ch i)).1, acc.2 ++ (walk min max (ch i)).2)) aw).1 = true)) := by
  induction l with
  | nil => intro ai aw h; simpa using h
  | cons i l ihl =>
    intro ai aw h
    simp only [List.foldl_cons]
    apply ihl (fun j hj => ih j (List.mem_cons_of_mem _ hj))
    obtain ⟨h1, h2⟩ := h
    obtain ⟨hi1, hi2⟩ := ih i (List.mem_cons_self _ _) ai.2
    by_cases hs : aw.1 = true
    · have hai : ai.1 ≠ 0 := h2.2 (Or.inr hs)
      rw [if_pos hai, if_pos hs]
      exact ⟨h1, h2⟩
    · rw [if_neg hs]
      by_cases ha : (feed func aw.2 pd0).1 = true
      · have hai : ai.1 ≠ 0 := h2.2 (Or.inl ha)
        rw [if_pos hai]
        show ai.2 = (feed func (aw.2 ++ (walk min max (ch i)).2) pd0).2 ∧
          (ai.1 ≠ 0 ↔ (feed func (aw.2 ++ (walk min max (ch i)).2) pd0).1 = true ∨
            (walk min max (ch i)).1 = true)
        rw [feed_append, if_pos ha]
        exact ⟨h1, fun _ => Or.inl ha, fun _ => hai⟩
      · have hai : ¬ ai.1 ≠ 0 := fun hc => (h2.1 hc).elim ha hs
        rw [if_neg hai]
        have hfeed : feed func (aw.2 ++ (walk min max (ch i)).2) pd0 =
            feed func (walk min max (ch i)).2 ai.2 := by
          rw [feed_append, if_neg ha, ← h1]
        by_cases hn : (ch i).isNull = true
        · have hnull : ch i = .null := by
            cases hc : ch i <;> simp [hc, critnib_node.isNull] at hn ⊢
          rw [if_pos hn]
          show ai.2 = (feed func (aw.2 ++ (walk min max (ch i)).2) pd0).2 ∧
            (ai.1 ≠ 0 ↔ (feed func (aw.2 ++ (walk min max (ch i)).2) pd0).1 = true ∨
              (walk min max (ch i)).1 = true)
          rw [hfeed, hnull]
          exact ⟨rfl, fun hc => absurd hc hai, fun hc => by simp [walk, feed] at hc⟩
        · rw [if_neg hn]
          by_cases hr : (iter min max func (ch i) ai.2).1 ≠ 0
          · rw [if_pos hr]
            show (iter min max func (ch i) ai.2).2 =
                (feed func (aw.2 ++ (walk min max (ch i)).2) pd0).2 ∧
              ((1 : Int) ≠ 0 ↔ (feed func (aw.2 ++ (walk min max (ch i)).2) pd0).1 = true ∨
                (walk min max (ch i)).1 = true)
            rw [hfeed]
            exact ⟨hi1, fun _ => hi2.1 hr, fun _ => one_ne_zero⟩
          · rw [if_neg hr]
            show (iter min max func (ch i) ai.2).2 =
                (feed func (aw.2 ++ (walk min max (ch i)).2) pd0).2 ∧
              ((0 : Int) ≠ 0 ↔ (feed func (aw.2 ++ (walk min max (ch i)).2) pd0).1 = true ∨
                (walk min max (ch i)).1 = true)
            rw [hfeed]
            exact ⟨hi1, fun hc => absurd rfl hc, fun hc => absurd (hi2.2 hc) hr⟩

theorem iter_walk {σ : Type} (min max : Nat) (func : σ → Nat → Nat → Int × σ)
    (t : critnib_node) :
    ∀ pd, (iter min max func t pd).2 = (feed func (walk min max t).2 pd).2 ∧
      ((iter min max func t pd).1 ≠ 0 ↔
        (feed func (walk min max t).2 pd).1 = true ∨ (walk min max t).1 = true) := by
  induction t with
  | null => intro pd; simp [iter, walk, feed]
  | leaf a k v =>
    intro pd
    by_cases h : k ≥ min ∧ k ≤ max
    · simp only [iter, walk, h, and_self, if_true, feed]
      by_cases hf : (func pd k v).1 ≠ 0
      · simp [hf]
      · simp only [hf, if_false]
        simp only [ne_eq, not_not] at hf
        simp [hf]
    · simp [iter, walk, h, feed]
  | inner a ch p s ih =>
    intro pd
    by_cases h1 : p > max
    · simp [iter, walk, h1, feed]
    · by_cases h2 : (p ||| path_mask s) < min
      · simp [iter, walk, h1, h2, feed]
      · simp only [iter, walk, h1, h2, if_false]
        exact iter_fold min max func ch pd (List.finRange 16) (fun i _ => ih i) (0, pd) (false, [])
          (by simp [feed])

theorem calls_until_zero (l : List (Nat × Nat)) : ∀ pd, calls_until func_zero l pd = l := by
  induction l with
  | nil => intro pd; rfl
  | cons a l ih => intro pd; obtain ⟨k, v⟩ := a; simp [calls_until, func_zero, ih]

theorem critnib_iter_walk {σ : Type} (c : critnib) (min max : Nat)
    (func : σ → Nat → Nat → Int × σ) (pd : σ) :
    critnib_iter c min max func pd = (feed func (walk min max c.root).2 pd).2 := by
  unfold critnib_iter
  by_cases hn : c.root.isNull = true
  · have hnull : c.root = .null := by
      cases hc : c.root <;> simp [hc, critnib_node.isNull] at hn ⊢
    simp [hnull, critnib_node.isNull, walk, feed]
  · simp only [hn, if_false, Bool.false_eq_true]
    exact (iter_walk min max func c.root pd).1

theorem calls_walk {σ : Type} (c : critnib) (min max : Nat)
    (func : σ → Nat → Nat → Int × σ) (pd : σ) :
    calls c min max func pd = calls_until func (walk min max c.root).2 pd := by
  unfold calls
  rw [critnib_iter_walk, (feed_logged func _ pd []).1]
  simp

theorem calls_zero (c : critnib) (min max : Nat) :
    calls c min max func_zero () = (walk min max c.root).2 := by
  rw [calls_walk, calls_until_zero]

/-- The leaves of a well-formed tree are listed by strictly increasing key. -/
theorem leaves_sorted {t : critnib_node} :
    WF t → (leaves t).Pairwise (fun a b => a.1 < b.1) := by
  induction t with
  | null => intro _; simp [leaves]
  | leaf a k v => intro _; simp [leaves]
  | inner a ch p s ih =>
    intro hw
    simp only [leaves]
    rw [List.pairwise_flatMap]
    refine ⟨fun i _ => ih i (hw.2.2.2.2.2 i).1, ?_⟩
    have hlt : (List.finRange 16).Pairwise (· < ·) := List.pairwise_lt_finRange 16
    refine hlt.imp ?_
    intro i j hij x hx y hy
    exact slot_order hw hij (show (x.1, x.2) ∈ leaves (ch i) from hx)
      (show (y.1, y.2) ∈ leaves (ch j) from hy)

theorem keys_nodup {t : critnib_node} (hw : WF t) : (keys t).Nodup := by
  have h := leaves_sorted hw
  show List.Pairwise (· ≠ ·) ((leaves t).map Prod.fst)
  rw [List.pairwise_map]
  exact h.imp (fun h => Nat.ne_of_lt h)

/-- The loop of `walk` appends, for some of the slots, pairs of that slot that
are in range. -/
theorem walk_fold_sublist (min max : Nat) (ch : Fin 16 → critnib_node) (l : List (Fin 16))
    (ih : ∀ i ∈ l, List.Sublist (walk min max (ch i)).2 ((leaves (ch i)).filter (in_range min max))) :
    ∀ acc : Bool × List (Nat × Nat), ∃ x,
      (l.foldl (fun (acc : Bool × List (Nat × Nat)) i =>
          if acc.1 then acc
          else ((walk min max (ch i)).1, acc.2 ++ (walk min max (ch i)).2)) acc).2 = acc.2 ++ x ∧
      List.Sublist x ((l.flatMap (fun i => leaves (ch i))).filter (in_range min max)) := by
  induction l with
  | nil => intro acc; exact ⟨[], by simp⟩
  | cons i l ihl =>
    intro acc
    simp only [List.foldl_cons, List.flatMap_cons, List.filter_append]
    by_cases hs : acc.1 = true
    · rw [if_pos hs]
      obtain ⟨x, hx1, hx2⟩ := ihl (fun j hj => ih j (List.mem_cons_of_mem _ hj)) acc
      exact ⟨x, hx1, hx2.trans (List.sublist_append_right _ _)⟩
    · rw [if_neg hs]
      obtain ⟨x, hx1, hx2⟩ := ihl (fun j hj => ih j (List.mem_cons_of_mem _ hj))
        ((walk min max (ch i)).1, acc.2 ++ (walk min max (ch i)).2)
      refine ⟨(walk min max (ch i)).2 ++ x, ?_, ?_⟩
      · rw [hx1, List.append_assoc]
      · exact List.Sublist.append (ih i (List.mem_cons_self _ _)) hx2

/-- The walk hands the callback a subsequence of the pairs in range, in the
order of the leaves. -/
theorem walk_sublist (min max : Nat) (t : critnib_node) :
    List.Sublist (walk min max t).2 ((leaves t).filter (in_range min max)) := by
  induction t with
  | null => simp [walk]
  | leaf a k v =>
    by_cases h : k ≥ min ∧ k ≤ max
    · have h' : min ≤ k ∧ k ≤ max := h
      simp [walk, leaves, in_range, h']
    · have h' : ¬ (min ≤ k ∧ k ≤ max) := h
      simp [walk, h']
  | inner a ch p s ih =>
    by_cases h1 : p > max
    · simp [walk, h1]
    · by_cases h2 : (p ||| path_mask s) < min
      · simp [walk, h1, h2]
      · simp only [walk, h1, h2, if_false]
        obtain ⟨x, hx1, hx2⟩ := walk_fold_sublist min max ch (List.finRange 16)
          (fun i _ => ih i) (false, [])
        rw [hx1]
        simpa [leaves] using hx2

/-- The keys of a well-formed inner node are at least its path. -/
theorem path_le_key {a : Nat} {ch : Fin 16 → critnib_node} {p s : Nat}
    (hw : WF (.inner a ch p s)) {k v : Nat} (h : (k, v) ∈ leaves (.inner a ch p s)) :
    p ≤ k := by
  have e := key_hi hw h
  have hp := hw.2.2.2.1
  have h1 := Nat.div_add_mod p (2 ^ (s + 4))
  have h2 := Nat.div_add_mod k (2 ^ (s + 4))
  rw [hp] at h1
  rw [e] at h2
  omega

/-- The loop of `walk` on a node whose slots are walked exactly: it appends the
pairs in range of the slots, and is cut only above a key beyond `max`. -/
theorem walk_fold_exact (min max : Nat) (ch : Fin 16 → critnib_node)
    (hch : ∀ i, (walk min max (ch i)).2 = (leaves (ch i)).filter (in_range min max) ∧
      ((walk min max (ch i)).1 = true → ∃ kv ∈ leaves (ch i), max < kv.1))
    (hord : ∀ i j : Fin 16, i < j → ∀ x ∈ leaves (ch i), ∀ y ∈ leaves (ch j), x.1 < y.1)
    (l : List (Fin 16)) (hl : l.Pairwise (· < ·)) :
    ∀ acc : Bool × List (Nat × Nat),
      (acc.1 = true → ∃ j, (∀ i ∈ l, j < i) ∧ ∃ kv ∈ leaves (ch j), max < kv.1) →
      (l.foldl (fun (acc : Bool × List (Nat × Nat)) i =>
          if acc.1 then acc
          else ((walk min max (ch i)).1, acc.2 ++ (walk min max (ch i)).2)) acc).2 =
        acc.2 ++ (l.flatMap (fun i => leaves (ch i))).filter (in_range min max) ∧
      ((l.foldl (fun (acc : Bool × List (Nat × Nat)) i =>
          if acc.1 then acc
          else ((walk min max (ch i)).1, acc.2 ++ (walk min max (ch i)).2)) acc).1 = true →
        ∃ j, ∃ kv ∈ leaves (ch j), max < kv.1) := by
  induction l with
  | nil =>
    intro acc h
    refine ⟨by simp, fun hs => ?_⟩
    obtain ⟨j, _, hj⟩ := h hs
    exact ⟨j, hj⟩
  | cons i l ihl =>
    intro acc h
    rw [List.pairwise_cons] at hl
    simp only [List.foldl_cons, List.flatMap_cons, List.filter_append]
    by_cases hs : acc.1 = true
    · rw [if_pos hs]
      obtain ⟨j, hj, kv, hkv, hmax⟩ := h hs
      have hnil : (leaves (ch i)).filter (in_range min max) = [] := by
        rw [List.filter_eq_nil_iff]
        intro y hy
        have := hord j i (hj i (List.mem_cons_self _ _)) kv hkv y hy
        simp only [in_range, decide_eq_true_eq, not_and, not_le]
        intro _; omega
      rw [hnil, List.nil_append]
      exact ihl hl.2 acc (fun _ => ⟨j, fun i' hi' => hj i' (List.mem_cons_of_mem _ hi'), kv, hkv, hmax⟩)
    · rw [if_neg hs]
      have := ihl hl.2 ((walk min max (ch i)).1, acc.2 ++ (walk min max (ch i)).2)
        (fun hc => ⟨i, hl.1, (hch i).2 hc⟩)
      refine ⟨?_, this.2⟩
      rw [this.1]
      simp only [(hch i).1, List.append_assoc]

/-- Where no inner node passes the skip test, the walk of a well-formed tree
hands the callback exactly the pairs in range, and it is cut only when a key
beyond `max` exists. -/
theorem walk_exact (min max : Nat) {t : critnib_node} :
    WF t → NoSkip min t →
      (walk min max t).2 = (leaves t).filter (in_range min max) ∧
      ((walk min max t).1 = true → ∃ kv ∈ leaves t, max < kv.1) := by
  induction t with
  | null => intro _ _; simp [walk, leaves]
  | leaf a k v =>
    intro _ _
    by_cases h : k ≥ min ∧ k ≤ max
    · have h' : min ≤ k ∧ k ≤ max := h
      simp [walk, leaves, in_range, h']
    · have h' : ¬ (min ≤ k ∧ k ≤ max) := h
      simp [walk, leaves, in_range, h']
  | inner a ch p s ih =>
    intro hw hns
    by_cases h1 : p > max
    · simp only [walk, h1, if_true]
      have hall : ∀ kv ∈ leaves (.inner a ch p s), max < kv.1 := by
        intro kv hkv
        have := path_le_key hw (k := kv.1) (v := kv.2) hkv
        omega
      refine ⟨?_, fun _ => ?_⟩
      · symm
        rw [List.filter_eq_nil_iff]
        intro y hy
        have := hall y hy
        simp only [in_range, decide_eq_true_eq, not_and, not_le]
        intro _; omega
      · obtain ⟨x, hx⟩ := leaves_ne_nil hw (by simp)
        exact ⟨x, hx, hall x hx⟩
    · have h2 : ¬ (p ||| path_mask s) < min := hns.1
      simp only [walk, h1, h2, if_false]
      have := walk_fold_exact min max ch
        (fun i => ih i (hw.2.2.2.2.2 i).1 (hns.2 i))
        (fun i j hij x hx y hy =>
          slot_order hw hij (show (x.1, x.2) ∈ leaves (ch i) from hx)
            (show (y.1, y.2) ∈ leaves (ch j) from hy))
        (List.finRange 16) (List.pairwise_lt_finRange 16) (false, []) (by simp)
      refine ⟨by simpa [leaves] using this.1, fun hs => ?_⟩
      obtain ⟨j, kv, hkv, hmax⟩ := this.2 hs
      exact ⟨kv, mem_leaves_inner.2 ⟨j, hkv⟩, hmax⟩

theorem noSkip_zero (t : critnib_node) : NoSkip 0 t := by
  induction t with
  | null => trivial
  | leaf a k v => trivial
  | inner a ch p s ih => exact ⟨Nat.not_lt_zero _, ih⟩

theorem calls_until_of_zero {σ : Type} {func : σ → Nat → Nat → Int × σ}
    (h0 : ∀ pd k v, (func pd k v).1 = 0) (l : List (Nat × Nat)) :
    ∀ pd, calls_until func l pd = l := by
  induction l with
  | nil => intro pd; rfl
  | cons a l ih => intro pd; obtain ⟨k, v⟩ := a; simp [calls_until, h0, ih]

theorem calls_until_initial {σ : Type} (func : σ → Nat → Nat → Int × σ) (l : List (Nat × Nat)) :
    ∀ pd, calls_until func l pd <+: l := by
  induction l with
  | nil => intro pd; simp [calls_until]
  | cons a l ih =>
    intro pd
    obtain ⟨k, v⟩ := a
    simp only [calls_until]
    by_cases h : (func pd k v).1 ≠ 0
    · rw [if_pos h]; exact ⟨l, rfl⟩
    · rw [if_neg h]
      exact (List.prefix_cons_inj _).2 (ih _)

theorem reachable_skip_state : Reachable skip_state :=
  ⟨skip_ops, by intro op h; simp [skip_ops] at h; rcases h with h | h <;> rw [h] <;> simp [Op.ok],
    rfl⟩

/-- The iteration scenario of the spec: the walk over `[2, 6]` hands the callback
the keys 2, 3, 4, 5, 6, and stops after 3 when the callback aborts at its second
call. -/
theorem walk_state_scenario :
    (calls walk_state 2 6 func_zero ()).map Prod.fst = [2, 3, 4, 5, 6] ∧
    (calls walk_state 2 6 func_second 0).map Prod.fst = [2, 3] := by
  constructor <;> decide

/-- C11: `critnib_iter` does not visit every stored pair of `[min, max]`.  After
inserting (2^60, 1) and (2^61, 2) into a fresh map, `critnib_iter(1,
UINTPTR_MAX, f)` never invokes `f`, though both keys are in range: the root has
shift 60, so `path | path_mask(shift)` is 0 and the skip test `< min` holds for
every `min ≥ 1`.  In every reachable state and for every callback that always
returns 0, the invocations are a subsequence of the stored pairs in range, in the
order of the leaves (no key outside the range, none twice), and they are all of
them when no inner node passes the skip test. -/
theorem C11_iter_misses_keys_in_range :
    (Reachable skip_state ∧ leaves skip_state.root = [(2 ^ 60, 1), (2 ^ 61, 2)] ∧
      calls skip_state 1 UINTPTR_MAX func_zero () = []) ∧
    ∀ c : critnib, Reachable c → ∀ (σ : Type) (func : σ → Nat → Nat → Int × σ) (pd : σ),
      (∀ pd k v, (func pd k v).1 = 0) → ∀ min max : Nat,
        List.Sublist (calls c min max func pd) ((leaves c.root).filter (in_range min max)) ∧
        (NoSkip min c.root →
          calls c min max func pd = (leaves c.root).filter (in_range min max)) := by
  refine ⟨⟨reachable_skip_state, by decide, by decide⟩, ?_⟩
  intro c hr σ func pd h0 min max
  rw [calls_walk, calls_until_of_zero h0]
  exact ⟨walk_sublist min max c.root, fun hns => (walk_exact min max (reachable_wf hr).1 hns).1⟩

/-- C12: in every reachable state, for every range and every callback, the keys
on which `critnib_iter` invokes the callback are strictly increasing. -/
theorem C12_iter_keys_increasing {c : critnib} (hr : Reachable c) {σ : Type}
    (func : σ → Nat → Nat → Int × σ) (pd : σ) (min max : Nat) :
    ((calls c min max func pd).map Prod.fst).Pairwise (· < ·) := by
  rw [List.pairwise_map, calls_walk]
  have h1 : List.Sublist (calls_until func (walk min max c.root).2 pd) (leaves c.root) :=
    ((calls_until_initial func _ pd).sublist.trans (walk_sublist min max c.root)).trans
      (List.filter_sublist _)
  exact (leaves_sorted (reachable_wf hr).1).sublist h1

theorem C12_iter_keys_increasing_witness :
    ((calls demo_state 0 15 func_zero ()).map Prod.fst).Pairwise (· < ·) :=
  C12_iter_keys_increasing reachable_demo_state func_zero () 0 15

/-- C13: in every state, the invocations of `critnib_iter` with a callback `func`
are the invocations of the walk with a callback that never aborts, cut after the
first one on which `func` returns non-zero: that pair is the last one handed to
`func`, and the private data left is that of these calls. -/
theorem C13_iter_stops_at_first_nonzero (c : critnib) {σ : Type}
    (func : σ → Nat → Nat → Int × σ) (pd : σ) (min max : Nat) :
    calls c min max func pd = calls_until func (calls c min max func_zero ()) pd ∧
    calls c min max func pd <+: calls c min max func_zero () ∧
    critnib_iter c min max func pd = (feed func (calls c min max func_zero ()) pd).2 := by
  rw [calls_zero, calls_walk, critnib_iter_walk]
  exact ⟨rfl, calls_until_initial func _ pd, rfl⟩

/-- C14: in every reachable state, `critnib_iter(0, UINTPTR_MAX, f)` with a
callback that always returns 0 invokes it on the stored pairs, each once, in the
order of the leaves; no key is stored twice. -/
theorem C14_iter_full_range {c : critnib} (hr : Reachable c) {σ : Type}
    (func : σ → Nat → Nat → Int × σ) (pd : σ) (h0 : ∀ pd k v, (func pd k v).1 = 0) :
    calls c 0 UINTPTR_MAX func pd = leaves c.root ∧ (keys c.root).Nodup := by
  have hw := (reachable_wf hr).1
  refine ⟨?_, keys_nodup hw⟩
  rw [calls_walk, calls_until_of_zero h0, (walk_exact 0 UINTPTR_MAX hw (noSkip_zero _)).1]
  rw [List.filter_eq_self]
  intro kv hkv
  have := key_lt hw (k := kv.1) (v := kv.2) hkv
  simp only [in_range, decide_eq_true_eq, UINTPTR_MAX, WORD]
  omega

theorem C14_iter_full_range_witness :
    calls demo_state 0 UINTPTR_MAX func_zero () = leaves demo_state.root ∧
      (keys demo_state.root).Nodup :=
  C14_iter_full_range reachable_demo_state func_zero () (fun _ _ _ => rfl)

/-! ## Allocation failure, repeated updates, shape -/

theorem critnib_iter_congr {c c' : critnib} (hroot : c'.root = c.root) {σ : Type}
    (func : σ → Nat → Nat → Int × σ) (pd : σ) (min max : Nat) :
    critnib_iter c' min max func pd = critnib_iter c min max func pd ∧
    calls c' min max func pd = calls c min max func pd := by
  simp only [calls, critnib_iter, hroot, and_self]

theorem alloc_node_after_leaf (c : critnib) (sl sn : Option Nat) :
    (alloc_node (alloc_leaf c sl).2 sn).1 = (alloc_node c sn).1 := by
  have h : (alloc_leaf c sl).2.deleted_node = c.deleted_node := by
    unfold alloc_leaf; split <;> rfl
  unfold alloc_node
  rw [h]
  split <;> rfl

/-- The readers and the iterator see the same in two states with the same root
and the same counter. -/
theorem readers_congr {c c' : critnib} (hroot : c'.root = c.root)
    (hrc : c'.remove_count = c.remove_count) :
    (∀ q fuel, critnib_get c' q fuel = critnib_get c q fuel) ∧
    (∀ q fuel, critnib_find_le c' q fuel = critnib_find_le c q fuel) ∧
    (∀ q dir fuel, critnib_find c' q dir fuel = critnib_find c q dir fuel) ∧
    (∀ (σ : Type) (func : σ → Nat → Nat → Int × σ) (pd : σ) (min max : Nat),
      critnib_iter c' min max func pd = critnib_iter c min max func pd ∧
      calls c' min max func pd = calls c min max func pd) :=
  ⟨fun q fuel => critnib_get_congr hrc (by rw [hroot]) fuel,
    fun q fuel => critnib_find_le_congr hrc hroot q fuel,
    fun q dir fuel => critnib_find_congr hrc hroot q dir fuel,
    fun _ func pd min max => critnib_iter_congr hroot func pd min max⟩

/-- C15: when the allocation of the scratch leaf fails, or when it succeeds and
the allocation of the inner node of a split fails (the descent stopped at a
non-null pointer whose path differs from the key), `critnib_insert` returns
ENOMEM and leaves the root, and with it the whole tree, and the counter as they
were: every `critnib_get`, `critnib_find_le`, `critnib_find` and `critnib_iter`
gives what it gave before the call. -/
theorem C15_insert_enomem_keeps_tree (c : critnib) (key value update : Nat) (ba : base_alloc)
    (h : (alloc_leaf c ba.leaf).1 = none ∨
      ((alloc_leaf c ba.leaf).1 ≠ none ∧ (insert_descend key c.root).2 ≠ .null ∧
        node_path (insert_descend key c.root).2 ^^^ key ≠ 0 ∧
        (alloc_node (alloc_leaf c ba.leaf).2 ba.node).1 = none)) :
    ∃ c', critnib_insert c key value update ba = some (ENOMEM, c') ∧ c'.root = c.root ∧
      (∀ q fuel, critnib_get c' q fuel = critnib_get c q fuel) ∧
      (∀ q fuel, critnib_find_le c' q fuel = critnib_find_le c q fuel) ∧
      (∀ q dir fuel, critnib_find c' q dir fuel = critnib_find c q dir fuel) ∧
      (∀ (σ : Type) (func : σ → Nat → Nat → Int × σ) (pd : σ) (min max : Nat),
        critnib_iter c' min max func pd = critnib_iter c min max func pd ∧
        calls c' min max func pd = calls c min max func pd) := by
  have key_case : ∃ c', critnib_insert c key value update ba = some (ENOMEM, c') ∧
      c'.root = c.root ∧ c'.remove_count = c.remove_count := by
    rcases h with h | ⟨hl, hn, hx, hm⟩
    · rcases critnib_insert_cases c key value update ba with h1 | ⟨ka, hka, _⟩
      · exact ⟨c, h1.2, rfl, rfl⟩
      · rw [h] at hka; cases hka
    · rw [alloc_node_after_leaf] at hm
      have hne : node_path (insert_descend key c.root).2 ≠ key :=
        fun e => hx (Nat.xor_eq_zero.mpr e)
      rcases critnib_insert_cases c key value update ba with h1 | ⟨ka, hka, h2⟩
      · exact absurd h1.1 hl
      · rcases h2 with ⟨e, _⟩ | ⟨a, v, e, _⟩ | ⟨a, v, e, _⟩ | ⟨a, ch, s, e, _⟩ |
          ⟨_, _, _, c', h3, h4, h5⟩ | ⟨_, _, m, hm', _⟩
        · exact absurd e hn
        · rw [e] at hne; exact absurd rfl hne
        · rw [e] at hne; exact absurd rfl hne
        · rw [e] at hne; exact absurd rfl hne
        · exact ⟨c', h5, h4, h3⟩
        · rw [hm] at hm'; cases hm'
  obtain ⟨c', h1, h2, h3⟩ := key_case
  exact ⟨c', h1, h2, readers_congr h2 h3⟩

theorem C15_insert_enomem_keeps_tree_witness :
    (∃ c', critnib_insert critnib_new 5 7 0 ba_none = some (ENOMEM, c') ∧
      c'.root = critnib_new.root ∧
      (∀ q fuel, critnib_get c' q fuel = critnib_get critnib_new q fuel) ∧
      (∀ q fuel, critnib_find_le c' q fuel = critnib_find_le critnib_new q fuel) ∧
      (∀ q dir fuel, critnib_find c' q dir fuel = critnib_find critnib_new q dir fuel) ∧
      (∀ (σ : Type) (func : σ → Nat → Nat → Int × σ) (pd : σ) (min max : Nat),
        critnib_iter c' min max func pd = critnib_iter critnib_new min max func pd ∧
        calls c' min max func pd = calls critnib_new min max func pd)) ∧
    (∃ c', critnib_insert demo_state 5 7 0 ba_leaf_only = some (ENOMEM, c') ∧
      c'.root = demo_state.root ∧
      (∀ q fuel, critnib_get c' q fuel = critnib_get demo_state q fuel) ∧
      (∀ q fuel, critnib_find_le c' q fuel = critnib_find_le demo_state q fuel) ∧
      (∀ q dir fuel, critnib_find c' q dir fuel = critnib_find demo_state q dir fuel) ∧
      (∀ (σ : Type) (func : σ → Nat → Nat → Int × σ) (pd : σ) (min max : Nat),
        critnib_iter c' min max func pd = critnib_iter demo_state min max func pd ∧
        calls c' min max func pd = calls demo_state min max func pd)) :=
  ⟨C15_insert_enomem_keeps_tree critnib_new 5 7 0 ba_none (Or.inl rfl),
    C15_insert_enomem_keeps_tree demo_state 5 7 0 ba_leaf_only
      (Or.inr ⟨by decide,
        by rw [show (insert_descend 5 demo_state.root).2 = .leaf 100 10 65 from rfl]; simp,
        by decide, by decide⟩)⟩

/-- Storing, where the insert descent stops, the pointer it stopped at gives the
tree back. -/
theorem rebuild_self (F : critnib_node → critnib_node) (key : Nat) (t : critnib_node)
    (hF : F (insert_descend key t).2 = (insert_descend key t).2) : rebuild F key t = t := by
  induction t with
  | null => exact hF
  | leaf a k v => exact hF
  | inner a ch p s ih =>
    by_cases hc : key &&& path_mask s = p
    · rw [rebuild_inner_in _ hc]
      simp only [insert_descend, hc, if_true] at hF
      rw [ih _ hF, Function.update_eq_self]
    · rw [rebuild_inner_out _ hc]
      simpa only [insert_descend, hc, if_false] using hF

/-- A second `critnib_insert` of a pair that is stored leaves the root and the
counter as they are, whatever the update flag and the allocator's answer. -/
theorem insert_again_keeps_root {c : critnib} {key value : Nat} (update : Nat) (ba : base_alloc)
    (hw : WF c.root) (hk : key < 2 ^ 64) (hm : (key, value) ∈ leaves c.root) :
    ∃ r c', critnib_insert c key value update ba = some (r, c') ∧
      (r = 0 ∨ r = EEXIST ∨ r = ENOMEM) ∧ c'.root = c.root ∧
      c'.remove_count = c.remove_count := by
  obtain ⟨a, e⟩ := insert_descend_of_mem hk hw hm
  rcases critnib_insert_cases c key value update ba with h1 | ⟨ka, hka, h2⟩
  · exact ⟨ENOMEM, c, h1.2, Or.inr (Or.inr rfl), rfl, rfl⟩
  · rcases h2 with ⟨e', _⟩ | ⟨a', v', e', _, c', h3, h4, h5⟩ | ⟨a', v', e', _, c', h3, h4, h5⟩ |
      ⟨a', ch, s, e', _⟩ | ⟨_, hne, _⟩ | ⟨_, hne, _⟩
    · rw [e] at e'; cases e'
    · refine ⟨0, c', h5, Or.inl rfl, ?_, h3⟩
      rw [h4 0]
      apply rebuild_self
      rw [e]
      simp [insert_at]
    · exact ⟨EEXIST, c', h5, Or.inr (Or.inl rfl), h4, h3⟩
    · rw [e] at e'; cases e'
    · rw [e] at hne; exact absurd rfl hne
    · rw [e] at hne; exact absurd rfl hne

/-- When `critnib_insert(k, v, update)` with a non-zero update flag has returned
0 in a reachable state, a second such call (which returns 0, or ENOMEM when its
scratch leaf cannot be allocated) leaves the root and the counter as the first
call left them, so that `critnib_get`, `critnib_find_le`, `critnib_find` in all
directions and `critnib_iter` give the same as after the first call. -/
theorem insert_update_again {c c1 : critnib} {key value update : Nat} (ba ba2 : base_alloc)
    (hr : Reachable c) (hk : key < 2 ^ 64) (hu : update ≠ 0)
    (h1 : critnib_insert c key value update ba = some (0, c1)) :
    ∃ r c2, critnib_insert c1 key value update ba2 = some (r, c2) ∧ (r = 0 ∨ r = ENOMEM) ∧
      c2.root = c1.root ∧
      (∀ q fuel, critnib_get c2 q fuel = critnib_get c1 q fuel) ∧
      (∀ q fuel, critnib_find_le c2 q fuel = critnib_find_le c1 q fuel) ∧
      (∀ q dir fuel, critnib_find c2 q dir fuel = critnib_find c1 q dir fuel) ∧
      (∀ (σ : Type) (func : σ → Nat → Nat → Int × σ) (pd : σ) (min max : Nat),
        critnib_iter c2 min max func pd = critnib_iter c1 min max func pd ∧
        calls c2 min max func pd = calls c1 min max func pd) := by
  have hw := (reachable_wf hr).1
  have hc1 : WF c1.root ∧ (key, value) ∈ leaves c1.root := by
    rcases critnib_insert_wf value update ba hw hk with h | ⟨_, h | h | h | h⟩
    · rw [h.2] at h1; cases h1
    · obtain ⟨_, _, c', e, _⟩ := h
      rw [e] at h1; cases h1
    · obtain ⟨_, _, c', e, _, w, _, hl⟩ := h
      rw [e] at h1; cases h1
      exact ⟨w, (hl key value).mpr (Or.inl ⟨rfl, rfl⟩)⟩
    · obtain ⟨_, c', e, _, w, hl⟩ := h
      rw [e] at h1; cases h1
      exact ⟨w, (hl key value).mpr (Or.inl ⟨rfl, rfl⟩)⟩
    · obtain ⟨_, _, c', e, _⟩ := h
      rw [e] at h1; cases h1
  obtain ⟨r, c2, e, hr2, hroot, hrc⟩ := insert_again_keeps_root update ba2 hc1.1 hk hc1.2
  have hr3 : r = 0 ∨ r = ENOMEM := by
    rcases hr2 with h | h | h
    · exact Or.inl h
    · exfalso
      rcases critnib_insert_wf value update ba2 hc1.1 hk with h' | ⟨_, h' | h' | h' | h'⟩
      · rw [h'.2] at e; cases e; cases h
      · exact hu h'.2.1
      · obtain ⟨_, _, c', e', _⟩ := h'
        rw [e'] at e; cases e; cases h
      · obtain ⟨_, c', e', _⟩ := h'
        rw [e'] at e; cases e; cases h
      · obtain ⟨_, _, c', e', _⟩ := h'
        rw [e'] at e; cases e; cases h
    · exact Or.inr h
  exact ⟨r, c2, e, hr3, hroot, readers_congr hroot hrc⟩

/-- C16: in every reachable state and for every 64-bit key, when
`critnib_insert(k, v, update)` with a non-zero update flag is applied twice in a
row and the byte allocator does not fail, both calls return 0 and the second
leaves the root of the first: `critnib_get`, `critnib_find_le`, `critnib_find` in
all five directions and `critnib_iter` (its private data and the sequence of its
callback invocations) give after the second call what they give after the
first. -/
theorem C16_insert_update_idempotent {c : critnib} {key value update : Nat}
    (ba ba' : base_alloc) (hr : Reachable c) (hk : key < 2 ^ 64) (hu : update ≠ 0)
    (hal : ba.leaf ≠ none ∧ ba.node ≠ none) (hal' : ba'.leaf ≠ none ∧ ba'.node ≠ none) :
    ∃ c1 c2, critnib_insert c key value update ba = some (0, c1) ∧
      critnib_insert c1 key value update ba' = some (0, c2) ∧
      c2.root = c1.root ∧
      (∀ q fuel, critnib_get c2 q fuel = critnib_get c1 q fuel) ∧
      (∀ q fuel, critnib_find_le c2 q fuel = critnib_find_le c1 q fuel) ∧
      (∀ q dir fuel, critnib_find c2 q dir fuel = critnib_find c1 q dir fuel) ∧
      (∀ (σ : Type) (func : σ → Nat → Nat → Int × σ) (pd : σ) (min max : Nat),
        critnib_iter c2 min max func pd = critnib_iter c1 min max func pd ∧
        calls c2 min max func pd = calls c1 min max func pd) := by
  have hw := (reachable_wf hr).1
  have h1 : ∃ c1, critnib_insert c key value update ba = some (0, c1) := by
    rcases critnib_insert_wf value update ba hw hk with
      ⟨hnone, _⟩ | ⟨_, ⟨_, hu0, _⟩ | ⟨_, _, c1, e, _⟩ | ⟨_, c1, e, _⟩ | ⟨_, hnn, _⟩⟩
    · exact absurd hnone (alloc_leaf_ne_none c hal.1)
    · exact absurd hu0 hu
    · exact ⟨c1, e⟩
    · exact ⟨c1, e⟩
    · exact absurd hnn (alloc_node_ne_none c hal.2)
  obtain ⟨c1, e1⟩ := h1
  have hr1 : Reachable c1 :=
    reachable_step hr (show (Op.insert key value update ba).ok from hk) (by simp [step, e1])
  have hw1 := (reachable_wf hr1).1
  obtain ⟨r, c2, e2, _, hroot, g1, g2, g3, g4⟩ := insert_update_again ba ba' hr hk hu e1
  have hr0 : r = 0 := by
    rcases critnib_insert_wf value update ba' hw1 hk with
      ⟨hnone, _⟩ | ⟨_, ⟨_, hu0, _⟩ | ⟨_, _, c', e, _⟩ | ⟨_, c', e, _⟩ | ⟨_, hnn, _⟩⟩
    · exact absurd hnone (alloc_leaf_ne_none c1 hal'.1)
    · exact absurd hu0 hu
    · rw [e] at e2
      simp only [Option.some.injEq, Prod.mk.injEq] at e2
      exact e2.1.symm
    · rw [e] at e2
      simp only [Option.some.injEq, Prod.mk.injEq] at e2
      exact e2.1.symm
    · exact absurd hnn (alloc_node_ne_none c1 hal'.2)
  subst hr0
  exact ⟨c1, c2, e1, e2, hroot, g1, g2, g3, g4⟩

theorem C16_insert_update_idempotent_witness :
    ∃ c1 c2, critnib_insert demo_state 30 7 1 ba2 = some (0, c1) ∧
      critnib_insert c1 30 7 1 ⟨some 700, some 800, fun _ => .null⟩ = some (0, c2) ∧
      c2.root = c1.root ∧
      (∀ q fuel, critnib_get c2 q fuel = critnib_get c1 q fuel) ∧
      (∀ q fuel, critnib_find_le c2 q fuel = critnib_find_le c1 q fuel) ∧
      (∀ q dir fuel, critnib_find c2 q dir fuel = critnib_find c1 q dir fuel) ∧
      (∀ (σ : Type) (func : σ → Nat → Nat → Int × σ) (pd : σ) (min max : Nat),
        critnib_iter c2 min max func pd = critnib_iter c1 min max func pd ∧
        calls c2 min max func pd = calls c1 min max func pd) :=
  C16_insert_update_idempotent ba2 ⟨some 700, some 800, fun _ => .null⟩ reachable_demo_state
    (by norm_num) (by decide) ⟨by simp [ba2], by simp [ba2]⟩ ⟨by simp, by simp⟩

/-- The example of the repeated update: in `demo_state` the first
`critnib_insert(30, 7, 1)` stores the pair, the second finds the key and writes
the same value; after either call `critnib_get(30)` returns 7 and the map holds
the keys 10, 20 and 30. -/
theorem insert_update_example :
    (critnib_insert demo_state 30 7 1 ba2).map
      (fun r => (r.1, leaves r.2.root, critnib_get r.2 30 1)) =
      some (0, [(10, 65), (20, 66), (30, 7)], some 7) ∧
    ((critnib_insert demo_state 30 7 1 ba2).bind
      (fun r => critnib_insert r.2 30 7 1 ⟨some 700, some 800, fun _ => .null⟩)).map
      (fun r => (r.1, leaves r.2.root, critnib_get r.2 30 1)) =
      some (0, [(10, 65), (20, 66), (30, 7)], some 7) :=
  ⟨by decide, by decide⟩

/-- A pointer reachable from a well-formed tree is a well-formed tree. -/
theorem inTree_wf {n t : critnib_node} : WF t → InTree n t → WF n := by
  induction t with
  | null => intro hw h; rw [show n = .null from h]; exact hw
  | leaf a k v => intro hw h; rw [show n = .leaf a k v from h]; exact hw
  | inner a ch p s ih =>
    intro hw h
    rcases h with h | ⟨i, h⟩
    · rw [h]; exact hw
    · exact ih i (hw.2.2.2.2.2 i).1 h

theorem leaves_skeleton (t : critnib_node) :
    leaves (skeleton t) = (leaves t).map (fun kv => (kv.1, 0)) := by
  induction t with
  | null => rfl
  | leaf a k v => rfl
  | inner a ch p s ih =>
    simp only [skeleton, leaves, List.map_flatMap]
    congr 1
    funext i
    exact ih i

theorem keys_skeleton (t : critnib_node) : keys (skeleton t) = keys t := by
  simp [keys, leaves_skeleton, List.map_map, Function.comp_def]

/-- C17: in every reachable state every inner node reachable from the root, the
root included, has two different slots that hold a non-null child: the number of
its non-null children is at least two. -/
theorem C17_inner_node_two_children {c : critnib} (hr : Reachable c) {a : Nat}
    {ch : Fin 16 → critnib_node} {p s : Nat} (hn : InTree (.inner a ch p s) c.root) :
    (∃ i j, i ≠ j ∧ ch i ≠ .null ∧ ch j ≠ .null) ∧
      2 ≤ (Finset.univ.filter (fun i : Fin 16 => (ch i).isNull = false)).card := by
  have hw := inTree_wf (reachable_wf hr).1 hn
  obtain ⟨i, j, hij, hi, hj⟩ := hw.2.2.2.2.1
  refine ⟨⟨i, j, hij, hi, hj⟩, ?_⟩
  have hnn : ∀ x : Fin 16, ch x ≠ .null → (ch x).isNull = false := by
    intro x hx
    cases hc : ch x <;> simp [critnib_node.isNull, hc] at hx ⊢
  exact Finset.one_lt_card.mpr
    ⟨i, by simp [hnn i hi], j, by simp [hnn j hj], hij⟩

theorem C17_inner_node_two_children_witness :
    (∃ i j, i ≠ j ∧ demo_state.root.children i ≠ .null ∧ demo_state.root.children j ≠ .null) ∧
      2 ≤ (Finset.univ.filter (fun i : Fin 16 =>
        (demo_state.root.children i).isNull = false)).card :=
  C17_inner_node_two_children (a := 400) (p := 0) (s := 4) reachable_demo_state (Or.inl rfl)

/-- C18: in every reachable state, a key stored below child slot `i` of an inner
node `n` reachable from the root has the bits of `n`'s path at all positions from
`n.shift + 4` upwards, and nib `i` at `n.shift`. -/
theorem C18_path_invariant {c : critnib} (hr : Reachable c) {a : Nat}
    {ch : Fin 16 → critnib_node} {p s : Nat} (hn : InTree (.inner a ch p s) c.root)
    (i : Fin 16) {k v : Nat} (hk : (k, v) ∈ leaves (ch i)) :
    (∀ b, s + 4 ≤ b → k.testBit b = p.testBit b) ∧
    k >>> (s + 4) = p >>> (s + 4) ∧
    (k >>> s) &&& 0xF = i.val := by
  have hw := inTree_wf (reachable_wf hr).1 hn
  obtain ⟨_, _, _, hp, _, hch⟩ := hw
  have e := key_fits (hch i).1 (hch i).2 hk
  obtain ⟨e1, e2⟩ := slot_hi hp i.isLt e
  have e3 : k >>> (s + 4) = p >>> (s + 4) := by
    rw [Nat.shiftRight_eq_div_pow, Nat.shiftRight_eq_div_pow]; exact e1
  refine ⟨fun b hb => ?_, e3, ?_⟩
  · obtain ⟨d, rfl⟩ := Nat.exists_eq_add_of_le hb
    rw [← Nat.testBit_shiftRight, ← Nat.testBit_shiftRight, e3]
  · rw [Nat.shiftRight_eq_div_pow]
    exact (Nat.and_pow_two_sub_one_eq_mod _ 4).trans e2

theorem C18_path_invariant_witness :
    (∀ b, 4 + 4 ≤ b → (20 : Nat).testBit b = (0 : Nat).testBit b) ∧
    20 >>> (4 + 4) = 0 >>> (4 + 4) ∧
    (20 >>> 4) &&& 0xF = (1 : Fin 16).val :=
  C18_path_invariant (v := 66) reachable_demo_state
    (show InTree (.inner 400 demo_state.root.children 0 4) demo_state.root from Or.inl rfl) 1
    (by decide)

/-- C19: in every reachable state the keys of the leaves reachable from the root
are pairwise different, and a `critnib_insert` of a key that is stored, with or
without the update flag, keeps the list of keys as it is. -/
theorem C19_keys_distinct {c : critnib} (hr : Reachable c) :
    (keys c.root).Nodup ∧
    ∀ key value update ba r c', key < 2 ^ 64 → key ∈ keys c.root →
      critnib_insert c key value update ba = some (r, c') →
        keys c'.root = keys c.root ∧ (keys c'.root).Nodup := by
  have hw := (reachable_wf hr).1
  refine ⟨keys_nodup hw, ?_⟩
  intro key value update ba r c' hk hm h1
  have hkeys : keys c'.root = keys c.root := by
    rcases critnib_insert_wf value update ba hw hk with h | ⟨_, h | h | h | h⟩
    · rw [h.2] at h1; cases h1; rfl
    · obtain ⟨_, _, c2, e, hroot, _⟩ := h
      rw [e] at h1; cases h1; rw [hroot]
    · obtain ⟨_, _, c2, e, _, _, hs, _⟩ := h
      rw [e] at h1; cases h1
      rw [← keys_skeleton, hs, keys_skeleton]
    · exact absurd hm h.1
    · exact absurd hm h.1
  rw [hkeys]
  exact ⟨rfl, keys_nodup hw⟩

theorem C19_keys_distinct_witness :
    (keys demo_state.root).Nodup ∧
    ∀ key value update ba r c', key < 2 ^ 64 → key ∈ keys demo_state.root →
      critnib_insert demo_state key value update ba = some (r, c') →
        keys c'.root = keys demo_state.root ∧ (keys c'.root).Nodup :=
  C19_keys_distinct reachable_demo_state

/-! ## Storage accounting -/

theorem sum_update_add (f : Fin 16 → Nat) (i : Fin 16) (v : Nat) :
    (∑ j : Fin 16, Function.update f i v j) + f i = (∑ j : Fin 16, f j) + v := by
  rw [Finset.sum_update_of_mem (Finset.mem_univ i), Finset.sdiff_singleton_eq_erase,
    ← Finset.add_sum_erase Finset.univ f (Finset.mem_univ i)]
  omega

theorem ring_count_update (x : Nat) (ring : Fin 16 → Option Nat) (i : Fin 16) (o : Option Nat) :
    ring_count x (Function.update ring i o) + (if ring i = some x then 1 else 0) =
      ring_count x ring + (if o = some x then 1 else 0) := by
  have e : (fun j => if Function.update ring i o j = some x then 1 else 0) =
      Function.update (fun j => if ring j = some x then 1 else 0) i
        (if o = some x then 1 else 0) := by
    funext j
    by_cases h : j = i
    · rw [h, Function.update_same, Function.update_same]
    · rw [Function.update_noteq h, Function.update_noteq h]
  unfold ring_count
  rw [e]
  exact sum_update_add _ i _

theorem ring_count_pos {x : Nat} {ring : Fin 16 → Option Nat} {i : Fin 16}
    (h : ring i = some x) : 1 ≤ ring_count x ring := by
  unfold ring_count
  have := Finset.single_le_sum (f := fun j => if ring j = some x then 1 else 0)
    (fun _ _ => Nat.zero_le _) (Finset.mem_univ i)
  simpa [h] using this

theorem addr_count_update (lf : Bool) (x a p s : Nat) (ch : Fin 16 → critnib_node)
    (i : Fin 16) (t : critnib_node) :
    addr_count lf x (.inner a (Function.update ch i t) p s) + addr_count lf x (ch i) =
      addr_count lf x (.inner a ch p s) + addr_count lf x t := by
  have e : (fun j => addr_count lf x (Function.update ch i t j)) =
      Function.update (fun j => addr_count lf x (ch j)) i (addr_count lf x t) := by
    funext j
    by_cases h : j = i
    · rw [h, Function.update_same, Function.update_same]
    · rw [Function.update_noteq h, Function.update_noteq h]
  simp only [addr_count]
  rw [e]
  have : Finset.univ.sum (Function.update (fun j => addr_count lf x (ch j)) i
      (addr_count lf x t)) + addr_count lf x (ch i) =
      (∑ j : Fin 16, addr_count lf x (ch j)) + addr_count lf x t :=
    sum_update_add (fun j => addr_count lf x (ch j)) i (addr_count lf x t)
  omega

/-- The store of `critnib_insert` replaces the pointer at which the descent
stopped: the counts of the tree change by those of the two pointers. -/
theorem rebuild_count (lf : Bool) (x : Nat) (F : critnib_node → critnib_node) (key : Nat)
    (t : critnib_node) :
    addr_count lf x (rebuild F key t) + addr_count lf x (insert_descend key t).2 =
      addr_count lf x t + addr_count lf x (F (insert_descend key t).2) := by
  induction t with
  | null => simp [rebuild_null, insert_descend]; omega
  | leaf a k v => simp [rebuild_leaf, insert_descend]; omega
  | inner a ch p s ih =>
    by_cases hc : key &&& path_mask s = p
    · rw [rebuild_inner_in _ hc]
      simp only [insert_descend, hc, if_true]
      have h1 := addr_count_update lf x a p s ch (slice_index key s)
        (rebuild F key (ch (slice_index key s)))
      have h2 := ih (slice_index key s)
      omega
    · rw [rebuild_inner_out _ hc]
      simp only [insert_descend, hc, if_false]
      omega

/-- The store of `critnib_remove` replaces the last inner node of the descent. -/
theorem remove_rebuild_count (lf : Bool) (x : Nat) (G : critnib_node → critnib_node) (key : Nat)
    (t : critnib_node) :
    addr_count lf x (remove_rebuild G key t) + addr_count lf x (remove_descend key t).2.1 =
      addr_count lf x t + addr_count lf x (G (remove_descend key t).2.1) := by
  induction t with
  | null => simp [remove_rebuild, remove_descend, store]; omega
  | leaf a k v => simp [remove_rebuild, remove_descend, store]; omega
  | inner a ch p s ih =>
    rcases hc : ch (slice_index key s) with _ | ⟨a', k', v'⟩ | ⟨a', ch', p', s'⟩
    · rw [remove_rebuild_out G (by intro _ _ _ _ e; rw [hc] at e; cases e)]
      simp only [remove_descend, hc]
      omega
    · rw [remove_rebuild_out G (by intro _ _ _ _ e; rw [hc] at e; cases e)]
      simp only [remove_descend, hc]
      omega
    · rw [remove_rebuild_in G hc]
      have h1 := addr_count_update lf x a p s ch (slice_index key s)
        (remove_rebuild G key (ch (slice_index key s)))
      have h2 := ih (slice_index key s)
      have h3 : (remove_descend key (.inner a ch p s)).2.1 =
          (remove_descend key (ch (slice_index key s))).2.1 := by
        simp only [remove_descend, hc]
      rw [h3]
      omega

theorem addr_count_null_children (lf : Bool) (x a p s : Nat) (ch : Fin 16 → critnib_node)
    (h : ∀ i, ch i = .null) :
    addr_count lf x (.inner a ch p s) = if lf = false ∧ a = x then 1 else 0 := by
  simp only [addr_count]
  rw [Finset.sum_eq_zero (fun i _ => by rw [h i]; rfl)]
  omega

/-- The node of a split holds the new leaf, the old pointer and itself. -/
theorem split_node_count (lf : Bool) (x m : Nat) (junk : Fin 16 → critnib_node) {key : Nat}
    (kn : critnib_node) {n : critnib_node} (hk : key < 2 ^ 64) (hw : WF n)
    (hd : node_path n ^^^ key ≠ 0) :
    addr_count lf x (split_node m junk key kn n) =
      (if lf = false ∧ m = x then 1 else 0) + addr_count lf x kn + addr_count lf x n := by
  obtain ⟨_, _, _, _, _, s6⟩ := split_shift hk (node_path_lt hw) hd
  generalize hsh : utils_msb64 (node_path n ^^^ key) &&& 0xFC = sh at s6
  have hne : slice_index (node_path n) sh ≠ slice_index key sh := by
    intro e
    apply s6
    rw [← slice_index_val, ← slice_index_val, e]
  have hunf : split_node m junk key kn n =
      .inner m (Function.update (Function.update (clear_children junk (List.finRange 16))
        (slice_index key sh) kn) (slice_index (node_path n) sh) n)
        (key &&& path_mask sh) sh := by
    simp only [split_node, hsh]
  rw [hunf]
  have h1 := addr_count_update lf x m (key &&& path_mask sh) sh
    (Function.update (clear_children junk (List.finRange 16)) (slice_index key sh) kn)
    (slice_index (node_path n) sh) n
  have h2 := addr_count_update lf x m (key &&& path_mask sh) sh
    (clear_children junk (List.finRange 16)) (slice_index key sh) kn
  have h3 := addr_count_null_children lf x m (key &&& path_mask sh) sh
    (clear_children junk (List.finRange 16)) (fun i => clear_children_apply junk i)
  have hz : addr_count lf x .null = 0 := rfl
  rw [Function.update_noteq hne, clear_children_apply, hz] at h1
  rw [clear_children_apply, hz] at h2
  omega

/-- What `critnib_remove` leaves in the place of the inner node above the key's
leaf holds what the node held, less the leaf and, when the node is spliced out,
less the node. -/
theorem remove_at_count (lf : Bool) (x na p s : Nat) {key a k v : Nat}
    {ch : Fin 16 → critnib_node} (hl : ch (slice_index key s) = .leaf a k v) :
    addr_count lf x (remove_at key (.inner na ch p s)) + (if lf = true ∧ a = x then 1 else 0) +
      (match remove_scan (Function.update ch (slice_index key s) .null) (List.finRange 16) none with
        | some (some _) => if lf = false ∧ na = x then 1 else 0
        | _ => 0) =
      addr_count lf x (.inner na ch p s) := by
  have h1 := addr_count_update lf x na p s ch (slice_index key s) .null
  rw [hl] at h1
  have hz : addr_count lf x .null = 0 := rfl
  have hlf : addr_count lf x (.leaf a k v) = if lf = true ∧ a = x then 1 else 0 := rfl
  rw [hz, hlf] at h1
  rcases remove_scan_full (Function.update ch (slice_index key s) .null) with
    ⟨hs, _⟩ | ⟨o, hs, _, hall⟩ | ⟨hs, _⟩
  · simp only [remove_at, hs]
    omega
  · simp only [remove_at, hs]
    have h3 : addr_count lf x (.inner na (Function.update ch (slice_index key s) .null) p s) =
        (if lf = false ∧ na = x then 1 else 0) +
          ∑ i : Fin 16, addr_count lf x (Function.update ch (slice_index key s) .null i) := rfl
    have h2 : (∑ i : Fin 16, addr_count lf x (Function.update ch (slice_index key s) .null i)) =
        addr_count lf x (Function.update ch (slice_index key s) .null o) := by
      apply Finset.sum_eq_single o
      · intro i _ hi
        rw [hall i hi]; rfl
      · intro h; exact absurd (Finset.mem_univ o) h
    omega
  · simp only [remove_at, hs]
    omega

theorem alloc_leaf_some {c c1 : critnib} {sys : Option Nat} {ka : Nat}
    (h : alloc_leaf c sys = (some ka, c1)) :
    c1.root = c.root ∧ c1.pending_del_leaves = c.pending_del_leaves ∧
    c1.pending_del_nodes = c.pending_del_nodes ∧ c1.remove_count = c.remove_count ∧
    c1.deleted_node = c.deleted_node ∧
    ((c.deleted_leaf = ka :: c1.deleted_leaf) ∨
      (c.deleted_leaf = [] ∧ sys = some ka ∧ c1.deleted_leaf = [])) := by
  unfold alloc_leaf at h
  split at h
  · next he =>
    simp only [Prod.mk.injEq] at h
    obtain ⟨h1, h2⟩ := h
    subst h2
    exact ⟨rfl, rfl, rfl, rfl, rfl, Or.inr ⟨he, h1, he⟩⟩
  · next k rest he =>
    simp only [Prod.mk.injEq, Option.some.injEq] at h
    obtain ⟨h1, h2⟩ := h
    subst h2 h1
    exact ⟨rfl, rfl, rfl, rfl, rfl, Or.inl he⟩

theorem alloc_node_some {c c1 : critnib} {sys : Option Nat} {m : Nat}
    (h : alloc_node c sys = (some m, c1)) :
    c1.root = c.root ∧ c1.pending_del_leaves = c.pending_del_leaves ∧
    c1.pending_del_nodes = c.pending_del_nodes ∧ c1.remove_count = c.remove_count ∧
    c1.deleted_leaf = c.deleted_leaf ∧
    ((c.deleted_node = m :: c1.deleted_node) ∨
      (c.deleted_node = [] ∧ sys = some m ∧ c1.deleted_node = [])) := by
  unfold alloc_node at h
  split at h
  · next he =>
    simp only [Prod.mk.injEq] at h
    obtain ⟨h1, h2⟩ := h
    subst h2
    exact ⟨rfl, rfl, rfl, rfl, rfl, Or.inr ⟨he, h1, he⟩⟩
  · next k rest he =>
    simp only [Prod.mk.injEq, Option.some.injEq] at h
    obtain ⟨h1, h2⟩ := h
    subst h2 h1
    exact ⟨rfl, rfl, rfl, rfl, rfl, Or.inl he⟩

/-- The count of an address in a pool after an allocation, together with the
allocated address, is the count before, or one more when the byte allocator
gave that address. -/
theorem pool_after_alloc {l l1 : List Nat} {sys : Option Nat} {ka : Nat}
    (h : l = ka :: l1 ∨ (l = [] ∧ sys = some ka ∧ l1 = [])) (x : Nat) :
    l1.count x + (if ka = x then 1 else 0) = l.count x ∨
    (sys = some x ∧ l = [] ∧ l1.count x + (if ka = x then 1 else 0) = l.count x + 1) := by
  rcases h with h | ⟨h1, h2, h3⟩
  · left
    rw [h, List.count_cons]
    by_cases e : ka = x <;> simp [e]
  · by_cases e : ka = x
    · right
      subst e
      simp [h1, h2, h3]
    · left
      simp [h1, h3, e]

theorem store_count (lf : Bool) (x key : Nat) (t X : critnib_node) :
    addr_count lf x (store t (insert_descend key t).1 X) +
        addr_count lf x (insert_descend key t).2 =
      addr_count lf x t + addr_count lf x X :=
  rebuild_count lf x (fun _ => X) key t

/-- What `critnib_insert` does to the storage: the rings and the counter are as
before; every address is held as often as before, but for the addresses the byte
allocator handed out (asked only when a pool is empty), held once more. -/
theorem critnib_insert_owned {c c' : critnib} {key value update r : Nat} {ba : base_alloc}
    (hw : WF c.root) (hk : key < 2 ^ 64)
    (h : critnib_insert c key value update ba = some (r, c')) :
    c'.pending_del_leaves = c.pending_del_leaves ∧
    c'.pending_del_nodes = c.pending_del_nodes ∧
    c'.remove_count = c.remove_count ∧
    ∀ x, (leaf_owned x c' = leaf_owned x c ∨
        (ba.leaf = some x ∧ c.deleted_leaf = [] ∧ leaf_owned x c' = leaf_owned x c + 1)) ∧
      (node_owned x c' = node_owned x c ∨
        (ba.node = some x ∧ c.deleted_node = [] ∧ node_owned x c' = node_owned x c + 1)) := by
  rcases hal : alloc_leaf c ba.leaf with ⟨_ | ka, c1⟩
  · unfold critnib_insert at h
    rw [hal] at h
    simp only [Option.some.injEq, Prod.mk.injEq] at h
    rw [← h.2]
    exact ⟨rfl, rfl, rfl, fun x => ⟨Or.inl rfl, Or.inl rfl⟩⟩
  · rw [critnib_insert_nonnull key value update hal] at h
    obtain ⟨e1, e2, e3, e4, e5, e6⟩ := alloc_leaf_some hal
    have hL := insert_descend_snd_WF key hw
    have hD := pool_after_alloc e6
    have hst := fun lf x X => store_count lf x key c.root X
    have hz : ∀ lf x, addr_count lf x .null = 0 := fun _ _ => rfl
    have hlf : ∀ lf x a k v, addr_count lf x (.leaf a k v) =
        if lf = true ∧ a = x then 1 else 0 := fun _ _ _ _ _ => rfl
    -- the outcomes that keep the tree and push the scratch leaf back
    have back : ∀ c2, c2 = free_leaf c1 (some ka) → c2.pending_del_leaves = c.pending_del_leaves ∧
        c2.pending_del_nodes = c.pending_del_nodes ∧ c2.remove_count = c.remove_count ∧
        ∀ x, (leaf_owned x c2 = leaf_owned x c ∨
            (ba.leaf = some x ∧ c.deleted_leaf = [] ∧ leaf_owned x c2 = leaf_owned x c + 1)) ∧
          (node_owned x c2 = node_owned x c ∨
            (ba.node = some x ∧ c.deleted_node = [] ∧ node_owned x c2 = node_owned x c + 1)) := by
      intro c2 hc2
      subst hc2
      refine ⟨e2, e3, e4, fun x => ⟨?_, Or.inl ?_⟩⟩
      · have := hD x
        simp only [leaf_owned, free_leaf, e1, e2, List.count_cons, beq_iff_eq]
        rcases this with h1 | ⟨h1, h2, h3⟩
        · left; omega
        · right; exact ⟨h1, h2, by omega⟩
      · simp only [node_owned, free_leaf, e1, e3, e5]
    -- the split
    have split : ∀ n, (insert_descend key c.root).2 = n → n ≠ .null →
        node_path n ^^^ key ≠ 0 →
        (match alloc_node c1 ba.node with
          | (none, _) => some (ENOMEM, free_leaf c1 (some ka))
          | (some m, c2) =>
            some (0, { c2 with
              root := store c.root (insert_descend key c.root).1
                (split_node m ba.junk key (.leaf ka key value) n) })) = some (r, c') →
        c'.pending_del_leaves = c.pending_del_leaves ∧
        c'.pending_del_nodes = c.pending_del_nodes ∧ c'.remove_count = c.remove_count ∧
        ∀ x, (leaf_owned x c' = leaf_owned x c ∨
            (ba.leaf = some x ∧ c.deleted_leaf = [] ∧ leaf_owned x c' = leaf_owned x c + 1)) ∧
          (node_owned x c' = node_owned x c ∨
            (ba.node = some x ∧ c.deleted_node = [] ∧ node_owned x c' = node_owned x c + 1)) := by
      intro n hn hnn hd h
      rcases han : alloc_node c1 ba.node with ⟨_ | m, c2⟩
      · rw [han] at h
        simp only [Option.some.injEq, Prod.mk.injEq] at h
        exact back c' h.2.symm
      · rw [han] at h
        simp only [Option.some.injEq, Prod.mk.injEq] at h
        obtain ⟨f1, f2, f3, f4, f5, f6⟩ := alloc_node_some han
        rw [e5] at f6
        have hDN := pool_after_alloc f6
        have hwn : WF n := hn ▸ hL
        rw [← h.2]
        refine ⟨f2.trans e2, f3.trans e3, f4.trans e4, fun x => ⟨?_, ?_⟩⟩
        · have h1 := hst true x (split_node m ba.junk key (.leaf ka key value) n)
          have h2 := split_node_count true x m ba.junk (.leaf ka key value) hk hwn hd
          rw [hn] at h1
          rw [hlf] at h2
          have := hD x
          simp only [leaf_owned, f2, e2, f5]
          simp only [Bool.true_eq_false, false_and, if_false, true_and] at h2
          rcases this with h3 | ⟨h3, h4, h5⟩
          · left; omega
          · right; exact ⟨h3, h4, by omega⟩
        · have h1 := hst false x (split_node m ba.junk key (.leaf ka key value) n)
          have h2 := split_node_count false x m ba.junk (.leaf ka key value) hk hwn hd
          rw [hn] at h1
          rw [hlf] at h2
          have := hDN x
          simp only [node_owned, f3, e3]
          simp only [Bool.false_eq_true, false_and, if_false, true_and] at h2
          rcases this with h3 | ⟨h3, h4, h5⟩
          · left; omega
          · right; exact ⟨h3, h4, by omega⟩
    rcases hn : (insert_descend key c.root).2 with _ | ⟨a, k', v'⟩ | ⟨a, ch, p, s⟩
    · rw [hn] at h
      simp only [Option.some.injEq, Prod.mk.injEq] at h
      rw [← h.2]
      refine ⟨e2, e3, e4, fun x => ⟨?_, Or.inl ?_⟩⟩
      · have h1 := hst true x (.leaf ka key value)
        rw [hn, hz, hlf] at h1
        have := hD x
        simp only [leaf_owned, e2]
        simp only [true_and] at h1
        rcases this with h3 | ⟨h3, h4, h5⟩
        · left; omega
        · right; exact ⟨h3, h4, by omega⟩
      · have h1 := hst false x (.leaf ka key value)
        rw [hn, hz, hlf] at h1
        simp only [node_owned, e3, e5]
        simp only [Bool.false_eq_true, false_and, if_false] at h1
        omega
    · rw [hn] at h
      by_cases hx : node_path (.leaf a k' v') ^^^ key = 0
      · simp only [hx, if_true] at h
        by_cases hu : update ≠ 0
        · simp only [hu, if_true, ne_eq, not_false_eq_true, Option.some.injEq,
            Prod.mk.injEq] at h
          obtain ⟨b1, b2, b3, b4⟩ := back _ rfl
          rw [← h.2]
          refine ⟨b1, b2, b3, fun x => ?_⟩
          have h1 := hst true x (.leaf a k' value)
          have h2 := hst false x (.leaf a k' value)
          rw [hn, hlf, hlf] at h1 h2
          have := b4 x
          simp only [leaf_owned, node_owned, free_leaf] at this ⊢
          rw [e1] at this
          rcases this with ⟨t1 | ⟨t1, t2, t3⟩, t4 | ⟨t4, t5, t6⟩⟩
          · exact ⟨Or.inl (by omega), Or.inl (by omega)⟩
          · exact ⟨Or.inl (by omega), Or.inr ⟨t4, t5, by omega⟩⟩
          · exact ⟨Or.inr ⟨t1, t2, by omega⟩, Or.inl (by omega)⟩
          · exact ⟨Or.inr ⟨t1, t2, by omega⟩, Or.inr ⟨t4, t5, by omega⟩⟩
        · simp only [hu, if_false, Option.some.injEq, Prod.mk.injEq] at h
          exact back c' h.2.symm
      · simp only [hx, if_false] at h
        exact split _ hn (by simp) hx h
    · rw [hn] at h
      by_cases hx : node_path (.inner a ch p s) ^^^ key = 0
      · simp only [hx, if_true] at h
        cases h
      · simp only [hx, if_false] at h
        exact split _ hn (by simp) hx h

theorem remove_begin_fields (c : critnib) :
    (remove_begin c).root = c.root ∧
    (remove_begin c).remove_count = utils_atomic_increment_u64 c.remove_count ∧
    (remove_begin c).deleted_leaf =
      (free_leaf c (c.pending_del_leaves
        (ring_slot (utils_atomic_increment_u64 c.remove_count)))).deleted_leaf ∧
    (remove_begin c).deleted_node =
      (free_node c (c.pending_del_nodes
        (ring_slot (utils_atomic_increment_u64 c.remove_count)))).deleted_node ∧
    (remove_begin c).pending_del_leaves =
      Function.update c.pending_del_leaves
        (ring_slot (utils_atomic_increment_u64 c.remove_count)) none ∧
    (remove_begin c).pending_del_nodes =
      Function.update c.pending_del_nodes
        (ring_slot (utils_atomic_increment_u64 c.remove_count)) none := by
  unfold remove_begin
  rcases hn : c.pending_del_nodes (ring_slot (utils_atomic_increment_u64 c.remove_count)) with _ | n <;>
  rcases hl : c.pending_del_leaves (ring_slot (utils_atomic_increment_u64 c.remove_count)) with _ | l <;>
  simp [free_node, free_leaf, hn, hl]

theorem critnib_remove_leaf (ra rk rv : Nat) (dn dl : List Nat) (pn pl : Fin 16 → Option Nat)
    (rc key : Nat) :
    critnib_remove ⟨.leaf ra rk rv, dn, dl, pn, pl, rc⟩ key =
      if rk = key then
        some (rv, { remove_begin ⟨.leaf ra rk rv, dn, dl, pn, pl, rc⟩ with
          root := .null,
          pending_del_leaves :=
            Function.update (remove_begin ⟨.leaf ra rk rv, dn, dl, pn, pl, rc⟩).pending_del_leaves
              (ring_slot (utils_atomic_increment_u64 rc)) (some ra) })
      else some (0, remove_begin ⟨.leaf ra rk rv, dn, dl, pn, pl, rc⟩) := rfl

theorem critnib_remove_inner (ra : Nat) (rch : Fin 16 → critnib_node) (rp rs : Nat)
    (dn dl : List Nat) (pn pl : Fin 16 → Option Nat) (rc key : Nat) :
    critnib_remove ⟨.inner ra rch rp rs, dn, dl, pn, pl, rc⟩ key =
      match (remove_descend key (.inner ra rch rp rs)).2 with
      | (.inner na ch p s, .leaf a k v) =>
        if k ≠ key then some (0, remove_begin ⟨.inner ra rch rp rs, dn, dl, pn, pl, rc⟩)
        else
          match remove_scan (Function.update ch (slice_index key s) .null)
            (List.finRange 16) none with
          | none =>
            some (v, { remove_begin ⟨.inner ra rch rp rs, dn, dl, pn, pl, rc⟩ with
              root := store (.inner ra rch rp rs) (remove_descend key (.inner ra rch rp rs)).1
                (.inner na (Function.update ch (slice_index key s) .null) p s),
              pending_del_leaves := Function.update
                (remove_begin ⟨.inner ra rch rp rs, dn, dl, pn, pl, rc⟩).pending_del_leaves
                (ring_slot (utils_atomic_increment_u64 rc)) (some a) })
          | some none => none
          | some (some ochild) =>
            some (v, { remove_begin ⟨.inner ra rch rp rs, dn, dl, pn, pl, rc⟩ with
              root := store (.inner ra rch rp rs) (remove_descend key (.inner ra rch rp rs)).1
                (Function.update ch (slice_index key s) .null ochild),
              pending_del_nodes := Function.update
                (remove_begin ⟨.inner ra rch rp rs, dn, dl, pn, pl, rc⟩).pending_del_nodes
                (ring_slot (utils_atomic_increment_u64 rc)) (some na),
              pending_del_leaves := Function.update
                (remove_begin ⟨.inner ra rch rp rs, dn, dl, pn, pl, rc⟩).pending_del_leaves
                (ring_slot (utils_atomic_increment_u64 rc)) (some a) })
      | _ => some (0, remove_begin ⟨.inner ra rch rp rs, dn, dl, pn, pl, rc⟩) := rfl

theorem critnib_remove_effect_aux {root : critnib_node} {dn dl : List Nat}
    {pn pl : Fin 16 → Option Nat} {rc : Nat} {c c' : critnib} {key v : Nat}
    (hc : c = ⟨root, dn, dl, pn, pl, rc⟩) (hmatch : root ≠ .null)
    (h : critnib_remove ⟨root, dn, dl, pn, pl, rc⟩ key = some (v, c')) :
    remove_effect c c' := by
  subst hc
  obtain ⟨b1, b2, b3, b4, b5, b6⟩ := remove_begin_fields ⟨root, dn, dl, pn, pl, rc⟩
  -- nothing retired
  have keep : remove_effect ⟨root, dn, dl, pn, pl, rc⟩ (remove_begin ⟨root, dn, dl, pn, pl, rc⟩) := by
    refine ⟨b2, b3, b4, none, none, b5, b6, fun lf x => ?_⟩
    rw [b1]; simp
  rcases root with _ | ⟨ra, rk, rv⟩ | ⟨ra, rch, rp, rs⟩
  · exact absurd rfl hmatch
  · by_cases hk : rk = key
    · rw [critnib_remove_leaf, if_pos hk] at h
      simp only [Option.some.injEq, Prod.mk.injEq] at h
      rw [← h.2]
      refine ⟨b2, b3, b4, some ra, none, ?_, ?_, fun lf x => ?_⟩
      · simp only [b5, Function.update_idem]
      · exact b6
      · simp [addr_count]
    · rw [critnib_remove_leaf, if_neg hk] at h
      simp only [Option.some.injEq, Prod.mk.injEq] at h
      rw [← h.2]
      exact keep
  · obtain ⟨na, nch, np, ns, hn1, hn2⟩ := remove_descend_n key (.inner ra rch rp rs) rfl
    rcases hkn : (remove_descend key (.inner ra rch rp rs)).2.2 with _ | ⟨a, k, v0⟩ | ⟨a2, ch2, p2, s2⟩
    · have hpair : (remove_descend key (.inner ra rch rp rs)).2 = (.inner na nch np ns, .null) := by
        rw [← hn1, ← hkn]
      rw [critnib_remove_inner, hpair] at h
      simp only [Option.some.injEq, Prod.mk.injEq] at h
      rw [← h.2]
      exact keep
    · have hpair : (remove_descend key (.inner ra rch rp rs)).2 =
          (.inner na nch np ns, .leaf a k v0) := by
        rw [← hn1, ← hkn]
      rw [hkn] at hn2
      by_cases hk : k = key
      · rw [critnib_remove_inner, hpair] at h
        simp only [hk, ne_eq, not_true_eq_false, if_false] at h
        have hcnt := fun lf x => remove_rebuild_count lf x (remove_at key) key (.inner ra rch rp rs)
        have hat := fun lf x => remove_at_count lf x na np ns hn2.symm
        rcases hs : remove_scan (Function.update nch (slice_index key ns) .null)
          (List.finRange 16) none with _ | _ | o
        · rw [hs] at h
          simp only [Option.some.injEq, Prod.mk.injEq] at h
          rw [← h.2]
          refine ⟨b2, b3, b4, some a, none, ?_, ?_, fun lf x => ?_⟩
          · simp only [b5, Function.update_idem]
          · exact b6
          · have h1 := hcnt lf x
            have h2 := hat lf x
            rw [hn1] at h1
            rw [hs] at h2
            have e : remove_rebuild (remove_at key) key (.inner ra rch rp rs) =
                store (.inner ra rch rp rs) (remove_descend key (.inner ra rch rp rs)).1
                  (.inner na (Function.update nch (slice_index key ns) .null) np ns) := by
              simp [remove_rebuild, hn1, remove_at, hs]
            rw [e] at h1
            show addr_count lf x (store (.inner ra rch rp rs)
              (remove_descend key (.inner ra rch rp rs)).1
              (.inner na (Function.update nch (slice_index key ns) .null) np ns)) + _ + _ = _
            simp only [Option.some.injEq, reduceCtorEq, and_false, if_false] at h2 ⊢
            omega
        · rw [hs] at h
          cases h
        · rw [hs] at h
          simp only [Option.some.injEq, Prod.mk.injEq] at h
          rw [← h.2]
          refine ⟨b2, b3, b4, some a, some na, ?_, ?_, fun lf x => ?_⟩
          · simp only [b5, Function.update_idem]
          · simp only [b6, Function.update_idem]
          · have h1 := hcnt lf x
            have h2 := hat lf x
            rw [hn1] at h1
            rw [hs] at h2
            have e : remove_rebuild (remove_at key) key (.inner ra rch rp rs) =
                store (.inner ra rch rp rs) (remove_descend key (.inner ra rch rp rs)).1
                  (Function.update nch (slice_index key ns) .null o) := by
              simp [remove_rebuild, hn1, remove_at, hs]
            rw [e] at h1
            show addr_count lf x (store (.inner ra rch rp rs)
              (remove_descend key (.inner ra rch rp rs)).1
              (Function.update nch (slice_index key ns) .null o)) + _ + _ = _
            simp only [Option.some.injEq] at h2 ⊢
            omega
      · rw [critnib_remove_inner, hpair] at h
        simp only [hk, ne_eq, not_false_eq_true, if_true, Option.some.injEq, Prod.mk.injEq] at h
        rw [← h.2]
        exact keep
    · have hpair : (remove_descend key (.inner ra rch rp rs)).2 =
          (.inner na nch np ns, .inner a2 ch2 p2 s2) := by
        rw [← hn1, ← hkn]
      rw [critnib_remove_inner, hpair] at h
      simp only [Option.some.injEq, Prod.mk.injEq] at h
      rw [← h.2]
      exact keep

/-- What `critnib_remove` on a non-empty map does to the storage. -/
theorem critnib_remove_effect {c c' : critnib} {key v : Nat} (hnn : c.root ≠ .null)
    (h : critnib_remove c key = some (v, c')) : remove_effect c c' := by
  obtain ⟨root, dn, dl, pn, pl, rc⟩ := c
  rcases root with _ | ⟨ra, rk, rv⟩ | ⟨ra, rch, rp, rs⟩
  · exact absurd rfl hnn
  · exact critnib_remove_effect_aux rfl (by simp) h
  · exact critnib_remove_effect_aux rfl (by simp) h

theorem count_free (x : Nat) (l : List Nat) (o : Option Nat) :
    (match o with
      | none => l
      | some k => k :: l).count x = l.count x + (if o = some x then 1 else 0) := by
  cases o with
  | none => simp
  | some k =>
    simp only [List.count_cons, beq_iff_eq, Option.some.injEq]

theorem free_leaf_deleted (c : critnib) (o : Option Nat) (x : Nat) :
    (free_leaf c o).deleted_leaf.count x = c.deleted_leaf.count x +
      (if o = some x then 1 else 0) := by
  cases o with
  | none => simp [free_leaf]
  | some k => simp only [free_leaf, List.count_cons, beq_iff_eq, Option.some.injEq]

theorem free_node_deleted (c : critnib) (o : Option Nat) (x : Nat) :
    (free_node c o).deleted_node.count x = c.deleted_node.count x +
      (if o = some x then 1 else 0) := by
  cases o with
  | none => simp [free_node]
  | some k => simp only [free_node, List.count_cons, beq_iff_eq, Option.some.injEq]

/-- A `critnib_remove` moves storage between the tree, the rings and the free
lists: every address is held as often as before. -/
theorem remove_effect_owned {c c' : critnib} (h : remove_effect c c') (x : Nat) :
    leaf_owned x c' = leaf_owned x c ∧ node_owned x c' = node_owned x c := by
  obtain ⟨_, h2, h3, rl, rn, h4, h5, h6⟩ := h
  have l1 := ring_count_update x c.pending_del_leaves
    (ring_slot (utils_atomic_increment_u64 c.remove_count)) rl
  have l2 := free_leaf_deleted c (c.pending_del_leaves
    (ring_slot (utils_atomic_increment_u64 c.remove_count))) x
  have n1 := ring_count_update x c.pending_del_nodes
    (ring_slot (utils_atomic_increment_u64 c.remove_count)) rn
  have n2 := free_node_deleted c (c.pending_del_nodes
    (ring_slot (utils_atomic_increment_u64 c.remove_count))) x
  have t1 := h6 true x
  have t2 := h6 false x
  simp only [true_and, Bool.true_eq_false, false_and, if_false, Bool.false_eq_true] at t1 t2
  unfold leaf_owned node_owned
  rw [h2, h3, h4, h5]
  constructor <;> omega

theorem critnib_remove_owned {c c' : critnib} {key v : Nat}
    (h : critnib_remove c key = some (v, c')) (x : Nat) :
    leaf_owned x c' = leaf_owned x c ∧ node_owned x c' = node_owned x c := by
  by_cases hn : c.root = .null
  · rw [critnib_remove_null key hn] at h
    simp only [Option.some.injEq, Prod.mk.injEq] at h
    rw [← h.2]
    exact ⟨rfl, rfl⟩
  · exact remove_effect_owned (critnib_remove_effect hn h) x

/-- A call with a word key and fresh allocator answers keeps the tree well
formed, the counter a word, and all storage held once. -/
theorem step_distinct {c c' : critnib} {op : Op} (hok : op.ok) (hf : op.fresh c)
    (hw : WF c.root) (hrc : c.remove_count < WORD) (hd : Distinct c)
    (h : step c op = some c') :
    WF c'.root ∧ c'.remove_count < WORD ∧ Distinct c' := by
  obtain ⟨w1, w2⟩ := step_preserves hok hw hrc h
  refine ⟨w1, w2, fun x => ?_⟩
  cases op with
  | insert key value update ba =>
    simp only [step, Option.map_eq_some', Prod.exists, exists_eq_right] at h
    obtain ⟨r, h⟩ := h
    obtain ⟨_, _, _, ho⟩ := critnib_insert_owned hw hok h
    obtain ⟨o1, o2⟩ := ho x
    constructor
    · rcases o1 with e | ⟨e1, _, e2⟩
      · rw [e]; exact (hd x).1
      · rw [e2, hf.1 x e1]
    · rcases o2 with e | ⟨e1, _, e2⟩
      · rw [e]; exact (hd x).2
      · rw [e2, hf.2 x e1]
  | remove key =>
    simp only [step, Option.map_eq_some', Prod.exists, exists_eq_right] at h
    obtain ⟨v, h⟩ := h
    obtain ⟨e1, e2⟩ := critnib_remove_owned h x
    rw [e1, e2]
    exact hd x

theorem freshRun_distinct : ∀ (ops : List Op) {c c' : critnib}, FreshRun c ops c' →
    WF c.root → c.remove_count < WORD → Distinct c →
    WF c'.root ∧ c'.remove_count < WORD ∧ Distinct c' := by
  intro ops
  induction ops with
  | nil => intro c c' h hw hrc hd; rw [show c' = c from h]; exact ⟨hw, hrc, hd⟩
  | cons op ops ih =>
    intro c c' h hw hrc hd
    obtain ⟨hok, hf, c1, hs, hrest⟩ := h
    obtain ⟨w1, w2, w3⟩ := step_distinct hok hf hw hrc hd hs
    exact ih hrest w1 w2 w3

theorem distinct_new : Distinct critnib_new := by
  intro x
  simp [leaf_owned, node_owned, critnib_new, addr_count, ring_count]

theorem freshReachable_distinct {c : critnib} (h : FreshReachable c) :
    WF c.root ∧ c.remove_count < WORD ∧ Distinct c := by
  obtain ⟨ops, h⟩ := h
  exact freshRun_distinct ops h (by simp [critnib_new, WF]) (by decide) distinct_new

/-! ## The retirement ring -/

theorem ring_slot_val (r : Nat) : (ring_slot r).val = (r + WORD - 1) % WORD % 16 := rfl

/-- The slot of the remove that raises the counter to `r + n + 1` is the slot of
the one that raised it to `r` exactly when `n + 1` is a multiple of 16. -/
theorem ring_slot_next (r n : Nat) (hn : n ≤ 15) :
    ring_slot (utils_atomic_increment_u64 ((r + n) % WORD)) = ring_slot r ↔ n = 15 := by
  rw [Fin.ext_iff, ring_slot_val, ring_slot_val]
  simp only [utils_atomic_increment_u64, WORD]
  omega

/-- One call keeps a ring slot that is not the slot of the call. -/
theorem step_ring_frame {c c' : critnib} {op : Op} (h : step c op = some c') (s0 : Fin 16)
    (hs : op.raises c = true → ring_slot (utils_atomic_increment_u64 c.remove_count) ≠ s0)
    (hw : WF c.root) (hok : op.ok) :
    c'.pending_del_leaves s0 = c.pending_del_leaves s0 ∧
    c'.pending_del_nodes s0 = c.pending_del_nodes s0 ∧
    c'.remove_count =
      if op.raises c = true then utils_atomic_increment_u64 c.remove_count
      else c.remove_count := by
  cases op with
  | insert key value update ba =>
    simp only [step, Option.map_eq_some', Prod.exists, exists_eq_right] at h
    obtain ⟨r, h⟩ := h
    obtain ⟨e1, e2, e3, _⟩ := critnib_insert_owned hw hok h
    simp [Op.raises, e1, e2, e3]
  | remove key =>
    simp only [step, Option.map_eq_some', Prod.exists, exists_eq_right] at h
    obtain ⟨v, h⟩ := h
    by_cases hn : c.root = .null
    · rw [critnib_remove_null key hn] at h
      simp only [Option.some.injEq, Prod.mk.injEq] at h
      rw [← h.2]
      simp [Op.raises, hn, critnib_node.isNull]
    · have hr : Op.raises c (.remove key) = true := by
        simp only [Op.raises, Bool.not_eq_true', ← Bool.not_eq_true, isNull_iff]
        exact hn
      obtain ⟨e1, _, _, rl, rn, e4, e5, _⟩ := critnib_remove_effect hn h
      have hne := hs hr
      rw [e4, e5, Function.update_noteq (Ne.symm hne), Function.update_noteq (Ne.symm hne), hr]
      exact ⟨rfl, rfl, by simpa using e1⟩

/-- While fewer than sixteen removes have raised the counter since the one that
raised it to `r`, the ring slot of that remove is as that remove left it, all
storage is held once, and the counter is `r` plus the number of raises. -/
theorem ring_slot_kept (r : Nat) : ∀ (ops : List Op) {c c2 : critnib} (n : Nat),
    FreshRun c ops c2 → WF c.root → Distinct c →
    c.remove_count = (r + n) % WORD → n + raise_count c ops ≤ 15 →
    c2.pending_del_leaves (ring_slot r) = c.pending_del_leaves (ring_slot r) ∧
    c2.pending_del_nodes (ring_slot r) = c.pending_del_nodes (ring_slot r) ∧
    c2.remove_count = (r + n + raise_count c ops) % WORD ∧
    WF c2.root ∧ Distinct c2 := by
  intro ops
  induction ops with
  | nil =>
    intro c c2 n h hw hd hrc _
    rw [show c2 = c from h]
    exact ⟨rfl, rfl, by simpa [raise_count] using hrc, hw, hd⟩
  | cons op ops ih =>
    intro c c2 n h hw hd hrc hn
    obtain ⟨hok, hf, c1, hs, hrest⟩ := h
    have hlt : c.remove_count < WORD := by rw [hrc]; exact Nat.mod_lt _ (by decide)
    obtain ⟨w1, _, w3⟩ := step_distinct hok hf hw hlt hd hs
    have hcount : raise_count c (op :: ops) =
        (if op.raises c = true then 1 else 0) + raise_count c1 ops := by
      simp only [raise_count, hs]
    rw [hcount] at hn ⊢
    have hslot : op.raises c = true →
        ring_slot (utils_atomic_increment_u64 c.remove_count) ≠ ring_slot r := by
      intro hr e
      rw [hrc] at e
      have := (ring_slot_next r n (by omega)).mp e
      rw [if_pos hr] at hn
      omega
    obtain ⟨f1, f2, f3⟩ := step_ring_frame hs (ring_slot r) hslot hw hok
    by_cases hr : op.raises c = true
    · rw [if_pos hr] at hn f3 ⊢
      have hrc1 : c1.remove_count = (r + (n + 1)) % WORD := by
        rw [f3, hrc]
        simp only [utils_atomic_increment_u64, WORD]
        omega
      obtain ⟨g1, g2, g3, g4, g5⟩ := ih (n + 1) hrest w1 w3 hrc1 (by omega)
      refine ⟨g1.trans f1, g2.trans f2, ?_, g4, g5⟩
      rw [g3]; congr 1; omega
    · rw [if_neg hr] at hn f3 ⊢
      obtain ⟨g1, g2, g3, g4, g5⟩ := ih n hrest w1 w3 (f3.trans hrc) (by omega)
      refine ⟨g1.trans f1, g2.trans f2, ?_, g4, g5⟩
      rw [g3]; congr 1; omega

/-- Storage that sits in a ring slot of a state without doubly held storage is
neither in the tree nor on the free list, and no allocation returns it when the
byte allocator answers with storage the map does not hold. -/
theorem ring_not_free {c : critnib} (hd : Distinct c) :
    (∀ s x, c.pending_del_leaves s = some x →
      x ∉ c.deleted_leaf ∧ addr_count true x c.root = 0 ∧
      ∀ sys, (∀ y, sys = some y → leaf_owned y c = 0) → (alloc_leaf c sys).1 ≠ some x) ∧
    (∀ s y, c.pending_del_nodes s = some y →
      y ∉ c.deleted_node ∧ addr_count false y c.root = 0 ∧
      ∀ sys, (∀ z, sys = some z → node_owned z c = 0) → (alloc_node c sys).1 ≠ some y) := by
  constructor
  · intro s x hs
    have h1 := (hd x).1
    have h2 := ring_count_pos hs
    unfold leaf_owned at h1
    have h3 : c.deleted_leaf.count x = 0 := by omega
    have h4 : x ∉ c.deleted_leaf := List.count_eq_zero.mp h3
    refine ⟨h4, by omega, fun sys hsys e => ?_⟩
    unfold alloc_leaf at e
    split at e
    · have := hsys x e
      unfold leaf_owned at this
      omega
    · next k rest hl =>
      simp only [Option.some.injEq] at e
      apply h4
      rw [hl, e]
      exact List.mem_cons_self _ _
  · intro s y hs
    have h1 := (hd y).2
    have h2 := ring_count_pos hs
    unfold node_owned at h1
    have h3 : c.deleted_node.count y = 0 := by omega
    have h4 : y ∉ c.deleted_node := List.count_eq_zero.mp h3
    refine ⟨h4, by omega, fun sys hsys e => ?_⟩
    unfold alloc_node at e
    split at e
    · have := hsys y e
      unfold node_owned at this
      omega
    · next k rest hl =>
      simp only [Option.some.injEq] at e
      apply h4
      rw [hl, e]
      exact List.mem_cons_self _ _

theorem freshReachable_demo_state : FreshReachable demo_state := by
  refine ⟨demo_ops, by norm_num [Op.ok], ⟨?_, ?_⟩, _, rfl, by norm_num [Op.ok], ⟨?_, ?_⟩, _, rfl, rfl⟩
  · intro x hx; cases hx; decide
  · intro x hx; cases hx; decide
  · intro x hx; cases hx; decide
  · intro x hx; cases hx; decide

/-- C20: let a `critnib_remove` on a non-empty map, reached with a byte allocator
that answers with storage the map does not hold, raise `remove_count` to `r`.
The ring slot `(r - 1) mod DELETED_LIFE` then holds exactly the leaf and the
inner node the call took out of the tree.  After any later calls of which at
most fifteen raise the counter, the slot is as the call left it, and what it
holds is neither in the tree nor on a free list, so that no allocation returns
it.  The next remove that raises the counter, to `r + DELETED_LIFE`, pushes what
the slot holds onto the free lists. -/
theorem C20_retired_object_stays_in_ring {c0 c1 : critnib} {key v : Nat}
    (hr : FreshReachable c0) (hnn : c0.root ≠ .null)
    (h : critnib_remove c0 key = some (v, c1)) :
    c1.remove_count = utils_atomic_increment_u64 c0.remove_count ∧
    (∀ x, addr_count true x c1.root +
        (if c1.pending_del_leaves (ring_slot c1.remove_count) = some x then 1 else 0) =
      addr_count true x c0.root) ∧
    (∀ y, addr_count false y c1.root +
        (if c1.pending_del_nodes (ring_slot c1.remove_count) = some y then 1 else 0) =
      addr_count false y c0.root) ∧
    ∀ ops c2, FreshRun c1 ops c2 → raise_count c1 ops ≤ 15 →
      c2.remove_count = (c1.remove_count + raise_count c1 ops) % WORD ∧
      c2.pending_del_leaves (ring_slot c1.remove_count) =
        c1.pending_del_leaves (ring_slot c1.remove_count) ∧
      c2.pending_del_nodes (ring_slot c1.remove_count) =
        c1.pending_del_nodes (ring_slot c1.remove_count) ∧
      (∀ x, c1.pending_del_leaves (ring_slot c1.remove_count) = some x →
        x ∉ c2.deleted_leaf ∧ addr_count true x c2.root = 0 ∧
        ∀ sys, (∀ y, sys = some y → leaf_owned y c2 = 0) → (alloc_leaf c2 sys).1 ≠ some x) ∧
      (∀ y, c1.pending_del_nodes (ring_slot c1.remove_count) = some y →
        y ∉ c2.deleted_node ∧ addr_count false y c2.root = 0 ∧
        ∀ sys, (∀ z, sys = some z → node_owned z c2 = 0) → (alloc_node c2 sys).1 ≠ some y) ∧
      (raise_count c1 ops = 15 → c2.root ≠ .null →
        ∀ key2 v2 c3, critnib_remove c2 key2 = some (v2, c3) →
          c3.remove_count = (c1.remove_count + DELETED_LIFE) % WORD ∧
          (∀ x, c1.pending_del_leaves (ring_slot c1.remove_count) = some x →
            x ∈ c3.deleted_leaf) ∧
          (∀ y, c1.pending_del_nodes (ring_slot c1.remove_count) = some y →
            y ∈ c3.deleted_node)) := by
  obtain ⟨hw0, hrc0, hd0⟩ := freshReachable_distinct hr
  have heff := critnib_remove_effect hnn h
  obtain ⟨e1, _, _, rl, rn, e4, e5, e6⟩ := heff
  have hw1 : WF c1.root := by
    rcases critnib_remove_wf key hw0 with ⟨v', c', _, e, _, w, _⟩ | ⟨_, c', e, w, _⟩
    · rw [e] at h; cases h; exact w
    · rw [e] at h; cases h; rw [w]; exact hw0
  have hrc1 : c1.remove_count < WORD := by
    rw [e1]; exact Nat.mod_lt _ (by decide)
  have hd1 : Distinct c1 := by
    intro x
    obtain ⟨o1, o2⟩ := critnib_remove_owned h x
    rw [o1, o2]; exact hd0 x
  have hslot : ring_slot (utils_atomic_increment_u64 c0.remove_count) =
      ring_slot c1.remove_count := by rw [e1]
  have hl1 : c1.pending_del_leaves (ring_slot c1.remove_count) = rl := by
    rw [e4, hslot, Function.update_same]
  have hn1 : c1.pending_del_nodes (ring_slot c1.remove_count) = rn := by
    rw [e5, hslot, Function.update_same]
  refine ⟨e1, fun x => ?_, fun y => ?_, ?_⟩
  · have := e6 true x
    rw [hl1]
    simpa using this
  · have := e6 false y
    rw [hn1]
    simpa using this
  intro ops c2 hrun hcount
  obtain ⟨g1, g2, g3, g4, g5⟩ := ring_slot_kept c1.remove_count ops 0 hrun hw1 hd1
    (by rw [Nat.add_zero, Nat.mod_eq_of_lt hrc1]) (by omega)
  obtain ⟨r1, r2⟩ := ring_not_free g5
  refine ⟨by simpa using g3, g1, g2, fun x hx => r1 _ x (g1.trans hx),
    fun y hy => r2 _ y (g2.trans hy), ?_⟩
  intro h15 hnn2 key2 v2 c3 hrem
  obtain ⟨k1, k2, k3, _⟩ := critnib_remove_effect hnn2 hrem
  have hs2 : ring_slot (utils_atomic_increment_u64 c2.remove_count) =
      ring_slot c1.remove_count := by
    rw [g3, Nat.add_zero, h15]
    exact (ring_slot_next c1.remove_count 15 (le_refl _)).mpr rfl
  refine ⟨?_, fun x hx => ?_, fun y hy => ?_⟩
  · rw [k1, g3, h15]
    simp only [utils_atomic_increment_u64, WORD, DELETED_LIFE]
    omega
  · rw [k2, hs2, g1, hx]
    simp [free_leaf]
  · rw [k3, hs2, g2, hy]
    simp [free_node]

theorem C20_retired_object_stays_in_ring_witness :
    demo_removed.remove_count = utils_atomic_increment_u64 demo_state.remove_count ∧
    (∀ x, addr_count true x demo_removed.root +
        (if demo_removed.pending_del_leaves (ring_slot demo_removed.remove_count) = some x
          then 1 else 0) =
      addr_count true x demo_state.root) ∧
    (∀ y, addr_count false y demo_removed.root +
        (if demo_removed.pending_del_nodes (ring_slot demo_removed.remove_count) = some y
          then 1 else 0) =
      addr_count false y demo_state.root) ∧
    ∀ ops c2, FreshRun demo_removed ops c2 → raise_count demo_removed ops ≤ 15 →
      c2.remove_count = (demo_removed.remove_count + raise_count demo_removed ops) % WORD ∧
      c2.pending_del_leaves (ring_slot demo_removed.remove_count) =
        demo_removed.pending_del_leaves (ring_slot demo_removed.remove_count) ∧
      c2.pending_del_nodes (ring_slot demo_removed.remove_count) =
        demo_removed.pending_del_nodes (ring_slot demo_removed.remove_count) ∧
      (∀ x, demo_removed.pending_del_leaves (ring_slot demo_removed.remove_count) = some x →
        x ∉ c2.deleted_leaf ∧ addr_count true x c2.root = 0 ∧
        ∀ sys, (∀ y, sys = some y → leaf_owned y c2 = 0) → (alloc_leaf c2 sys).1 ≠ some x) ∧
      (∀ y, demo_removed.pending_del_nodes (ring_slot demo_removed.remove_count) = some y →
        y ∉ c2.deleted_node ∧ addr_count false y c2.root = 0 ∧
        ∀ sys, (∀ z, sys = some z → node_owned z c2 = 0) → (alloc_node c2 sys).1 ≠ some y) ∧
      (raise_count demo_removed ops = 15 → c2.root ≠ .null →
        ∀ key2 v2 c3, critnib_remove c2 key2 = some (v2, c3) →
          c3.remove_count = (demo_removed.remove_count + DELETED_LIFE) % WORD ∧
          (∀ x, demo_removed.pending_del_leaves (ring_slot demo_removed.remove_count) = some x →
            x ∈ c3.deleted_leaf) ∧
          (∀ y, demo_removed.pending_del_nodes (ring_slot demo_removed.remove_count) = some y →
            y ∈ c3.deleted_node)) :=
  C20_retired_object_stays_in_ring freshReachable_demo_state
    (by rw [show demo_state.root = .inner 400 demo_state.root.children 0 4 from rfl]; simp)
    (show critnib_remove demo_state 10 = some (65, demo_removed) from rfl)

/-- The example of C20: the remove of key 10 from `demo_state` leaves the leaf
storage 100 and the node storage 400 in ring slot 0. -/
theorem demo_removed_ring :
    demo_removed.remove_count = 1 ∧ ring_slot demo_removed.remove_count = 0 ∧
    demo_removed.pending_del_leaves 0 = some 100 ∧
    demo_removed.pending_del_nodes 0 = some 400 := by
  refine ⟨rfl, by decide, rfl, rfl⟩

/-! ## The counter and the rings under `critnib_remove`, the fresh map, the bit scan -/

theorem bsr_from_spec {d : Nat} (hd : d ≠ 0) :
    ∀ i, (∀ j, i ≤ j → d.testBit j = false) →
      d.testBit (bsr_from d i) = true ∧ ∀ j, bsr_from d i < j → d.testBit j = false := by
  intro i
  induction i with
  | zero =>
    intro h
    exact absurd (Nat.eq_of_testBit_eq (fun j => by simp [h j (Nat.zero_le _)])) hd
  | succ i ih =>
    intro h
    unfold bsr_from
    by_cases hb : d.testBit i = true
    · rw [if_pos hb]
      exact ⟨hb, fun j hj => h j (by omega)⟩
    · rw [if_neg hb]
      have hb' : d.testBit i = false := by simpa using hb
      apply ih
      intro j hj
      rcases Nat.eq_or_lt_of_le hj with e | l
      · rw [← e]; exact hb'
      · exact h j l

/-- A number whose highest set bit is at position `p` lies in `[2^p, 2^(p+1))`. -/
theorem bounds_of_highest_bit {d p : Nat} (h1 : d.testBit p = true)
    (h2 : ∀ j, p < j → d.testBit j = false) : 2 ^ p ≤ d ∧ d < 2 ^ (p + 1) :=
  ⟨Nat.testBit_implies_ge h1, Nat.lt_pow_two_of_testBit d (fun j hj => h2 j hj)⟩

/-- The slot of the remove that raises the counter from `rc` is `rc mod 16`. -/
theorem ring_slot_incr (rc : Nat) :
    (ring_slot (utils_atomic_increment_u64 rc)).val = rc % DELETED_LIFE := by
  rw [ring_slot_val]
  simp only [utils_atomic_increment_u64, WORD, DELETED_LIFE]
  omega

/-- `critnib_remove` does not abort in a reachable state. -/
theorem critnib_remove_returns {c : critnib} (hw : WF c.root) (key : Nat) :
    ∃ v c', critnib_remove c key = some (v, c') := by
  rcases critnib_remove_wf key hw with ⟨v, c', _, e, _⟩ | ⟨_, c', e, _⟩
  · exact ⟨v, c', e⟩
  · exact ⟨0, c', e⟩

/-- C22: in a reachable state `critnib_remove` returns.  On a map whose root is
null it returns null and leaves the whole state, with the counter, both rings
and both free lists, as it is.  On a map with a non-null root, whether the key
is found or not, it raises `remove_count` by one (in 64-bit arithmetic), its ring
slot is the old `remove_count` modulo `DELETED_LIFE`, the occupants that slot had
are pushed onto the free lists, and every other ring slot is as before. -/
theorem C22_remove_counter_and_ring {c : critnib} (hr : Reachable c) (key : Nat) :
    ∃ v c', critnib_remove c key = some (v, c') ∧
      (c.root = .null → v = 0 ∧ c' = c) ∧
      (c.root ≠ .null →
        c'.remove_count = (c.remove_count + 1) % WORD ∧
        (c.remove_count + 1 < WORD → c'.remove_count = c.remove_count + 1) ∧
        (ring_slot c'.remove_count).val = c.remove_count % DELETED_LIFE ∧
        c'.deleted_leaf =
          (free_leaf c (c.pending_del_leaves (ring_slot c'.remove_count))).deleted_leaf ∧
        c'.deleted_node =
          (free_node c (c.pending_del_nodes (ring_slot c'.remove_count))).deleted_node ∧
        (∀ x, c.pending_del_leaves (ring_slot c'.remove_count) = some x →
          c'.deleted_leaf = x :: c.deleted_leaf) ∧
        (∀ y, c.pending_del_nodes (ring_slot c'.remove_count) = some y →
          c'.deleted_node = y :: c.deleted_node) ∧
        ∀ j, j ≠ ring_slot c'.remove_count →
          c'.pending_del_leaves j = c.pending_del_leaves j ∧
          c'.pending_del_nodes j = c.pending_del_nodes j) := by
  obtain ⟨hw, _⟩ := reachable_wf hr
  obtain ⟨v, c', h⟩ := critnib_remove_returns hw key
  refine ⟨v, c', h, fun hn => ?_, fun hn => ?_⟩
  · rw [critnib_remove_null key hn] at h
    simp only [Option.some.injEq, Prod.mk.injEq] at h
    exact ⟨h.1.symm, h.2.symm⟩
  · obtain ⟨e1, e2, e3, rl, rn, e4, e5, _⟩ := critnib_remove_effect hn h
    have hs : ring_slot (utils_atomic_increment_u64 c.remove_count) =
        ring_slot c'.remove_count := by rw [e1]
    rw [hs] at e2 e3 e4 e5
    refine ⟨e1, fun hlt => ?_, ?_, e2, e3, fun x hx => ?_, fun y hy => ?_, fun j hj => ?_⟩
    · rw [e1]; exact Nat.mod_eq_of_lt hlt
    · rw [e1]; exact ring_slot_incr _
    · rw [e2, hx]; rfl
    · rw [e3, hy]; rfl
    · rw [e4, e5, Function.update_noteq hj, Function.update_noteq hj]
      exact ⟨rfl, rfl⟩

theorem C22_remove_counter_and_ring_witness :
    ∃ v c', critnib_remove demo_removed 15 = some (v, c') ∧
      (demo_removed.root = .null → v = 0 ∧ c' = demo_removed) ∧
      (demo_removed.root ≠ .null →
        c'.remove_count = (demo_removed.remove_count + 1) % WORD ∧
        (demo_removed.remove_count + 1 < WORD →
          c'.remove_count = demo_removed.remove_count + 1) ∧
        (ring_slot c'.remove_count).val = demo_removed.remove_count % DELETED_LIFE ∧
        c'.deleted_leaf =
          (free_leaf demo_removed
            (demo_removed.pending_del_leaves (ring_slot c'.remove_count))).deleted_leaf ∧
        c'.deleted_node =
          (free_node demo_removed
            (demo_removed.pending_del_nodes (ring_slot c'.remove_count))).deleted_node ∧
        (∀ x, demo_removed.pending_del_leaves (ring_slot c'.remove_count) = some x →
          c'.deleted_leaf = x :: demo_removed.deleted_leaf) ∧
        (∀ y, demo_removed.pending_del_nodes (ring_slot c'.remove_count) = some y →
          c'.deleted_node = y :: demo_removed.deleted_node) ∧
        ∀ j, j ≠ ring_slot c'.remove_count →
          c'.pending_del_leaves j = demo_removed.pending_del_leaves j ∧
          c'.pending_del_nodes j = demo_removed.pending_del_nodes j) :=
  C22_remove_counter_and_ring
    ⟨demo_ops ++ [Op.remove 10], by
      intro op h
      simp [demo_ops] at h
      rcases h with h | h | h <;> rw [h] <;> simp [Op.ok], rfl⟩ 15

/-- C24: on a fresh map the counter is 0, every ring slot and both free lists
are empty, `critnib_get` and `critnib_find_le` give null and `critnib_find`
gives 0 for every key and direction, `critnib_remove` returns null and changes
nothing, and `critnib_iter` never invokes its callback. -/
theorem C24_fresh_map :
    critnib_new.remove_count = 0 ∧ critnib_new.root = .null ∧
    (∀ i, critnib_new.pending_del_nodes i = none ∧ critnib_new.pending_del_leaves i = none) ∧
    critnib_new.deleted_node = [] ∧ critnib_new.deleted_leaf = [] ∧
    (∀ k fuel, critnib_get critnib_new k (fuel + 1) = some 0) ∧
    (∀ k fuel, critnib_find_le critnib_new k (fuel + 1) = some 0) ∧
    (∀ k dir fuel, critnib_find critnib_new k dir (fuel + 1) = some (0, none)) ∧
    (∀ k, critnib_remove critnib_new k = some (0, critnib_new)) ∧
    (∀ (σ : Type) (func : σ → Nat → Nat → Int × σ) (pd : σ) (min max : Nat),
      calls critnib_new min max func pd = [] ∧ critnib_iter critnib_new min max func pd = pd) := by
  have hnw : NoWrap critnib_new := by unfold NoWrap; decide
  refine ⟨rfl, rfl, fun i => ⟨rfl, rfl⟩, rfl, rfl, fun k fuel => ?_, fun k fuel => ?_,
    fun k dir fuel => ?_, fun k => rfl, fun σ func pd min max => ⟨rfl, rfl⟩⟩
  · rw [critnib_get_nowrap hnw]; rfl
  · rw [critnib_find_le_nowrap hnw]; rfl
  · have hl : ∀ q d, critnib_find_loop critnib_new q d (fuel + 1) =
        some (find_res critnib_new.root q d) := fun q d => critnib_find_loop_nowrap hnw q d fuel
    have hres : ∀ q d, find_res critnib_new.root q d = .null := by
      intro q d
      simp only [find_res, critnib_new, find_le, find_ge, get_descend]
      split_ifs <;> rfl
    cases dir <;>
      simp only [critnib_find, find_dir_t.toInt, hl, hres, critnib_find_ret] <;>
      split_ifs <;> rfl

/-- C25: for a non-zero 64-bit `num`, `utils_get_leftmost_set_bit_pos(num)`, in
the variant of `utils_posix_math.c` as in that of `utils_windows_math.c`, is the
position `p` of the highest set bit: bit `p` is set, no higher bit is, and
`2^p ≤ num < 2^(p+1)`; for binary 01000011110 it is 9. -/
theorem C25_leftmost_set_bit {num : Nat} (h0 : num ≠ 0) (hw : num < 2 ^ 64) :
    (utils_get_leftmost_set_bit_pos num < 64 ∧
      num.testBit (utils_get_leftmost_set_bit_pos num) = true ∧
      (∀ j, utils_get_leftmost_set_bit_pos num < j → num.testBit j = false) ∧
      2 ^ utils_get_leftmost_set_bit_pos num ≤ num ∧
      num < 2 ^ (utils_get_leftmost_set_bit_pos num + 1)) ∧
    utils_get_leftmost_set_bit_pos_windows num = utils_get_leftmost_set_bit_pos num ∧
    utils_get_leftmost_set_bit_pos 0b01000011110 = 9 ∧
    utils_get_leftmost_set_bit_pos_windows 0b01000011110 = 9 := by
  obtain ⟨h1, h2, h3⟩ := utils_msb64_spec h0 hw
  have e : utils_msb64 num = utils_get_leftmost_set_bit_pos num := rfl
  rw [e] at h1 h2 h3
  obtain ⟨b1, b2⟩ := bounds_of_highest_bit h2 h3
  refine ⟨⟨h1, h2, h3, b1, b2⟩, ?_, by decide, by decide⟩
  obtain ⟨w1, w2⟩ := bsr_from_spec h0 64 (fun j hj => testBit_false_of_word hw hj)
  have ew : utils_get_leftmost_set_bit_pos_windows num = bsr_from num 64 := rfl
  rw [ew]
  by_contra hne
  rcases Nat.lt_or_gt_of_ne hne with hlt | hgt
  · have := w2 _ hlt
    rw [h2] at this; cases this
  · have := h3 _ hgt
    rw [w1] at this; cases this

theorem C25_leftmost_set_bit_witness :
    (utils_get_leftmost_set_bit_pos 542 < 64 ∧
      (542 : Nat).testBit (utils_get_leftmost_set_bit_pos 542) = true ∧
      (∀ j, utils_get_leftmost_set_bit_pos 542 < j → (542 : Nat).testBit j = false) ∧
      2 ^ utils_get_leftmost_set_bit_pos 542 ≤ 542 ∧
      542 < 2 ^ (utils_get_leftmost_set_bit_pos 542 + 1)) ∧
    utils_get_leftmost_set_bit_pos_windows 542 = utils_get_leftmost_set_bit_pos 542 ∧
    utils_get_leftmost_set_bit_pos 0b01000011110 = 9 ∧
    utils_get_leftmost_set_bit_pos_windows 0b01000011110 = 9 :=
  C25_leftmost_set_bit (by decide) (by decide)

/-- C30: in the split case of `critnib_insert` in a reachable state (the descent
stops at a pointer whose path, the key of a leaf or the path of an inner node,
differs from the key), the shift `sh = utils_msb64(path ^ key) & ~3`
is a multiple of 4 between 0 and 60, the highest differing bit lies in the nib
at `sh`, the key and the path have the same bits from position `sh + 4` upwards,
and `slice_index(key, sh)` differs from `slice_index(path, sh)`: the new node
holds the new leaf in the one slot, the old pointer in the other, and null in
every other slot. -/
theorem C30_split_shift {c : critnib} (hr : Reachable c) {key : Nat} (hk : key < 2 ^ 64)
    (hd : node_path (insert_descend key c.root).2 ^^^ key ≠ 0) (m : Nat)
    (junk : Fin 16 → critnib_node) (kn : critnib_node) :
    (utils_msb64 (node_path (insert_descend key c.root).2 ^^^ key) &&& 0xFC) % 4 = 0 ∧
    utils_msb64 (node_path (insert_descend key c.root).2 ^^^ key) &&& 0xFC ≤ 60 ∧
    utils_msb64 (node_path (insert_descend key c.root).2 ^^^ key) &&& 0xFC =
      utils_msb64 (node_path (insert_descend key c.root).2 ^^^ key) / 4 * 4 ∧
    (∀ b, (utils_msb64 (node_path (insert_descend key c.root).2 ^^^ key) &&& 0xFC) + 4 ≤ b →
      key.testBit b = (node_path (insert_descend key c.root).2).testBit b) ∧
    slice_index key (utils_msb64 (node_path (insert_descend key c.root).2 ^^^ key) &&& 0xFC) ≠
      slice_index (node_path (insert_descend key c.root).2)
        (utils_msb64 (node_path (insert_descend key c.root).2 ^^^ key) &&& 0xFC) ∧
    (split_node m junk key kn (insert_descend key c.root).2).children
      (slice_index key (utils_msb64 (node_path (insert_descend key c.root).2 ^^^ key) &&& 0xFC)) =
      kn ∧
    (split_node m junk key kn (insert_descend key c.root).2).children
      (slice_index (node_path (insert_descend key c.root).2)
        (utils_msb64 (node_path (insert_descend key c.root).2 ^^^ key) &&& 0xFC)) =
      (insert_descend key c.root).2 ∧
    ∀ i, i ≠ slice_index key
          (utils_msb64 (node_path (insert_descend key c.root).2 ^^^ key) &&& 0xFC) →
      i ≠ slice_index (node_path (insert_descend key c.root).2)
          (utils_msb64 (node_path (insert_descend key c.root).2 ^^^ key) &&& 0xFC) →
      (split_node m junk key kn (insert_descend key c.root).2).children i = .null := by
  have hw := insert_descend_snd_WF key (reachable_wf hr).1
  have hp := node_path_lt hw
  obtain ⟨s1, s2, s3, s4, s5, s6⟩ := split_shift hk hp hd
  obtain ⟨m1, _, _⟩ := utils_msb64_spec hd (Nat.xor_lt_two_pow hp hk)
  have e4 := land_0xFC _ m1
  generalize hsh : utils_msb64 (node_path (insert_descend key c.root).2 ^^^ key) &&& 0xFC = sh
    at s1 s2 s3 s4 s5 s6 e4
  generalize (insert_descend key c.root).2 = n at *
  have hne : slice_index key sh ≠ slice_index (node_path n) sh := by
    intro e
    apply s6
    rw [← slice_index_val, ← slice_index_val, e]
  have hunf : (split_node m junk key kn n).children =
      Function.update (Function.update (clear_children junk (List.finRange 16))
        (slice_index key sh) kn) (slice_index (node_path n) sh) n := by
    simp only [split_node, hsh, critnib_node.children]
  refine ⟨s1, s2, e4, fun b hb => ?_, hne, ?_, ?_, fun i h1 h2 => ?_⟩
  · obtain ⟨d, rfl⟩ := Nat.exists_eq_add_of_le hb
    have e : key >>> (sh + 4) = node_path n >>> (sh + 4) := by
      rw [Nat.shiftRight_eq_div_pow, Nat.shiftRight_eq_div_pow]; exact s5
    rw [← Nat.testBit_shiftRight, ← Nat.testBit_shiftRight, e]
  · rw [hunf, Function.update_noteq hne, Function.update_same]
  · rw [hunf, Function.update_same]
  · rw [hunf, Function.update_noteq h2, Function.update_noteq h1, clear_children_apply]

theorem C30_split_shift_witness :
    (utils_msb64 (node_path (insert_descend 5 demo_state.root).2 ^^^ 5) &&& 0xFC) % 4 = 0 ∧
    utils_msb64 (node_path (insert_descend 5 demo_state.root).2 ^^^ 5) &&& 0xFC ≤ 60 ∧
    utils_msb64 (node_path (insert_descend 5 demo_state.root).2 ^^^ 5) &&& 0xFC =
      utils_msb64 (node_path (insert_descend 5 demo_state.root).2 ^^^ 5) / 4 * 4 ∧
    (∀ b, (utils_msb64 (node_path (insert_descend 5 demo_state.root).2 ^^^ 5) &&& 0xFC) + 4 ≤ b →
      (5 : Nat).testBit b = (node_path (insert_descend 5 demo_state.root).2).testBit b) ∧
    slice_index 5 (utils_msb64 (node_path (insert_descend 5 demo_state.root).2 ^^^ 5) &&& 0xFC) ≠
      slice_index (node_path (insert_descend 5 demo_state.root).2)
        (utils_msb64 (node_path (insert_descend 5 demo_state.root).2 ^^^ 5) &&& 0xFC) ∧
    (split_node 7 (fun _ => .null) 5 (.leaf 9 5 50) (insert_descend 5 demo_state.root).2).children
      (slice_index 5 (utils_msb64 (node_path (insert_descend 5 demo_state.root).2 ^^^ 5) &&& 0xFC)) =
      .leaf 9 5 50 ∧
    (split_node 7 (fun _ => .null) 5 (.leaf 9 5 50) (insert_descend 5 demo_state.root).2).children
      (slice_index (node_path (insert_descend 5 demo_state.root).2)
        (utils_msb64 (node_path (insert_descend 5 demo_state.root).2 ^^^ 5) &&& 0xFC)) =
      (insert_descend 5 demo_state.root).2 ∧
    ∀ i, i ≠ slice_index 5
          (utils_msb64 (node_path (insert_descend 5 demo_state.root).2 ^^^ 5) &&& 0xFC) →
      i ≠ slice_index (node_path (insert_descend 5 demo_state.root).2)
          (utils_msb64 (node_path (insert_descend 5 demo_state.root).2 ^^^ 5) &&& 0xFC) →
      (split_node 7 (fun _ => .null) 5 (.leaf 9 5 50)
        (insert_descend 5 demo_state.root).2).children i = .null :=
  C30_split_shift reachable_demo_state (by norm_num) (by decide) 7 (fun _ => .null) (.leaf 9 5 50)

/-! ## The two pruning tests of `iter` -/

theorem path_mask_eq : ∀ s, s < 61 → path_mask s = 2 ^ 64 - 2 ^ (s + 4) := by decide

/-- In a well-formed inner node the left side of the skip test is the mask alone. -/
theorem or_path_mask {a : Nat} {ch : Fin 16 → critnib_node} {p s : Nat}
    (hw : WF (.inner a ch p s)) : p ||| path_mask s = path_mask s := by
  obtain ⟨_, _, hp, hm, _, _⟩ := hw
  apply Nat.eq_of_testBit_eq
  intro j
  rw [Nat.testBit_or, testBit_path_mask]
  have e : p = p / 2 ^ (s + 4) * 2 ^ (s + 4) := by
    have := Nat.div_add_mod p (2 ^ (s + 4))
    rw [hm, Nat.add_zero, Nat.mul_comm] at this
    exact this.symm
  by_cases h1 : s + 4 ≤ j
  · by_cases h2 : j < 64
    · simp [h1, h2]
    · simp [h1, h2, testBit_false_of_word hp (Nat.le_of_not_lt h2)]
  · have : p.testBit j = false := by
      rw [e, testBit_div_mul_pow]; simp [h1]
    simp [h1, this]

theorem leaves_block {n t : critnib_node} :
    InTree n t → ∃ L1 L2, leaves t = L1 ++ leaves n ++ L2 := by
  induction t with
  | null => intro h; rw [show n = .null from h]; exact ⟨[], [], by simp⟩
  | leaf a k v => intro h; rw [show n = .leaf a k v from h]; exact ⟨[], [], by simp⟩
  | inner a ch p s ih =>
    intro h
    rcases h with h | ⟨i, h⟩
    · rw [h]; exact ⟨[], [], by simp⟩
    · obtain ⟨M1, M2, e⟩ := ih i h
      obtain ⟨l1, l2, el⟩ := List.append_of_mem (List.mem_finRange i)
      refine ⟨l1.flatMap (fun j => leaves (ch j)) ++ M1,
        M2 ++ l2.flatMap (fun j => leaves (ch j)), ?_⟩
      simp only [leaves, el, List.flatMap_append, List.flatMap_cons, e, List.append_assoc]

theorem walk_all_sublist (min max : Nat) (t : critnib_node) :
    List.Sublist (walk_all min max t) ((leaves t).filter (in_range min max)) := by
  induction t with
  | null => simp [walk_all]
  | leaf a k v =>
    by_cases h : k ≥ min ∧ k ≤ max
    · have h' : min ≤ k ∧ k ≤ max := h
      simp [walk_all, leaves, in_range, h']
    · have h' : ¬ (min ≤ k ∧ k ≤ max) := h
      simp [walk_all, h']
  | inner a ch p s ih =>
    by_cases h2 : (p ||| path_mask s) < min
    · simp [walk_all, h2]
    · simp only [walk_all, h2, if_false, leaves]
      have gen : ∀ l : List (Fin 16), List.Sublist (l.flatMap (fun i => walk_all min max (ch i)))
          ((l.flatMap (fun i => leaves (ch i))).filter (in_range min max)) := by
        intro l
        induction l with
        | nil => simp
        | cons i l ihl =>
          simp only [List.flatMap_cons, List.filter_append]
          exact List.Sublist.append (ih i) ihl
      exact gen _

theorem walk_all_nil {min max : Nat} {t : critnib_node}
    (h : ∀ kv ∈ leaves t, max < kv.1) : walk_all min max t = [] := by
  have hs := walk_all_sublist min max t
  have hnil : (leaves t).filter (in_range min max) = [] := by
    rw [List.filter_eq_nil_iff]
    intro y hy
    have := h y hy
    simp only [in_range, decide_eq_true_eq, not_and, not_le]
    intro _; omega
  rw [hnil] at hs
  exact List.sublist_nil.mp hs

/-- The loop of `walk`, cut after a slot that holds a key beyond `max`, appends
what the lists `g i` of the slots give when these are empty for a slot with no
key up to `max`. -/
theorem walk_fold_cut (min max : Nat) (ch : Fin 16 → critnib_node)
    (g : Fin 16 → List (Nat × Nat))
    (hch : ∀ i, (walk min max (ch i)).2 = g i ∧
      ((walk min max (ch i)).1 = true → ∃ kv ∈ leaves (ch i), max < kv.1))
    (hg : ∀ i, (∀ kv ∈ leaves (ch i), max < kv.1) → g i = [])
    (hord : ∀ i j : Fin 16, i < j → ∀ x ∈ leaves (ch i), ∀ y ∈ leaves (ch j), x.1 < y.1)
    (l : List (Fin 16)) (hl : l.Pairwise (· < ·)) :
    ∀ acc : Bool × List (Nat × Nat),
      (acc.1 = true → ∃ j, (∀ i ∈ l, j < i) ∧ ∃ kv ∈ leaves (ch j), max < kv.1) →
      (l.foldl (fun (acc : Bool × List (Nat × Nat)) i =>
          if acc.1 then acc
          else ((walk min max (ch i)).1, acc.2 ++ (walk min max (ch i)).2)) acc).2 =
        acc.2 ++ l.flatMap g ∧
      ((l.foldl (fun (acc : Bool × List (Nat × Nat)) i =>
          if acc.1 then acc
          else ((walk min max (ch i)).1, acc.2 ++ (walk min max (ch i)).2)) acc).1 = true →
        ∃ j, ∃ kv ∈ leaves (ch j), max < kv.1) := by
  induction l with
  | nil =>
    intro acc h
    refine ⟨by simp, fun hs => ?_⟩
    obtain ⟨j, _, hj⟩ := h hs
    exact ⟨j, hj⟩
  | cons i l ihl =>
    intro acc h
    rw [List.pairwise_cons] at hl
    simp only [List.foldl_cons, List.flatMap_cons]
    by_cases hs : acc.1 = true
    · rw [if_pos hs]
      obtain ⟨j, hj, kv, hkv, hmax⟩ := h hs
      have hnil : g i = [] := by
        apply hg
        intro y hy
        have := hord j i (hj i (List.mem_cons_self _ _)) kv hkv y hy
        omega
      rw [hnil, List.nil_append]
      exact ihl hl.2 acc (fun _ => ⟨j, fun i' hi' => hj i' (List.mem_cons_of_mem _ hi'), kv, hkv, hmax⟩)
    · rw [if_neg hs]
      have := ihl hl.2 ((walk min max (ch i)).1, acc.2 ++ (walk min max (ch i)).2)
        (fun hc => ⟨i, hl.1, (hch i).2 hc⟩)
      refine ⟨?_, this.2⟩
      rw [this.1]
      simp only [(hch i).1, List.append_assoc]

/-- The walk of a well-formed tree hands the callback what it would hand it
without the test `n->path > max`, and it is cut only when a key beyond `max`
exists. -/
theorem walk_eq_walk_all (min max : Nat) {t : critnib_node} :
    WF t → (walk min max t).2 = walk_all min max t ∧
      ((walk min max t).1 = true → ∃ kv ∈ leaves t, max < kv.1) := by
  induction t with
  | null => intro _; simp [walk, walk_all]
  | leaf a k v => intro _; simp [walk, walk_all]
  | inner a ch p s ih =>
    intro hw
    by_cases h1 : p > max
    · simp only [walk, h1, if_true]
      have hall : ∀ kv ∈ leaves (.inner a ch p s), max < kv.1 := by
        intro kv hkv
        have := path_le_key hw (k := kv.1) (v := kv.2) hkv
        omega
      refine ⟨(walk_all_nil hall).symm, fun _ => ?_⟩
      obtain ⟨x, hx⟩ := leaves_ne_nil hw (by simp)
      exact ⟨x, hx, hall x hx⟩
    · by_cases h2 : (p ||| path_mask s) < min
      · simp [walk, walk_all, h1, h2]
      · simp only [walk, walk_all, h1, h2, if_false]
        have := walk_fold_cut min max ch (fun i => walk_all min max (ch i))
          (fun i => ih i (hw.2.2.2.2.2 i).1) (fun i hi => walk_all_nil hi)
          (fun i j hij x hx y hy =>
            slot_order hw hij (show (x.1, x.2) ∈ leaves (ch i) from hx)
              (show (y.1, y.2) ∈ leaves (ch j) from hy))
          (List.finRange 16) (List.pairwise_lt_finRange 16) (false, []) (by simp)
        refine ⟨by simpa using this.1, fun hs => ?_⟩
        obtain ⟨j, kv, hkv, hmax⟩ := this.2 hs
        exact ⟨kv, mem_leaves_inner.2 ⟨j, hkv⟩, hmax⟩

/-- C28: the skip test of `iter` does not tell that the subtree is below `min`.
In `skip_state` (keys 2^60 and 2^61) the root is an inner node with path 0 and
shift 60, `path | path_mask(shift)` is 0, the test `< min` holds for `min = 1`,
and both keys of the subtree are at least 1; the walk for `[1, UINTPTR_MAX]`
hands the callback nothing.  In every reachable state the left side of the test
is `path_mask(shift) = 2^64 - 2^(shift+4)` whatever the path is; when the test
holds and the path is not that mask, every key below the node is below `min`. -/
theorem C28_iter_skip_test_unsound :
    (Reachable skip_state ∧
      InTree (.inner 400 skip_state.root.children 0 60) skip_state.root ∧
      (0 ||| path_mask 60) < 1 ∧
      leaves (.inner 400 skip_state.root.children 0 60) = [(2 ^ 60, 1), (2 ^ 61, 2)] ∧
      ¬ (2 ^ 60 < 1) ∧ calls skip_state 1 UINTPTR_MAX func_zero () = []) ∧
    ∀ c : critnib, Reachable c → ∀ (a : Nat) (ch : Fin 16 → critnib_node) (p s min : Nat),
      InTree (.inner a ch p s) c.root → (p ||| path_mask s) < min →
        p ||| path_mask s = 2 ^ 64 - 2 ^ (s + 4) ∧
        (p ≠ path_mask s → ∀ kv ∈ leaves (.inner a ch p s), kv.1 < min) := by
  refine ⟨⟨reachable_skip_state, Or.inl rfl, by decide, by decide, by decide, by decide⟩, ?_⟩
  intro c hr a ch p s min hin hskip
  have hw := inTree_wf (reachable_wf hr).1 hin
  have e1 := or_path_mask hw
  have e2 := path_mask_eq s (by have := hw.2.1; omega)
  rw [e1] at hskip ⊢
  refine ⟨e2, fun hne kv hkv => ?_⟩
  have hk := key_hi hw (k := kv.1) (v := kv.2) hkv
  obtain ⟨_, hs, hp, hm, _, _⟩ := hw
  rw [e2] at hskip hne
  -- the path is a multiple of 2^(s+4) below the mask, the key shares its high part
  have hpow : 2 ^ (s + 4) ≤ 2 ^ 64 := Nat.pow_le_pow_right (by decide) hs
  have hd : 2 ^ 64 = 2 ^ (64 - (s + 4)) * 2 ^ (s + 4) := by
    rw [← Nat.pow_add]; congr 1; omega
  have h1 := Nat.div_add_mod p (2 ^ (s + 4))
  have h2 := Nat.div_add_mod kv.1 (2 ^ (s + 4))
  have h3 := Nat.mod_lt kv.1 (show 0 < 2 ^ (s + 4) by positivity)
  rw [hm] at h1
  rw [hk] at h2
  generalize 2 ^ (s + 4) = B at *
  generalize 2 ^ (64 - (s + 4)) = A at *
  generalize p / B = q at *
  have hq : q < A := by
    by_contra hge
    have : A * B ≤ q * B := Nat.mul_le_mul_right B (Nat.le_of_not_lt hge)
    rw [Nat.mul_comm q B] at this
    omega
  have hq' : q + 1 < A := by
    rcases Nat.lt_or_ge (q + 1) A with h | h
    · exact h
    · exfalso
      have hqa : q + 1 = A := by omega
      apply hne
      rw [hd, ← hqa, Nat.add_mul, Nat.one_mul, ← h1, Nat.mul_comm B q]
      omega
  have : (q + 2) * B ≤ A * B := Nat.mul_le_mul_right B (by omega)
  rw [Nat.add_mul, Nat.mul_comm q B] at this
  omega

theorem reachable_walk_state : Reachable walk_state :=
  ⟨walk_ops, by
    intro op h
    simp [walk_ops] at h
    rcases h with h | h | h | h | h | h | h | h <;> rw [h] <;> simp [Op.ok], rfl⟩

theorem reachable_nest_state : Reachable nest_state :=
  ⟨nest_ops, by
    intro op h
    simp [nest_ops] at h
    rcases h with h | h | h <;> rw [h] <;> simp [Op.ok], rfl⟩

/-- C29: in every reachable state, below an inner node with `path > max` every
key is beyond `max`; the leaves of the tree are those before the node, those of
the node and those after it, in key order, and those after it are beyond `max`
too.  So the walk hands the callback what it would hand it without the test
`n->path > max`: aborting there skips no key of `[min, max]`. -/
theorem C29_iter_abort_sound {c : critnib} (hr : Reachable c) (min max : Nat) :
    (∀ (a : Nat) (ch : Fin 16 → critnib_node) (p s : Nat),
      InTree (.inner a ch p s) c.root → p > max →
        (∀ kv ∈ leaves (.inner a ch p s), max < kv.1) ∧
        ∃ L1 L2, leaves c.root = L1 ++ leaves (.inner a ch p s) ++ L2 ∧
          ∀ kv ∈ L2, max < kv.1) ∧
    (∀ (σ : Type) (func : σ → Nat → Nat → Int × σ) (pd : σ),
      calls c min max func pd = calls_until func (walk_all min max c.root) pd) ∧
    calls c min max func_zero () = walk_all min max c.root := by
  have hw := (reachable_wf hr).1
  refine ⟨fun a ch p s hin hp => ?_, fun σ func pd => ?_, ?_⟩
  · have hwn := inTree_wf hw hin
    have hall : ∀ kv ∈ leaves (.inner a ch p s), max < kv.1 := by
      intro kv hkv
      have := path_le_key hwn (k := kv.1) (v := kv.2) hkv
      omega
    refine ⟨hall, ?_⟩
    obtain ⟨L1, L2, e⟩ := leaves_block hin
    refine ⟨L1, L2, e, fun kv hkv => ?_⟩
    obtain ⟨x, hx⟩ := leaves_ne_nil hwn (by simp)
    have hs := leaves_sorted hw
    rw [e, List.append_assoc, List.pairwise_append] at hs
    have h2 := hs.2.1
    rw [List.pairwise_append] at h2
    have := h2.2.2 x hx kv hkv
    have := hall x hx
    omega
  · rw [calls_walk, (walk_eq_walk_all min max hw).1]
  · rw [calls_zero, (walk_eq_walk_all min max hw).1]

theorem C29_iter_abort_sound_witness :
    (∀ (a : Nat) (ch : Fin 16 → critnib_node) (p s : Nat),
      InTree (.inner a ch p s) nest_state.root → p > 5 →
        (∀ kv ∈ leaves (.inner a ch p s), 5 < kv.1) ∧
        ∃ L1 L2, leaves nest_state.root = L1 ++ leaves (.inner a ch p s) ++ L2 ∧
          ∀ kv ∈ L2, 5 < kv.1) ∧
    (∀ (σ : Type) (func : σ → Nat → Nat → Int × σ) (pd : σ),
      calls nest_state 0 5 func pd = calls_until func (walk_all 0 5 nest_state.root) pd) ∧
    calls nest_state 0 5 func_zero () = walk_all 0 5 nest_state.root :=
  C29_iter_abort_sound reachable_nest_state 0 5

/-- The example of the abort test: `nest_state` holds an inner node with path 16
below its root, and the walk for `[0, 5]` hands the callback the key 1 alone. -/
theorem nest_state_walk :
    InTree (.inner 103 (nest_state.root.children 1).children 16 0) nest_state.root ∧
    leaves nest_state.root = [(1, 10), (16, 160), (17, 170)] ∧
    calls nest_state 0 5 func_zero () = [(1, 10)] :=
  ⟨Or.inr ⟨1, Or.inl rfl⟩, by decide, by decide⟩

/-! ## Counting the leaf objects -/

theorem ring_occ_update (ring : Fin 16 → Option Nat) (i : Fin 16) (o : Option Nat) :
    ring_occ (Function.update ring i o) + (if (ring i).isSome then 1 else 0) =
      ring_occ ring + (if o.isSome then 1 else 0) := by
  have e : (fun j => if (Function.update ring i o j).isSome then 1 else 0) =
      Function.update (fun j => if (ring j).isSome then 1 else 0) i
        (if o.isSome then 1 else 0) := by
    funext j
    by_cases h : j = i
    · rw [h, Function.update_same, Function.update_same]
    · rw [Function.update_noteq h, Function.update_noteq h]
  unfold ring_occ
  rw [e]
  exact sum_update_add _ i _

theorem ring_occ_le (ring : Fin 16 → Option Nat) : ring_occ ring ≤ 16 := by
  unfold ring_occ
  have : ∀ i ∈ (Finset.univ : Finset (Fin 16)),
      (if (ring i).isSome then 1 else 0) ≤ 1 := by
    intro i _; split <;> omega
  have h := Finset.sum_le_sum this
  simpa using h

theorem leaf_num_update (a p s : Nat) (ch : Fin 16 → critnib_node) (i : Fin 16)
    (t : critnib_node) :
    leaf_num (.inner a (Function.update ch i t) p s) + leaf_num (ch i) =
      leaf_num (.inner a ch p s) + leaf_num t := by
  have e : (fun j => leaf_num (Function.update ch i t j)) =
      Function.update (fun j => leaf_num (ch j)) i (leaf_num t) := by
    funext j
    by_cases h : j = i
    · rw [h, Function.update_same, Function.update_same]
    · rw [Function.update_noteq h, Function.update_noteq h]
  simp only [leaf_num]
  rw [e]
  exact sum_update_add (fun j => leaf_num (ch j)) i (leaf_num t)

theorem rebuild_leaf_num (F : critnib_node → critnib_node) (key : Nat) (t : critnib_node) :
    leaf_num (rebuild F key t) + leaf_num (insert_descend key t).2 =
      leaf_num t + leaf_num (F (insert_descend key t).2) := by
  induction t with
  | null => simp [rebuild_null, insert_descend]; omega
  | leaf a k v => simp [rebuild_leaf, insert_descend]; omega
  | inner a ch p s ih =>
    by_cases hc : key &&& path_mask s = p
    · rw [rebuild_inner_in _ hc]
      simp only [insert_descend, hc, if_true]
      have h1 := leaf_num_update a p s ch (slice_index key s)
        (rebuild F key (ch (slice_index key s)))
      have h2 := ih (slice_index key s)
      omega
    · rw [rebuild_inner_out _ hc]
      simp only [insert_descend, hc, if_false]
      omega

theorem store_leaf_num (key : Nat) (t X : critnib_node) :
    leaf_num (store t (insert_descend key t).1 X) + leaf_num (insert_descend key t).2 =
      leaf_num t + leaf_num X :=
  rebuild_leaf_num (fun _ => X) key t

theorem remove_rebuild_leaf_num (G : critnib_node → critnib_node) (key : Nat)
    (t : critnib_node) :
    leaf_num (remove_rebuild G key t) + leaf_num (remove_descend key t).2.1 =
      leaf_num t + leaf_num (G (remove_descend key t).2.1) := by
  induction t with
  | null => simp [remove_rebuild, remove_descend, store]; omega
  | leaf a k v => simp [remove_rebuild, remove_descend, store]; omega
  | inner a ch p s ih =>
    rcases hc : ch (slice_index key s) with _ | ⟨a', k', v'⟩ | ⟨a', ch', p', s'⟩
    · rw [remove_rebuild_out G (by intro _ _ _ _ e; rw [hc] at e; cases e)]
      simp only [remove_descend, hc]
      omega
    · rw [remove_rebuild_out G (by intro _ _ _ _ e; rw [hc] at e; cases e)]
      simp only [remove_descend, hc]
      omega
    · rw [remove_rebuild_in G hc]
      have h1 := leaf_num_update a p s ch (slice_index key s)
        (remove_rebuild G key (ch (slice_index key s)))
      have h2 := ih (slice_index key s)
      have h3 : (remove_descend key (.inner a ch p s)).2.1 =
          (remove_descend key (ch (slice_index key s))).2.1 := by
        simp only [remove_descend, hc]
      rw [h3]
      omega

theorem leaf_num_null_children (a p s : Nat) (ch : Fin 16 → critnib_node)
    (h : ∀ i, ch i = .null) : leaf_num (.inner a ch p s) = 0 := by
  simp only [leaf_num]
  exact Finset.sum_eq_zero (fun i _ => by rw [h i]; rfl)

theorem split_node_leaf_num (m : Nat) (junk : Fin 16 → critnib_node) {key : Nat}
    (kn : critnib_node) {n : critnib_node} (hk : key < 2 ^ 64) (hw : WF n)
    (hd : node_path n ^^^ key ≠ 0) :
    leaf_num (split_node m junk key kn n) = leaf_num kn + leaf_num n := by
  obtain ⟨_, _, _, _, _, s6⟩ := split_shift hk (node_path_lt hw) hd
  generalize hsh : utils_msb64 (node_path n ^^^ key) &&& 0xFC = sh at s6
  have hne : slice_index (node_path n) sh ≠ slice_index key sh := by
    intro e
    apply s6
    rw [← slice_index_val, ← slice_index_val, e]
  have hunf : split_node m junk key kn n =
      .inner m (Function.update (Function.update (clear_children junk (List.finRange 16))
        (slice_index key sh) kn) (slice_index (node_path n) sh) n)
        (key &&& path_mask sh) sh := by
    simp only [split_node, hsh]
  rw [hunf]
  have h1 := leaf_num_update m (key &&& path_mask sh) sh
    (Function.update (clear_children junk (List.finRange 16)) (slice_index key sh) kn)
    (slice_index (node_path n) sh) n
  have h2 := leaf_num_update m (key &&& path_mask sh) sh
    (clear_children junk (List.finRange 16)) (slice_index key sh) kn
  have h3 := leaf_num_null_children m (key &&& path_mask sh) sh
    (clear_children junk (List.finRange 16)) (fun i => clear_children_apply junk i)
  have hz : leaf_num .null = 0 := rfl
  rw [Function.update_noteq hne, clear_children_apply, hz] at h1
  rw [clear_children_apply, hz] at h2
  omega

theorem remove_at_leaf_num (na p s : Nat) {key a k v : Nat}
    {ch : Fin 16 → critnib_node} (hl : ch (slice_index key s) = .leaf a k v) :
    leaf_num (remove_at key (.inner na ch p s)) + 1 = leaf_num (.inner na ch p s) := by
  have h1 := leaf_num_update na p s ch (slice_index key s) .null
  rw [hl] at h1
  have hz : leaf_num .null = 0 := rfl
  have hlf : leaf_num (.leaf a k v) = 1 := rfl
  rw [hz, hlf] at h1
  rcases remove_scan_full (Function.update ch (slice_index key s) .null) with
    ⟨hs, _⟩ | ⟨o, hs, _, hall⟩ | ⟨hs, _⟩
  · simp only [remove_at, hs]
    omega
  · simp only [remove_at, hs]
    have h3 : leaf_num (.inner na (Function.update ch (slice_index key s) .null) p s) =
        ∑ i : Fin 16, leaf_num (Function.update ch (slice_index key s) .null i) := rfl
    have h2 : (∑ i : Fin 16, leaf_num (Function.update ch (slice_index key s) .null i)) =
        leaf_num (Function.update ch (slice_index key s) .null o) := by
      apply Finset.sum_eq_single o
      · intro i _ hi
        rw [hall i hi]; rfl
      · intro h; exact absurd (Finset.mem_univ o) h
    omega
  · simp only [remove_at, hs]
    omega

theorem leaf_num_eq_length (t : critnib_node) : leaf_num t = (leaves t).length := by
  induction t with
  | null => rfl
  | leaf a k v => rfl
  | inner a ch p s ih =>
    simp only [leaf_num, leaves, List.length_flatMap, ih]
    rw [Fin.sum_univ_def]
    simp [Function.comp_def]

theorem leaf_num_eq_keys (t : critnib_node) : leaf_num t = (keys t).length := by
  rw [leaf_num_eq_length]; simp [keys]

theorem count_leaf_addrs (x : Nat) (t : critnib_node) :
    (leaf_addrs t).count x = addr_count true x t := by
  induction t with
  | null => rfl
  | leaf a k v =>
    simp only [leaf_addrs, addr_count, List.count_cons, List.count_nil, beq_iff_eq, true_and]
    omega
  | inner a ch p s ih =>
    simp only [leaf_addrs, addr_count, List.count_flatMap, Function.comp_def, ih]
    rw [Fin.sum_univ_def]
    simp

theorem length_leaf_addrs (t : critnib_node) : (leaf_addrs t).length = leaf_num t := by
  induction t with
  | null => rfl
  | leaf a k v => rfl
  | inner a ch p s ih =>
    simp only [leaf_addrs, leaf_num, List.length_flatMap]
    rw [Fin.sum_univ_def]
    simp [Function.comp_def, ih]

theorem free_leaf_length (c : critnib) (o : Option Nat) :
    (free_leaf c o).deleted_leaf.length =
      c.deleted_leaf.length + (if o.isSome then 1 else 0) := by
  cases o <;> simp [free_leaf]

/-- A `critnib_remove` keeps the number of leaf objects the map holds. -/
theorem critnib_remove_held {c c' : critnib} {key v : Nat}
    (h : critnib_remove c key = some (v, c')) : leaf_held c' = leaf_held c := by
  by_cases hn : c.root = .null
  · rw [critnib_remove_null key hn] at h
    simp only [Option.some.injEq, Prod.mk.injEq] at h
    rw [← h.2]
  · obtain ⟨_, h2, _, rl, rn, h4, _, h6⟩ := critnib_remove_effect hn h
    have hcnt : ∀ x, (leaf_addrs c'.root).count x + (if rl = some x then 1 else 0) =
        (leaf_addrs c.root).count x := by
      intro x
      have := h6 true x
      simp only [true_and, Bool.true_eq_false, false_and, if_false] at this
      rw [count_leaf_addrs, count_leaf_addrs]
      omega
    have hlen : leaf_num c'.root + (if rl.isSome then 1 else 0) = leaf_num c.root := by
      rw [← length_leaf_addrs, ← length_leaf_addrs]
      cases rl with
      | none =>
        have hp : List.Perm (leaf_addrs c'.root) (leaf_addrs c.root) := by
          rw [List.perm_iff_count]
          intro x
          have := hcnt x
          simpa using this
        simpa using hp.length_eq
      | some a =>
        have hp : List.Perm (a :: leaf_addrs c'.root) (leaf_addrs c.root) := by
          rw [List.perm_iff_count]
          intro x
          have := hcnt x
          rw [List.count_cons]
          simp only [Option.some.injEq, beq_iff_eq] at this ⊢
          omega
        have := hp.length_eq
        simp only [List.length_cons, Option.isSome_some, if_true] at this ⊢
        omega
    have hr := ring_occ_update c.pending_del_leaves
      (ring_slot (utils_atomic_increment_u64 c.remove_count)) rl
    have hf := free_leaf_length c (c.pending_del_leaves
      (ring_slot (utils_atomic_increment_u64 c.remove_count)))
    unfold leaf_held
    rw [h2, h4]
    omega

theorem alloc_leaf_none {c c1 : critnib} {sys : Option Nat}
    (h : alloc_leaf c sys = (none, c1)) : c.deleted_leaf = [] ∧ sys = none := by
  unfold alloc_leaf at h
  split at h
  · next he =>
    simp only [Prod.mk.injEq] at h
    exact ⟨he, h.1⟩
  · simp at h

/-- A `critnib_insert` raises the number of leaf objects the map holds by what it
obtains from the byte allocator. -/
theorem critnib_insert_held {c c' : critnib} {key value update r : Nat} {ba : base_alloc}
    (hw : WF c.root) (hk : key < 2 ^ 64)
    (h : critnib_insert c key value update ba = some (r, c')) :
    leaf_held c' = leaf_held c + sys_leaf c (.insert key value update ba) := by
  rcases hal : alloc_leaf c ba.leaf with ⟨_ | ka, c1⟩
  · unfold critnib_insert at h
    rw [hal] at h
    simp only [Option.some.injEq, Prod.mk.injEq] at h
    rw [← h.2]
    obtain ⟨_, e2⟩ := alloc_leaf_none hal
    simp [sys_leaf, e2]
  · rw [critnib_insert_nonnull key value update hal] at h
    obtain ⟨e1, e2, e3, e4, e5, e6⟩ := alloc_leaf_some hal
    have hL := insert_descend_snd_WF key hw
    have hD : c1.deleted_leaf.length + 1 =
        c.deleted_leaf.length + sys_leaf c (.insert key value update ba) := by
      rcases e6 with e | ⟨e, es, e'⟩
      · simp [sys_leaf, e]
      · simp [sys_leaf, e, es, e']
    have hst := fun X => store_leaf_num key c.root X
    have hz : leaf_num .null = 0 := rfl
    have hlf : ∀ a k v, leaf_num (.leaf a k v) = 1 := fun _ _ _ => rfl
    have back : leaf_held (free_leaf c1 (some ka)) =
        leaf_held c + sys_leaf c (.insert key value update ba) := by
      simp only [leaf_held, free_leaf, e1, e2, List.length_cons]
      omega
    have split : ∀ n, (insert_descend key c.root).2 = n →
        node_path n ^^^ key ≠ 0 →
        (match alloc_node c1 ba.node with
          | (none, _) => some (ENOMEM, free_leaf c1 (some ka))
          | (some m, c2) =>
            some (0, { c2 with
              root := store c.root (insert_descend key c.root).1
                (split_node m ba.junk key (.leaf ka key value) n) })) = some (r, c') →
        leaf_held c' = leaf_held c + sys_leaf c (.insert key value update ba) := by
      intro n hn hd h
      rcases han : alloc_node c1 ba.node with ⟨_ | m, c2⟩
      · rw [han] at h
        simp only [Option.some.injEq, Prod.mk.injEq] at h
        rw [← h.2]; exact back
      · rw [han] at h
        simp only [Option.some.injEq, Prod.mk.injEq] at h
        obtain ⟨f1, f2, f3, f4, f5, f6⟩ := alloc_node_some han
        have hwn : WF n := hn ▸ hL
        rw [← h.2]
        have h1 := hst (split_node m ba.junk key (.leaf ka key value) n)
        have h2 := split_node_leaf_num m ba.junk (.leaf ka key value) hk hwn hd
        rw [hn] at h1
        rw [hlf] at h2
        simp only [leaf_held, f2, e2, f5]
        omega
    rcases hn : (insert_descend key c.root).2 with _ | ⟨a, k', v'⟩ | ⟨a, ch, p, s⟩
    · rw [hn] at h
      simp only [Option.some.injEq, Prod.mk.injEq] at h
      rw [← h.2]
      have h1 := hst (.leaf ka key value)
      rw [hn, hz, hlf] at h1
      simp only [leaf_held, e2]
      omega
    · rw [hn] at h
      by_cases hx : node_path (.leaf a k' v') ^^^ key = 0
      · simp only [hx, if_true] at h
        by_cases hu : update ≠ 0
        · simp only [hu, if_true, ne_eq, not_false_eq_true, Option.some.injEq,
            Prod.mk.injEq] at h
          rw [← h.2]
          have h1 := hst (.leaf a k' value)
          rw [hn, hlf, hlf] at h1
          have := back
          simp only [leaf_held, free_leaf] at this ⊢
          rw [e1] at this
          omega
        · simp only [hu, if_false, Option.some.injEq, Prod.mk.injEq] at h
          rw [← h.2]; exact back
      · simp only [hx, if_false] at h
        exact split _ hn hx h
    · rw [hn] at h
      by_cases hx : node_path (.inner a ch p s) ^^^ key = 0
      · simp only [hx, if_true] at h
        cases h
      · simp only [hx, if_false] at h
        exact split _ hn hx h

theorem step_held {c c' : critnib} {op : Op} (hok : op.ok) (hw : WF c.root)
    (h : step c op = some c') : leaf_held c' = leaf_held c + sys_leaf c op := by
  cases op with
  | insert key value update ba =>
    simp only [step, Option.map_eq_some', Prod.exists, exists_eq_right] at h
    obtain ⟨r, h⟩ := h
    exact critnib_insert_held hw hok h
  | remove key =>
    simp only [step, Option.map_eq_some', Prod.exists, exists_eq_right] at h
    obtain ⟨v, h⟩ := h
    rw [critnib_remove_held h]
    simp only [sys_leaf, Nat.add_zero]

/-- Storage is asked of the byte allocator only on an empty free list, when the
map holds at most `M + DELETED_LIFE` leaf objects. -/
theorem sys_leaf_bound {c : critnib} {op : Op} {M : Nat} (hM : (keys c.root).length ≤ M)
    (h : sys_leaf c op = 1) : leaf_held c ≤ M + DELETED_LIFE := by
  cases op with
  | insert key value update ba =>
    simp only [sys_leaf] at h
    split at h
    · next hc =>
      have he : c.deleted_leaf = [] := List.isEmpty_iff.mp hc.1
      have := ring_occ_le c.pending_del_leaves
      unfold leaf_held
      rw [he, leaf_num_eq_keys]
      simp only [DELETED_LIFE, List.length_nil]
      omega
    · cases h
  | remove key => simp [sys_leaf] at h

theorem sys_leaf_le_one (c : critnib) (op : Op) : sys_leaf c op ≤ 1 := by
  cases op with
  | insert key value update ba => simp only [sys_leaf]; split <;> omega
  | remove key => simp [sys_leaf]

theorem sys_leaves_bound (M : Nat) : ∀ (ops : List Op) (c : critnib),
    (∀ op ∈ ops, op.ok) → WF c.root → c.remove_count < WORD → live_le M c ops →
    leaf_held c ≤ M + DELETED_LIFE + 1 →
    sys_leaves c ops + leaf_held c ≤ M + DELETED_LIFE + 1 := by
  intro ops
  induction ops with
  | nil => intro c _ _ _ _ hT; simpa [sys_leaves] using hT
  | cons op ops ih =>
    intro c hok hw hrc hlive hT
    rcases hs : step c op with _ | c1
    · simpa [sys_leaves, hs] using hT
    · have hop := hok op (List.mem_cons_self _ _)
      obtain ⟨w1, w2⟩ := step_preserves hop hw hrc hs
      have hheld := step_held hop hw hs
      have hl0 : (keys c.root).length ≤ M := by
        apply hlive
        simp [states]
      have hT1 : leaf_held c1 ≤ M + DELETED_LIFE + 1 := by
        rcases Nat.eq_zero_or_pos (sys_leaf c op) with h0 | hpos
        · omega
        · have h1 : sys_leaf c op = 1 := by have := sys_leaf_le_one c op; omega
          have := sys_leaf_bound hl0 h1
          omega
      have hl1 : live_le M c1 ops := by
        intro s hmem
        apply hlive
        simp only [states, hs, List.mem_cons]
        exact Or.inr hmem

      have := ih c1 (fun o ho => hok o (List.mem_cons_of_mem _ ho)) w1 w2 hl1 hT1
      simp only [sys_leaves, hs]
      omega

theorem sys_leaves_held : ∀ (ops : List Op) (c c' : critnib),
    (∀ op ∈ ops, op.ok) → WF c.root → c.remove_count < WORD → run c ops = some c' →
    sys_leaves c ops + leaf_held c = leaf_held c' := by
  intro ops
  induction ops with
  | nil =>
    intro c c' _ _ _ h
    simp only [run, Option.some.injEq] at h
    simp [sys_leaves, h]
  | cons op ops ih =>
    intro c c' hok hw hrc h
    rcases hs : step c op with _ | c1
    · simp [run, hs] at h
    · have hop := hok op (List.mem_cons_self _ _)
      obtain ⟨w1, w2⟩ := step_preserves hop hw hrc hs
      have hheld := step_held hop hw hs
      have h' : run c1 ops = some c' := by simpa [run, hs] using h
      have := ih c1 c' (fun o ho => hok o (List.mem_cons_of_mem _ ho)) w1 w2 h'
      simp only [sys_leaves, hs]
      omega

/-- C23: `alloc_leaf` takes the head of the leaf free list whenever the list is
not empty, whatever the byte allocator would answer.  Over any sequence of
`critnib_insert` and `critnib_remove` calls on a fresh map in which at most `M`
keys are stored at any time, the number of leaf objects obtained from the byte
allocator is at most `M + DELETED_LIFE + 1`, whatever the length of the
sequence; it is the number of leaf objects the map holds in the end. -/
theorem C23_leaf_allocations_bounded (M : Nat) (ops : List Op) (hok : ∀ op ∈ ops, op.ok)
    (hlive : live_le M critnib_new ops) :
    (∀ (c : critnib) (sys sys' : Option Nat), c.deleted_leaf ≠ [] →
      alloc_leaf c sys = alloc_leaf c sys' ∧
      (alloc_leaf c sys).1 = c.deleted_leaf.head?) ∧
    sys_leaves critnib_new ops ≤ M + DELETED_LIFE + 1 ∧
    ∀ c, run critnib_new ops = some c → sys_leaves critnib_new ops = leaf_held c := by
  refine ⟨fun c sys sys' hne => ?_, ?_, ?_⟩
  · unfold alloc_leaf
    rcases hl : c.deleted_leaf with _ | ⟨k, rest⟩
    · exact absurd hl hne
    · simp
  · have h0 : leaf_held critnib_new = 0 := by
      simp [leaf_held, critnib_new, leaf_num, ring_occ]
    have hw0 : WF critnib_new.root := by simp [critnib_new, WF]
    have hrc0 : critnib_new.remove_count < WORD := by decide
    have := sys_leaves_bound M ops critnib_new hok hw0 hrc0 hlive (by rw [h0]; omega)
    omega
  · intro c hrun
    have h0 : leaf_held critnib_new = 0 := by
      simp [leaf_held, critnib_new, leaf_num, ring_occ]
    have := sys_leaves_held ops critnib_new c hok (by simp [critnib_new, WF]) (by decide) hrun
    omega

theorem C23_leaf_allocations_bounded_witness :
    (∀ (c : critnib) (sys sys' : Option Nat), c.deleted_leaf ≠ [] →
      alloc_leaf c sys = alloc_leaf c sys' ∧
      (alloc_leaf c sys).1 = c.deleted_leaf.head?) ∧
    sys_leaves critnib_new (demo_ops ++ [Op.remove 10, Op.insert 30 67 0 ba_none]) ≤
      2 + DELETED_LIFE + 1 ∧
    ∀ c, run critnib_new (demo_ops ++ [Op.remove 10, Op.insert 30 67 0 ba_none]) = some c →
      sys_leaves critnib_new (demo_ops ++ [Op.remove 10, Op.insert 30 67 0 ba_none]) =
        leaf_held c :=
  C23_leaf_allocations_bounded 2 (demo_ops ++ [Op.remove 10, Op.insert 30 67 0 ba_none])
    (by
      intro op h
      simp [demo_ops] at h
      rcases h with h | h | h | h <;> rw [h] <;> simp [Op.ok])
    (by unfold live_le; decide)

/-- The example of C23: two leaf objects are obtained for the inserts of 10 and
20; after the remove of 10 the insert of 30 finds the free list empty (the leaf
of 10 is in the ring) and the byte allocator out of memory. -/
theorem demo_sys_leaves :
    sys_leaves critnib_new (demo_ops ++ [Op.remove 10, Op.insert 30 67 0 ba_none]) = 2 := by
  decide

/-! ## The grace period -/

/-- The `critnib_remove` of a stored key puts the storage of the key's leaf into
the ring slot of the call. -/
theorem critnib_remove_retires {c c' : critnib} {key a v v' : Nat}
    (hl : get_descend key c.root = .leaf a key v)
    (h : critnib_remove c key = some (v', c')) :
    c'.pending_del_leaves (ring_slot c'.remove_count) = some a := by
  obtain ⟨root, dn, dl, pn, pl, rc⟩ := c
  have hrc : ∀ c'' : critnib, c''.remove_count = utils_atomic_increment_u64 rc →
      ring_slot c''.remove_count = ring_slot (utils_atomic_increment_u64 rc) := by
    intro c'' e; rw [e]
  obtain ⟨_, b2, _, _, _, _⟩ := remove_begin_fields ⟨root, dn, dl, pn, pl, rc⟩
  rcases root with _ | ⟨ra, rk, rv⟩ | ⟨ra, rch, rp, rs⟩
  · simp [get_descend] at hl
  · simp only [get_descend, critnib_node.leaf.injEq] at hl
    rw [critnib_remove_leaf, if_pos hl.2.1] at h
    simp only [Option.some.injEq, Prod.mk.injEq] at h
    rw [← h.2, hrc _ b2]
    simp only [Function.update_same, hl.1]
  · obtain ⟨na, nch, np, ns, hn1, hn2⟩ := remove_descend_n key (.inner ra rch rp rs) rfl
    have hkn := remove_descend_kn key (.inner ra rch rp rs) rfl
    have hl' : get_descend key (.inner ra rch rp rs) = .leaf a key v := hl
    have hpair : (remove_descend key (.inner ra rch rp rs)).2 =
        (.inner na nch np ns, .leaf a key v) := by
      rw [← hn1, ← hl', ← hkn]
    rw [critnib_remove_inner, hpair] at h
    simp only [ne_eq, not_true_eq_false, if_false] at h
    rcases hs : remove_scan (Function.update nch (slice_index key ns) .null)
      (List.finRange 16) none with _ | _ | o
    · rw [hs] at h
      simp only [Option.some.injEq, Prod.mk.injEq] at h
      rw [← h.2, hrc _ b2]
      simp only [Function.update_same]
    · rw [hs] at h
      cases h
    · rw [hs] at h
      simp only [Option.some.injEq, Prod.mk.injEq] at h
      rw [← h.2, hrc _ b2]
      simp only [Function.update_same]

/-- The state after a `critnib_remove` in a state reached with fresh storage is
well formed, its counter is a word, and it holds all storage once. -/
theorem remove_keeps_distinct {c c' : critnib} {key v : Nat} (hr : FreshReachable c)
    (h : critnib_remove c key = some (v, c')) :
    WF c'.root ∧ c'.remove_count < WORD ∧ Distinct c' := by
  obtain ⟨hw, hrc, hd⟩ := freshReachable_distinct hr
  refine ⟨?_, ?_, ?_⟩
  · rcases critnib_remove_wf key hw with ⟨v1, c1, _, e, _, w, _⟩ | ⟨_, c1, e, w, _⟩
    · rw [e] at h; cases h; exact w
    · rw [e] at h; cases h; rw [w]; exact hw
  · by_cases hn : c.root = .null
    · rw [critnib_remove_null key hn] at h
      simp only [Option.some.injEq, Prod.mk.injEq] at h
      rw [← h.2]; exact hrc
    · rw [(critnib_remove_effect hn h).1]
      exact Nat.mod_lt _ (by decide)
  · intro x
    obtain ⟨o1, o2⟩ := critnib_remove_owned h x
    rw [o1, o2]; exact hd x

/-- Removes of word keys from a well-formed state run to the end, and they are a
run with fresh storage, as a remove asks for none. -/
theorem freshRun_removes : ∀ (ks : List Nat) {c : critnib}, (∀ k ∈ ks, k < 2 ^ 64) →
    WF c.root → c.remove_count < WORD →
    ∃ c2, FreshRun c (ks.map Op.remove) c2 ∧ run c (ks.map Op.remove) = some c2 := by
  intro ks
  induction ks with
  | nil => intro c _ _ _; exact ⟨c, rfl, rfl⟩
  | cons k ks ih =>
    intro c hks hw hrc
    obtain ⟨v, c1, e⟩ := critnib_remove_returns hw k
    have hs : step c (.remove k) = some c1 := by simp [step, e]
    have hok : (Op.remove k).ok := hks k (List.mem_cons_self _ _)
    obtain ⟨w1, w2⟩ := step_preserves hok hw hrc hs
    obtain ⟨c2, f1, f2⟩ := ih (fun k' hk' => hks k' (List.mem_cons_of_mem _ hk')) w1 w2
    refine ⟨c2, ⟨hok, trivial, c1, hs, f1⟩, ?_⟩
    simp only [List.map_cons, run, hs, Option.bind_some]
    exact f2

theorem raise_count_le : ∀ (ops : List Op) (c : critnib), raise_count c ops ≤ ops.length := by
  intro ops
  induction ops with
  | nil => intro c; simp [raise_count]
  | cons op ops ih =>
    intro c
    simp only [raise_count, List.length_cons]
    rcases step c op with _ | c1
    · simp
    · have := ih c1
      simp only
      split <;> omega

/-- C21, as the code has it: let the first remove, in a state reached with fresh
storage, take the leaf of a stored key, at address `a`, out of the tree.  After
any further removes, as long as there are at most `DELETED_LIFE` removes in all,
`a` is in the ring slot of the first remove and not on the leaf free list, which
`alloc_leaf` reads.  When `DELETED_LIFE - 1` further removes have raised the
counter each (the map was not empty at any of them), the next remove on a map
that is not empty, the `(DELETED_LIFE + 1)`-th in all, pushes `a` onto the leaf
free list. -/
theorem C21_grace_period {c0 : critnib} {key a v : Nat} (hr : FreshReachable c0)
    (hl : get_descend key c0.root = .leaf a key v) :
    ∃ c1, critnib_remove c0 key = some (v, c1) ∧
      ∀ ks : List Nat, (∀ k ∈ ks, k < 2 ^ 64) →
        ∃ c2, run c1 (ks.map Op.remove) = some c2 ∧
          (1 + ks.length ≤ DELETED_LIFE →
            c2.pending_del_leaves (ring_slot c1.remove_count) = some a ∧ a ∉ c2.deleted_leaf ∧
            (∀ sys, (∀ y, sys = some y → leaf_owned y c2 = 0) →
              (alloc_leaf c2 sys).1 ≠ some a)) ∧
          (raise_count c1 (ks.map Op.remove) = DELETED_LIFE - 1 → c2.root ≠ .null →
            ∀ k, ∃ v' c3, critnib_remove c2 k = some (v', c3) ∧
              c3.deleted_leaf = a :: c2.deleted_leaf ∧
              (alloc_leaf c3 none).1 = some a) := by
  obtain ⟨hw0, _, _⟩ := freshReachable_distinct hr
  obtain ⟨c1, h, _, _⟩ := critnib_remove_present hw0 hl
  refine ⟨c1, h, fun ks hks => ?_⟩
  obtain ⟨hw1, hrc1, hd1⟩ := remove_keeps_distinct hr h
  have hret := critnib_remove_retires hl h
  obtain ⟨c2, hfr, hrun⟩ := freshRun_removes ks hks hw1 hrc1
  have hlen := raise_count_le (ks.map Op.remove) c1
  rw [List.length_map] at hlen
  refine ⟨c2, hrun, fun h16 => ?_, fun h15 hnn k => ?_⟩
  · obtain ⟨g1, _, _, _, g5⟩ := ring_slot_kept c1.remove_count (ks.map Op.remove) 0 hfr hw1 hd1
      (by rw [Nat.add_zero, Nat.mod_eq_of_lt hrc1])
      (by simp only [DELETED_LIFE] at h16; omega)
    have hs := g1.trans hret
    obtain ⟨r1, r2, r3⟩ := (ring_not_free g5).1 _ a hs
    exact ⟨hs, r1, r3⟩
  · obtain ⟨g1, _, g3, g4, _⟩ := ring_slot_kept c1.remove_count (ks.map Op.remove) 0 hfr hw1 hd1
      (by rw [Nat.add_zero, Nat.mod_eq_of_lt hrc1])
      (by simp only [DELETED_LIFE] at h15; omega)
    obtain ⟨v', c3, e⟩ := critnib_remove_returns g4 k
    obtain ⟨_, k2, _⟩ := critnib_remove_effect hnn e
    have hs2 : ring_slot (utils_atomic_increment_u64 c2.remove_count) =
        ring_slot c1.remove_count := by
      rw [g3, Nat.add_zero, h15]
      exact (ring_slot_next c1.remove_count 15 (le_refl _)).mpr rfl
    have hdl : c3.deleted_leaf = a :: c2.deleted_leaf := by
      rw [k2, hs2, g1, hret]; rfl
    refine ⟨v', c3, e, hdl, ?_⟩
    simp [alloc_leaf, hdl]

theorem C21_grace_period_witness :
    ∃ c1, critnib_remove demo_state 10 = some (65, c1) ∧
      ∀ ks : List Nat, (∀ k ∈ ks, k < 2 ^ 64) →
        ∃ c2, run c1 (ks.map Op.remove) = some c2 ∧
          (1 + ks.length ≤ DELETED_LIFE →
            c2.pending_del_leaves (ring_slot c1.remove_count) = some 100 ∧
            100 ∉ c2.deleted_leaf ∧
            (∀ sys, (∀ y, sys = some y → leaf_owned y c2 = 0) →
              (alloc_leaf c2 sys).1 ≠ some 100)) ∧
          (raise_count c1 (ks.map Op.remove) = DELETED_LIFE - 1 → c2.root ≠ .null →
            ∀ k, ∃ v' c3, critnib_remove c2 k = some (v', c3) ∧
              c3.deleted_leaf = 100 :: c2.deleted_leaf ∧
              (alloc_leaf c3 none).1 = some 100) :=
  C21_grace_period freshReachable_demo_state
    (show get_descend 10 demo_state.root = .leaf 100 10 65 from rfl)

/-- C21 as stated fails.  From `demo_state` (keys 10 and 20) remove the key 10,
whose leaf is at 100, and then the absent key 15 again and again; each remove
finds the map non-empty and raises the counter.  After `DELETED_LIFE` removes in
all the leaf free list is still empty and 100 is still in ring slot 0; it is the
next remove that pushes 100 onto the free list. -/
theorem C21_counterexample :
    FreshReachable demo_state ∧ get_descend 10 demo_state.root = .leaf 100 10 65 ∧
    (run demo_state (grace_ops (DELETED_LIFE - 2))).map
      (fun c => (c.remove_count, c.deleted_leaf, c.pending_del_leaves 0)) =
        some (15, [], some 100) ∧
    (run demo_state (grace_ops (DELETED_LIFE - 1))).map
      (fun c => (c.remove_count, c.deleted_leaf, c.pending_del_leaves 0)) =
        some (16, [], some 100) ∧
    (run demo_state (grace_ops DELETED_LIFE)).map
      (fun c => (c.remove_count, c.deleted_leaf, c.pending_del_leaves 0)) =
        some (17, [100], none) :=
  ⟨freshReachable_demo_state, rfl, by decide, by decide, by decide⟩

/-! ## The stores of a split -/

theorem split_foldl_parent (l : List split_store) (h : ∀ s ∈ l, s.is_parent = false) :
    ∀ st : split_mem, (l.foldl split_store.apply st).parent = st.parent := by
  induction l with
  | nil => intro st; rfl
  | cons s l ih =>
    intro st
    rw [List.foldl_cons, ih (fun s' hs' => h s' (List.mem_cons_of_mem _ hs'))]
    have := h s (List.mem_cons_self _ _)
    cases s <;> simp [split_store.apply, split_store.is_parent] at this ⊢

theorem split_foldl_clear (l : List (Fin 16)) :
    ∀ st : split_mem, (l.map (fun i => split_store.child i .null)).foldl split_store.apply st =
      { st with child := clear_children st.child l } := by
  induction l with
  | nil => intro st; rfl
  | cons i l ih =>
    intro st
    rw [List.map_cons, List.foldl_cons, ih]
    rfl

/-- The memory after all stores of a split holds the fields of `split_node`. -/
theorem split_stores_final (m : Nat) (key : Nat) (kn n : critnib_node) (st : split_mem) :
    (if ((split_stores key kn n).foldl split_store.apply st).parent then
      critnib_node.inner m ((split_stores key kn n).foldl split_store.apply st).child
        ((split_stores key kn n).foldl split_store.apply st).path
        ((split_stores key kn n).foldl split_store.apply st).shift
    else n) = split_node m st.child key kn n := by
  simp only [split_stores, List.foldl_append, split_foldl_clear, List.foldl_cons, List.foldl_nil,
    split_store.apply, if_true, split_node]

theorem split_stores_shape (key : Nat) (kn n : critnib_node) :
    (split_stores key kn n).length = 21 ∧
    (split_stores key kn n).getLast? = some .parent ∧
    ∀ s ∈ (split_stores key kn n).take 20, s.is_parent = false := by
  refine ⟨by simp [split_stores], by simp [split_stores], ?_⟩
  intro s hs
  have e : (split_stores key kn n).take 20 =
      (List.finRange 16).map (fun i => split_store.child i .null) ++
        [.child (slice_index key (utils_msb64 (node_path n ^^^ key) &&& 0xFC)) kn,
          .child (slice_index (node_path n) (utils_msb64 (node_path n ^^^ key) &&& 0xFC)) n,
          .shift (utils_msb64 (node_path n ^^^ key) &&& 0xFC),
          .path (key &&& path_mask (utils_msb64 (node_path n ^^^ key) &&& 0xFC))] := by
    simp only [split_stores]
    rw [List.take_append_eq_append_take]
    simp
  rw [e] at hs
  simp only [List.mem_append, List.mem_map, List.mem_cons, List.mem_singleton,
    List.not_mem_nil, or_false] at hs
  rcases hs with ⟨i, _, rfl⟩ | rfl | rfl | rfl | rfl <;> rfl

/-- Storage that `alloc_leaf` or `alloc_node` returns, from the pool or from a
byte allocator that answers with storage the map does not hold, is not in the
tree. -/
theorem alloc_not_in_tree {c : critnib} (hd : Distinct c) :
    (∀ (sys : Option Nat) (ka : Nat) (l1 : List Nat), (∀ y, sys = some y → leaf_owned y c = 0) →
      (c.deleted_leaf = ka :: l1 ∨ (c.deleted_leaf = [] ∧ sys = some ka ∧ l1 = [])) →
      addr_count true ka c.root = 0) ∧
    (∀ (sys : Option Nat) (m : Nat) (l1 : List Nat), (∀ y, sys = some y → node_owned y c = 0) →
      (c.deleted_node = m :: l1 ∨ (c.deleted_node = [] ∧ sys = some m ∧ l1 = [])) →
      addr_count false m c.root = 0) := by
  constructor
  · intro sys ka l1 hs e6
    rcases e6 with e | ⟨_, es, _⟩
    · have h1 := (hd ka).1
      unfold leaf_owned at h1
      rw [e, List.count_cons_self] at h1
      omega
    · have := hs ka es
      unfold leaf_owned at this
      omega
  · intro sys m l1 hs e6
    rcases e6 with e | ⟨_, es, _⟩
    · have h1 := (hd m).2
      unfold node_owned at h1
      rw [e, List.count_cons_self] at h1
      omega
    · have := hs m es
      unfold node_owned at this
      omega

/-- C26: in the split case of `critnib_insert` (the descent stops at a non-null
pointer `n` whose path differs from the key, both allocations succeed), in a
state reached with fresh storage, the call returns 0 and makes 21 stores in
program order: sixteen clear the child slots of the node storage `m`, two put
the new leaf and `n` under their nibs, two write the shift and the path, and the
last one, no earlier one, writes `m` to the parent slot.  The storage `m` and the
storage of the new leaf are not in the tree before.  After each of the first
twenty stores the tree reachable from the root is the tree before the call;
after the last store it is the tree after the call. -/
theorem C26_split_store_order {c c1 c2 : critnib} {key ka m : Nat} (value update : Nat)
    {ba : base_alloc} (hr : FreshReachable c)
    (hf : (Op.insert key value update ba).fresh c)
    (hal : alloc_leaf c ba.leaf = (some ka, c1))
    (hn : (insert_descend key c.root).2 ≠ .null)
    (hd : node_path (insert_descend key c.root).2 ^^^ key ≠ 0)
    (han : alloc_node c1 ba.node = (some m, c2))
    (st0 : split_mem) (hj : st0.child = ba.junk) (hp : st0.parent = false) :
    ∃ c', critnib_insert c key value update ba = some (0, c') ∧
      addr_count false m c.root = 0 ∧ addr_count true ka c.root = 0 ∧
      (split_stores key (.leaf ka key value) (insert_descend key c.root).2).length = 21 ∧
      (split_stores key (.leaf ka key value) (insert_descend key c.root).2).getLast? =
        some .parent ∧
      (∀ s ∈ (split_stores key (.leaf ka key value) (insert_descend key c.root).2).take 20,
        s.is_parent = false) ∧
      (∀ k, k ≤ 20 →
        split_tree c.root (insert_descend key c.root).1 (insert_descend key c.root).2 m
          (((split_stores key (.leaf ka key value) (insert_descend key c.root).2).take k).foldl
            split_store.apply st0) = c.root) ∧
      split_tree c.root (insert_descend key c.root).1 (insert_descend key c.root).2 m
        ((split_stores key (.leaf ka key value) (insert_descend key c.root).2).foldl
          split_store.apply st0) = c'.root := by
  obtain ⟨_, _, hdist⟩ := freshReachable_distinct hr
  obtain ⟨a1, a2⟩ := alloc_not_in_tree hdist
  obtain ⟨e1, _, _, _, e5, _⟩ := alloc_leaf_some hal
  have hins := critnib_insert_nonnull key value update hal
  obtain ⟨s1, s2, s3⟩ := split_stores_shape key (.leaf ka key value) (insert_descend key c.root).2
  -- the result of the call
  have hres : critnib_insert c key value update ba =
      some (0, { c2 with
        root := store c.root (insert_descend key c.root).1
          (split_node m ba.junk key (.leaf ka key value) (insert_descend key c.root).2) }) := by
    rw [hins]
    generalize (insert_descend key c.root).2 = n at hn hd
    rcases n with _ | ⟨a, k', v'⟩ | ⟨a, ch, p, s⟩
    · exact absurd rfl hn
    · simp only [hd, if_false, han]
    · simp only [hd, if_false, han]
  have hm : addr_count false m c.root = 0 := by
    have f6 := (alloc_node_some han).2.2.2.2.2
    rw [e5] at f6
    exact a2 ba.node m _ hf.2 f6
  have hka : addr_count true ka c.root = 0 :=
    a1 ba.leaf ka _ hf.1 (alloc_leaf_some hal).2.2.2.2.2
  refine ⟨_, hres, hm, hka, s1, s2, s3, fun k hk20 => ?_, ?_⟩
  · have hno : ∀ s ∈ (split_stores key (.leaf ka key value) (insert_descend key c.root).2).take k,
        s.is_parent = false := by
      intro s hs
      apply s3
      exact (List.take_sublist_take_left _ hk20).subset hs
    unfold split_tree
    rw [split_foldl_parent _ hno, hp]
    exact rebuild_self (fun x => x) key c.root rfl
  · unfold split_tree
    rw [split_stores_final, hj]

theorem C26_split_store_order_witness :
    ∃ c', critnib_insert demo_state 5 7 0 ba2 = some (0, c') ∧
      addr_count false 600 demo_state.root = 0 ∧ addr_count true 500 demo_state.root = 0 ∧
      (split_stores 5 (.leaf 500 5 7) (insert_descend 5 demo_state.root).2).length = 21 ∧
      (split_stores 5 (.leaf 500 5 7) (insert_descend 5 demo_state.root).2).getLast? =
        some .parent ∧
      (∀ s ∈ (split_stores 5 (.leaf 500 5 7) (insert_descend 5 demo_state.root).2).take 20,
        s.is_parent = false) ∧
      (∀ k, k ≤ 20 →
        split_tree demo_state.root (insert_descend 5 demo_state.root).1
          (insert_descend 5 demo_state.root).2 600
          (((split_stores 5 (.leaf 500 5 7) (insert_descend 5 demo_state.root).2).take k).foldl
            split_store.apply ⟨ba2.junk, 0, 0, false⟩) = demo_state.root) ∧
      split_tree demo_state.root (insert_descend 5 demo_state.root).1
        (insert_descend 5 demo_state.root).2 600
        ((split_stores 5 (.leaf 500 5 7) (insert_descend 5 demo_state.root).2).foldl
          split_store.apply ⟨ba2.junk, 0, 0, false⟩) = c'.root :=
  C26_split_store_order 7 0 freshReachable_demo_state
    (show (Op.insert 5 7 0 ba2).fresh demo_state from
      ⟨by intro x hx; cases hx; decide, by intro x hx; cases hx; decide⟩)
    (show alloc_leaf demo_state ba2.leaf = (some 500, demo_state) from rfl)
    (by rw [show (insert_descend 5 demo_state.root).2 = .leaf 100 10 65 from rfl]; simp)
    (by decide)
    (show alloc_node demo_state ba2.node = (some 600, demo_state) from rfl)
    ⟨ba2.junk, 0, 0, false⟩ rfl rfl

/-! ## A reader beside the writer -/

theorem reachable_conc_s0 : Reachable conc_s0 :=
  ⟨conc_ops, by
    intro op h
    simp [conc_ops] at h
    rcases h with h | h <;> rw [h] <;> simp [Op.ok], rfl⟩

/-- C27: a `critnib_find_le` beside one writer can return what was the answer at
no instant of the call.  The map holds the keys 0 and 3 (values 70 and 73) in one
node.  The reader's `critnib_find_le(5)` loads the counter, the root, the shift
and the path of the node and `child[5]`, which is null.  The writer then
completes `critnib_insert(5, 75)` and `critnib_remove(3)`.  The reader goes on
with its scan to the left, loads `child[4]` down to `child[0]`, finds the leaf of
0 and returns 70; one remove has passed, so the retry test does not fire.  The
answer for 5 was 73 at the start, 75 after the insert and 75 after the remove,
never 70.  Without a writer between its loads the reader returns these answers. -/
theorem C27_find_le_beside_writer :
    (Reachable conc_s0 ∧
      step conc_s0 (Op.insert 5 75 0 ⟨some 3, some 103, fun _ => .null⟩) = some conc_s1 ∧
      step conc_s1 (Op.remove 3) = some conc_s2 ∧
      (∀ t, t ≤ 5 → conc_sched t = conc_s0) ∧ (∀ t, 5 < t → conc_sched t = conc_s2)) ∧
    critnib_find_le_conc conc_sched 5 1 0 = some (70, 13) ∧
    (critnib_find_le conc_s0 5 1 = some 73 ∧ critnib_find_le conc_s1 5 1 = some 75 ∧
      critnib_find_le conc_s2 5 1 = some 75) ∧
    (critnib_find_le_conc (fun _ => conc_s0) 5 1 0 = some (73, 10) ∧
      critnib_find_le_conc (fun _ => conc_s1) 5 1 0 = some (75, 9) ∧
      critnib_find_le_conc (fun _ => conc_s2) 5 1 0 = some (75, 9)) := by
  refine ⟨⟨reachable_conc_s0, rfl, rfl, fun t ht => ?_, fun t ht => ?_⟩, by decide,
    ⟨by decide, by decide, by decide⟩, ⟨by decide, by decide, by decide⟩⟩
  · simp [conc_sched, ht]
  · have : ¬ t ≤ 5 := by omega
    simp [conc_sched, this]

/-! ## The containment tests, the path of a node, the end of the insert descent -/

/-- C32: for every 64-bit key, every shift (so for the shifts 0, 4, …, 60) and
every 64-bit path with no bit below `shift + 4`, the test of `critnib_insert`,
`(key & path_mask(shift)) == path`, holds exactly when the test of `find_le` and
`find_ge`, `((key ^ path) >> shift) & ~NIB` being zero, holds; both say that the
key and the path have the same bits from `shift + 4` upwards. -/
theorem C32_containment_tests_agree {key path : Nat} (shift : Nat) (hk : key < 2 ^ 64)
    (hp : path < 2 ^ 64) (hz : path % 2 ^ (shift + 4) = 0) :
    (key &&& path_mask shift = path ↔ ((key ^^^ path) >>> shift) &&& wnot NIB = 0) ∧
    (key &&& path_mask shift = path ↔ key / 2 ^ (shift + 4) = path / 2 ^ (shift + 4)) ∧
    wnot NIB = wnot 0xF :=
  ⟨(contains_iff hk hz).trans (contain_test hk hp shift).symm, contains_iff hk hz, rfl⟩

theorem C32_containment_tests_agree_witness :
    ((0x1234 : Nat) &&& path_mask 8 = 0x1000 ↔ ((0x1234 ^^^ 0x1000) >>> 8) &&& wnot NIB = 0) ∧
    ((0x1234 : Nat) &&& path_mask 8 = 0x1000 ↔ 0x1234 / 2 ^ (8 + 4) = 0x1000 / 2 ^ (8 + 4)) ∧
    wnot NIB = wnot 0xF :=
  C32_containment_tests_agree 8 (by norm_num) (by norm_num) (by norm_num)

/-- C33: in every reachable state, every inner node reachable from the root has
a shift that is a multiple of 4 and at most 60, and a 64-bit path with
`path & path_mask(shift) == path`: no bit of the path below position
`shift + 4` is set. -/
theorem C33_path_masked {c : critnib} (hr : Reachable c) {a : Nat}
    {ch : Fin 16 → critnib_node} {p s : Nat} (hn : InTree (.inner a ch p s) c.root) :
    s % 4 = 0 ∧ s ≤ 60 ∧ p < 2 ^ 64 ∧ p &&& path_mask s = p ∧
    p % 2 ^ (s + 4) = 0 ∧ ∀ j, j < s + 4 → p.testBit j = false := by
  have hw := inTree_wf (reachable_wf hr).1 hn
  obtain ⟨h1, h2, h3, h4, _⟩ := hw
  have e : p / 2 ^ (s + 4) * 2 ^ (s + 4) = p := by
    have := Nat.div_add_mod p (2 ^ (s + 4))
    rw [h4, Nat.add_zero, Nat.mul_comm] at this
    exact this
  refine ⟨h1, by omega, h3, ?_, h4, fun j hj => ?_⟩
  · rw [and_path_mask h3 s, e]
  · rw [← e, testBit_div_mul_pow]
    have : ¬ s + 4 ≤ j := by omega
    simp [this]

theorem C33_path_masked_witness :
    4 % 4 = 0 ∧ 4 ≤ 60 ∧ 0 < 2 ^ 64 ∧ 0 &&& path_mask 4 = 0 ∧
    0 % 2 ^ (4 + 4) = 0 ∧ ∀ j, j < 4 + 4 → (0 : Nat).testBit j = false :=
  C33_path_masked reachable_demo_state
    (show InTree (.inner 400 demo_state.root.children 0 4) demo_state.root from Or.inl rfl)

/-- C35: for every inner node reachable from the root of a reachable state,
`find_predecessor` returns a leaf of the node's subtree whose key is the largest
of the subtree, and `find_successor` a leaf whose key is the smallest; neither
returns null. -/
theorem C35_extreme_leaves {c : critnib} (hr : Reachable c) {a : Nat}
    {ch : Fin 16 → critnib_node} {p s : Nat} (hn : InTree (.inner a ch p s) c.root) :
    (∃ la k v, find_predecessor (.inner a ch p s) = .leaf la k v ∧
      (k, v) ∈ leaves (.inner a ch p s) ∧
      ∀ k' v', (k', v') ∈ leaves (.inner a ch p s) → k' ≤ k) ∧
    (∃ la k v, find_successor (.inner a ch p s) = .leaf la k v ∧
      (k, v) ∈ leaves (.inner a ch p s) ∧
      ∀ k' v', (k', v') ∈ leaves (.inner a ch p s) → k ≤ k') ∧
    find_predecessor (.inner a ch p s) ≠ .null ∧ find_successor (.inner a ch p s) ≠ .null := by
  have hw := inTree_wf (reachable_wf hr).1 hn
  have h1 := find_predecessor_spec hw (by simp)
  have h2 := find_successor_spec hw (by simp)
  refine ⟨h1, h2, ?_, ?_⟩
  · obtain ⟨la, k, v, e, _⟩ := h1
    rw [e]; simp
  · obtain ⟨la, k, v, e, _⟩ := h2
    rw [e]; simp

theorem C35_extreme_leaves_witness :
    (∃ la k v, find_predecessor (.inner 400 demo_state.root.children 0 4) = .leaf la k v ∧
      (k, v) ∈ leaves (.inner 400 demo_state.root.children 0 4) ∧
      ∀ k' v', (k', v') ∈ leaves (.inner 400 demo_state.root.children 0 4) → k' ≤ k) ∧
    (∃ la k v, find_successor (.inner 400 demo_state.root.children 0 4) = .leaf la k v ∧
      (k, v) ∈ leaves (.inner 400 demo_state.root.children 0 4) ∧
      ∀ k' v', (k', v') ∈ leaves (.inner 400 demo_state.root.children 0 4) → k ≤ k') ∧
    find_predecessor (.inner 400 demo_state.root.children 0 4) ≠ .null ∧
    find_successor (.inner 400 demo_state.root.children 0 4) ≠ .null :=
  C35_extreme_leaves reachable_demo_state (Or.inl rfl)

/-- The example of the extreme leaves: in `demo_state` (keys 10 and 20) the
rightmost leaf of the root is that of 20 and the leftmost that of 10. -/
theorem demo_extreme_leaves :
    find_predecessor demo_state.root = .leaf 300 20 66 ∧
    find_successor demo_state.root = .leaf 100 10 65 := ⟨rfl, rfl⟩

/-- C37: in every reachable state and for every 64-bit key, when the descent of
`critnib_insert` stops at a non-null pointer `n` whose path xor the key is 0,
`n` is a leaf holding the key, not an inner node; so `ASSERT(is_leaf(n))` holds,
and `critnib_insert` does not abort, whatever its arguments and the answers of
the byte allocator. -/
theorem C37_insert_lands_leaf {c : critnib} (hr : Reachable c) {key : Nat} (hk : key < 2 ^ 64)
    (hn : (insert_descend key c.root).2 ≠ .null)
    (hd : node_path (insert_descend key c.root).2 ^^^ key = 0) :
    is_leaf (insert_descend key c.root).2 = true ∧
    (∃ a v, (insert_descend key c.root).2 = .leaf a key v) ∧
    ∀ value update ba, ∃ r c', critnib_insert c key value update ba = some (r, c') := by
  have hw := (reachable_wf hr).1
  have hleaf : ∃ a v, (insert_descend key c.root).2 = .leaf a key v := by
    rcases hl : (insert_descend key c.root).2 with _ | ⟨a, k, v⟩ | ⟨a, ch, p, s⟩
    · exact absurd hl hn
    · rw [hl] at hd
      simp only [node_path] at hd
      exact ⟨a, v, by rw [Nat.xor_eq_zero.mp hd]⟩
    · rw [hl] at hd
      simp only [node_path] at hd
      exact absurd (Nat.xor_eq_zero.mp hd) (stop_inner_ne hk hw hl)
  refine ⟨?_, hleaf, fun value update ba => ?_⟩
  · obtain ⟨a, v, e⟩ := hleaf
    rw [e]; rfl
  · rcases critnib_insert_wf value update ba hw hk with
      ⟨_, e⟩ | ⟨_, ⟨_, _, c', e, _⟩ | ⟨_, _, c', e, _⟩ | ⟨_, c', e, _⟩ | ⟨_, _, c', e, _⟩⟩
    exacts [⟨_, _, e⟩, ⟨_, _, e⟩, ⟨_, _, e⟩, ⟨_, _, e⟩, ⟨_, _, e⟩]

theorem C37_insert_lands_leaf_witness :
    is_leaf (insert_descend 10 demo_state.root).2 = true ∧
    (∃ a v, (insert_descend 10 demo_state.root).2 = .leaf a 10 v) ∧
    ∀ value update ba, ∃ r c', critnib_insert demo_state 10 value update ba = some (r, c') :=
  C37_insert_lands_leaf reachable_demo_state (by norm_num)
    (by rw [show (insert_descend 10 demo_state.root).2 = .leaf 100 10 65 from rfl]; simp)
    (by decide)

/-! ## The retry test on two samples of the counter -/

/-- The examples of the retry test: with the first sample 3 it fails for the
second samples 3 and 18 and holds for 19 and 20. -/
theorem retry_examples :
    retry 3 3 = false ∧ retry 3 18 = false ∧ retry 3 19 = true ∧ retry 3 20 = true :=
  ⟨by decide, by decide, by decide, by decide⟩

/-! ## The node published by a split -/

theorem inTree_self (n : critnib_node) : InTree n n := by
  cases n with
  | null => rfl
  | leaf a k v => rfl
  | inner a ch p s => exact Or.inl rfl

/-- What `critnib_insert` stores in the slot at which its descent stops is
reachable from the new root. -/
theorem inTree_store (key : Nat) (X : critnib_node) :
    ∀ t : critnib_node, InTree X (store t (insert_descend key t).1 X) := by
  intro t
  induction t with
  | null => exact inTree_self X
  | leaf a k v => exact inTree_self X
  | inner a ch p s ih =>
    by_cases h : key &&& path_mask s = p
    · simp only [insert_descend, h, if_true, store]
      refine Or.inr ⟨slice_index key s, ?_⟩
      rw [Function.update_same]
      exact ih _
    · simp only [insert_descend, h, if_false, store]
      exact inTree_self X

/-- The states of the split example are reachable. -/
theorem reachable_split_states : Reachable split_state ∧ Reachable recycle_state := by
  constructor
  · refine ⟨split_ops, ?_, rfl⟩
    intro op h
    simp [split_ops] at h
    rcases h with h | h <;> rw [h] <;> simp [Op.ok]
  · refine ⟨recycle_ops, ?_, rfl⟩
    intro op h
    simp [recycle_ops, split_ops] at h
    rcases h with h | h | h | h
    · rw [h]; simp [Op.ok]
    · rw [h]; simp [Op.ok]
    · rw [h]; simp [Op.ok]
    · rw [h]; simp [Op.ok]

/-- C31: in the split case of `critnib_insert` in a reachable state (the descent
stops at a non-null pointer `n` whose path differs from the key; the leaf
storage `ka` and the node storage `m` come from the free lists or from the byte
allocator), whatever the child slots of the storage `m` held before (`ba.junk`:
a free-list link, stale pointers), the call returns 0 and the node it publishes,
reachable from the new root, has exactly two non-null children, the new leaf and
`n`, in two different slots, and 14 null ones.  Inserting 0x100 and 0x200 into a
fresh map, with node storage full of stale pointers, gives a root node with
shift 8 and path 0 whose only children are the two leaves in slots 1 and 2; so
does the insert of 0x200 that takes its node, full of stale pointers, from the
free list. -/
theorem C31_split_node_two_children {c c1 c2 : critnib} {key ka m : Nat} (value update : Nat)
    {ba : base_alloc} (hr : Reachable c) (hk : key < 2 ^ 64)
    (hal : alloc_leaf c ba.leaf = (some ka, c1))
    (hn : (insert_descend key c.root).2 ≠ .null)
    (hd : node_path (insert_descend key c.root).2 ^^^ key ≠ 0)
    (han : alloc_node c1 ba.node = (some m, c2)) :
    (∃ c', critnib_insert c key value update ba = some (0, c') ∧
      c'.root = store c.root (insert_descend key c.root).1
        (split_node m ba.junk key (.leaf ka key value) (insert_descend key c.root).2) ∧
      InTree (split_node m ba.junk key (.leaf ka key value) (insert_descend key c.root).2)
        c'.root) ∧
    (∃ i j, i ≠ j ∧
      (split_node m ba.junk key (.leaf ka key value) (insert_descend key c.root).2).children i =
        .leaf ka key value ∧
      (split_node m ba.junk key (.leaf ka key value) (insert_descend key c.root).2).children j =
        (insert_descend key c.root).2 ∧
      ∀ x, x ≠ i → x ≠ j →
        (split_node m ba.junk key (.leaf ka key value)
          (insert_descend key c.root).2).children x = .null) ∧
    (Finset.univ.filter (fun i : Fin 16 =>
      ((split_node m ba.junk key (.leaf ka key value)
        (insert_descend key c.root).2).children i).isNull = false)).card = 2 ∧
    (Finset.univ.filter (fun i : Fin 16 =>
      ((split_node m ba.junk key (.leaf ka key value)
        (insert_descend key c.root).2).children i).isNull = true)).card = 14 ∧
    (Reachable split_state ∧ (∃ ch, split_state.root = .inner 400 ch 0 8) ∧
      (List.finRange 16).map (fun i => (split_state.root.children i).addr?) =
        [none, some 100, some 300, none, none, none, none, none, none, none, none, none, none,
          none, none, none] ∧
      leaves split_state.root = [(0x100, 1), (0x200, 2)]) ∧
    (Reachable recycle_state ∧ recycle_state.deleted_node = [400] ∧
      (critnib_insert recycle_state 0x200 2 0 ba_none_stale).map
        (fun r => (r.1, node_path r.2.root, r.2.root.addr?, leaves r.2.root)) =
        some (0, 0, some 400, [(0x100, 1), (0x200, 2)]) ∧
      (critnib_insert recycle_state 0x200 2 0 ba_none_stale).map
        (fun r => (List.finRange 16).map (fun i => (r.2.root.children i).addr?)) =
        some [none, some 100, some 300, none, none, none, none, none, none, none, none, none,
          none, none, none, none]) := by
  have hw := insert_descend_snd_WF key (reachable_wf hr).1
  have hp := node_path_lt hw
  obtain ⟨_, _, _, _, _, s6⟩ := split_shift hk hp hd
  generalize hN : split_node m ba.junk key (.leaf ka key value) (insert_descend key c.root).2 = N
  generalize hsh : utils_msb64 (node_path (insert_descend key c.root).2 ^^^ key) &&& 0xFC = sh
    at s6
  have hne : slice_index key sh ≠ slice_index (node_path (insert_descend key c.root).2) sh := by
    intro e
    apply s6
    rw [← slice_index_val, ← slice_index_val, e]
  have hunf : N.children =
      Function.update (Function.update (clear_children ba.junk (List.finRange 16))
        (slice_index key sh) (.leaf ka key value))
        (slice_index (node_path (insert_descend key c.root).2) sh) (insert_descend key c.root).2 := by
    rw [← hN]
    simp only [split_node, hsh, critnib_node.children]
  have c1 : N.children (slice_index key sh) = .leaf ka key value := by
    rw [hunf, Function.update_noteq hne, Function.update_same]
  have c2 : N.children (slice_index (node_path (insert_descend key c.root).2) sh) =
      (insert_descend key c.root).2 := by
    rw [hunf, Function.update_same]
  have c3 : ∀ x, x ≠ slice_index key sh →
      x ≠ slice_index (node_path (insert_descend key c.root).2) sh → N.children x = .null := by
    intro x h1 h2
    rw [hunf, Function.update_noteq h2, Function.update_noteq h1, clear_children_apply]
  have hset : Finset.univ.filter (fun i : Fin 16 => (N.children i).isNull = false) =
      {slice_index key sh, slice_index (node_path (insert_descend key c.root).2) sh} := by
    ext x
    simp only [Finset.mem_filter, Finset.mem_univ, true_and, Finset.mem_insert,
      Finset.mem_singleton]
    constructor
    · intro hx
      by_contra hcon
      push_neg at hcon
      rw [c3 x hcon.1 hcon.2] at hx
      simp [critnib_node.isNull] at hx
    · rintro (rfl | rfl)
      · rw [c1]; rfl
      · rw [c2]; exact isNull_false_iff.mpr hn
  have hcard2 : (Finset.univ.filter (fun i : Fin 16 => (N.children i).isNull = false)).card = 2 := by
    rw [hset]; exact Finset.card_pair hne
  refine ⟨?_, ⟨_, _, hne, c1, c2, c3⟩, hcard2, ?_,
    ⟨reachable_split_states.1, ⟨_, rfl⟩, by decide, by decide⟩,
    reachable_split_states.2, by decide, by decide, by decide⟩
  · have e := critnib_insert_nonnull key value update hal
    have hx : node_path (insert_descend key c.root).2 ^^^ key = 0 ↔ False := ⟨hd, False.elim⟩
    rcases hl : (insert_descend key c.root).2 with _ | ⟨la, lk, lv⟩ | ⟨na, nch, np, ns⟩
    · exact absurd hl hn
    · rw [hl] at e hx hN
      simp only [hx, if_false, han] at e
      rw [hN] at e
      exact ⟨_, e, rfl, inTree_store key N c.root⟩
    · rw [hl] at e hx hN
      simp only [hx, if_false, han] at e
      rw [hN] at e
      exact ⟨_, e, rfl, inTree_store key N c.root⟩
  · have hsum := Finset.filter_card_add_filter_neg_card_eq_card
      (s := (Finset.univ : Finset (Fin 16))) (fun i : Fin 16 => (N.children i).isNull = false)
    have hconv : Finset.univ.filter (fun i : Fin 16 => ¬ (N.children i).isNull = false) =
        Finset.univ.filter (fun i : Fin 16 => (N.children i).isNull = true) := by
      ext x; simp
    rw [hconv, hcard2] at hsum
    simp only [Finset.card_univ, Fintype.card_fin] at hsum
    omega

theorem C31_split_node_two_children_witness :
    (∃ c', critnib_insert demo_state 5 7 0 ba2 = some (0, c') ∧
      c'.root = store demo_state.root (insert_descend 5 demo_state.root).1
        (split_node 600 ba2.junk 5 (.leaf 500 5 7) (insert_descend 5 demo_state.root).2) ∧
      InTree (split_node 600 ba2.junk 5 (.leaf 500 5 7) (insert_descend 5 demo_state.root).2)
        c'.root) ∧
    (∃ i j, i ≠ j ∧
      (split_node 600 ba2.junk 5 (.leaf 500 5 7) (insert_descend 5 demo_state.root).2).children i =
        .leaf 500 5 7 ∧
      (split_node 600 ba2.junk 5 (.leaf 500 5 7) (insert_descend 5 demo_state.root).2).children j =
        (insert_descend 5 demo_state.root).2 ∧
      ∀ x, x ≠ i → x ≠ j →
        (split_node 600 ba2.junk 5 (.leaf 500 5 7)
          (insert_descend 5 demo_state.root).2).children x = .null) ∧
    (Finset.univ.filter (fun i : Fin 16 =>
      ((split_node 600 ba2.junk 5 (.leaf 500 5 7)
        (insert_descend 5 demo_state.root).2).children i).isNull = false)).card = 2 ∧
    (Finset.univ.filter (fun i : Fin 16 =>
      ((split_node 600 ba2.junk 5 (.leaf 500 5 7)
        (insert_descend 5 demo_state.root).2).children i).isNull = true)).card = 14 ∧
    (Reachable split_state ∧ (∃ ch, split_state.root = .inner 400 ch 0 8) ∧
      (List.finRange 16).map (fun i => (split_state.root.children i).addr?) =
        [none, some 100, some 300, none, none, none, none, none, none, none, none, none, none,
          none, none, none] ∧
      leaves split_state.root = [(0x100, 1), (0x200, 2)]) ∧
    (Reachable recycle_state ∧ recycle_state.deleted_node = [400] ∧
      (critnib_insert recycle_state 0x200 2 0 ba_none_stale).map
        (fun r => (r.1, node_path r.2.root, r.2.root.addr?, leaves r.2.root)) =
        some (0, 0, some 400, [(0x100, 1), (0x200, 2)]) ∧
      (critnib_insert recycle_state 0x200 2 0 ba_none_stale).map
        (fun r => (List.finRange 16).map (fun i => (r.2.root.children i).addr?)) =
        some [none, some 100, some 300, none, none, none, none, none, none, none, none, none,
          none, none, none, none]) :=
  C31_split_node_two_children 7 0 reachable_demo_state (by norm_num)
    (show alloc_leaf demo_state ba2.leaf = (some 500, demo_state) from rfl)
    (by rw [show (insert_descend 5 demo_state.root).2 = .leaf 100 10 65 from rfl]; simp)
    (by decide)
    (show alloc_node demo_state ba2.node = (some 600, demo_state) from rfl)

/-! ## The splice of `critnib_remove` -/

/-- C36: in every reachable state, when the descent of `critnib_remove` ends at
the inner node `n` with the key's leaf in the key's slot, the call returns the
leaf's value and retires the leaf.  After the slot is nulled, `n` has at least
one non-null child, so the scan does not end with `ochild == -1` and
`ASSERTne(ochild, -1)` does not fail.  When exactly one child remains, the parent
slot of `n` receives that child and `n` is retired to the node ring; when two or
more remain, `n` stays in place with the slot nulled and no node is retired. -/
theorem C36_remove_splice {c : critnib} (hr : Reachable c) {key na p s a v : Nat}
    {ch : Fin 16 → critnib_node}
    (hdesc : (remove_descend key c.root).2 = (.inner na ch p s, .leaf a key v)) :
    1 ≤ (Finset.univ.filter (fun i : Fin 16 =>
      (Function.update ch (slice_index key s) .null i).isNull = false)).card ∧
    remove_scan (Function.update ch (slice_index key s) .null) (List.finRange 16) none ≠
      some none ∧
    ∃ c', critnib_remove c key = some (v, c') ∧
      c'.pending_del_leaves (ring_slot c'.remove_count) = some a ∧
      ((Finset.univ.filter (fun i : Fin 16 =>
          (Function.update ch (slice_index key s) .null i).isNull = false)).card = 1 →
        ∃ o, Function.update ch (slice_index key s) .null o ≠ .null ∧
          (∀ i, i ≠ o → Function.update ch (slice_index key s) .null i = .null) ∧
          c'.root = store c.root (remove_descend key c.root).1
            (Function.update ch (slice_index key s) .null o) ∧
          c'.pending_del_nodes (ring_slot c'.remove_count) = some na) ∧
      (2 ≤ (Finset.univ.filter (fun i : Fin 16 =>
          (Function.update ch (slice_index key s) .null i).isNull = false)).card →
        c'.root = store c.root (remove_descend key c.root).1
          (.inner na (Function.update ch (slice_index key s) .null) p s) ∧
        c'.pending_del_nodes (ring_slot c'.remove_count) = none) := by
  have hw := (reachable_wf hr).1
  obtain ⟨root, dn, dl, pn, pl, rc⟩ := c
  simp only at hdesc hw ⊢
  rcases root with _ | ⟨ra, rk, rv⟩ | ⟨ra, rch, rp, rs⟩
  · simp [remove_descend] at hdesc
  · simp [remove_descend] at hdesc
  · have hwn : WF (.inner na ch p s) := by
      have : WF (remove_descend key (.inner ra rch rp rs)).2.1 := remove_descend_n_WF hw
      rw [hdesc] at this; exact this
    have hleaf : ch (slice_index key s) = .leaf a key v := by
      obtain ⟨na', nch, np, ns, e1, e2⟩ := remove_descend_n key (.inner ra rch rp rs) rfl
      rw [hdesc] at e1 e2
      simp only [critnib_node.inner.injEq] at e1
      obtain ⟨_, rfl, _, rfl⟩ := e1
      exact e2.symm
    have hscan := (remove_at_spec hwn (fits_root hwn) hleaf).1
    have b2 : (remove_begin ⟨.inner ra rch rp rs, dn, dl, pn, pl, rc⟩).remove_count =
        utils_atomic_increment_u64 rc :=
      (remove_begin_fields ⟨.inner ra rch rp rs, dn, dl, pn, pl, rc⟩).2.1
    have b6 : (remove_begin ⟨.inner ra rch rp rs, dn, dl, pn, pl, rc⟩).pending_del_nodes =
        Function.update pn (ring_slot (utils_atomic_increment_u64 rc)) none :=
      (remove_begin_fields ⟨.inner ra rch rp rs, dn, dl, pn, pl, rc⟩).2.2.2.2.2
    have hnn : ∀ x : critnib_node, x ≠ .null → x.isNull = false := fun x hx =>
      isNull_false_iff.mpr hx
    have e := critnib_remove_inner ra rch rp rs dn dl pn pl rc key
    rw [hdesc] at e
    simp only [ne_eq, not_true_eq_false, if_false] at e
    rcases remove_scan_full (Function.update ch (slice_index key s) .null) with
      ⟨hs, i, j, hij, hi, hj⟩ | ⟨o, hs, ho, hrest⟩ | ⟨hs, _⟩
    · have h2 : 2 ≤ (Finset.univ.filter (fun i : Fin 16 =>
          (Function.update ch (slice_index key s) .null i).isNull = false)).card :=
        Finset.one_lt_card.mpr ⟨i, by simp [hnn _ hi], j, by simp [hnn _ hj], hij⟩
      rw [hs] at e
      refine ⟨by omega, hscan, _, e, ?_, fun h1 => ?_, fun _ => ⟨rfl, ?_⟩⟩
      · simp only []
        rw [b2, Function.update_same]
      · omega
      · simp only []
        rw [b2, b6, Function.update_same]
    · have h1 : (Finset.univ.filter (fun i : Fin 16 =>
          (Function.update ch (slice_index key s) .null i).isNull = false)).card = 1 := by
        rw [Finset.card_eq_one]
        refine ⟨o, ?_⟩
        ext x
        simp only [Finset.mem_filter, Finset.mem_univ, true_and, Finset.mem_singleton]
        constructor
        · intro hx
          by_contra hne
          rw [hrest x hne] at hx
          simp [critnib_node.isNull] at hx
        · rintro rfl
          exact hnn _ ho
      rw [hs] at e
      refine ⟨by omega, hscan, _, e, ?_, fun _ => ⟨o, ho, hrest, rfl, ?_⟩, fun h2 => ?_⟩
      · simp only []
        rw [b2, Function.update_same]
      · simp only []
        rw [b2, Function.update_same]
      · omega
    · exact absurd hs hscan

theorem C36_remove_splice_witness :
    1 ≤ (Finset.univ.filter (fun i : Fin 16 =>
      (Function.update demo_state.root.children (slice_index 10 4) .null i).isNull =
        false)).card ∧
    remove_scan (Function.update demo_state.root.children (slice_index 10 4) .null)
      (List.finRange 16) none ≠ some none ∧
    ∃ c', critnib_remove demo_state 10 = some (65, c') ∧
      c'.pending_del_leaves (ring_slot c'.remove_count) = some 100 ∧
      ((Finset.univ.filter (fun i : Fin 16 =>
          (Function.update demo_state.root.children (slice_index 10 4) .null i).isNull =
            false)).card = 1 →
        ∃ o, Function.update demo_state.root.children (slice_index 10 4) .null o ≠ .null ∧
          (∀ i, i ≠ o →
            Function.update demo_state.root.children (slice_index 10 4) .null i = .null) ∧
          c'.root = store demo_state.root (remove_descend 10 demo_state.root).1
            (Function.update demo_state.root.children (slice_index 10 4) .null o) ∧
          c'.pending_del_nodes (ring_slot c'.remove_count) = some 400) ∧
      (2 ≤ (Finset.univ.filter (fun i : Fin 16 =>
          (Function.update demo_state.root.children (slice_index 10 4) .null i).isNull =
            false)).card →
        c'.root = store demo_state.root (remove_descend 10 demo_state.root).1
          (.inner 400 (Function.update demo_state.root.children (slice_index 10 4) .null) 0 4) ∧
        c'.pending_del_nodes (ring_slot c'.remove_count) = none) :=
  C36_remove_splice reachable_demo_state
    (show (remove_descend 10 demo_state.root).2 =
      (.inner 400 demo_state.root.children 0 4, .leaf 100 10 65) from rfl)

/-- The examples of the splice: in `demo_state` (keys 10 and 20 in one node at
400) the remove of 10 leaves the leaf of 20 as the root and retires the node; in
`walk_state` (keys 1 to 6 and 9 in one node) the remove of 3 keeps the node and
retires no node. -/
theorem remove_splice_examples :
    (critnib_remove demo_state 10).map
      (fun r => (r.1, r.2.root.addr?, leaves r.2.root, r.2.pending_del_nodes 0)) =
      some (65, some 300, [(20, 66)], some 400) ∧
    walk_state.root.addr? = some 102 ∧
    (critnib_remove walk_state 3).map
      (fun r => (r.1, r.2.root.addr?, leaves r.2.root, r.2.pending_del_nodes 0)) =
      some (30, some 102, [(1, 10), (2, 20), (4, 40), (5, 50), (6, 60), (9, 90)], none) :=
  ⟨by decide, by decide, by decide⟩

/-! ## The shape of the tree is that of its key set -/

/-- A well-formed tree without keys is null. -/
theorem null_of_no_keys {t : critnib_node} (hw : WF t) (h : ∀ k, k ∉ keys t) : t = .null := by
  by_contra hn
  obtain ⟨x, hx⟩ := leaves_ne_nil hw hn
  exact h x.1 (mem_keys.mpr ⟨x.2, hx⟩)

/-- A well-formed inner node holds two different keys. -/
theorem two_keys_of_inner {a : Nat} {ch : Fin 16 → critnib_node} {p s : Nat}
    (hw : WF (.inner a ch p s)) :
    ∃ k1 k2, k1 ≠ k2 ∧ k1 ∈ keys (.inner a ch p s) ∧ k2 ∈ keys (.inner a ch p s) ∧
      k1 / 2 ^ s ≠ k2 / 2 ^ s := by
  obtain ⟨i, j, hij, hi, hj⟩ := hw.2.2.2.2.1
  obtain ⟨x, hx⟩ := leaves_ne_nil (hw.2.2.2.2.2 i).1 hi
  obtain ⟨y, hy⟩ := leaves_ne_nil (hw.2.2.2.2.2 j).1 hj
  have e1 := key_fits (hw.2.2.2.2.2 i).1 (hw.2.2.2.2.2 i).2 (k := x.1) (v := x.2) hx
  have e2 := key_fits (hw.2.2.2.2.2 j).1 (hw.2.2.2.2.2 j).2 (k := y.1) (v := y.2) hy
  have hne : x.1 / 2 ^ s ≠ y.1 / 2 ^ s := by
    rw [e1, e2]
    intro e
    exact hij (Fin.ext (by omega))
  refine ⟨x.1, y.1, fun e => hne (by rw [e]), ?_, ?_, hne⟩
  · exact mem_keys.mpr ⟨x.2, mem_leaves_inner.mpr ⟨i, hx⟩⟩
  · exact mem_keys.mpr ⟨y.2, mem_leaves_inner.mpr ⟨j, hy⟩⟩

/-- The keys of a well-formed inner node have the same bits above the nib of the node. -/
theorem keys_agree_above {a : Nat} {ch : Fin 16 → critnib_node} {p s : Nat}
    (hw : WF (.inner a ch p s)) {k1 k2 : Nat} (h1 : k1 ∈ keys (.inner a ch p s))
    (h2 : k2 ∈ keys (.inner a ch p s)) : k1 / 2 ^ (s + 4) = k2 / 2 ^ (s + 4) := by
  obtain ⟨v1, m1⟩ := mem_keys.mp h1
  obtain ⟨v2, m2⟩ := mem_keys.mp h2
  rw [key_hi hw m1, key_hi hw m2]

/-- The shift of a well-formed inner node is determined by its keys. -/
theorem shift_le_of_keys {a a' : Nat} {ch ch' : Fin 16 → critnib_node} {p s p' s' : Nat}
    (hw : WF (.inner a ch p s)) (hw' : WF (.inner a' ch' p' s'))
    (h : ∀ k, k ∈ keys (.inner a ch p s) → k ∈ keys (.inner a' ch' p' s')) : s ≤ s' := by
  obtain ⟨k1, k2, _, m1, m2, hne⟩ := two_keys_of_inner hw
  have e := keys_agree_above hw' (h k1 m1) (h k2 m2)
  by_contra hlt
  have h4 : s' + 4 ≤ s := by
    have := hw.1
    have := hw'.1
    omega
  exact hne (div_pow_of_le h4 e)

/-- A key of a well-formed inner node lies in the slot of its nib. -/
theorem key_slot {a : Nat} {ch : Fin 16 → critnib_node} {p s : Nat}
    (hw : WF (.inner a ch p s)) {k : Nat} {i : Fin 16} (h : k ∈ keys (ch i)) :
    k / 2 ^ s = p / 2 ^ s + i.val := by
  obtain ⟨v, m⟩ := mem_keys.mp h
  exact key_fits (hw.2.2.2.2.2 i).1 (hw.2.2.2.2.2 i).2 m

theorem mem_keys_inner {a : Nat} {ch : Fin 16 → critnib_node} {p s k : Nat} :
    k ∈ keys (.inner a ch p s) ↔ ∃ i, k ∈ keys (ch i) := by
  constructor
  · intro h
    obtain ⟨v, m⟩ := mem_keys.mp h
    obtain ⟨i, hi⟩ := mem_leaves_inner.mp m
    exact ⟨i, mem_keys.mpr ⟨v, hi⟩⟩
  · rintro ⟨i, h⟩
    obtain ⟨v, m⟩ := mem_keys.mp h
    exact mem_keys.mpr ⟨v, mem_leaves_inner.mpr ⟨i, m⟩⟩

/-- Two well-formed trees with the same keys have the same shape. -/
theorem shape_unique : ∀ t1 t2 : critnib_node, WF t1 → WF t2 →
    (∀ k, k ∈ keys t1 ↔ k ∈ keys t2) → shape t1 = shape t2 := by
  intro t1
  induction t1 with
  | null =>
    intro t2 _ hw2 h
    have : t2 = .null := null_of_no_keys hw2 (fun k hk => by
      have := (h k).mpr hk
      simp [keys, leaves] at this)
    rw [this]
  | leaf a k v =>
    intro t2 _ hw2 h
    have hk : k ∈ keys t2 := (h k).mp (by simp [keys, leaves])
    rcases t2 with _ | ⟨a', k', v'⟩ | ⟨a', ch', p', s'⟩
    · simp [keys, leaves] at hk
    · simp [keys, leaves] at hk
      rw [hk]; rfl
    · obtain ⟨k1, k2, hne, m1, m2, _⟩ := two_keys_of_inner hw2
      have e1 := (h k1).mpr m1
      have e2 := (h k2).mpr m2
      simp [keys, leaves] at e1 e2
      exact absurd (e1.trans e2.symm) hne
  | inner a ch p s ih =>
    intro t2 hw1 hw2 h
    rcases t2 with _ | ⟨a', k', v'⟩ | ⟨a', ch', p', s'⟩
    · obtain ⟨k1, _, _, m1, _, _⟩ := two_keys_of_inner hw1
      have := (h k1).mp m1
      simp [keys, leaves] at this
    · obtain ⟨k1, k2, hne, m1, m2, _⟩ := two_keys_of_inner hw1
      have e1 := (h k1).mp m1
      have e2 := (h k2).mp m2
      simp [keys, leaves] at e1 e2
      exact absurd (e1.trans e2.symm) hne
    · have hs : s = s' :=
        Nat.le_antisymm (shift_le_of_keys hw1 hw2 (fun k hk => (h k).mp hk))
          (shift_le_of_keys hw2 hw1 (fun k hk => (h k).mpr hk))
      subst hs
      have hp : p = p' := by
        obtain ⟨k1, _, _, m1, _, _⟩ := two_keys_of_inner hw1
        obtain ⟨v1, n1⟩ := mem_keys.mp m1
        obtain ⟨v2, n2⟩ := mem_keys.mp ((h k1).mp m1)
        have e1 := key_hi hw1 n1
        have e2 := key_hi hw2 n2
        have d1 := Nat.div_add_mod p (2 ^ (s + 4))
        have d2 := Nat.div_add_mod p' (2 ^ (s + 4))
        rw [hw1.2.2.2.1, ← e1] at d1
        rw [hw2.2.2.2.1, ← e2] at d2
        omega
      subst hp
      have hch : ∀ i, shape (ch i) = shape (ch' i) := by
        intro i
        refine ih i (ch' i) (hw1.2.2.2.2.2 i).1 (hw2.2.2.2.2.2 i).1 (fun k => ⟨fun hk => ?_, fun hk => ?_⟩)
        · obtain ⟨j, hj⟩ := mem_keys_inner.mp ((h k).mp (mem_keys_inner.mpr ⟨i, hk⟩))
          have e1 := key_slot hw1 hk
          have e2 := key_slot hw2 hj
          have : j = i := Fin.ext (by omega)
          rw [← this]; exact hj
        · obtain ⟨j, hj⟩ := mem_keys_inner.mp ((h k).mpr (mem_keys_inner.mpr ⟨i, hk⟩))
          have e1 := key_slot hw2 hk
          have e2 := key_slot hw1 hj
          have : j = i := Fin.ext (by omega)
          rw [← this]; exact hj
      simp only [shape]
      congr 1
      exact funext hch

theorem leaves_shape (t : critnib_node) :
    leaves (shape t) = (leaves t).map (fun kv => (kv.1, 0)) := by
  induction t with
  | null => rfl
  | leaf a k v => rfl
  | inner a ch p s ih =>
    simp only [shape, leaves, List.map_flatMap]
    congr 1
    funext i
    exact ih i

theorem keys_shape (t : critnib_node) : keys (shape t) = keys t := by
  simp only [keys, leaves_shape, List.map_map]
  congr 1

theorem reachable_other_state : Reachable other_state := by
  refine ⟨other_ops, ?_, rfl⟩
  intro op h
  simp [other_ops] at h
  rcases h with h | h | h | h <;> rw [h] <;> simp [Op.ok]

/-- C40: two reachable states, whatever calls led to them from a fresh map, whose
trees hold the same keys have trees of the same shape: the same inner nodes with
the same shifts and paths and the same keys in the same slots (the addresses of
the storage and the values apart).  The shape holds the keys of the tree. -/
theorem C40_shape_of_key_set {c1 c2 : critnib} (h1 : Reachable c1) (h2 : Reachable c2)
    (hk : ∀ k, k ∈ keys c1.root ↔ k ∈ keys c2.root) :
    shape c1.root = shape c2.root ∧ keys c1.root = keys c2.root ∧
    keys (shape c1.root) = keys c1.root :=
  have hs := shape_unique c1.root c2.root (reachable_wf h1).1 (reachable_wf h2).1 hk
  ⟨hs, by rw [← keys_shape c1.root, hs, keys_shape], keys_shape c1.root⟩

theorem C40_shape_of_key_set_witness :
    shape demo_state.root = shape other_state.root ∧
    keys demo_state.root = keys other_state.root ∧
    keys (shape demo_state.root) = keys demo_state.root :=
  C40_shape_of_key_set reachable_demo_state reachable_other_state
    (by
      rw [show keys demo_state.root = [10, 20] from by decide,
        show keys other_state.root = [10, 20] from by decide]
      exact fun _ => Iff.rfl)

/-- The example of the shape: `demo_state` and `other_state` hold the keys 10 and
20 with different values in different storage, under a root node with path 0 and
shift 4 in both. -/
theorem shape_example :
    leaves demo_state.root = [(10, 65), (20, 66)] ∧
    leaves other_state.root = [(10, 3), (20, 1)] ∧
    demo_state.root.addr? = some 400 ∧ other_state.root.addr? = some 23 ∧
    (∃ ch, demo_state.root = .inner 400 ch 0 4) ∧ ∃ ch, other_state.root = .inner 23 ch 0 4 :=
  ⟨by decide, by decide, by decide, by decide, ⟨_, rfl⟩, ⟨_, rfl⟩⟩

/-! ## An insert undone by a remove -/

/-- The remove of the key from the node of a split leaves the old pointer. -/
theorem remove_tree_split (m : Nat) (junk : Fin 16 → critnib_node) {key : Nat} (ka value : Nat)
    {n : critnib_node} (hk : key < 2 ^ 64) (hw : WF n) (hn : n ≠ .null)
    (hd : node_path n ^^^ key ≠ 0) :
    remove_tree key (split_node m junk key (.leaf ka key value) n) = n := by
  obtain ⟨_, _, _, _, _, s6⟩ := split_shift hk (node_path_lt hw) hd
  simp only [split_node]
  generalize hsh : utils_msb64 (node_path n ^^^ key) &&& 0xFC = sh at s6
  have hne : slice_index key sh ≠ slice_index (node_path n) sh := by
    intro e
    apply s6
    rw [← slice_index_val, ← slice_index_val, e]
  generalize hch : Function.update (Function.update (clear_children junk (List.finRange 16))
    (slice_index key sh) (.leaf ka key value)) (slice_index (node_path n) sh) n = ch
  have c1 : ch (slice_index key sh) = .leaf ka key value := by
    rw [← hch, Function.update_noteq hne, Function.update_same]
  have c2 : ch (slice_index (node_path n) sh) = n := by
    rw [← hch, Function.update_same]
  have c3 : ∀ x, x ≠ slice_index key sh → x ≠ slice_index (node_path n) sh → ch x = .null := by
    intro x h1 h2
    rw [← hch, Function.update_noteq h2, Function.update_noteq h1, clear_children_apply]
  simp only [remove_tree]
  rw [remove_rebuild_out _ (by intro a' ch' p' s' e; rw [c1] at e; cases e)]
  simp only [remove_at]
  have d2 : Function.update ch (slice_index key sh) .null (slice_index (node_path n) sh) = n := by
    rw [Function.update_noteq (Ne.symm hne), c2]
  have d3 : ∀ x, x ≠ slice_index (node_path n) sh →
      Function.update ch (slice_index key sh) .null x = .null := by
    intro x hx
    by_cases e : x = slice_index key sh
    · rw [e, Function.update_same]
    · rw [Function.update_noteq e, c3 x e hx]
  rcases remove_scan_full (Function.update ch (slice_index key sh) .null) with
    ⟨_, i, j, hij, hi, hj⟩ | ⟨o, hs, ho, _⟩ | ⟨_, hall⟩
  · have ei : i = slice_index (node_path n) sh := by
      by_contra e; exact hi (d3 i e)
    have ej : j = slice_index (node_path n) sh := by
      by_contra e; exact hj (d3 j e)
    exact absurd (ei.trans ej.symm) hij
  · have eo : o = slice_index (node_path n) sh := by
      by_contra e; exact ho (d3 o e)
    rw [hs, eo]
    exact d2
  · exact absurd ((hall _).symm.trans d2).symm hn

/-- What an insert of an absent key stores in a non-null slot is an inner node. -/
theorem rebuild_inner_of_absent (kn : critnib_node) (m : Nat) (junk : Fin 16 → critnib_node)
    (value : Nat) {key : Nat} {t : critnib_node} (hn : t ≠ .null) (habs : key ∉ keys t) :
    ∃ a ch p s, rebuild (insert_at kn m junk key value) key t = .inner a ch p s := by
  rcases t with _ | ⟨a, k, v⟩ | ⟨a, ch, p, s⟩
  · exact absurd rfl hn
  · have hne : k ≠ key := by
      intro e; apply habs; simp [keys, leaves, e]
    have hx : ¬ k ^^^ key = 0 := fun e => hne (Nat.xor_eq_zero.mp e)
    rw [rebuild_leaf]
    simp only [insert_at, hx, if_false, split_node]
    exact ⟨_, _, _, _, rfl⟩
  · by_cases hc : key &&& path_mask s = p
    · rw [rebuild_inner_in _ hc]
      exact ⟨_, _, _, _, rfl⟩
    · rw [rebuild_inner_out _ hc]
      simp only [insert_at, split_node]
      exact ⟨_, _, _, _, rfl⟩

/-- The remove of a key right after its insert gives the tree back. -/
theorem remove_tree_rebuild {key : Nat} (hk : key < 2 ^ 64) (ka m value : Nat)
    (junk : Fin 16 → critnib_node) :
    ∀ t : critnib_node, WF t → key ∉ keys t →
      remove_tree key (rebuild (insert_at (.leaf ka key value) m junk key value) key t) = t := by
  intro t
  induction t with
  | null => intro _ _; rfl
  | leaf a k v =>
    intro hw habs
    have hne : k ≠ key := by
      intro e; apply habs; simp [keys, leaves, e]
    have hx : ¬ k ^^^ key = 0 := fun e => hne (Nat.xor_eq_zero.mp e)
    rw [rebuild_leaf]
    simp only [insert_at, hx, if_false]
    exact remove_tree_split m junk ka value hk hw (by simp) hx
  | inner a ch p s ih =>
    intro hw habs
    by_cases hc : key &&& path_mask s = p
    · rw [rebuild_inner_in _ hc]
      have habs_i : key ∉ keys (ch (slice_index key s)) := fun h =>
        habs (mem_keys_inner.mpr ⟨_, h⟩)
      by_cases hnull : ch (slice_index key s) = .null
      · rw [hnull, rebuild_null]
        simp only [insert_at, remove_tree]
        rw [remove_rebuild_out _ (by
          intro a' ch' p' s' e; rw [Function.update_same] at e; cases e)]
        simp only [remove_at, Function.update_idem]
        have eself : Function.update ch (slice_index key s) .null = ch := by
          rw [← hnull]; exact Function.update_eq_self _ _
        rw [eself]
        rcases remove_scan_full ch with ⟨hs, _⟩ | ⟨o, _, _, hrest⟩ | ⟨_, hall⟩
        · rw [hs]
        · obtain ⟨i, j, hij, hi, hj⟩ := hw.2.2.2.2.1
          have ei : i = o := by by_contra e; exact hi (hrest i e)
          have ej : j = o := by by_contra e; exact hj (hrest j e)
          exact absurd (ei.trans ej.symm) hij
        · obtain ⟨i, _, _, hi, _⟩ := hw.2.2.2.2.1
          exact absurd (hall i) hi
      · obtain ⟨a', ch', p', s', hR⟩ :=
          rebuild_inner_of_absent (.leaf ka key value) m junk value hnull habs_i
        have hIH := ih (slice_index key s) (hw.2.2.2.2.2 _).1 habs_i
        simp only [remove_tree]
        rw [remove_rebuild_in _ (by rw [Function.update_same]; exact hR)]
        rw [Function.update_same, Function.update_idem]
        have e2 : remove_rebuild (remove_at key) key
            (rebuild (insert_at (.leaf ka key value) m junk key value) key
              (ch (slice_index key s))) = ch (slice_index key s) := by
          rw [hR] at hIH ⊢
          exact hIH
        rw [e2, Function.update_eq_self]
    · rw [rebuild_inner_out _ hc]
      simp only [insert_at]
      have hd : node_path (.inner a ch p s) ^^^ key ≠ 0 := by
        intro e
        simp only [node_path] at e
        have := Nat.xor_eq_zero.mp e
        apply hc
        rw [contains_iff hk hw.2.2.2.1, this]
      exact remove_tree_split m junk ka value hk hw (by simp) hd

/-- The counts of addresses after an insert of an absent key: the new leaf, and
in the split case the new node, are added to the tree. -/
theorem rebuild_absent_count {key : Nat} (hk : key < 2 ^ 64) (ka m value : Nat)
    (junk : Fin 16 → critnib_node) {t : critnib_node} (hw : WF t) (habs : key ∉ keys t)
    (lf : Bool) (x : Nat) :
    addr_count lf x (rebuild (insert_at (.leaf ka key value) m junk key value) key t) =
      addr_count lf x t + (if lf = true ∧ ka = x then 1 else 0) +
        (if (insert_descend key t).2.isNull = false ∧ lf = false ∧ m = x then 1 else 0) := by
  have hc := rebuild_count lf x (insert_at (.leaf ka key value) m junk key value) key t
  have hwl := insert_descend_snd_WF key hw
  rcases hl : (insert_descend key t).2 with _ | ⟨a, k, v⟩ | ⟨a, ch, p, s⟩
  · rw [hl] at hc
    simp only [insert_at, addr_count] at hc
    simp only [critnib_node.isNull, Bool.true_eq_false, false_and, if_false]
    omega
  · rw [hl] at hc hwl
    have hne : k ≠ key := by
      intro e
      apply habs
      have : (k, v) ∈ leaves (insert_descend key t).2 := by rw [hl]; simp [leaves]
      exact mem_keys.mpr ⟨v, e ▸ insert_descend_snd_sub this⟩
    have hx : ¬ k ^^^ key = 0 := fun e => hne (Nat.xor_eq_zero.mp e)
    simp only [insert_at, hx, if_false] at hc
    rw [split_node_count lf x m junk (.leaf ka key value) hk hwl hx] at hc
    simp only [addr_count] at hc
    simp only [critnib_node.isNull, true_and]
    omega
  · rw [hl] at hc hwl
    have hd : node_path (.inner a ch p s) ^^^ key ≠ 0 := by
      intro e
      simp only [node_path] at e
      exact stop_inner_ne hk hw hl (Nat.xor_eq_zero.mp e)
    simp only [insert_at] at hc
    rw [split_node_count lf x m junk (.leaf ka key value) hk hwl hd] at hc
    simp only [addr_count] at hc ⊢
    simp only [critnib_node.isNull, true_and]
    omega

/-- In every reachable state that does not hold the 64-bit key, when
`critnib_insert(key, value, update)` has returned 0, the `critnib_remove(key)`
right after it returns `value` and leaves the tree that was there before the
insert: the same pointers in the same slots of the same nodes.  The remove
retires the leaf of the insert, and the node of the insert when the insert made
one (a split), to its ring slot; it retires no node when the insert put the leaf
into a null slot. -/
theorem insert_then_remove {c c1 : critnib} {key value update : Nat} {ba : base_alloc}
    (hr : Reachable c) (hk : key < 2 ^ 64) (habs : key ∉ keys c.root)
    (h1 : critnib_insert c key value update ba = some (0, c1)) :
    ∃ c2, critnib_remove c1 key = some (value, c2) ∧ c2.root = c.root ∧
      (∃ ka, (alloc_leaf c ba.leaf).1 = some ka ∧
        c2.pending_del_leaves (ring_slot c2.remove_count) = some ka) ∧
      ((insert_descend key c.root).2 = .null →
        c2.pending_del_nodes (ring_slot c2.remove_count) = none) ∧
      ((insert_descend key c.root).2 ≠ .null →
        ∃ m, (alloc_node c ba.node).1 = some m ∧
          (∀ x, addr_count false x c1.root =
            addr_count false x c.root + if m = x then 1 else 0) ∧
          c2.pending_del_nodes (ring_slot c2.remove_count) = some m) := by
  have hw := (reachable_wf hr).1
  -- the tree after the insert
  have hform : ∃ ka m, (alloc_leaf c ba.leaf).1 = some ka ∧
      ((insert_descend key c.root).2 ≠ .null → (alloc_node c ba.node).1 = some m) ∧
      c1.root = rebuild (insert_at (.leaf ka key value) m ba.junk key value) key c.root := by
    rcases critnib_insert_cases c key value update ba with
      ⟨_, e⟩ | ⟨ka, hka, ⟨hl, c', _, hroot, e⟩ | ⟨a, v, hl, _⟩ | ⟨a, v, hl, _⟩ |
        ⟨a, ch, s, _, e⟩ | ⟨_, _, _, c', _, _, e⟩ | ⟨hl, _, m, hm, c', _, hroot, e⟩⟩
    · rw [e] at h1; simp [ENOMEM] at h1
    · rw [e] at h1
      simp only [Option.some.injEq, Prod.mk.injEq, true_and] at h1
      subst h1
      exact ⟨ka, 0, hka, fun h => absurd hl h, hroot 0⟩
    · exfalso
      apply habs
      have : (key, v) ∈ leaves (insert_descend key c.root).2 := by rw [hl]; simp [leaves]
      exact mem_keys.mpr ⟨v, insert_descend_snd_sub this⟩
    · exfalso
      apply habs
      have : (key, v) ∈ leaves (insert_descend key c.root).2 := by rw [hl]; simp [leaves]
      exact mem_keys.mpr ⟨v, insert_descend_snd_sub this⟩
    · rw [e] at h1; cases h1
    · rw [e] at h1; simp [ENOMEM] at h1
    · rw [e] at h1
      simp only [Option.some.injEq, Prod.mk.injEq, true_and] at h1
      subst h1
      exact ⟨ka, m, hka, fun _ => hm, hroot⟩
  obtain ⟨ka, m, hka, hm, hroot⟩ := hform
  -- the key is in the tree after the insert
  have hspec := rebuild_spec (insert_at (.leaf ka key value) m ba.junk key value) value hk
    (fun n b hi hst hwn hf hb4 hb hkb => insert_at_spec hk n b hi hst hwn hf hb4 hb hkb)
    c.root 64 0 hw (fits_root hw) (by norm_num) (le_refl _)
    (Nat.div_eq_of_lt hk)
  rw [← hroot] at hspec
  obtain ⟨hw1, _, hnn1, hleaves⟩ := hspec
  have hmem : (key, value) ∈ leaves c1.root := (hleaves key value).mpr (Or.inl ⟨rfl, rfl⟩)
  obtain ⟨la, hget⟩ := get_descend_of_mem hw1 hmem
  obtain ⟨c2, hrem, hroot2, _⟩ := critnib_remove_present hw1 hget
  have hback : c2.root = c.root := by
    rw [hroot2, hroot]
    exact remove_tree_rebuild hk ka m value ba.junk c.root hw habs
  obtain ⟨e1, _, _, rl, rn, el, en, hcount⟩ := critnib_remove_effect hnn1 hrem
  have hcnt : ∀ lf x, addr_count lf x c1.root =
      addr_count lf x c.root + (if lf = true ∧ ka = x then 1 else 0) +
        (if (insert_descend key c.root).2.isNull = false ∧ lf = false ∧ m = x then 1 else 0) := by
    intro lf x
    rw [hroot]
    exact rebuild_absent_count hk ka m value ba.junk hw habs lf x
  have hrl : rl = some ka := by
    have h := hcount true ka
    rw [hback, hcnt true ka] at h
    by_contra hne
    simp [hne] at h
  have sl : c2.pending_del_leaves (ring_slot c2.remove_count) = rl := by
    rw [el, e1, Function.update_same]
  have sn : c2.pending_del_nodes (ring_slot c2.remove_count) = rn := by
    rw [en, e1, Function.update_same]
  refine ⟨c2, hrem, hback, ⟨ka, hka, by rw [sl, hrl]⟩, fun hl => ?_, fun hl => ?_⟩
  · rw [sn]
    rcases hrn : rn with _ | y
    · rfl
    · have h := hcount false y
      rw [hback, hcnt false y, hrn] at h
      simp [hl, critnib_node.isNull] at h
  · refine ⟨m, hm hl, fun x => ?_, ?_⟩
    · rw [hcnt false x]
      simp [isNull_false_iff.mpr hl]
    · rw [sn]
      have h := hcount false m
      rw [hback, hcnt false m] at h
      by_contra hne
      simp [hne, isNull_false_iff.mpr hl] at h

/-- C39: in every reachable state that does not hold the 64-bit key,
`critnib_insert(key, value, update)`, with either value of the flag and the byte
allocator not failing, returns 0, and the `critnib_remove(key)` right after it
returns `value` and leaves the tree that was there before the insert: the root
is the same pointer, so the same inner nodes with the same shift, path and slot
contents and the same leaves.  The remove retires the leaf of the insert, and
the inner node the insert created, when it created one (a split), is spliced out
again and retired to the ring; no node is retired when the insert put the leaf
into a null slot. -/
theorem C39_insert_then_remove {c : critnib} {key : Nat} (value update : Nat) (ba : base_alloc)
    (hr : Reachable c) (hk : key < 2 ^ 64) (habs : key ∉ keys c.root)
    (hl : ba.leaf ≠ none) (hn : ba.node ≠ none) :
    ∃ c1 c2, critnib_insert c key value update ba = some (0, c1) ∧
      critnib_remove c1 key = some (value, c2) ∧ c2.root = c.root ∧
      (∃ ka, (alloc_leaf c ba.leaf).1 = some ka ∧
        c2.pending_del_leaves (ring_slot c2.remove_count) = some ka) ∧
      ((insert_descend key c.root).2 = .null →
        c2.pending_del_nodes (ring_slot c2.remove_count) = none) ∧
      ((insert_descend key c.root).2 ≠ .null →
        ∃ m, (alloc_node c ba.node).1 = some m ∧
          (∀ x, addr_count false x c1.root =
            addr_count false x c.root + if m = x then 1 else 0) ∧
          c2.pending_del_nodes (ring_slot c2.remove_count) = some m) := by
  obtain ⟨c1, h1, _⟩ := insert_absent_then_get value update ba hr hk habs hl hn
  obtain ⟨c2, g⟩ := insert_then_remove hr hk habs h1
  exact ⟨c1, c2, h1, g⟩

theorem C39_insert_then_remove_witness :
    ∃ c1 c2, critnib_insert demo_state 5 7 0 ba2 = some (0, c1) ∧
      critnib_remove c1 5 = some (7, c2) ∧ c2.root = demo_state.root ∧
      (∃ ka, (alloc_leaf demo_state ba2.leaf).1 = some ka ∧
        c2.pending_del_leaves (ring_slot c2.remove_count) = some ka) ∧
      ((insert_descend 5 demo_state.root).2 = .null →
        c2.pending_del_nodes (ring_slot c2.remove_count) = none) ∧
      ((insert_descend 5 demo_state.root).2 ≠ .null →
        ∃ m, (alloc_node demo_state ba2.node).1 = some m ∧
          (∀ x, addr_count false x c1.root =
            addr_count false x demo_state.root + if m = x then 1 else 0) ∧
          c2.pending_del_nodes (ring_slot c2.remove_count) = some m) :=
  C39_insert_then_remove 7 0 ba2 reachable_demo_state (by norm_num) (by decide)
    (by simp [ba2]) (by simp [ba2])

/-- The example of an insert undone: in `demo_state` the insert of 5 makes a
split node at 600 above the leaf of 10; the remove of 5 retires that node and the
leaf at 500 and leaves the keys 10 and 20 under the root at 400. -/
theorem insert_then_remove_example :
    ((critnib_insert demo_state 5 7 0 ba2).bind (fun r => critnib_remove r.2 5)).map
      (fun r => (r.1, r.2.root.addr?, leaves r.2.root, r.2.pending_del_nodes 0,
        r.2.pending_del_leaves 0)) =
      some (7, some 400, [(10, 65), (20, 66)], some 600, some 500) := by decide

/-! ## The depth of the tree -/

theorem le_foldr_max {l : List Nat} {x : Nat} (h : x ∈ l) : x ≤ l.foldr max 0 := by
  induction l with
  | nil => cases h
  | cons a l ih =>
    simp only [List.foldr_cons]
    rcases List.mem_cons.mp h with rfl | h'
    · exact le_max_left _ _
    · exact le_trans (ih h') (le_max_right _ _)

theorem foldr_max_le {l : List Nat} {B : Nat} (h : ∀ x ∈ l, x ≤ B) : l.foldr max 0 ≤ B := by
  induction l with
  | nil => exact Nat.zero_le _
  | cons a l ih =>
    simp only [List.foldr_cons]
    exact max_le (h a (List.mem_cons_self _ _))
      (ih (fun x hx => h x (List.mem_cons_of_mem _ hx)))

/-- A child lies less deep than its node. -/
theorem height_child (a : Nat) (ch : Fin 16 → critnib_node) (p s : Nat) (i : Fin 16) :
    height (ch i) + 1 ≤ height (.inner a ch p s) := by
  have : height (ch i) ≤ ((List.finRange 16).map (fun i => height (ch i))).foldr max 0 :=
    le_foldr_max (List.mem_map.mpr ⟨i, List.mem_finRange i, rfl⟩)
  simp only [height]
  omega

/-- A well-formed subtree in a slot for keys of `b` free bits has at most `b / 4`
inner nodes on any way down. -/
theorem height_bound {t : critnib_node} : ∀ {b hi : Nat}, WF t → fits t b hi →
    4 * height t ≤ b := by
  induction t with
  | null => intro b hi _ _; simp [height]
  | leaf a k v => intro b hi _ _; simp [height]
  | inner a ch p s ih =>
    intro b hi hw hf
    have hb : s + 4 ≤ b := hf.1
    have hm : ((List.finRange 16).map (fun i => height (ch i))).foldr max 0 ≤ s / 4 := by
      apply foldr_max_le
      intro x hx
      obtain ⟨i, _, rfl⟩ := List.mem_map.mp hx
      have := ih i (hw.2.2.2.2.2 i).1 (hw.2.2.2.2.2 i).2
      omega
    simp only [height]
    omega

/-- In a well-formed tree an inner node that is a child has a smaller shift than
its parent. -/
theorem child_shift_lt {a : Nat} {ch : Fin 16 → critnib_node} {p s : Nat}
    (hw : WF (.inner a ch p s)) {i : Fin 16} {a' : Nat} {ch' : Fin 16 → critnib_node}
    {p' s' : Nat} (h : ch i = .inner a' ch' p' s') : s' + 4 ≤ s := by
  have := (hw.2.2.2.2.2 i).2
  rw [h] at this
  exact this.1

/-! ## The loops within the depth -/

theorem get_descend_fuel_eq (key : Nat) : ∀ (t : critnib_node) (fuel : Nat),
    height t ≤ fuel → get_descend_fuel key fuel t = some (get_descend key t) := by
  intro t
  induction t with
  | null => intro fuel _; cases fuel <;> rfl
  | leaf a k v => intro fuel _; cases fuel <;> rfl
  | inner a ch p s ih =>
    intro fuel h
    have hc := height_child a ch p s (slice_index key s)
    cases fuel with
    | zero => omega
    | succ n =>
      simp only [get_descend_fuel, get_descend]
      exact ih _ n (by omega)

theorem insert_descend_fuel_eq (key : Nat) : ∀ (t : critnib_node) (fuel : Nat),
    height t ≤ fuel → insert_descend_fuel key fuel t = some (insert_descend key t) := by
  intro t
  induction t with
  | null => intro fuel _; cases fuel <;> rfl
  | leaf a k v => intro fuel _; cases fuel <;> rfl
  | inner a ch p s ih =>
    intro fuel h
    have hc := height_child a ch p s (slice_index key s)
    cases fuel with
    | zero => omega
    | succ n =>
      simp only [insert_descend_fuel, insert_descend]
      have hi := ih (slice_index key s) n (by omega)
      by_cases hin : key &&& path_mask s = p
      · simp only [hin, if_true, hi, Option.map_some']
      · simp only [hin, if_false]

theorem remove_descend_fuel_eq (key : Nat) : ∀ (t : critnib_node) (fuel : Nat),
    height t ≤ fuel → remove_descend_fuel key fuel t = some (remove_descend key t) := by
  intro t
  induction t with
  | null => intro fuel _; cases fuel <;> rfl
  | leaf a k v => intro fuel _; cases fuel <;> rfl
  | inner a ch p s ih =>
    intro fuel h
    have hc := height_child a ch p s (slice_index key s)
    cases fuel with
    | zero => omega
    | succ n =>
      have hi := ih (slice_index key s) n (by omega)
      simp only [remove_descend_fuel, remove_descend]
      rcases hch : ch (slice_index key s) with _ | ⟨a2, k2, v2⟩ | ⟨a2, ch2, p2, s2⟩
      · rfl
      · rfl
      · rw [hch] at hi
        simp only [hi, Option.map_some']

theorem find_predecessor_fuel_eq : ∀ (t : critnib_node) (fuel : Nat),
    height t ≤ fuel → find_predecessor_fuel fuel t = some (find_predecessor t) := by
  intro t
  induction t with
  | null => intro fuel _; cases fuel <;> rfl
  | leaf a k v => intro fuel _; cases fuel <;> rfl
  | inner a ch p s ih =>
    intro fuel h
    cases fuel with
    | zero => simp only [height] at h; omega
    | succ n =>
      simp only [find_predecessor_fuel, find_predecessor]
      rcases scan_down ch 16 with _ | nib
      · rfl
      · have hc := height_child a ch p s nib
        have hi := ih nib n (by omega)
        simp only
        rcases hch : ch nib with _ | ⟨a2, k2, v2⟩ | ⟨a2, ch2, p2, s2⟩
        · rfl
        · rfl
        · rw [hch] at hi
          exact hi

theorem find_successor_fuel_eq : ∀ (t : critnib_node) (fuel : Nat),
    height t ≤ fuel → find_successor_fuel fuel t = some (find_successor t) := by
  intro t
  induction t with
  | null => intro fuel _; cases fuel <;> rfl
  | leaf a k v => intro fuel _; cases fuel <;> rfl
  | inner a ch p s ih =>
    intro fuel h
    cases fuel with
    | zero => simp only [height] at h; omega
    | succ n =>
      simp only [find_successor_fuel, find_successor]
      rcases scan_up ch 16 with _ | nib
      · rfl
      · have hc := height_child a ch p s nib
        have hi := ih nib n (by omega)
        simp only
        rcases hch : ch nib with _ | ⟨a2, k2, v2⟩ | ⟨a2, ch2, p2, s2⟩
        · rfl
        · rfl
        · rw [hch] at hi
          exact hi

theorem find_le_fuel_eq (key : Nat) : ∀ (t : critnib_node) (fuel : Nat),
    height t ≤ fuel → find_le_fuel key fuel t = some (find_le key t) := by
  intro t
  induction t with
  | null => intro fuel _; cases fuel <;> rfl
  | leaf a k v => intro fuel _; cases fuel <;> rfl
  | inner a ch p s ih =>
    intro fuel h
    cases fuel with
    | zero => simp only [height] at h; omega
    | succ n =>
      have hc := height_child a ch p s (slice_index key s)
      have hi := ih (slice_index key s) n (by omega)
      simp only [find_le_fuel, find_le]
      by_cases hout : ((key ^^^ p) >>> s) &&& wnot NIB ≠ 0
      · rw [if_pos hout, if_pos hout]
        by_cases hlt : p < key
        · rw [if_pos hlt, if_pos hlt]
          exact find_predecessor_fuel_eq _ _ h
        · rw [if_neg hlt, if_neg hlt]
      · rw [if_neg hout, if_neg hout, hi]
        rcases find_le key (ch (slice_index key s)) with _ | ⟨a2, k2, v2⟩ | ⟨a2, ch2, p2, s2⟩
        · rcases scan_down ch (slice_index key s).val with _ | i
          · rfl
          · simp only
            have hci := height_child a ch p s i
            rcases hch : ch i with _ | ⟨a3, k3, v3⟩ | ⟨a3, ch3, p3, s3⟩
            · rfl
            · rfl
            · simp only
              rw [hch] at hci
              exact find_predecessor_fuel_eq _ _ (by omega)
        · rfl
        · rfl

theorem find_ge_fuel_eq (key : Nat) : ∀ (t : critnib_node) (fuel : Nat),
    height t ≤ fuel → find_ge_fuel key fuel t = some (find_ge key t) := by
  intro t
  induction t with
  | null => intro fuel _; cases fuel <;> rfl
  | leaf a k v => intro fuel _; cases fuel <;> rfl
  | inner a ch p s ih =>
    intro fuel h
    cases fuel with
    | zero => simp only [height] at h; omega
    | succ n =>
      have hc := height_child a ch p s (slice_index key s)
      have hi := ih (slice_index key s) n (by omega)
      simp only [find_ge_fuel, find_ge]
      by_cases hout : ((key ^^^ p) >>> s) &&& wnot NIB ≠ 0
      · rw [if_pos hout, if_pos hout]
        by_cases hlt : p > key
        · rw [if_pos hlt, if_pos hlt]
          exact find_successor_fuel_eq _ _ h
        · rw [if_neg hlt, if_neg hlt]
      · rw [if_neg hout, if_neg hout, hi]
        rcases find_ge key (ch (slice_index key s)) with _ | ⟨a2, k2, v2⟩ | ⟨a2, ch2, p2, s2⟩
        · rcases scan_up ch (15 - (slice_index key s).val) with _ | i
          · rfl
          · simp only
            have hci := height_child a ch p s i
            rcases hch : ch i with _ | ⟨a3, k3, v3⟩ | ⟨a3, ch3, p3, s3⟩
            · rfl
            · rfl
            · simp only
              rw [hch] at hci
              exact find_successor_fuel_eq _ _ (by omega)
        · rfl
        · rfl

theorem iter_fuel_eq {σ : Type} (min max : Nat) (func : σ → Nat → Nat → Int × σ) :
    ∀ (t : critnib_node) (fuel : Nat), height t ≤ fuel →
      ∀ pd, iter_fuel min max func fuel t pd = some (iter min max func t pd) := by
  intro t
  induction t with
  | null => intro fuel _ pd; cases fuel <;> rfl
  | leaf a k v => intro fuel _ pd; cases fuel <;> rfl
  | inner a ch p s ih =>
    intro fuel h pd
    cases fuel with
    | zero => simp only [height] at h; omega
    | succ n =>
      have hi : ∀ i pd', iter_fuel min max func n (ch i) pd' =
          some (iter min max func (ch i) pd') := fun i pd' =>
        ih i n (by have := height_child a ch p s i; omega) pd'
      simp only [iter_fuel, iter]
      by_cases h1 : p > max
      · rw [if_pos h1, if_pos h1]
      · rw [if_neg h1, if_neg h1]
        by_cases h2 : (p ||| path_mask s) < min
        · rw [if_pos h2, if_pos h2]
        · rw [if_neg h2, if_neg h2]
          simp only [hi]
          generalize ((0 : Int), pd) = acc
          generalize List.finRange 16 = l
          induction l generalizing acc with
          | nil => rfl
          | cons i l ihl =>
            simp only [List.foldl_cons]
            by_cases ha : acc.1 ≠ 0
            · rw [if_pos ha, if_pos ha]
              exact ihl acc
            · rw [if_neg ha, if_neg ha]
              by_cases hn : (ch i).isNull = true
              · rw [if_pos hn, if_pos hn]
                exact ihl acc
              · rw [if_neg hn, if_neg hn]
                by_cases hr : (iter min max func (ch i) acc.2).1 ≠ 0
                · rw [if_pos hr, if_pos hr]
                  exact ihl _
                · rw [if_neg hr, if_neg hr]
                  exact ihl _

/-- C34: in every reachable state an inner node that is a child of an inner node
reachable from the root has a shift smaller than its parent's by 4 at least; so
at most 16 inner nodes lie on any way from the root down, and the descent loops
of `critnib_get`, `critnib_insert` and `critnib_remove`, the loops of
`find_predecessor` and `find_successor` and the recursions of `find_le`,
`find_ge` and `iter`, run with a bound of 16 inner nodes, end within that bound
with the result of the unbounded function. -/
theorem C34_depth_bounded {c : critnib} (hr : Reachable c) :
    (∀ (a : Nat) (ch : Fin 16 → critnib_node) (p s : Nat) (i : Fin 16) (a' : Nat)
      (ch' : Fin 16 → critnib_node) (p' s' : Nat),
      InTree (.inner a ch p s) c.root → ch i = .inner a' ch' p' s' → s' < s ∧ s' + 4 ≤ s) ∧
    height c.root ≤ 16 ∧
    (∀ key : Nat,
      get_descend_fuel key 16 c.root = some (get_descend key c.root) ∧
      insert_descend_fuel key 16 c.root = some (insert_descend key c.root) ∧
      remove_descend_fuel key 16 c.root = some (remove_descend key c.root) ∧
      find_le_fuel key 16 c.root = some (find_le key c.root) ∧
      find_ge_fuel key 16 c.root = some (find_ge key c.root)) ∧
    find_predecessor_fuel 16 c.root = some (find_predecessor c.root) ∧
    find_successor_fuel 16 c.root = some (find_successor c.root) ∧
    ∀ (σ : Type) (func : σ → Nat → Nat → Int × σ) (min max : Nat) (pd : σ),
      iter_fuel min max func 16 c.root pd = some (iter min max func c.root pd) := by
  have hw := (reachable_wf hr).1
  have hh : height c.root ≤ 16 := by
    have := height_bound hw (fits_root hw)
    omega
  refine ⟨fun a ch p s i a' ch' p' s' hin hch => ?_, hh, fun key => ⟨?_, ?_, ?_, ?_, ?_⟩, ?_, ?_,
    fun σ func min max pd => ?_⟩
  · have := child_shift_lt (inTree_wf hw hin) hch
    omega
  · exact get_descend_fuel_eq key _ _ hh
  · exact insert_descend_fuel_eq key _ _ hh
  · exact remove_descend_fuel_eq key _ _ hh
  · exact find_le_fuel_eq key _ _ hh
  · exact find_ge_fuel_eq key _ _ hh
  · exact find_predecessor_fuel_eq _ _ hh
  · exact find_successor_fuel_eq _ _ hh
  · exact iter_fuel_eq min max func _ _ hh pd

theorem C34_depth_bounded_witness :
    (∀ (a : Nat) (ch : Fin 16 → critnib_node) (p s : Nat) (i : Fin 16) (a' : Nat)
      (ch' : Fin 16 → critnib_node) (p' s' : Nat),
      InTree (.inner a ch p s) nest_state.root → ch i = .inner a' ch' p' s' →
        s' < s ∧ s' + 4 ≤ s) ∧
    height nest_state.root ≤ 16 ∧
    (∀ key : Nat,
      get_descend_fuel key 16 nest_state.root = some (get_descend key nest_state.root) ∧
      insert_descend_fuel key 16 nest_state.root = some (insert_descend key nest_state.root) ∧
      remove_descend_fuel key 16 nest_state.root = some (remove_descend key nest_state.root) ∧
      find_le_fuel key 16 nest_state.root = some (find_le key nest_state.root) ∧
      find_ge_fuel key 16 nest_state.root = some (find_ge key nest_state.root)) ∧
    find_predecessor_fuel 16 nest_state.root = some (find_predecessor nest_state.root) ∧
    find_successor_fuel 16 nest_state.root = some (find_successor nest_state.root) ∧
    ∀ (σ : Type) (func : σ → Nat → Nat → Int × σ) (min max : Nat) (pd : σ),
      iter_fuel min max func 16 nest_state.root pd =
        some (iter min max func nest_state.root pd) :=
  C34_depth_bounded reachable_nest_state

/-- The example of the depth: `nest_state` (keys 1, 16, 17) has two inner nodes
on the way to 17; a bound of one inner node is not enough for `find_le(17)` and
for the walk of `iter`, a bound of two is. -/
theorem nest_state_depth :
    height nest_state.root = 2 ∧
    (find_le_fuel 17 1 nest_state.root).map leaves = none ∧
    (find_le_fuel 17 2 nest_state.root).map leaves = some [(17, 170)] ∧
    (iter_fuel 0 100 (logged func_zero) 1 nest_state.root ((), [])).map (fun r => r.2.2) =
      none ∧
    (iter_fuel 0 100 (logged func_zero) 2 nest_state.root ((), [])).map (fun r => r.2.2) =
      some [(1, 10), (16, 160), (17, 170)] :=
  ⟨by decide, by decide, by decide, by decide, by decide⟩

/-! ## The map against the reference map, and the single calls, below the last
sixteen values of the counter -/

/-- The counter after one writer call: raised by a `critnib_remove` on a
non-empty map, kept by every other call. -/
theorem step_remove_count {c c' : critnib} {op : Op} (h : step c op = some c')
    (hw : WF c.root) (hok : op.ok) :
    c'.remove_count =
      if op.raises c = true then utils_atomic_increment_u64 c.remove_count
      else c.remove_count := by
  cases op with
  | insert key value update ba =>
    simp only [step, Option.map_eq_some', Prod.exists, exists_eq_right] at h
    obtain ⟨r, h⟩ := h
    obtain ⟨_, _, e3, _⟩ := critnib_insert_owned hw hok h
    simp [Op.raises, e3]
  | remove key =>
    simp only [step, Option.map_eq_some', Prod.exists, exists_eq_right] at h
    obtain ⟨v, h⟩ := h
    by_cases hn : c.root = .null
    · rw [critnib_remove_null key hn] at h
      simp only [Option.some.injEq, Prod.mk.injEq] at h
      rw [← h.2]
      simp [Op.raises, hn, critnib_node.isNull]
    · have hr : Op.raises c (.remove key) = true := by
        simp only [Op.raises, Bool.not_eq_true', ← Bool.not_eq_true, isNull_iff]
        exact hn
      obtain ⟨e1, _⟩ := critnib_remove_effect hn h
      rw [hr]
      simpa using e1

/-- The counter after a run of calls is the number of calls that raised it, as
long as that number stays below `2^64`. -/
theorem run_remove_count : ∀ (ops : List Op) {c c' : critnib}, (∀ op ∈ ops, op.ok) →
    WF c.root → c.remove_count < WORD → run c ops = some c' →
    c.remove_count + raise_count c ops < WORD →
    c'.remove_count = c.remove_count + raise_count c ops := by
  intro ops
  induction ops with
  | nil =>
    intro c c' _ _ _ h _
    simp only [run, Option.some.injEq] at h
    rw [← h]; simp [raise_count]
  | cons op ops ih =>
    intro c c' hok hw hrc h hlt
    have hop := hok op (List.mem_cons_self _ _)
    rcases hs : step c op with _ | c1
    · simp [run, hs] at h
    · have h' : run c1 ops = some c' := by simpa [run, hs] using h
      obtain ⟨w1, r1⟩ := step_preserves hop hw hrc hs
      have e1 := step_remove_count hs hw hop
      simp only [raise_count, hs] at hlt ⊢
      by_cases hra : op.raises c = true
      · simp only [hra, if_true] at e1 hlt ⊢
        have e2 : c1.remove_count = c.remove_count + 1 := by
          rw [e1]
          simp only [utils_atomic_increment_u64]
          exact Nat.mod_eq_of_lt (by omega)
        have := ih (fun o ho => hok o (List.mem_cons_of_mem _ ho)) w1 r1 h' (by omega)
        omega
      · simp only [hra] at e1 hlt ⊢
        have e2 : c1.remove_count = c.remove_count := by simpa using e1
        have := ih (fun o ho => hok o (List.mem_cons_of_mem _ ho)) w1 r1 h' (by
          simp only [Bool.false_eq_true, if_false] at hlt; omega)
        simp only [Bool.false_eq_true, if_false]
        omega

/-- C1: for every sequence of `critnib_insert` and `critnib_remove` calls with
64-bit keys and no allocation failure, made on one thread on a fresh map, in
which fewer than `2^64 - DELETED_LIFE` calls raise the counter (removes on a
non-empty map), every call returns, and for every key `critnib_get` afterwards
returns, in its first round, what the reference map holds for the key after the
same calls, and null (0) when the reference map has no entry for it. -/
theorem C1_get_matches_reference {ops : List Op} (hok : ∀ op ∈ ops, op.ok ∧ op.alloc_ok)
    (hcnt : raise_count critnib_new ops + DELETED_LIFE < WORD) :
    ∃ c, run critnib_new ops = some c ∧ c.remove_count = raise_count critnib_new ops ∧
      ∀ k fuel, critnib_get c k (fuel + 1) = some ((ref_run ref_new ops k).getD 0) := by
  obtain ⟨c, hrun, hget⟩ := critnib_get_reference hok
  have hrc : c.remove_count = raise_count critnib_new ops := by
    have := run_remove_count ops (fun op h => (hok op h).1)
      (show WF critnib_new.root from by simp [critnib_new, WF])
      (show critnib_new.remove_count < WORD from by decide) hrun
      (by simp only [critnib_new, DELETED_LIFE] at hcnt ⊢; omega)
    simpa [critnib_new] using this
  have hnw : NoWrap c := by
    unfold NoWrap
    rw [hrc]; exact hcnt
  exact ⟨c, hrun, hrc, hget hnw⟩

theorem C1_get_matches_reference_witness :
    ∃ c, run critnib_new (demo_ops ++ [Op.remove 10]) = some c ∧
      c.remove_count = raise_count critnib_new (demo_ops ++ [Op.remove 10]) ∧
      ∀ k fuel, critnib_get c k (fuel + 1) =
        some ((ref_run ref_new (demo_ops ++ [Op.remove 10]) k).getD 0) :=
  C1_get_matches_reference
    (by
      intro op h
      simp [demo_ops] at h
      rcases h with h | h | h <;> rw [h] <;> simp [Op.ok, Op.alloc_ok, ba0, ba1])
    (by decide)

/-- The example of the reference map: after the inserts of (10, 65) and (20, 66)
and the remove of 10, one call has raised the counter, and `critnib_get` returns
null for 10 and 66 for 20, as the reference map has it. -/
theorem reference_example :
    raise_count critnib_new (demo_ops ++ [Op.remove 10]) = 1 ∧
    ref_run ref_new (demo_ops ++ [Op.remove 10]) 10 = none ∧
    ref_run ref_new (demo_ops ++ [Op.remove 10]) 20 = some 66 ∧
    (run critnib_new (demo_ops ++ [Op.remove 10])).bind (fun c => critnib_get c 10 1) =
      some 0 ∧
    (run critnib_new (demo_ops ++ [Op.remove 10])).bind (fun c => critnib_get c 20 1) =
      some 66 :=
  ⟨by decide, by decide, by decide, by decide, by decide⟩

/-- C2: in every reachable state that does not hold the 64-bit key and whose
counter is below its last sixteen values, `critnib_insert(key, value, update)`
with either value of the flag and no allocation failure returns 0; afterwards
`critnib_get` of the key returns the value, and `critnib_get` of every other key
returns what it returned before. -/
theorem C2_insert_absent {c : critnib} {key : Nat} (value update : Nat) (ba : base_alloc)
    (hr : Reachable c) (hnw : NoWrap c) (hk : key < 2 ^ 64) (habs : key ∉ keys c.root)
    (hl : ba.leaf ≠ none) (hn : ba.node ≠ none) :
    ∃ c', critnib_insert c key value update ba = some (0, c') ∧
      (∀ fuel, critnib_get c' key (fuel + 1) = some value) ∧
      ∀ k' fuel, k' ≠ key →
        critnib_get c' k' (fuel + 1) = critnib_get c k' (fuel + 1) ∧
        critnib_get c k' (fuel + 1) = some (get_res c.root k') := by
  obtain ⟨c', h, g1, g2⟩ := insert_absent_then_get value update ba hr hk habs hl hn
  exact ⟨c', h, g2 hnw, fun k' fuel hne => ⟨g1 k' (fuel + 1) hne, critnib_get_nowrap hnw k' fuel⟩⟩

theorem C2_insert_absent_witness :
    ∃ c', critnib_insert demo_state 5 7 0 ba1 = some (0, c') ∧
      (∀ fuel, critnib_get c' 5 (fuel + 1) = some 7) ∧
      ∀ k' fuel, k' ≠ 5 →
        critnib_get c' k' (fuel + 1) = critnib_get demo_state k' (fuel + 1) ∧
        critnib_get demo_state k' (fuel + 1) = some (get_res demo_state.root k') :=
  C2_insert_absent 7 0 ba1 reachable_demo_state (by unfold NoWrap; decide) (by norm_num)
    (by decide) (by simp [ba1]) (by simp [ba1])

/-- C3: in every reachable state that holds the pair (key, v) and whose counter
stays below its last sixteen values after one more remove, `critnib_remove(key)`
returns v; afterwards `critnib_get` of the key returns null, and `critnib_get`
of every other key returns what it returned before. -/
theorem C3_remove_present {c : critnib} {key v : Nat} (hr : Reachable c)
    (hm : (key, v) ∈ leaves c.root) (hnw : c.remove_count + 1 + DELETED_LIFE < WORD) :
    ∃ c', critnib_remove c key = some (v, c') ∧
      c'.remove_count = c.remove_count + 1 ∧
      (∀ fuel, critnib_get c' key (fuel + 1) = some 0) ∧
      ∀ k' fuel, k' ≠ key →
        critnib_get c' k' (fuel + 1) = critnib_get c k' (fuel + 1) ∧
        critnib_get c k' (fuel + 1) = some (get_res c.root k') := by
  obtain ⟨c', h, g1, g2⟩ := remove_present_then_get hr hm
  have hnn : c.root ≠ .null := by
    intro e
    rw [e] at hm
    simp [leaves] at hm
  obtain ⟨e1, _⟩ := critnib_remove_effect hnn h
  have hrc : c'.remove_count = c.remove_count + 1 := by
    rw [e1]
    simp only [utils_atomic_increment_u64]
    exact Nat.mod_eq_of_lt (by omega)
  have n0 : NoWrap c := by unfold NoWrap; omega
  have n1 : NoWrap c' := by unfold NoWrap; omega
  exact ⟨c', h, hrc, g1 n1, fun k' fuel hne =>
    ⟨g2 n0 n1 k' fuel hne, critnib_get_nowrap n0 k' fuel⟩⟩

theorem C3_remove_present_witness :
    ∃ c', critnib_remove demo_state 10 = some (65, c') ∧
      c'.remove_count = demo_state.remove_count + 1 ∧
      (∀ fuel, critnib_get c' 10 (fuel + 1) = some 0) ∧
      ∀ k' fuel, k' ≠ 10 →
        critnib_get c' k' (fuel + 1) = critnib_get demo_state k' (fuel + 1) ∧
        critnib_get demo_state k' (fuel + 1) = some (get_res demo_state.root k') :=
  C3_remove_present reachable_demo_state (by decide) (by decide)

/-- C5: in every reachable state that holds the 64-bit key and whose counter is
below its last sixteen values, `critnib_insert(key, value, update)` with a
non-zero flag, its scratch leaf being allocated, returns 0; afterwards
`critnib_get` of the key returns the new value, the tree has the nodes it had
(the same nodes at the same addresses with the same paths and shifts and the same
keys in the same slots), every other key has the value it had, and
`critnib_get` of every other key returns what it returned before. -/
theorem C5_insert_update {c : critnib} {key : Nat} (value : Nat) {update : Nat}
    (ba : base_alloc) (hr : Reachable c) (hnw : NoWrap c) (hk : key < 2 ^ 64)
    (hm : key ∈ keys c.root) (hu : update ≠ 0) (hl : (alloc_leaf c ba.leaf).1 ≠ none) :
    ∃ c', critnib_insert c key value update ba = some (0, c') ∧
      (∀ fuel, critnib_get c' key (fuel + 1) = some value) ∧
      skeleton c'.root = skeleton c.root ∧
      (∀ k' v', k' ≠ key → ((k', v') ∈ leaves c'.root ↔ (k', v') ∈ leaves c.root)) ∧
      ∀ k' fuel, k' ≠ key →
        critnib_get c' k' (fuel + 1) = critnib_get c k' (fuel + 1) ∧
        critnib_get c k' (fuel + 1) = some (get_res c.root k') := by
  obtain ⟨c', h, g0, g1, g2⟩ := insert_update_then_get value ba hr hk hm hu hl
  have hlv : ∀ k' v', k' ≠ key → ((k', v') ∈ leaves c'.root ↔ (k', v') ∈ leaves c.root) := by
    intro k' v' hne
    rcases critnib_insert_wf value update ba (reachable_wf hr).1 hk with
      ⟨_, e⟩ | ⟨_, ⟨_, hu0, _⟩ | ⟨_, _, c2, e, _, _, _, hiff⟩ | ⟨habs, _⟩ | ⟨habs, _⟩⟩
    · rw [e] at h; simp [ENOMEM] at h
    · exact absurd hu0 hu
    · rw [e] at h
      simp only [Option.some.injEq, Prod.mk.injEq, true_and] at h
      subst h
      rw [hiff k' v']
      constructor
      · rintro (⟨e1, _⟩ | ⟨_, e2⟩)
        · exact absurd e1 hne
        · exact e2
      · exact fun e2 => Or.inr ⟨hne, e2⟩
    · exact absurd hm habs
    · exact absurd hm habs
  exact ⟨c', h, g2 hnw, g0, hlv, fun k' fuel hne =>
    ⟨g1 k' (fuel + 1) hne, critnib_get_nowrap hnw k' fuel⟩⟩

theorem C5_insert_update_witness :
    ∃ c', critnib_insert demo_state 10 99 1 ba1 = some (0, c') ∧
      (∀ fuel, critnib_get c' 10 (fuel + 1) = some 99) ∧
      skeleton c'.root = skeleton demo_state.root ∧
      (∀ k' v', k' ≠ 10 →
        ((k', v') ∈ leaves c'.root ↔ (k', v') ∈ leaves demo_state.root)) ∧
      ∀ k' fuel, k' ≠ 10 →
        critnib_get c' k' (fuel + 1) = critnib_get demo_state k' (fuel + 1) ∧
        critnib_get demo_state k' (fuel + 1) = some (get_res demo_state.root k') :=
  C5_insert_update 99 ba1 reachable_demo_state (by unfold NoWrap; decide) (by norm_num)
    (by decide) (by decide) (by decide)

/-- C6: in every reachable state that does not hold the key, `critnib_remove`
returns null and leaves the root, and with it every node reachable from it, as
it was (on an empty map the whole structure), so that one round of the lookup
finds for every key what it found before; while the counter stays below its last
sixteen values, `critnib_get` of every key returns what it returned before. -/
theorem C6_remove_absent {c : critnib} {key : Nat} (hr : Reachable c)
    (habs : key ∉ keys c.root) :
    ∃ c', critnib_remove c key = some (0, c') ∧ c'.root = c.root ∧
      (c.root = .null → c' = c) ∧
      (∀ k, get_res c'.root k = get_res c.root k) ∧
      (NoWrap c → NoWrap c' → ∀ k fuel,
        critnib_get c' k (fuel + 1) = critnib_get c k (fuel + 1) ∧
        critnib_get c k (fuel + 1) = some (get_res c.root k)) := by
  obtain ⟨c', h, e1, e2, e3⟩ := remove_absent_keeps_tree hr habs
  refine ⟨c', h, e1, e2, e3, fun n0 n1 k fuel => ?_⟩
  rw [critnib_get_nowrap n1, critnib_get_nowrap n0, e3 k]
  exact ⟨rfl, rfl⟩

theorem C6_remove_absent_witness :
    ∃ c', critnib_remove demo_state 15 = some (0, c') ∧ c'.root = demo_state.root ∧
      (demo_state.root = .null → c' = demo_state) ∧
      (∀ k, get_res c'.root k = get_res demo_state.root k) ∧
      (NoWrap demo_state → NoWrap c' → ∀ k fuel,
        critnib_get c' k (fuel + 1) = critnib_get demo_state k (fuel + 1) ∧
        critnib_get demo_state k (fuel + 1) = some (get_res demo_state.root k)) :=
  C6_remove_absent reachable_demo_state (by decide)

/-- The example of a remove of an absent key: in `demo_state` the remove of 15
returns null, raises the counter to 1 and keeps the root; before and after it
`critnib_get` returns 65 for 10 and null for 15 in its first round. -/
theorem remove_absent_example :
    (critnib_remove demo_state 15).map
      (fun r => (r.1, r.2.remove_count, r.2.root.addr?, leaves r.2.root)) =
      some (0, 1, some 400, [(10, 65), (20, 66)]) ∧
    (critnib_remove demo_state 15).map
      (fun r => (critnib_get r.2 10 1, critnib_get r.2 15 1)) = some (some 65, some 0) ∧
    demo_state.root.addr? = some 400 ∧ critnib_get demo_state 10 1 = some 65 ∧
    critnib_get demo_state 15 1 = some 0 :=
  ⟨by decide, by decide, by decide, by decide, by decide⟩

/-- C9: `critnib_find(0, FIND_L)` and `critnib_find(UINTPTR_MAX, FIND_G)` return
0 on every map, before the key is decremented or incremented.  In every
reachable state whose counter is below its last sixteen values and for every
64-bit query key `q`, `critnib_find` with `FIND_L` returns, in its first round, 1
with the largest stored key below `q` and its value, and 0 when there is none;
with `FIND_G` it returns 1 with the smallest stored key above `q` and its value,
and 0 when there is none. -/
theorem C9_find_strict {c : critnib} {q : Nat} (hr : Reachable c) (hnw : NoWrap c)
    (hq : q < 2 ^ 64) (fuel : Nat) :
    (∀ (c0 : critnib) (fuel0 : Nat),
      critnib_find c0 0 .FIND_L fuel0 = some (0, none) ∧
      critnib_find c0 UINTPTR_MAX .FIND_G fuel0 = some (0, none)) ∧
    ((∃ k v, (k, v) ∈ leaves c.root ∧ k < q ∧
        (∀ k' v', (k', v') ∈ leaves c.root → k' < q → k' ≤ k) ∧
        critnib_find c q .FIND_L (fuel + 1) = some (1, some (k, v))) ∨
     ((∀ k v, (k, v) ∈ leaves c.root → q ≤ k) ∧
        critnib_find c q .FIND_L (fuel + 1) = some (0, none))) ∧
    ((∃ k v, (k, v) ∈ leaves c.root ∧ q < k ∧
        (∀ k' v', (k', v') ∈ leaves c.root → q < k' → k ≤ k') ∧
        critnib_find c q .FIND_G (fuel + 1) = some (1, some (k, v))) ∨
     ((∀ k v, (k, v) ∈ leaves c.root → k ≤ q) ∧
        critnib_find c q .FIND_G (fuel + 1) = some (0, none))) :=
  ⟨find_strict_at_bounds, (find_strict_below_wrap hr hnw hq fuel).1,
    (find_strict_below_wrap hr hnw hq fuel).2⟩

theorem C9_find_strict_witness :
    (∀ (c0 : critnib) (fuel0 : Nat),
      critnib_find c0 0 .FIND_L fuel0 = some (0, none) ∧
      critnib_find c0 UINTPTR_MAX .FIND_G fuel0 = some (0, none)) ∧
    ((∃ k v, (k, v) ∈ leaves demo_state.root ∧ k < 20 ∧
        (∀ k' v', (k', v') ∈ leaves demo_state.root → k' < 20 → k' ≤ k) ∧
        critnib_find demo_state 20 .FIND_L (0 + 1) = some (1, some (k, v))) ∨
     ((∀ k v, (k, v) ∈ leaves demo_state.root → 20 ≤ k) ∧
        critnib_find demo_state 20 .FIND_L (0 + 1) = some (0, none))) ∧
    ((∃ k v, (k, v) ∈ leaves demo_state.root ∧ 20 < k ∧
        (∀ k' v', (k', v') ∈ leaves demo_state.root → 20 < k' → k ≤ k') ∧
        critnib_find demo_state 20 .FIND_G (0 + 1) = some (1, some (k, v))) ∨
     ((∀ k v, (k, v) ∈ leaves demo_state.root → k ≤ 20) ∧
        critnib_find demo_state 20 .FIND_G (0 + 1) = some (0, none))) :=
  C9_find_strict reachable_demo_state (by unfold NoWrap; decide) (by norm_num) 0

/-- The examples of the ordered queries in `demo_state` (keys 10 and 20, values
65 and 66): the answers of `critnib_find` in the five directions for the query
key 20, and of `critnib_find_le`. -/
theorem find_examples :
    critnib_find demo_state 20 .FIND_L 1 = some (1, some (10, 65)) ∧
    critnib_find demo_state 20 .FIND_LE 1 = some (1, some (20, 66)) ∧
    critnib_find demo_state 20 .FIND_EQ 1 = some (1, some (20, 66)) ∧
    critnib_find demo_state 20 .FIND_GE 1 = some (1, some (20, 66)) ∧
    critnib_find demo_state 20 .FIND_G 1 = some (0, none) ∧
    critnib_find demo_state 15 .FIND_EQ 1 = some (0, none) ∧
    critnib_find demo_state 15 .FIND_GE 1 = some (1, some (20, 66)) ∧
    critnib_find_le demo_state 15 1 = some 65 ∧ critnib_find_le demo_state 5 1 = some 0 :=
  ⟨by decide, by decide, by decide, by decide, by decide, by decide, by decide, by decide,
    by decide⟩

end Umf
